import Mathlib

/-!
# pdftextlib: page text analysis core (search and selection queries)

Shallow embedding of the query side of `src/poppler/TextOutputDev.cc`
(`TextPage::searchText`, `findNearest`, `calIdx`, `startSelection`,
`moveSelEndTo`, `getSelectedRegion`, `getSelectedText`) together with the
envelope and index passes of `coalesce` they rely on, and the control flow
of `TextPage::coalesce` from the word pools to those passes.

Modelling conventions
* `double` values are exact rationals (`ℚ`); `DBL_MAX` is `none` in an
  `Option ℚ`.
* The pointer graph word ↔ line ↔ block is a nested list
  (`TextPage.blocks`, `TextBlock.lines`, `TextLine.words`); a `TextWord *`
  is a `WordRef` (block, line, word position), `NULL` is `none`.
  `next`/`prev` are the neighbouring positions of the same list.
* `len` of a word is the length of its `text`; `norm`/`normLen` is the
  NFKC image of `text` (the cache is never invalidated, so it is a
  function of `text`).
* `unicodeNormalizeNFKC` and `unicodeToUpper` come from
  `UnicodeTypeTable`, which is outside the sources at hand: they are
  parameters (`UnicodeOps`).
* A dereference of a null pointer is the result `Fault.nullDeref`.
-/

namespace PdfTextLib

/-! ## Data model -/

/-- Unicode code point (`typedef unsigned int Unicode`). -/
abbrev Unicode := Nat

/-- The two services of `UnicodeTypeTable` used by the queries. -/
structure UnicodeOps where
  normalizeNFKC : List Unicode → List Unicode
  toUpper : Unicode → Unicode

/-- Class `PDFRectangle(x1, y1, x2, y2)` of `Page.h`. -/
structure PDFRectangle where
  x1 : ℚ
  y1 : ℚ
  x2 : ℚ
  y2 : ℚ
deriving DecidableEq

/-- The four bounds `xMin, xMax, yMin, yMax` carried by words, lines and
blocks (once as the tight box, once as `*Pre`, once as `*Post`). -/
structure Box where
  xMin : ℚ
  xMax : ℚ
  yMin : ℚ
  yMax : ℚ
deriving DecidableEq

/-- Class `TextWord`, the fields read by the queries and, from `base` on,
those only the builder reads. `box` is `xMin..yMax`, `pre` is
`xMinPre..yMaxPre`, `post` is `xMinPost..yMaxPost`; `font` is the identity
of the `TextFontInfo` object (the pointer). -/
structure TextWord where
  text : List Unicode
  edge : List ℚ
  box : Box
  pre : Box
  post : Box
  index : Int
  rot : Nat
  spaceAfter : Bool
  base : ℚ := 0
  fontSize : ℚ := 0
  font : Nat := 0
  charPos : Int := 0
  charLen : Int := 0
deriving DecidableEq

/-- Field `len`: the number of code points of the word. -/
def TextWord.len (w : TextWord) : Nat := w.text.length

/-- Class `TextLine`: the `words` list with its box and envelopes, and the
`base` the builder sorts lines by. -/
structure TextLine where
  words : List TextWord
  box : Box
  pre : Box
  post : Box
  rot : Nat
  base : ℚ := 0
deriving DecidableEq

/-- Class `TextBlock`: the `lines` list with its box and envelopes, and,
from `rot` on, the fields only `coalesce` reads: `ex` is the extended box
`ExMin, ExMax, EyMin, EyMax`. -/
structure TextBlock where
  lines : List TextLine
  box : Box
  pre : Box
  post : Box
  rot : Nat := 0
  tableId : Int := -1
  tableEnd : Bool := false
  ex : Box := ⟨0, 0, 0, 0⟩
deriving DecidableEq

/-- A `TextWord *`: position of the block in the page, of the line in the
block, of the word in the line. -/
structure WordRef where
  blk : Nat
  line : Nat
  word : Nat
deriving DecidableEq

/-- Class `TextPage`, query side: the block list, the page size and the
selection state. -/
structure TextPage where
  blocks : List TextBlock
  pageWidth : ℚ
  pageHeight : ℚ
  selStart : Option WordRef
  selEnd : Option WordRef
  selIdx1 : Int
  selIdx2 : Int
  selIdxSave : Int
deriving DecidableEq

/-- What a query can hit instead of a result. -/
inductive Fault where
  | nullDeref
  | outOfBounds
  | outOfFuel
deriving DecidableEq

deriving instance DecidableEq for Except

/-- The block a reference points into. -/
def TextPage.blockAt (p : TextPage) (b : Nat) : Option TextBlock := p.blocks[b]?

/-- The line a reference points into. -/
def TextPage.lineAt (p : TextPage) (b l : Nat) : Option TextLine :=
  match p.blocks[b]? with
  | none => none
  | some blk => blk.lines[l]?

/-- Dereference of a word pointer. -/
def TextPage.wordAt (p : TextPage) (r : WordRef) : Option TextWord :=
  match p.lineAt r.blk r.line with
  | none => none
  | some ln => ln.words[r.word]?

/-- Pointer comparison `a->line == b->line`. -/
def sameLine (a b : WordRef) : Bool := a.blk == b.blk && a.line == b.line

/-- Number of words of the page (bound for the walks in reading order). -/
def TextPage.numWords (p : TextPage) : Nat :=
  (p.blocks.map (fun b => (b.lines.map (fun l => l.words.length)).sum)).sum

/-- Method `TextWord::nextWord`: `next`, else the first word of `line->next`, else
the first word of the first line of `line->blk->next`, else `NULL`. -/
def nextWord (p : TextPage) (r : WordRef) : Option WordRef :=
  if (p.wordAt ⟨r.blk, r.line, r.word + 1⟩).isSome then
    some ⟨r.blk, r.line, r.word + 1⟩
  else if (p.lineAt r.blk (r.line + 1)).isSome then
    if (p.wordAt ⟨r.blk, r.line + 1, 0⟩).isSome then some ⟨r.blk, r.line + 1, 0⟩ else none
  else if (p.blockAt (r.blk + 1)).isSome then
    if (p.wordAt ⟨r.blk + 1, 0, 0⟩).isSome then some ⟨r.blk + 1, 0, 0⟩ else none
  else none

/-- The expression `blocks->lines->words` (for `blocks != NULL`). -/
def firstWord (p : TextPage) : Option WordRef :=
  if (p.wordAt ⟨0, 0, 0⟩).isSome then some ⟨0, 0, 0⟩ else none

/-! ## Search (`TextOutputDev.cc`, section "Search Text") -/

/-- The test of the comparison loops: `(caseSen && n != s) ||
(!caseSen && unicodeToUpper(n) != s)`. -/
def differs (ops : UnicodeOps) (caseSen : Bool) (n s : Unicode) : Bool :=
  (caseSen && n != s) || (!caseSen && ops.toUpper n != s)

/-- Method `TextWord::startWith`. -/
def startWith (ops : UnicodeOps) (w : TextWord) (str : List Unicode) (caseSen : Bool) : Bool :=
  let norm := ops.normalizeNFKC w.text
  if norm.length < str.length then false
  else (List.range str.length).all
    (fun i => !(differs ops caseSen (norm.getD i 0) (str.getD i 0)))

/-- Method `TextWord::endWith`. -/
def endWith (ops : UnicodeOps) (w : TextWord) (str : List Unicode) (caseSen : Bool) : Bool :=
  let norm := ops.normalizeNFKC w.text
  if norm.length < str.length then false
  else (List.range str.length).all
    (fun i => !(differs ops caseSen (norm.getD (norm.length - i - 1) 0)
      (str.getD (str.length - i - 1) 0)))

/-- Method `TextWord::strEq`. -/
def strEq (ops : UnicodeOps) (w : TextWord) (str : List Unicode) (caseSen : Bool) : Bool :=
  let norm := ops.normalizeNFKC w.text
  if norm.length ≠ str.length then false
  else (List.range str.length).all
    (fun i => !(differs ops caseSen (norm.getD i 0) (str.getD i 0)))

/-- Method `TextWord::contain`: some `i` with `i + length <= normLen` at which the
inner loop reaches `j == length`. -/
def contain (ops : UnicodeOps) (w : TextWord) (str : List Unicode) (caseSen : Bool) : Bool :=
  let norm := ops.normalizeNFKC w.text
  (List.range (norm.length + 1 - str.length)).any
    (fun i => (List.range str.length).all
      (fun j => !(differs ops caseSen (norm.getD (i + j) 0) (str.getD j 0))))

/-- C `isspace` in the "C" locale: space, `\t`, `\n`, `\v`, `\f`, `\r`. -/
def isspace (c : Unicode) : Bool := c == 32 || (9 ≤ c && c ≤ 13)

/-- The counting loop of `searchText` (lines 2297-2305): `nWords`. -/
def countWords : List Unicode → Bool → Nat
  | [], _ => 0
  | c :: cs, inWord =>
    if isspace c then countWords cs false
    else if !inWord then countWords cs true + 1
    else countWords cs true

/-- The splitting loop of `searchText` (lines 2314-2327); `startPos` and
`lens` grow at the back, `k` is the last position of `startPos`. -/
def splitLoop (strNorm : List Unicode) : Nat → Nat → Bool → List Nat → List Nat →
    Bool × List Nat × List Nat
  | 0, _, inWord, startPos, lens => (inWord, startPos, lens)
  | n + 1, i, inWord, startPos, lens =>
    if isspace (strNorm.getD i 0) then
      if inWord then splitLoop strNorm n (i + 1) false startPos (lens ++ [i - startPos.getLastD 0])
      else splitLoop strNorm n (i + 1) false startPos lens
    else if !inWord then splitLoop strNorm n (i + 1) true (startPos ++ [i]) lens
    else splitLoop strNorm n (i + 1) inWord startPos lens

/-- The query words `strNorm + startPos[k]` of length `lens[k]`
(lines 2314-2328, with the closing `if (inWord) lens[k] = i - startPos[k]`). -/
def queryWords (strNorm : List Unicode) : List (List Unicode) :=
  let r := splitLoop strNorm strNorm.length 0 false [] []
  let startPos := r.2.1
  let lens := if r.1 then r.2.2 ++ [strNorm.length - startPos.getLastD 0] else r.2.2
  (List.range startPos.length).map
    (fun k => (strNorm.drop (startPos.getD k 0)).take (lens.getD k 0))

/-- Rectangle `new PDFRectangle(word->xMin, word->yMin, word->xMax, word->yMax)`. -/
def wordRect (w : TextWord) : PDFRectangle := ⟨w.box.xMin, w.box.yMin, w.box.xMax, w.box.yMax⟩

/-- The four updates of `lastRect` for a word on the same line
(lines 2349-2352 and 2361-2364). -/
def mergeRect (r : PDFRectangle) (w : TextWord) : PDFRectangle :=
  let r1 := if r.x1 > w.box.xMin then { r with x1 := w.box.xMin } else r
  let r2 := if r1.x2 < w.box.xMax then { r1 with x2 := w.box.xMax } else r1
  let r3 := if r2.y1 > w.box.xMin then { r2 with y1 := w.box.yMin } else r2
  if r3.y2 < w.box.yMax then { r3 with y2 := w.box.yMax } else r3

/-- The one-word branch (lines 2306-2310): walk in `nextWord` order, test
`contain` against the caller's `str`, append
`PDFRectangle(xMin, yMin, xMax, xMax)`. -/
def searchSingle (ops : UnicodeOps) (p : TextPage) (str : List Unicode) (caseSen : Bool) :
    Nat → Option WordRef → List PDFRectangle → Except Fault (List PDFRectangle)
  | 0, _, _ => .error .outOfFuel
  | _ + 1, none, result => .ok result
  | f + 1, some r, result =>
    match p.wordAt r with
    | none => .error .nullDeref
    | some w =>
      if contain ops w str caseSen then
        searchSingle ops p str caseSen f (nextWord p r)
          (result ++ [⟨w.box.xMin, w.box.yMin, w.box.xMax, w.box.xMax⟩])
      else searchSingle ops p str caseSen f (nextWord p r) result

/-- The `strEq` loop (lines 2334-2336): `todo` is `nWords - 1 - i`, so the
test `i < nWords - 1` is `todo > 0`. Returns `i` and `word` at exit. -/
def strEqLoop (ops : UnicodeOps) (p : TextPage) (q : List (List Unicode)) (caseSen : Bool) :
    Nat → Nat → Option WordRef → Except Fault (Nat × Option WordRef)
  | 0, i, word => .ok (i, word)
  | _ + 1, i, none => .ok (i, none)
  | todo + 1, i, some r =>
    match p.wordAt r with
    | none => .error .nullDeref
    | some w =>
      if !(strEq ops w (q.getD i []) caseSen) then .ok (i, some r)
      else strEqLoop ops p q caseSen todo (i + 1) (nextWord p r)

/-- The rectangle loop (lines 2347-2359): `cur` is `word0`, `done` are the
rectangles appended before `lastRect`. -/
def rectLoop (p : TextPage) (word : WordRef) :
    Nat → Option WordRef → WordRef → List PDFRectangle → PDFRectangle →
    Except Fault (WordRef × List PDFRectangle × PDFRectangle)
  | 0, _, _, _, _ => .error .outOfFuel
  | f + 1, cur, lastWord, done, lastRect =>
    if cur = some word then .ok (lastWord, done, lastRect)
    else
      match cur with
      | none => .error .nullDeref
      | some c =>
        match p.wordAt c with
        | none => .error .nullDeref
        | some cw =>
          if sameLine lastWord c then
            rectLoop p word f (nextWord p c) c done (mergeRect lastRect cw)
          else
            rectLoop p word f (nextWord p c) c (done ++ [lastRect]) (wordRect cw)

/-- The loop over `word0` of the multi-word branch (lines 2329-2368). After
a match the loop variable `word0` has been advanced to `word`, so the next
candidate is `word->nextWord()`. `word->startWith` on `word == NULL` is the
fault `nullDeref`. -/
def searchMulti (ops : UnicodeOps) (p : TextPage) (q : List (List Unicode)) (nWords : Nat)
    (caseSen : Bool) :
    Nat → Option WordRef → List PDFRectangle → Except Fault (List PDFRectangle)
  | 0, _, _ => .error .outOfFuel
  | _ + 1, none, result => .ok result
  | f + 1, some r0, result =>
    match p.wordAt r0 with
    | none => .error .nullDeref
    | some w0 =>
      if !(endWith ops w0 (q.getD 0 []) caseSen) then
        searchMulti ops p q nWords caseSen f (nextWord p r0) result
      else
        match strEqLoop ops p q caseSen (nWords - 2) 1 (nextWord p r0) with
        | .error e => .error e
        | .ok (i, word) =>
          if i < nWords - 1 then
            if word.isSome then searchMulti ops p q nWords caseSen f (nextWord p r0) result
            else .ok result
          else
            match word with
            | none => .error .nullDeref
            | some rk =>
              match p.wordAt rk with
              | none => .error .nullDeref
              | some wk =>
                if !(startWith ops wk (q.getD i []) caseSen) then
                  searchMulti ops p q nWords caseSen f (nextWord p r0) result
                else
                  match rectLoop p rk nWords (nextWord p r0) r0 result (wordRect w0) with
                  | .error e => .error e
                  | .ok (lastWord, done, lastRect) =>
                    if sameLine lastWord rk then
                      searchMulti ops p q nWords caseSen f (nextWord p rk)
                        (done ++ [mergeRect lastRect wk])
                    else
                      searchMulti ops p q nWords caseSen f (nextWord p rk)
                        (done ++ [lastRect, wordRect wk])

/-- The rescaling loop (lines 2373-2379). -/
def scaleRect (p : TextPage) (r : PDFRectangle) : PDFRectangle :=
  ⟨r.x1 / p.pageWidth, r.y1 / p.pageHeight, r.x2 / p.pageWidth, r.y2 / p.pageHeight⟩

/-- Method `TextPage::searchText(str, length, caseSen)`. -/
def searchText (ops : UnicodeOps) (p : TextPage) (str : List Unicode) (caseSen : Bool) :
    Except Fault (List PDFRectangle) :=
  if p.blocks.isEmpty then .ok []
  else
    let strNorm0 := ops.normalizeNFKC str
    let nWords := countWords strNorm0 false
    let strNorm := if caseSen then strNorm0 else strNorm0.map ops.toUpper
    let found :=
      if nWords = 1 then searchSingle ops p str caseSen (p.numWords + 1) (firstWord p) []
      else if nWords > 1 then
        searchMulti ops p (queryWords strNorm) nWords caseSen (p.numWords + 1) (firstWord p) []
      else .ok []
    match found with
    | .error e => .error e
    | .ok result => .ok (result.map (scaleRect p))

/-! ## Selection (`TextOutputDev.cc`, section "Text Selection") -/

/-- Macro `dist(obj, px, py)`; `distPre` and `distPost` are the same
expression on the `*Pre` and `*Post` bounds (`b.pre.dist`, `b.post.dist`). -/
def Box.dist (b : Box) (px py : ℚ) : ℚ :=
  max (b.xMin - px) 0 + max (px - b.xMax) 0 + max (b.yMin - py) 0 + max (py - b.yMax) 0

/-- Test `d < mindist` where `mindist` may still be `DBL_MAX` (`none`). -/
def ltMin (d : ℚ) : Option ℚ → Bool
  | none => true
  | some m => decide (d < m)

/-- Test `mindist > 0` where `mindist` may still be `DBL_MAX` (`none`). -/
def posMin : Option ℚ → Bool
  | none => true
  | some m => decide (0 < m)

/-- One of the three zoom loops of `findNearest` (lines 2403-2409,
2412-2418, 2420-2426) over the boxes of the list walked: `i` is the
position of the head, the result is `mindist` and the best position. -/
def zoomLoop (px py : ℚ) : List Box → Nat → Option ℚ → Option Nat → Option ℚ × Option Nat
  | [], _, mindist, best => (mindist, best)
  | b :: bs, i, mindist, best =>
    if posMin mindist then
      if ltMin (b.dist px py) mindist then zoomLoop px py bs (i + 1) (some (b.dist px py)) (some i)
      else zoomLoop px py bs (i + 1) mindist best
    else (mindist, best)

/-- The branch `start == NULL` of `findNearest` (lines 2400-2427): nearest
block, nearest line in it, nearest word in it; returns `start` and
`mindist`. An unset `bestblk`/`bestline`/`start` is a fault. -/
def zoom (p : TextPage) (px py : ℚ) : Except Fault (WordRef × ℚ) :=
  match (zoomLoop px py (p.blocks.map (fun b => b.box)) 0 none none).2 with
  | none => .error .nullDeref
  | some b =>
    match p.blockAt b with
    | none => .error .nullDeref
    | some blk =>
      match (zoomLoop px py (blk.lines.map (fun l => l.box)) 0 none none).2 with
      | none => .error .nullDeref
      | some l =>
        match blk.lines[l]? with
        | none => .error .nullDeref
        | some ln =>
          match zoomLoop px py (ln.words.map (fun w => w.box)) 0 none none with
          | (some m, some w) => .ok (⟨b, l, w⟩, m)
          | _ => .error .nullDeref

/-- The pruning test `obj == NULL || mindist < distPre/distPost(obj)` on
the envelope of `obj`. -/
def pruned (mindist px py : ℚ) : Option Box → Bool
  | none => true
  | some e => decide (mindist < e.dist px py)

/-- Deref of `line->prev` for line `l` of block `b`. -/
def TextPage.linePrev (p : TextPage) (b : Nat) : Nat → Option TextLine
  | 0 => none
  | l + 1 => p.lineAt b l

/-- Bound on the number of iterations of a walk over the page: every
iteration moves the cursor to a later word, line or block. -/
def TextPage.walkFuel (p : TextPage) : Nat :=
  (p.blocks.map (fun b => (b.lines.map (fun l => l.words.length + 1)).sum + 1)).sum + 1

/-- The forward loop of `findNearest` (lines 2434-2452). The cursor is
`blk` = block `b`, `line` = line `l` of it, `word` = word `w` of it
(`NULL` when `w` is past the last word). Returns `mindist` and `bestword`. -/
def fwdWalk (p : TextPage) (px py : ℚ) :
    Nat → Nat → Nat → Nat → ℚ → WordRef → Except Fault (ℚ × WordRef)
  | 0, _, _, _, _, _ => .error .outOfFuel
  | f + 1, b, l, w, mindist, bestword =>
    if pruned mindist px py ((p.wordAt ⟨b, l, w⟩).map (fun wd => wd.post)) then
      if pruned mindist px py ((p.lineAt b (l + 1)).map (fun ln => ln.post)) then
        match p.blockAt (b + 1) with
        | none => .ok (mindist, bestword)
        | some blk =>
          if mindist < blk.post.dist px py then .ok (mindist, bestword)
          else if blk.lines.isEmpty then .error .nullDeref
          else fwdWalk p px py f (b + 1) 0 0 mindist bestword
      else fwdWalk p px py f b (l + 1) 0 mindist bestword
    else
      match p.wordAt ⟨b, l, w⟩ with
      | none => .error .nullDeref
      | some wd =>
        if wd.box.dist px py < mindist then
          if wd.box.dist px py = 0 then .ok (wd.box.dist px py, ⟨b, l, w⟩)
          else fwdWalk p px py f b l (w + 1) (wd.box.dist px py) ⟨b, l, w⟩
        else fwdWalk p px py f b l (w + 1) mindist bestword

/-- Field `lastWord` of line `l` of block `b`, as a word position. -/
def TextPage.lastWordOf (p : TextPage) (b l : Nat) : Option Nat :=
  match p.lineAt b l with
  | none => none
  | some ln => if ln.words.isEmpty then none else some (ln.words.length - 1)

/-- Deref of the cursor `word` of the backward walk on line `l` of block
`b` (`none` for `NULL`). -/
def TextPage.wordAtCur (p : TextPage) (b l : Nat) : Option Nat → Option TextWord
  | none => none
  | some w => p.wordAt ⟨b, l, w⟩

/-- Field `prev` of a word position. -/
def prevPos : Option Nat → Option Nat
  | some (n + 1) => some n
  | _ => none

/-- The backward loop of `findNearest` (lines 2457-2475); `word` is
`some w` or `NULL`. -/
def bwdWalk (p : TextPage) (px py : ℚ) :
    Nat → Nat → Nat → Option Nat → ℚ → WordRef → Except Fault (ℚ × WordRef)
  | 0, _, _, _, _, _ => .error .outOfFuel
  | f + 1, b, l, word, mindist, bestword =>
    if pruned mindist px py ((p.wordAtCur b l word).map (fun wd => wd.pre)) then
      if pruned mindist px py ((p.linePrev b l).map (fun ln => ln.pre)) then
        match b with
        | 0 => .ok (mindist, bestword)
        | b1 + 1 =>
          match p.blockAt b1 with
          | none => .ok (mindist, bestword)
          | some blk =>
            if mindist < blk.pre.dist px py then .ok (mindist, bestword)
            else if blk.lines.isEmpty then .error .nullDeref
            else
              bwdWalk p px py f b1 (blk.lines.length - 1)
                (p.lastWordOf b1 (blk.lines.length - 1)) mindist bestword
      else bwdWalk p px py f b (l - 1) (p.lastWordOf b (l - 1)) mindist bestword
    else
      match word, p.wordAtCur b l word with
      | some w, some wd =>
        if wd.box.dist px py < mindist then
          if wd.box.dist px py = 0 then .ok (wd.box.dist px py, ⟨b, l, w⟩)
          else bwdWalk p px py f b l (prevPos word) (wd.box.dist px py) ⟨b, l, w⟩
        else bwdWalk p px py f b l (prevPos word) mindist bestword
      | _, _ => .error .nullDeref

/-- Method `TextPage::findNearest(x, y, start)`: `NULL` on a page without blocks;
otherwise the zoom (or `dist(start)`), the forward walk from `start->next`
and the backward walk from `start->prev`. -/
def findNearest (p : TextPage) (px py : ℚ) (start : Option WordRef) :
    Except Fault (Option WordRef) :=
  if p.blocks.isEmpty then .ok none
  else
    let init : Except Fault (WordRef × ℚ) :=
      match start with
      | none => zoom p px py
      | some s =>
        match p.wordAt s with
        | none => .error .nullDeref
        | some w => .ok (s, w.box.dist px py)
    match init with
    | .error e => .error e
    | .ok (s, mindist) =>
      match fwdWalk p px py p.walkFuel s.blk s.line (s.word + 1) mindist s with
      | .error e => .error e
      | .ok (m1, best1) =>
        match bwdWalk p px py p.walkFuel s.blk s.line (prevPos (some s.word)) m1 best1 with
        | .error e => .error e
        | .ok (_, best2) => .ok (some best2)

/-- Second refinement loop of `calIdx` for rotations 0 and 1
(`while (rtn >= 0 && edge[rtn] > pos) --rtn;`), from `rtn = n`. -/
def calDownAsc (edge : List ℚ) (pos : ℚ) : Nat → Int
  | 0 => if edge.getD 0 0 > pos then -1 else 0
  | n + 1 => if edge.getD (n + 1) 0 > pos then calDownAsc edge pos n else (n + 1 : Nat)

/-- Second refinement loop of `calIdx` for rotations 2 and 3
(`while (rtn >= 0 && edge[rtn] < pos) --rtn;`), from `rtn = n`. -/
def calDownDesc (edge : List ℚ) (pos : ℚ) : Nat → Int
  | 0 => if edge.getD 0 0 < pos then -1 else 0
  | n + 1 => if edge.getD (n + 1) 0 < pos then calDownDesc edge pos n else (n + 1 : Nat)

/-- First refinement loop of `calIdx` for rotations 0 and 1
(`while (rtn < len && edge[rtn + 1] < pos) ++rtn;`); `todo` is
`len - rtn`, so `rtn < len` is `todo > 0`. -/
def calUpAsc (edge : List ℚ) (pos : ℚ) : Nat → Nat → Nat
  | 0, rtn => rtn
  | todo + 1, rtn => if edge.getD (rtn + 1) 0 < pos then calUpAsc edge pos todo (rtn + 1) else rtn

/-- First refinement loop of `calIdx` for rotations 2 and 3
(`while (rtn < len && edge[rtn + 1] > pos) ++rtn;`). -/
def calUpDesc (edge : List ℚ) (pos : ℚ) : Nat → Nat → Nat
  | 0, rtn => rtn
  | todo + 1, rtn => if edge.getD (rtn + 1) 0 > pos then calUpDesc edge pos todo (rtn + 1) else rtn

/-- The `switch` of `calIdx` (lines 2481-2500): `pos` and `offset`, or
nothing for a rotation outside 0..3. The quotient is the exact one (the
value for a zero extent is Lean's `x / 0 = 0`). -/
def calOffset (px py : ℚ) (w : TextWord) : Option (ℚ × ℚ) :=
  match w.rot with
  | 0 => some (px, (px - w.box.xMin) / (w.box.xMax - w.box.xMin))
  | 1 => some (py, (py - w.box.yMin) / (w.box.yMax - w.box.yMin))
  | 2 => some (px, (w.box.xMax - px) / (w.box.xMax - w.box.xMin))
  | 3 => some (py, (w.box.yMax - py) / (w.box.yMax - w.box.yMin))
  | _ => none

/-- Field `next` of a word: the following word of the same line. -/
def TextPage.next (p : TextPage) (r : WordRef) : Option WordRef :=
  if (p.wordAt ⟨r.blk, r.line, r.word + 1⟩).isSome then some ⟨r.blk, r.line, r.word + 1⟩
  else none

/-- Field `prev` of a word: the preceding word of the same line. -/
def TextPage.prev (_p : TextPage) (r : WordRef) : Option WordRef :=
  match r.word with
  | 0 => none
  | n + 1 => some ⟨r.blk, r.line, n⟩

/-- Method `TextPage::calIdx(x, y, word)`: the index returned and the value of the
reference parameter `word` on return. -/
def calIdx (p : TextPage) (px py : ℚ) (r : WordRef) : Except Fault (Int × WordRef) :=
  match p.wordAt r with
  | none => .error .nullDeref
  | some w =>
    match calOffset px py w with
    | none => .ok (0, r)
    | some (pos, offset) =>
      let rtn0 : Int := Int.floor (offset * (w.len : ℚ))
      let rtn : Int :=
        if 0 ≤ rtn0 ∧ rtn0 < w.len then
          if w.rot = 0 ∨ w.rot = 1 then
            calDownAsc w.edge pos (calUpAsc w.edge pos (w.len - rtn0.toNat) rtn0.toNat)
          else
            calDownDesc w.edge pos (calUpDesc w.edge pos (w.len - rtn0.toNat) rtn0.toNat)
        else rtn0
      if rtn < 0 then
        match p.prev r with
        | none => .ok (0, r)
        | some r1 =>
          match p.wordAt r1 with
          | none => .error .nullDeref
          | some w1 => if w1.spaceAfter then .ok (w1.len, r1) else .ok (0, r)
      else if rtn ≥ w.len then
        if w.spaceAfter then .ok (w.len, r) else .ok ((w.len : Int) - 1, r)
      else .ok (rtn, r)

/-- Method `TextPage::startSelection(x, y)`. When `findNearest` returns `NULL`
(line 2398, `blocks == NULL`), `calIdx(x, y, selStart)` reads `word->rot`
of that null pointer at line 2481. -/
def startSelection (p : TextPage) (x y : ℚ) : Except Fault TextPage :=
  match findNearest p (x * p.pageWidth) (y * p.pageHeight) none with
  | .error e => .error e
  | .ok none => .error .nullDeref
  | .ok (some s) =>
    match calIdx p (x * p.pageWidth) (y * p.pageHeight) s with
    | .error e => .error e
    | .ok (idx, s1) =>
      .ok { p with selStart := some s1, selIdx1 := idx, selEnd := some s1, selIdx2 := idx,
                   selIdxSave := idx }

/-- Method `TextPage::moveSelEndTo(x, y)`: the page after the call and the value
returned. -/
def moveSelEndTo (p : TextPage) (x y : ℚ) : Except Fault (TextPage × Bool) :=
  match p.selStart with
  | none => .ok (p, false)
  | some selStart =>
    match p.selEnd with
    | none => .error .nullDeref
    | some oldEnd =>
      match p.wordAt oldEnd, p.wordAt selStart with
      | some oldEndW, some startW =>
        let oldIdx : Int := p.selIdx2 + oldEndW.index
        match findNearest p (x * p.pageWidth) (y * p.pageHeight) (some oldEnd) with
        | .error e => .error e
        | .ok none => .error .nullDeref
        | .ok (some e0) =>
          match calIdx p (x * p.pageWidth) (y * p.pageHeight) e0 with
          | .error e => .error e
          | .ok (idx2, selEnd) =>
            match p.wordAt selEnd with
            | none => .error .nullDeref
            | some endW =>
              let q : TextPage :=
                if selStart = selEnd ∨
                    (p.next selStart = some selEnd ∧ p.selIdxSave = startW.len) ∨
                    (p.next selEnd = some selStart ∧ idx2 = endW.len) then
                  { p with selEnd := some selEnd, selIdx2 := idx2, selIdx1 := p.selIdxSave }
                else if startW.index < endW.index then
                  { p with selEnd := some selEnd,
                           selIdx1 := if p.selIdx1 < startW.len then 0 else p.selIdx1,
                           selIdx2 := if idx2 < endW.len then (endW.len : Int) - 1 else idx2 }
                else
                  { p with selEnd := some selEnd,
                           selIdx2 := if idx2 < endW.len then 0 else idx2,
                           selIdx1 :=
                             if p.selIdx1 < startW.len then (startW.len : Int) - 1
                             else p.selIdx1 }
              .ok (q, decide (oldIdx ≠ q.selIdx2 + endW.index))
      | _, _ => .error .nullDeref

/-- Accessor `getSelStartIdx()` of `TextOutputDev.h`. -/
def getSelStartIdx (p : TextPage) : Int :=
  match p.selStart with
  | none => -1
  | some s =>
    match p.wordAt s with
    | none => -1
    | some w => w.index + p.selIdx1

/-- Accessor `getSelEndIdx()` of `TextOutputDev.h`. -/
def getSelEndIdx (p : TextPage) : Int :=
  match p.selEnd with
  | none => -1
  | some s =>
    match p.wordAt s with
    | none => -1
    | some w => w.index + p.selIdx2

/-- Read of `word->edge[i]`. -/
def TextWord.edgeAt (w : TextWord) (i : Int) : Option ℚ :=
  if i < 0 then none else w.edge[i.toNat]?

/-- Pointer `line->next` as a line position: line `l + 1` of the same block. -/
def TextPage.lineNext (p : TextPage) (b l : Nat) : Option (Nat × Nat) :=
  if (p.lineAt b (l + 1)).isSome then some (b, l + 1) else none

/-- Rectangle `new PDFRectangle(line->xMin, line->yMin, line->xMax, line->yMax)`. -/
def lineRect (ln : TextLine) : PDFRectangle := ⟨ln.box.xMin, ln.box.yMin, ln.box.xMax, ln.box.yMax⟩

/-- The loop over the lines after the begin line (lines 2597-2598):
`for (line = line->next; line != stop; line = line->next)`. -/
def regionLoop (p : TextPage) (stop : Option (Nat × Nat)) :
    Nat → Option (Nat × Nat) → List PDFRectangle → Except Fault (List PDFRectangle)
  | 0, _, _ => .error .outOfFuel
  | f + 1, cur, result =>
    if cur = stop then .ok result
    else
      match cur with
      | none => .error .nullDeref
      | some (b, l) =>
        match p.lineAt b l with
        | none => .error .nullDeref
        | some ln => regionLoop p stop f (p.lineNext b l) (result ++ [lineRect ln])

/-- First `switch` of `getSelectedRegion` (lines 2582-2595): the begin
line clipped at `e = begin->edge[bIdx]`. -/
def beginRect (ln : TextLine) (e : ℚ) : List PDFRectangle :=
  match ln.rot with
  | 0 => [⟨e, ln.box.yMin, ln.box.xMax, ln.box.yMax⟩]
  | 1 => [⟨ln.box.xMin, e, ln.box.xMax, ln.box.yMax⟩]
  | 2 => [⟨ln.box.xMin, ln.box.yMin, e, ln.box.yMax⟩]
  | 3 => [⟨ln.box.xMin, ln.box.yMin, ln.box.xMax, e⟩]
  | _ => []

/-- Second `switch` of `getSelectedRegion` (lines 2601-2614): the last
rectangle clipped at `e = end->edge[eIdx + 1]`. -/
def clipLast (rot : Nat) (e : ℚ) (last : PDFRectangle) : PDFRectangle :=
  match rot with
  | 0 => { last with x2 := e }
  | 1 => { last with y2 := e }
  | 2 => { last with x1 := e }
  | 3 => { last with y1 := e }
  | _ => last

/-- Method `TextPage::getSelectedRegion()`. -/
def getSelectedRegion (p : TextPage) : Except Fault (List PDFRectangle) :=
  match p.selStart with
  | none => .ok []
  | some selStart =>
    match p.selEnd with
    | none => .error .nullDeref
    | some selEnd =>
      match p.wordAt selStart, p.wordAt selEnd with
      | some startW, some endW =>
        let ordered : Bool := decide (startW.index + p.selIdx1 < endW.index + p.selIdx2)
        let begin : WordRef := if ordered then selStart else selEnd
        let beginW : TextWord := if ordered then startW else endW
        let bIdx : Int := if ordered then p.selIdx1 else p.selIdx2
        let end0 : WordRef := if ordered then selEnd else selStart
        let end0W : TextWord := if ordered then endW else startW
        let eIdx0 : Int := if ordered then p.selIdx2 else p.selIdx1
        let endp : Option WordRef := if eIdx0 = end0W.len then p.next end0 else some end0
        let eIdx : Int := if eIdx0 = end0W.len then -1 else eIdx0
        match p.lineAt begin.blk begin.line, beginW.edgeAt bIdx with
        | some line, some e1 =>
          match endp with
          | none => .error .nullDeref
          | some en =>
            match p.wordAt en, p.lineAt en.blk en.line with
            | some enW, some endLine =>
              match regionLoop p (p.lineNext en.blk en.line) p.walkFuel
                  (p.lineNext begin.blk begin.line) (beginRect line e1) with
              | .error err => .error err
              | .ok result =>
                match result.getLast?, enW.edgeAt (eIdx + 1) with
                | some last, some e2 =>
                  .ok ((result.dropLast ++ [clipLast endLine.rot e2 last]).map (scaleRect p))
                | _, _ => .error .outOfBounds
            | _, _ => .error .nullDeref
        | none, _ => .error .nullDeref
        | _, none => .error .outOfBounds
      | _, _ => .error .nullDeref

/-- Head of an iteration of the text loop (lines 2693-2702), taken when
`begin == NULL`: append U+000A, step to the next line or block. Returns
`true` for the `break`, else the new `begin`, block and line. -/
def textAdvance (p : TextPage) (b l : Nat) :
    Except Fault (Bool × Option WordRef × Nat × Nat) :=
  if (p.lineAt b (l + 1)).isSome then
    .ok (false, (if (p.wordAt ⟨b, l + 1, 0⟩).isSome then some ⟨b, l + 1, 0⟩ else none), b, l + 1)
  else
    match p.blockAt (b + 1) with
    | none => .ok (true, none, b, l)
    | some blk =>
      if blk.lines.isEmpty then .error .nullDeref
      else
        .ok (false, (if (p.wordAt ⟨b + 1, 0, 0⟩).isSome then some ⟨b + 1, 0, 0⟩ else none),
          b + 1, 0)

/-- What one whole word contributes in the text loop (lines 2704-2710). -/
def wordText (ops : UnicodeOps) (normalize : Bool) (w : TextWord) : List Unicode :=
  (if normalize then ops.normalizeNFKC w.text else w.text) ++ (if w.spaceAfter then [32] else [])

/-- The loop `for (begin = begin->next; ; begin = begin->next)` of
`getSelectedText` (lines 2692-2711); `b`, `l` are `blk` and `line`. -/
def textLoop (ops : UnicodeOps) (p : TextPage) (normalize : Bool) (endp : WordRef) :
    Nat → Option WordRef → Nat → Nat → List Unicode → Except Fault (List Unicode)
  | 0, _, _, _, _ => .error .outOfFuel
  | f + 1, none, b, l, result =>
    match textAdvance p b l with
    | .error e => .error e
    | .ok (true, _, _, _) => .ok (result ++ [10])
    | .ok (false, begin, b1, l1) =>
      if begin = some endp then .ok (result ++ [10])
      else
        match begin with
        | none => .error .nullDeref
        | some r =>
          match p.wordAt r with
          | none => .error .nullDeref
          | some w =>
            textLoop ops p normalize endp f (p.next r) b1 l1
              (result ++ [10] ++ wordText ops normalize w)
  | f + 1, some r, b, l, result =>
    if r = endp then .ok result
    else
      match p.wordAt r with
      | none => .error .nullDeref
      | some w => textLoop ops p normalize endp f (p.next r) b l (result ++ wordText ops normalize w)

/-- The slice `text + from` of `count` code points handed to `appendUni`
(through `unicodeNormalizeNFKC` when `normalize` is set). -/
def sliceText (ops : UnicodeOps) (normalize : Bool) (w : TextWord) (start count : Int) :
    List Unicode :=
  if normalize then ops.normalizeNFKC ((w.text.drop start.toNat).take count.toNat)
  else (w.text.drop start.toNat).take count.toNat

/-- Method `TextPage::getSelectedText(normalize, &length)`: `none` is the `NULL`
returned when there is no selection. -/
def getSelectedText (ops : UnicodeOps) (p : TextPage) (normalize : Bool) :
    Except Fault (Option (List Unicode)) :=
  match p.selStart with
  | none => .ok none
  | some selStart =>
    match p.selEnd with
    | none => .error .nullDeref
    | some selEnd =>
      match p.wordAt selStart, p.wordAt selEnd with
      | some startW, some endW =>
        let ordered : Bool := decide (startW.index + p.selIdx1 < endW.index + p.selIdx2)
        let begin0 : WordRef := if ordered then selStart else selEnd
        let begin0W : TextWord := if ordered then startW else endW
        let bIdx0 : Int := if ordered then p.selIdx1 else p.selIdx2
        let endp : WordRef := if ordered then selEnd else selStart
        let endpW : TextWord := if ordered then endW else startW
        let eIdx0 : Int := if ordered then p.selIdx2 else p.selIdx1
        if bIdx0 = begin0W.len ∧ begin0 = endp ∧ bIdx0 = eIdx0 then .ok (some [32])
        else
          let result0 : List Unicode := if bIdx0 = begin0W.len then [32] else []
          let begin : Option WordRef := if bIdx0 = begin0W.len then p.next begin0 else some begin0
          let bIdx : Int := if bIdx0 = begin0W.len then 0 else bIdx0
          let appendSpace : Bool := decide (eIdx0 = endpW.len)
          let eIdx : Int := if eIdx0 = endpW.len then eIdx0 - 1 else eIdx0
          match begin with
          | none => .error .nullDeref
          | some bg =>
            match p.wordAt bg with
            | none => .error .nullDeref
            | some bgW =>
              let body : Except Fault (List Unicode) :=
                if bg = endp then
                  .ok (result0 ++ sliceText ops normalize bgW bIdx (eIdx - bIdx + 1))
                else
                  match textLoop ops p normalize endp p.walkFuel (p.next bg) bg.blk bg.line
                      (result0 ++ sliceText ops normalize bgW bIdx (bgW.len - bIdx) ++
                        (if bgW.spaceAfter then [32] else [])) with
                  | .error e => .error e
                  | .ok r =>
                    .ok (r ++ sliceText ops normalize endpW 0 (if normalize then eIdx + 1 else eIdx))
              match body with
              | .error e => .error e
              | .ok r => .ok (some (if appendSpace then r ++ [32] else r))
      | _, _ => .error .nullDeref

/-! ## Envelope and index passes of `coalesce` -/

/-- Component-wise `fmin`/`fmax` of two boxes. -/
def Box.join (a b : Box) : Box :=
  ⟨min a.xMin b.xMin, max a.xMax b.xMax, min a.yMin b.yMin, max a.yMax b.yMax⟩

/-- The forward envelope loop, written three times in the source
(`TextLine::coalesce` lines 596-602, `TextBlock::coalesce` lines 861-867,
`TextPage::coalesce` lines 2209-2215): `prev` is the `*Pre` box of the
element before, each element gets `fmin`/`fmax` of its box and `prev`. -/
def fillPreFrom {α : Type} (box : α → Box) (setPre : α → Box → α) (prev : Box) :
    List α → List α
  | [] => []
  | a :: as => setPre a ((box a).join prev) :: fillPreFrom box setPre ((box a).join prev) as

/-- The `*Pre` pass: the first element gets its own box, then the forward
loop (lines 591-602, 856-867, 2204-2215). -/
def fillPre {α : Type} (box : α → Box) (setPre : α → Box → α) : List α → List α
  | [] => []
  | a :: as => setPre a (box a) :: fillPreFrom box setPre (box a) as

/-- The `*Post` pass, from the last element back to the first
(lines 604-615, 869-880, 2217-2228): the last element gets its own box,
each other one `fmin`/`fmax` of its box and the `*Post` box of the next. -/
def fillPost {α : Type} (box post : α → Box) (setPost : α → Box → α) : List α → List α
  | [] => []
  | a :: as =>
    match fillPost box post setPost as with
    | [] => [setPost a (box a)]
    | v :: vs => setPost a ((box a).join (post v)) :: v :: vs

/-- The `*Pre` pass of `TextLine::coalesce` over the words of a line. -/
def wordsPre (ws : List TextWord) : List TextWord :=
  fillPre (fun w => w.box) (fun w e => { w with pre := e }) ws

/-- The `*Post` pass of `TextLine::coalesce` over the words of a line. -/
def wordsPost (ws : List TextWord) : List TextWord :=
  fillPost (fun w => w.box) (fun w => w.post) (fun w e => { w with post := e }) ws

/-- The `*Pre` pass of `TextBlock::coalesce` over the lines of a block. -/
def linesPre (ls : List TextLine) : List TextLine :=
  fillPre (fun l => l.box) (fun l e => { l with pre := e }) ls

/-- The `*Post` pass of `TextBlock::coalesce` over the lines of a block. -/
def linesPost (ls : List TextLine) : List TextLine :=
  fillPost (fun l => l.box) (fun l => l.post) (fun l e => { l with post := e }) ls

/-- The `*Pre` pass of `TextPage::coalesce` over the blocks. -/
def blocksPre (bs : List TextBlock) : List TextBlock :=
  fillPre (fun b => b.box) (fun b e => { b with pre := e }) bs

/-- The `*Post` pass of `TextPage::coalesce` over the blocks. -/
def blocksPost (bs : List TextBlock) : List TextBlock :=
  fillPost (fun b => b.box) (fun b => b.post) (fun b e => { b with post := e }) bs

/-- Innermost loop of the index pass (lines 2233-2236): returns the words
with `index` set and the running `i`. -/
def indexWords (i : Int) : List TextWord → List TextWord × Int
  | [] => ([], i)
  | w :: ws =>
    let r := indexWords (i + w.len + (if w.spaceAfter then 1 else 0)) ws
    ({ w with index := i } :: r.1, r.2)

/-- Loop over the lines of a block in the index pass (line 2232). -/
def indexLines (i : Int) : List TextLine → List TextLine × Int
  | [] => ([], i)
  | l :: ls =>
    let rw := indexWords i l.words
    let r := indexLines rw.2 ls
    ({ l with words := rw.1 } :: r.1, r.2)

/-- Loop over the blocks in the index pass (lines 2230-2231). -/
def indexBlocks (i : Int) : List TextBlock → List TextBlock × Int
  | [] => ([], i)
  | b :: bs =>
    let rl := indexLines i b.lines
    let r := indexBlocks rl.2 bs
    ({ b with lines := rl.1 } :: r.1, r.2)

/-- Method `TextLine::addWord`, box part (lines 468-486): an empty box
(`xMin > xMax`) takes the word's box, else each bound is enlarged. -/
def addWordBox (box : Box) (w : TextWord) : Box :=
  if box.xMin > box.xMax then w.box else box.join w.box

/-- The box of a line: `addWord` over its words from the constructor's
`xMin = yMin = 0`, `xMax = yMax = -1`. -/
def lineBox (ws : List TextWord) : Box := ws.foldl addWordBox ⟨0, -1, 0, -1⟩

/-- The tail of `coalesce` on a page whose words, lines and blocks are
formed: line boxes from `addWord`, the `*Pre`/`*Post` passes of
`TextLine::coalesce`, `TextBlock::coalesce` and `TextPage::coalesce`, and
the index pass. The selection is the constructor's (`selStart = selEnd =
NULL`). Block boxes are taken as given (they come from `TextBlock::addWord`
on every word put in the block, duplicates included). -/
def mkPage (pageWidth pageHeight : ℚ) (blocks : List (Box × List (Nat × List TextWord))) :
    TextPage :=
  let mkLine : Nat × List TextWord → TextLine := fun l =>
    { words := wordsPost (wordsPre l.2), box := lineBox l.2, pre := lineBox l.2,
      post := lineBox l.2, rot := l.1 }
  let mkBlock : Box × List (Nat × List TextWord) → TextBlock := fun b =>
    { lines := linesPost (linesPre (b.2.map mkLine)), box := b.1, pre := b.1, post := b.1 }
  { blocks := (indexBlocks 0 (blocksPost (blocksPre (blocks.map mkBlock)))).1,
    pageWidth := pageWidth, pageHeight := pageHeight,
    selStart := none, selEnd := none, selIdx1 := 0, selIdx2 := 0, selIdxSave := 0 }

/-! ## Concrete pages -/

/-- ASCII instance of the Unicode services: NFKC is the identity on ASCII
text, upper-casing maps `a..z` to `A..Z`. -/
def asciiOps : UnicodeOps :=
  { normalizeNFKC := fun s => s,
    toUpper := fun c => if 97 ≤ c ∧ c ≤ 122 then c - 32 else c }

/-- Code points of an ASCII string. -/
def ofString (s : String) : List Unicode := s.toList.map Char.toNat

/-- A word of rotation 0 with glyphs of equal width between `xMin` and
`xMax`; envelopes and index are filled in by `mkPage`. -/
def mkWord (s : String) (xMin xMax yMin yMax : ℚ) (spaceAfter : Bool) : TextWord :=
  let n := s.length
  { text := ofString s,
    edge := (List.range (n + 1)).map (fun i => xMin + (xMax - xMin) * i / n),
    box := ⟨xMin, xMax, yMin, yMax⟩, pre := ⟨xMin, xMax, yMin, yMax⟩,
    post := ⟨xMin, xMax, yMin, yMax⟩, index := 0, rot := 0, spaceAfter := spaceAfter }

/-- The line "Hello world" on a 600 x 800 page: "Hello" at x 100..120,
y 10..20, followed by a space; "world" at x 125..145, y 8..20. -/
def pageHelloWorld : TextPage :=
  mkPage 600 800
    [(⟨100, 145, 8, 20⟩,
      [(0, [mkWord "Hello" 100 120 10 20 true, mkWord "world" 125 145 8 20 false])])]

/-- The line "a a a b" on a 600 x 800 page, four one-glyph words 6 wide,
18 apart, y 40..52. -/
def pageAAAB : TextPage :=
  mkPage 600 800
    [(⟨60, 138, 40, 52⟩,
      [(0, [mkWord "a" 60 66 40 52 true, mkWord "a" 84 90 40 52 true,
            mkWord "a" 108 114 40 52 true, mkWord "b" 132 138 40 52 false])])]

/-- A page whose only word is "a". -/
def pageA : TextPage :=
  mkPage 600 800 [(⟨60, 66, 40, 52⟩, [(0, [mkWord "a" 60 66 40 52 false])])]

/-- The line "a b" on a 600 x 800 page. -/
def pageAB : TextPage :=
  mkPage 600 800
    [(⟨60, 90, 40, 52⟩, [(0, [mkWord "a" 60 66 40 52 true, mkWord "b" 84 90 40 52 false])])]

/-- Two blocks of two lines each on a 600 x 800 page: "ab cd" over "ef",
and to the right "gh" over "ij kl". -/
def pageTwoBlocks : TextPage :=
  mkPage 600 800
    [(⟨50, 110, 100, 130⟩,
      [(0, [mkWord "ab" 50 70 100 112 true, mkWord "cd" 80 110 100 112 false]),
       (0, [mkWord "ef" 50 75 118 130 false])]),
     (⟨300, 380, 100, 130⟩,
      [(0, [mkWord "gh" 300 330 100 112 false]),
       (0, [mkWord "ij" 300 325 118 130 true, mkWord "kl" 340 380 118 130 false])])]

/-- The state after `startSelection(1/5, 1/80)` on the line "Hello world":
the space after "Hello". -/
def pageHelloWorldSelected : TextPage :=
  { pageHelloWorld with selStart := some ⟨0, 0, 0⟩, selEnd := some ⟨0, 0, 0⟩, selIdx1 := 5,
                        selIdx2 := 5, selIdxSave := 5 }

/-! ## Page invariants -/

/-- Box `o` contains box `i`. -/
def Box.covers (o i : Box) : Prop :=
  o.xMin ≤ i.xMin ∧ i.xMax ≤ o.xMax ∧ o.yMin ≤ i.yMin ∧ i.yMax ≤ o.yMax

instance (o i : Box) : Decidable (o.covers i) := by
  unfold Box.covers; infer_instance

/-- The queryable state: `blocks != NULL`, and `coalesce` only builds
blocks with a line, lines with a word (each is created around a seed word)
and words with a glyph (`TextPage::addWord` drops empty words). -/
def TextPage.Queryable (p : TextPage) : Prop :=
  p.blocks ≠ [] ∧
    ∀ b ∈ p.blocks, b.lines ≠ [] ∧ ∀ l ∈ b.lines, l.words ≠ [] ∧ ∀ w ∈ l.words, 1 ≤ w.len

instance (p : TextPage) : Decidable p.Queryable := by
  unfold TextPage.Queryable; infer_instance

/-- A coalesced page: queryable, with the boxes and envelopes `coalesce`
computes (the line box is the one `TextLine::addWord` accumulates over its
words, whose boxes have `xMin <= xMax`; the block box, accumulated by
`TextBlock::addWord` over every word put in the block, contains its lines;
the `*Pre`/`*Post` fields are those the three passes write) and the `index`
fields the index pass writes. -/
def TextPage.Coalesced (p : TextPage) : Prop :=
  p.Queryable ∧
    (∀ b ∈ p.blocks, ∀ l ∈ b.lines,
      l.box = lineBox l.words ∧ l.words = wordsPost (wordsPre l.words) ∧
        ∀ w ∈ l.words, w.box.xMin ≤ w.box.xMax) ∧
    (∀ b ∈ p.blocks,
      (∀ l ∈ b.lines, b.box.covers l.box) ∧ b.lines = linesPost (linesPre b.lines)) ∧
    p.blocks = blocksPost (blocksPre p.blocks) ∧
    p.blocks = (indexBlocks 0 p.blocks).1

instance (p : TextPage) : Decidable p.Coalesced := by
  unfold TextPage.Coalesced; infer_instance

/-- Every word of the page, in reading order (blocks, then lines, then
words). -/
def TextPage.allWords (p : TextPage) : List TextWord :=
  p.blocks.flatMap (fun b => b.lines.flatMap (fun l => l.words))

/-! ## Termination measure of the walks -/

/-- Weight of a line in the walk bound: its words and the line itself. -/
def lineWeight (l : TextLine) : Nat := l.words.length + 1

/-- Weight of a block in the walk bound: its lines and the block itself. -/
def blockWeight (b : TextBlock) : Nat := (b.lines.map lineWeight).sum + 1

/-- Weight of the lines of block `b` from line `k` on. -/
def linesLeft (p : TextPage) (b k : Nat) : Nat :=
  match p.blocks[b]? with
  | none => 0
  | some blk => ((blk.lines.drop k).map lineWeight).sum

/-- Weight of the blocks from block `k` on. -/
def blocksLeft (p : TextPage) (k : Nat) : Nat := ((p.blocks.drop k).map blockWeight).sum

/-- Number of words of line `l` of block `b` from word `w` on. -/
def wordsLeft (p : TextPage) (b l w : Nat) : Nat :=
  match p.lineAt b l with
  | none => 0
  | some ln => ln.words.length - w

/-- Weight of the lines of block `b` before line `k`. -/
def linesBefore (p : TextPage) (b k : Nat) : Nat :=
  match p.blocks[b]? with
  | none => 0
  | some blk => ((blk.lines.take k).map lineWeight).sum

/-- Weight of the blocks before block `k`. -/
def blocksBefore (p : TextPage) (k : Nat) : Nat := ((p.blocks.take k).map blockWeight).sum

/-- Number of words up to and including the cursor of a backward walk. -/
def wordsBefore : Option Nat → Nat
  | none => 0
  | some w => w + 1

/-! ## Reading order and what the walks need from the envelopes -/

/-- Reading order on word positions: block, then line, then word. -/
def WordRef.le (a b : WordRef) : Prop :=
  a.blk < b.blk ∨ (a.blk = b.blk ∧ (a.line < b.line ∨ (a.line = b.line ∧ a.word ≤ b.word)))

/-- What the forward walk needs from the `*Post` envelopes at the point
`(px, py)`: the envelope of a word, line or block is at most as far as
every word from it to the end of its line, block or page. -/
structure PostSound (p : TextPage) (px py : ℚ) : Prop where
  word : ∀ b l w w' wd v, p.wordAt ⟨b, l, w⟩ = some wd → p.wordAt ⟨b, l, w'⟩ = some v →
    w ≤ w' → wd.post.dist px py ≤ v.box.dist px py
  line : ∀ b l l' w' ln v, p.lineAt b l = some ln → p.wordAt ⟨b, l', w'⟩ = some v →
    l ≤ l' → ln.post.dist px py ≤ v.box.dist px py
  block : ∀ b b' l' w' blk v, p.blockAt b = some blk → p.wordAt ⟨b', l', w'⟩ = some v →
    b ≤ b' → blk.post.dist px py ≤ v.box.dist px py

/-- What the backward walk needs from the `*Pre` envelopes. -/
structure PreSound (p : TextPage) (px py : ℚ) : Prop where
  word : ∀ b l w w' wd v, p.wordAt ⟨b, l, w⟩ = some wd → p.wordAt ⟨b, l, w'⟩ = some v →
    w' ≤ w → wd.pre.dist px py ≤ v.box.dist px py
  line : ∀ b l l' w' ln v, p.lineAt b l = some ln → p.wordAt ⟨b, l', w'⟩ = some v →
    l' ≤ l → ln.pre.dist px py ≤ v.box.dist px py
  block : ∀ b b' l' w' blk v, p.blockAt b = some blk → p.wordAt ⟨b', l', w'⟩ = some v →
    b' ≤ b → blk.pre.dist px py ≤ v.box.dist px py

/-- Positions at or before the cursor of the backward walk (`word` is
`NULL`: before the first word of line `l`). -/
def BeforeCur (b l : Nat) (word : Option Nat) (r : WordRef) : Prop :=
  r.blk < b ∨ (r.blk = b ∧ (r.line < l ∨ (r.line = l ∧ ∃ w, word = some w ∧ r.word ≤ w)))

/-! ## Brute-force nearest distance -/

/-- Brute-force nearest distance, as the specification words it: the least
rectangular distance `dist(word, (x, y))` over all words. -/
def bruteForceMinDist (px py : ℚ) : List TextWord → Option ℚ
  | [] => none
  | w :: ws =>
    match bruteForceMinDist px py ws with
    | none => some (w.box.dist px py)
    | some m => some (min (w.box.dist px py) m)

/-! ## Selectable positions -/

/-- A selectable position of a word: a glyph index, or `len` (the space
after the word) when `spaceAfter` is set. -/
def Selectable (w : TextWord) (i : Int) : Prop :=
  0 ≤ i ∧ i ≤ w.len ∧ (i = w.len → w.spaceAfter = true)

/-! ## State of the index pass -/

/-- What a word adds to the running index: its glyphs and its space. -/
def TextWord.span (w : TextWord) : Int := (w.len : Int) + (if w.spaceAfter then 1 else 0)

/-- The words carry consecutive indices from `i`, the next free index
being `j`. -/
def ConsecW : Int → List TextWord → Int → Prop
  | i, [], j => i = j
  | i, w :: ws, j => w.index = i ∧ ConsecW (i + w.span) ws j

/-- The words of the lines carry consecutive indices from `i` to `j`. -/
def ConsecL : Int → List TextLine → Int → Prop
  | i, [], j => i = j
  | i, l :: ls, j => ∃ m, ConsecW i l.words m ∧ ConsecL m ls j

/-- The words of the blocks carry consecutive indices from `i` to `j`. -/
def ConsecB : Int → List TextBlock → Int → Prop
  | i, [], j => i = j
  | i, b :: bs, j => ∃ m, ConsecL i b.lines m ∧ ConsecB m bs j

/-- Strict reading order on word positions. -/
def WordRef.lt (a b : WordRef) : Prop :=
  a.blk < b.blk ∨ (a.blk = b.blk ∧ (a.line < b.line ∨ (a.line = b.line ∧ a.word < b.word)))

/-! ## Reachable selection states -/

/-- The selection states the engine reaches on page `p0`: after a
`startSelection`, then after any number of `moveSelEndTo`. -/
inductive Reachable (p0 : TextPage) : TextPage → Prop where
  | start (x y : ℚ) (q : TextPage) : startSelection p0 x y = .ok q → Reachable p0 q
  | move (q : TextPage) (x y : ℚ) (q' : TextPage) (changed : Bool) :
      Reachable p0 q → moveSelEndTo q x y = .ok (q', changed) → Reachable p0 q'

/-- Invariant of the reachable selection states: the page text is that of
`p0`, both ends are words of the page and `selIdx2` is a selectable
position of `selEnd`. -/
def SelInv (p0 q : TextPage) : Prop :=
  q.blocks = p0.blocks ∧
    ∃ s e sw ew, q.selStart = some s ∧ q.selEnd = some e ∧ q.wordAt s = some sw ∧
      q.wordAt e = some ew ∧ Selectable ew q.selIdx2

/-! ## Edge reads of `calIdx` -/

/-- Indices of the reads `edge[rtn + 1]` of the first refinement loop for
rotations 0 and 1: one read for each test reached with `rtn < len`. -/
def calUpAscReads (edge : List ℚ) (pos : ℚ) : Nat → Nat → List Int
  | 0, _ => []
  | todo + 1, rtn =>
    ((rtn + 1 : Nat) : Int) ::
      (if edge.getD (rtn + 1) 0 < pos then calUpAscReads edge pos todo (rtn + 1) else [])

/-- Indices of the reads `edge[rtn + 1]` of the first refinement loop for
rotations 2 and 3. -/
def calUpDescReads (edge : List ℚ) (pos : ℚ) : Nat → Nat → List Int
  | 0, _ => []
  | todo + 1, rtn =>
    ((rtn + 1 : Nat) : Int) ::
      (if edge.getD (rtn + 1) 0 > pos then calUpDescReads edge pos todo (rtn + 1) else [])

/-- Indices of the reads `edge[rtn]` of the second refinement loop for
rotations 0 and 1, from `rtn = n`: one read for each test reached with
`rtn >= 0`. -/
def calDownAscReads (edge : List ℚ) (pos : ℚ) : Nat → List Int
  | 0 => [0]
  | n + 1 =>
    ((n + 1 : Nat) : Int) :: (if edge.getD (n + 1) 0 > pos then calDownAscReads edge pos n else [])

/-- Indices of the reads `edge[rtn]` of the second refinement loop for
rotations 2 and 3. -/
def calDownDescReads (edge : List ℚ) (pos : ℚ) : Nat → List Int
  | 0 => [0]
  | n + 1 =>
    ((n + 1 : Nat) : Int) ::
      (if edge.getD (n + 1) 0 < pos then calDownDescReads edge pos n else [])

/-- Every index at which `calIdx(x, y, word)` reads `word->edge[]`
(lines 2502-2511), in the order of the reads. -/
def calIdxReads (p : TextPage) (px py : ℚ) (r : WordRef) : List Int :=
  match p.wordAt r with
  | none => []
  | some w =>
    match calOffset px py w with
    | none => []
    | some (pos, offset) =>
      let rtn0 : Int := Int.floor (offset * (w.len : ℚ))
      if 0 ≤ rtn0 ∧ rtn0 < w.len then
        if w.rot = 0 ∨ w.rot = 1 then
          calUpAscReads w.edge pos (w.len - rtn0.toNat) rtn0.toNat ++
            calDownAscReads w.edge pos (calUpAsc w.edge pos (w.len - rtn0.toNat) rtn0.toNat)
        else
          calUpDescReads w.edge pos (w.len - rtn0.toNat) rtn0.toNat ++
            calDownDescReads w.edge pos (calUpDesc w.edge pos (w.len - rtn0.toNat) rtn0.toNat)
      else []

/-- Lower end of the primary-axis extent of a word, the bound the `switch`
of `calIdx` measures from: `xMin` for rotations 0 and 2, `yMin` for 1 and 3. -/
def TextWord.extentMin (w : TextWord) : ℚ :=
  if w.rot = 0 ∨ w.rot = 2 then w.box.xMin else w.box.yMin

/-- Upper end of the primary-axis extent of a word: `xMax` for rotations 0
and 2, `yMax` for 1 and 3. -/
def TextWord.extentMax (w : TextWord) : ℚ :=
  if w.rot = 0 ∨ w.rot = 2 then w.box.xMax else w.box.yMax

/-- The cursor coordinate `pos` of `calIdx`: `x` for rotations 0 and 2,
`y` for 1 and 3. -/
def calPos (px py : ℚ) (w : TextWord) : ℚ := if w.rot = 0 ∨ w.rot = 2 then px else py

/-- A word as `TextWord::addChar` builds it for rotation 0 or 1: `len + 1`
edges, strictly ascending, from `xMin` (`yMin`) to `xMax` (`yMax`). -/
def TextWord.Ascending (w : TextWord) : Prop :=
  (w.rot = 0 ∨ w.rot = 1) ∧ w.edge.length = w.len + 1 ∧ w.edge.Pairwise (fun a b => a < b) ∧
    w.edge[0]? = some w.extentMin ∧ w.edge[w.len]? = some w.extentMax

/-- A word as `TextWord::addChar` builds it for rotation 2 or 3: `len + 1`
edges, strictly descending, from `xMax` (`yMax`) to `xMin` (`yMin`). -/
def TextWord.Descending (w : TextWord) : Prop :=
  (w.rot = 2 ∨ w.rot = 3) ∧ w.edge.length = w.len + 1 ∧ w.edge.Pairwise (fun a b => a > b) ∧
    w.edge[0]? = some w.extentMax ∧ w.edge[w.len]? = some w.extentMin

instance (w : TextWord) : Decidable w.Ascending := by
  unfold TextWord.Ascending; infer_instance

instance (w : TextWord) : Decidable w.Descending := by
  unfold TextWord.Descending; infer_instance

/-! ## Order of the two ends of a selection -/

/-- The ordering at the head of `getSelectedRegion` and `getSelectedText`
(lines 2565-2576 and 2646-2657): `(begin, bIdx, end, eIdx)`, the end with
the smaller `index + idx` first. -/
def orderedSelection (p : TextPage) : Option (WordRef × Int × WordRef × Int) :=
  match p.selStart, p.selEnd with
  | some selStart, some selEnd =>
    match p.wordAt selStart, p.wordAt selEnd with
    | some startW, some endW =>
      if startW.index + p.selIdx1 < endW.index + p.selIdx2 then
        some (selStart, p.selIdx1, selEnd, p.selIdx2)
      else some (selEnd, p.selIdx2, selStart, p.selIdx1)
    | _, _ => none
  | _, _ => none

/-- A selection state of page `p`: from `selStart` at `selIdx1` to `selEnd`
at `selIdx2`. -/
def TextPage.select (p : TextPage) (s : WordRef) (i1 : Int) (e : WordRef) (i2 : Int) :
    TextPage :=
  { p with selStart := some s, selEnd := some e, selIdx1 := i1, selIdx2 := i2, selIdxSave := i1 }

/-! ## Page text dump -/

/-- What a word contributes to a text dump: its text, then U+0020 when
`spaceAfter` is set. -/
def dumpWord (w : TextWord) : List Unicode := w.text ++ (if w.spaceAfter then [32] else [])

/-- The words of a line, one after the other. -/
def dumpLine (l : TextLine) : List Unicode := l.words.flatMap dumpWord

/-- Every line of the page, in reading order. -/
def TextPage.allLines (p : TextPage) : List TextLine := p.blocks.flatMap (fun b => b.lines)

/-- The page-level text dump as the specification words it: the text of
all words in reading order, with U+0020 after each word whose `spaceAfter`
is set and U+000A at each change of line. -/
def pageDump (p : TextPage) : List Unicode := List.intercalate [10] (p.allLines.map dumpLine)

/-- The lines of a list, each preceded by U+000A. -/
def dumpLinesAfter (ls : List TextLine) : List Unicode := ls.flatMap (fun l => 10 :: dumpLine l)

/-- The text dump from word `w` of line `l` of block `b` to the end of the
page: the rest of the line, then the later lines of the block and the lines
of the later blocks, each preceded by U+000A. -/
def textFrom (p : TextPage) (b l w : Nat) : List Unicode :=
  match p.blocks[b]? with
  | none => []
  | some blk =>
    (match blk.lines[l]? with
      | none => []
      | some ln => (ln.words.drop w).flatMap dumpWord) ++
      dumpLinesAfter (blk.lines.drop (l + 1)) ++
      (p.blocks.drop (b + 1)).flatMap (fun b1 => dumpLinesAfter b1.lines)

/-- The word pointer for position `w` of line `l` of block `b`: `NULL`
past the last word of the line. -/
def cursorAt (p : TextPage) (b l w : Nat) : Option WordRef :=
  if (p.wordAt ⟨b, l, w⟩).isSome then some ⟨b, l, w⟩ else none

/-- The last word of the page (`lastBlk->lastLine->lastWord`): a word with
no `next`, in a line with no `next`, in a block with no `next`. -/
def TextPage.IsLastWord (p : TextPage) (r : WordRef) : Prop :=
  (p.wordAt r).isSome = true ∧ p.wordAt ⟨r.blk, r.line, r.word + 1⟩ = none ∧
    p.lineAt r.blk (r.line + 1) = none ∧ p.blockAt (r.blk + 1) = none

instance (p : TextPage) (r : WordRef) : Decidable (p.IsLastWord r) := by
  unfold TextPage.IsLastWord; infer_instance

/-! ## `TextPage::coalesce` from the word pools -/

/-- Class `TextPool`: the words not yet put in a block, by base-line index
(`pool[baseIdx - minBaseIdx]` is the word list of a base line, the empty
list for `NULL`); `cursor` is the last word inserted, as its position in
the list of base line `cursorBaseIdx`. -/
structure TextPool where
  minBaseIdx : Int
  maxBaseIdx : Int
  pool : List (List TextWord)
  cursor : Option Nat := none
  cursorBaseIdx : Int := -1
deriving DecidableEq

/-- Constructor `TextPool::TextPool()` (lines 342-348): `minBaseIdx = 0`,
`maxBaseIdx = -1`, no line, no cursor. This is the pool of a page that
received no word (`TextPage::addWord` is the only writer). -/
def TextPool.empty : TextPool := { minBaseIdx := 0, maxBaseIdx := -1, pool := [] }

/-- Accessor `getPool(baseIdx)`. -/
def TextPool.getPool (pool : TextPool) (baseIdx : Int) : List TextWord :=
  pool.pool.getD (baseIdx - pool.minBaseIdx).toNat []

/-- The scan of lines 1594-1597, `for (; poolMinBaseIdx <= pool->maxBaseIdx
&& !pool->getPool(poolMinBaseIdx); ++poolMinBaseIdx) ;`, with `todo` the
distance to `maxBaseIdx + 1`. -/
def skipEmptyLines (pool : TextPool) : Nat → Int → Int
  | 0, i => i
  | todo + 1, i =>
    if i ≤ pool.maxBaseIdx ∧ (pool.getPool i).isEmpty then skipEmptyLines pool todo (i + 1)
    else i

/-- The loop `while (1)` of lines 1591-1891 for one rotation: scan for the
first non-empty base line, `break` when there is none, else create a block
and count it. `build` stands for lines 1602-1879 (seed word, growth of the
block, `blk->coalesce()`), which move the words of one block out of the
pool. -/
def assembleRot (build : Nat → TextPool → Int → TextBlock × TextPool) (rot : Nat) :
    Nat → TextPool → Int → List TextBlock → Except Fault (List TextBlock)
  | 0, _, _, _ => .error .outOfFuel
  | f + 1, pool, poolMinBaseIdx, blocks =>
    let i := skipEmptyLines pool (pool.maxBaseIdx + 1 - poolMinBaseIdx).toNat poolMinBaseIdx
    if i > pool.maxBaseIdx then .ok blocks
    else assembleRot build rot f (build rot pool i).2 i (blocks ++ [(build rot pool i).1])

/-- The loop over the rotations (line 1585), `pools[rot]` for `rot` from
the given one on. -/
def assemble (build : Nat → TextPool → Int → TextBlock × TextPool) (fuel : Nat) :
    Nat → List TextPool → List TextBlock → Except Fault (List TextBlock)
  | _, [], blocks => .ok blocks
  | rot, pool :: pools, blocks =>
    match assembleRot build rot fuel pool pool.minBaseIdx blocks with
    | .error e => .error e
    | .ok blocks1 => assemble build fuel (rot + 1) pools blocks1

/-- Lines 2188-2236 of `TextPage::coalesce`: `blocks` is relinked from
`blkarray` when `nBlocks > 0` and is `NULL` otherwise (lines 2188-2201);
then `blk1 = blocks; blk1->xMinPre = blk1->xMin;` (lines 2204-2205) and the
envelope loops, then the index pass. Returns the list `blocks` (`lastBlk`
is its last element). -/
def coalesceFinish (nBlocks : Nat) (blkarray : List TextBlock) : Except Fault (List TextBlock) :=
  let blocks : List TextBlock := if nBlocks > 0 then blkarray else []
  match blocks with
  | [] => .error .nullDeref
  | b :: bs => .ok (indexBlocks 0 (blocksPost (blocksPre (b :: bs)))).1

/-- Method `TextPage::coalesce()`: block assembly from the four pools, then
the reading-order sort, then the relinking, envelope and index passes.
`sort` stands for lines 1896-2187 (primary direction, table detection,
extended boxes, `qsort` and `visitDepthFirst`), which fill `blkarray` from
the block list. -/
def coalesce (build : Nat → TextPool → Int → TextBlock × TextPool)
    (sort : List TextBlock → List TextBlock) (fuel : Nat) (pools : List TextPool) :
    Except Fault (List TextBlock) :=
  match assemble build fuel 0 pools [] with
  | .error e => .error e
  | .ok blocks => coalesceFinish blocks.length (sort blocks)

/-- A page whose block list is empty (`blocks == NULL`), 600 x 800, no
selection. -/
def pageEmpty : TextPage :=
  { blocks := [], pageWidth := 600, pageHeight := 800, selStart := none, selEnd := none,
    selIdx1 := 0, selIdx2 := 0, selIdxSave := 0 }

/-! ## The word builder (`TextWord::addChar`, `TextPage::addChar`) -/

/-- The conversion `(int)` of a `double`: truncation toward zero. -/
def truncToInt (q : ℚ) : Int := if 0 ≤ q then Int.floor q else Int.ceil q

/-- Class `TextFontInfo` as the builder uses it: the identity of the object
(for `word0->font == word1->font`) and, when `gfxFont` is not null, its
ascent and descent. -/
structure TextFontInfo where
  id : Nat
  gfxFont : Option (ℚ × ℚ)
deriving DecidableEq

/-- Constructor `TextWord::TextWord` (lines 134-208); `(x, y)` is
`state->transform(x0, y0)`. The two bounds along the primary axis are left
uninitialised by the constructor (0 here) and written by `addChar`. -/
def newTextWord (rot : Nat) (x y : ℚ) (charPos : Int) (font : TextFontInfo) (fontSize : ℚ) :
    TextWord :=
  let ascent : ℚ :=
    match font.gfxFont with
    | some m => m.1 * fontSize
    | none => 95 / 100 * fontSize
  let descent : ℚ :=
    match font.gfxFont with
    | some m => m.2 * fontSize
    | none => -(35 / 100) * fontSize
  let box : Box :=
    match rot with
    | 0 => if y - ascent = y - descent then ⟨0, 0, y, y + 1⟩ else ⟨0, 0, y - ascent, y - descent⟩
    | 1 => if x + descent = x + ascent then ⟨x, x + 1, 0, 0⟩ else ⟨x + descent, x + ascent, 0, 0⟩
    | 2 => if y + descent = y + ascent then ⟨0, 0, y, y + 1⟩ else ⟨0, 0, y + descent, y + ascent⟩
    | 3 => if x - ascent = x - descent then ⟨x, x + 1, 0, 0⟩ else ⟨x - ascent, x - descent, 0, 0⟩
    | _ => ⟨0, 0, 0, 0⟩
  let base : ℚ :=
    match rot with
    | 0 => y
    | 1 => x
    | 2 => y
    | 3 => x
    | _ => 0
  { text := [], edge := [], box := box, pre := ⟨0, 0, 0, 0⟩, post := ⟨0, 0, 0, 0⟩, index := 0,
    rot := rot, spaceAfter := false, base := base, fontSize := fontSize, font := font.id,
    charPos := charPos, charLen := 0 }

/-- Method `TextWord::addChar(state, x, y, dx, dy, c, u)` (lines 216-255):
`text[len] = u`, `edge[len]` is the leading edge (it replaces the trailing
edge of the glyph before), `edge[len + 1]` the trailing edge, and the bound
on the trailing side follows. -/
def TextWord.addChar (w : TextWord) (x y dx dy : ℚ) (u : Unicode) : TextWord :=
  match w.rot with
  | 0 =>
    { w with text := w.text ++ [u], edge := w.edge.take w.len ++ [x, x + dx],
             box := { w.box with xMin := if w.len = 0 then x else w.box.xMin, xMax := x + dx } }
  | 1 =>
    { w with text := w.text ++ [u], edge := w.edge.take w.len ++ [y, y + dy],
             box := { w.box with yMin := if w.len = 0 then y else w.box.yMin, yMax := y + dy } }
  | 2 =>
    { w with text := w.text ++ [u], edge := w.edge.take w.len ++ [x, x + dx],
             box := { w.box with xMax := if w.len = 0 then x else w.box.xMax, xMin := x + dx } }
  | 3 =>
    { w with text := w.text ++ [u], edge := w.edge.take w.len ++ [y, y + dy],
             box := { w.box with yMax := if w.len = 0 then y else w.box.yMax, yMin := y + dy } }
  | _ => { w with text := w.text ++ [u] }

/-- Method `TextWord::primaryCmp` (lines 286-305). -/
def TextWord.primaryCmp (w word : TextWord) : Int :=
  let cmp : ℚ :=
    match w.rot with
    | 0 => w.box.xMin - word.box.xMin
    | 1 => w.box.yMin - word.box.yMin
    | 2 => word.box.xMax - w.box.xMax
    | 3 => word.box.yMax - w.box.yMax
    | _ => 0
  if cmp < 0 then -1 else if cmp > 0 then 1 else 0

/-- Method `TextWord::primaryDelta` (lines 307-326). -/
def TextWord.primaryDelta (w word : TextWord) : ℚ :=
  match w.rot with
  | 0 => word.box.xMin - w.box.xMax
  | 1 => word.box.yMin - w.box.yMax
  | 2 => w.box.xMin - word.box.xMax
  | 3 => w.box.yMin - word.box.yMax
  | _ => 0

/-- The scan of line 423, `for (; w1 && word->primaryCmp(w1) > 0; w0 = w1,
w1 = w1->next) ;`, over the words from position `k` on: the position of
`w1` when it stops. -/
def insertPos (word : TextWord) : List TextWord → Nat → Nat
  | [], k => k
  | w1 :: rest, k => if word.primaryCmp w1 > 0 then insertPos word rest (k + 1) else k

/-- Method `TextPool::getBaseIdx` (lines 364-375). -/
def TextPool.getBaseIdx (pool : TextPool) (base : ℚ) : Int :=
  let baseIdx := truncToInt (base / 4)
  if baseIdx < pool.minBaseIdx then pool.minBaseIdx
  else if baseIdx > pool.maxBaseIdx then pool.maxBaseIdx
  else baseIdx

/-- Setter `setPool(baseIdx, p)`. -/
def TextPool.setPool (pool : TextPool) (baseIdx : Int) (ws : List TextWord) : TextPool :=
  { pool with pool := pool.pool.set (baseIdx - pool.minBaseIdx).toNat ws }

/-- Method `TextPool::addWord` (lines 377-432): grow the array by 128 base lines
beyond the word's, then insert the word in its base line before the first
word that does not come before it, scanning from the cursor when the word
comes after it and from the head otherwise. -/
def TextPool.addWord (pool : TextPool) (word : TextWord) : TextPool :=
  let wordBaseIdx : Int := truncToInt (word.base / 4)
  let p1 : TextPool :=
    if pool.minBaseIdx > pool.maxBaseIdx then
      { pool with minBaseIdx := wordBaseIdx - 128, maxBaseIdx := wordBaseIdx + 128,
                  pool := List.replicate 257 [] }
    else if wordBaseIdx < pool.minBaseIdx then
      { pool with minBaseIdx := wordBaseIdx - 128,
                  pool := List.replicate (pool.minBaseIdx - (wordBaseIdx - 128)).toNat [] ++
                    pool.pool }
    else if wordBaseIdx > pool.maxBaseIdx then
      { pool with maxBaseIdx := wordBaseIdx + 128,
                  pool := pool.pool ++
                    List.replicate (wordBaseIdx + 128 - pool.maxBaseIdx).toNat [] }
    else pool
  let bucket : List TextWord := p1.getPool wordBaseIdx
  let start : Nat :=
    match pool.cursor with
    | none => 0
    | some k =>
      match (p1.getPool pool.cursorBaseIdx)[k]? with
      | none => 0
      | some cw => if wordBaseIdx = pool.cursorBaseIdx ∧ word.primaryCmp cw > 0 then k + 1 else 0
  let pos : Nat := insertPos word (bucket.drop start) start
  { p1.setPool wordBaseIdx (bucket.take pos ++ word :: bucket.drop pos) with
    cursor := some pos, cursorBaseIdx := wordBaseIdx }

/-- One call of `TextPage::addChar`, with what it reads from the graphics
state: `(x1, y1)` is `state->transform(x, y)`, `(w1, h1)` is
`state->transformDelta` of the advance less the character and word spacing
(lines 1399-1410), `m` is `state->getFontTransMat`, `font` and `fontSize`
are `curFont` and `curFontSize` as `updateFont` left them. The transform
is affine, so `state->transform(x + dx, y + dy)` is `(x1 + w1, y1 + h1)`. -/
structure GlyphEvent where
  x1 : ℚ
  y1 : ℚ
  w1 : ℚ
  h1 : ℚ
  nBytes : Int
  u : List Unicode
  m : ℚ × ℚ × ℚ × ℚ
  font : TextFontInfo
  fontSize : ℚ
deriving DecidableEq

/-- Class `TextPage`, build side: the state `addChar`, `beginWord` and `endWord`
work on. -/
structure PageBuilder where
  pageWidth : ℚ
  pageHeight : ℚ
  curWord : Option TextWord
  charPos : Int
  nest : Nat
  nTinyChars : Nat
  lastCharOverlap : Bool
  pools : List TextPool
deriving DecidableEq

/-- The builder after the constructor `TextPage::TextPage` (lines 1154-1171)
and `startPage`. -/
def PageBuilder.init (pageWidth pageHeight : ℚ) : PageBuilder :=
  { pageWidth := pageWidth, pageHeight := pageHeight, curWord := none, charPos := 0, nest := 0,
    nTinyChars := 0, lastCharOverlap := false,
    pools := [TextPool.empty, TextPool.empty, TextPool.empty, TextPool.empty] }

/-- The rotation `beginWord` computes from the font matrix (lines 1384-1388). -/
def GlyphEvent.rot (e : GlyphEvent) : Nat :=
  if |e.m.1 * e.m.2.2.2| > |e.m.2.1 * e.m.2.2.1| then (if e.m.2.2.2 < 0 then 0 else 2)
  else (if e.m.2.2.1 > 0 then 1 else 3)

/-- Method `TextPage::beginWord(state, x0, y0)` (lines 1352-1390); `(x, y)` is
`state->transform(x0, y0)`. -/
def PageBuilder.beginWord (b : PageBuilder) (e : GlyphEvent) (x y : ℚ) : PageBuilder :=
  match b.curWord with
  | some _ => { b with nest := b.nest + 1 }
  | none => { b with curWord := some (newTextWord e.rot x y b.charPos e.font e.fontSize) }

/-- Method `TextPage::addWord` (lines 1550-1559): a word without glyph is thrown
away, any other goes to the pool of its rotation. -/
def PageBuilder.addWord (b : PageBuilder) (word : TextWord) : PageBuilder :=
  if word.len = 0 then b
  else
    match b.pools[word.rot]? with
    | none => b
    | some pool => { b with pools := b.pools.set word.rot (pool.addWord word) }

/-- Method `TextPage::endWord` (lines 1535-1548). -/
def PageBuilder.endWord (b : PageBuilder) : PageBuilder :=
  if b.nest > 0 then { b with nest := b.nest - 1 }
  else
    match b.curWord with
    | none => b
    | some w => { b.addWord w with curWord := none }

/-- The loop of lines 1508-1527 from `i` on, over `u[i..]`: a high surrogate
followed by a low one gives one code point (and `i` is incremented before
the position is computed), a lone surrogate gives U+FFFD, any other unit is
copied. -/
def addCharLoop (x1 y1 w1 h1 : ℚ) : Nat → List Unicode → TextWord → TextWord
  | _, [], w => w
  | i, [c], w =>
    if (0xd800 ≤ c ∧ c < 0xdc00) ∨ (0xdc00 ≤ c ∧ c < 0xe000) then
      w.addChar (x1 + i * w1) (y1 + i * h1) w1 h1 0xfffd
    else w.addChar (x1 + i * w1) (y1 + i * h1) w1 h1 c
  | i, c :: lo :: rest, w =>
    if 0xd800 ≤ c ∧ c < 0xdc00 then
      if 0xdc00 ≤ lo ∧ lo < 0xe000 then
        addCharLoop x1 y1 w1 h1 (i + 2) rest
          (w.addChar (x1 + (i + 1 : Nat) * w1) (y1 + (i + 1 : Nat) * h1) w1 h1
            ((((c &&& 0x3ff) <<< 10) ||| (lo &&& 0x3ff)) + 0x10000))
      else
        addCharLoop x1 y1 w1 h1 (i + 1) (lo :: rest)
          (w.addChar (x1 + i * w1) (y1 + i * h1) w1 h1 0xfffd)
    else if 0xdc00 ≤ c ∧ c < 0xe000 then
      addCharLoop x1 y1 w1 h1 (i + 1) (lo :: rest)
        (w.addChar (x1 + i * w1) (y1 + i * h1) w1 h1 0xfffd)
    else
      addCharLoop x1 y1 w1 h1 (i + 1) (lo :: rest) (w.addChar (x1 + i * w1) (y1 + i * h1) w1 h1 c)

/-- The test of lines 1446-1479 on the current word `cw` (with a glyph):
`overlap`, and whether the word is ended. -/
def breakTest (cw : TextWord) (e : GlyphEvent) (lastCharOverlap : Bool) : Bool × Bool :=
  let last : ℚ := cw.edge.getD (cw.len - 1) 0
  let bsd : ℚ × ℚ × ℚ :=
    match cw.rot with
    | 0 => (e.y1, e.x1 - cw.box.xMax, e.x1 - last)
    | 1 => (e.x1, e.y1 - cw.box.yMax, e.y1 - last)
    | 2 => (e.y1, cw.box.xMin - e.x1, last - e.x1)
    | 3 => (e.x1, cw.box.yMin - e.y1, last - e.y1)
    | _ => (0, 0, 0)
  let base := bsd.1
  let sp := bsd.2.1
  let delta := bsd.2.2
  let overlap : Bool :=
    decide (|delta| < 1 / 10 * cw.fontSize ∧ |base - cw.base| < 2 / 10 * cw.fontSize)
  (overlap,
    overlap || lastCharOverlap || decide (sp < -(2 / 10) * cw.fontSize) ||
      decide (sp > 1 / 10 * cw.fontSize) || decide (|base - cw.base| > 1 / 2) ||
      decide (e.fontSize ≠ cw.fontSize))

/-- Whether the glyph runs against the rotation of the word (lines
1493-1496). -/
def reversed (cw : TextWord) (e : GlyphEvent) : Bool :=
  decide ((cw.rot = 0 ∧ e.w1 < 0) ∨ (cw.rot = 1 ∧ e.h1 < 0) ∨ (cw.rot = 2 ∧ e.w1 > 0) ∨
    (cw.rot = 3 ∧ e.h1 > 0))

/-- Lines 1484-1528 of `TextPage::addChar`: begin a word if there is none, start
over with swapped ends when the glyph runs backwards, then add the code
points. -/
def PageBuilder.addGlyphs (b : PageBuilder) (e : GlyphEvent) : PageBuilder :=
  if e.u.length = 0 then b
  else
    let b1 : PageBuilder := if b.curWord.isNone then b.beginWord e e.x1 e.y1 else b
    match b1.curWord with
    | none => b1
    | some cw =>
      if reversed cw e then
        let b2 : PageBuilder := (b1.endWord).beginWord e (e.x1 + e.w1) (e.y1 + e.h1)
        { b2 with curWord := b2.curWord.map (fun w =>
            addCharLoop (e.x1 + e.w1) (e.y1 + e.h1) (-e.w1 / e.u.length) (-e.h1 / e.u.length)
              0 e.u w) }
      else
        let w : TextWord :=
          addCharLoop e.x1 e.y1 (e.w1 / e.u.length) (e.h1 / e.u.length) 0 e.u cw
        { b1 with curWord := some w }

/-- The first test of `TextPage::addChar` (lines 1411-1413): the glyph is
outside the page bounds or larger than the page. -/
def PageBuilder.offPage (b : PageBuilder) (e : GlyphEvent) : Prop :=
  e.x1 + e.w1 < 0 ∨ e.x1 > b.pageWidth ∨ e.y1 + e.h1 < 0 ∨ e.y1 > b.pageHeight ∨
    e.w1 > b.pageWidth ∨ e.h1 > b.pageHeight

instance (b : PageBuilder) (e : GlyphEvent) : Decidable (b.offPage e) := by
  unfold PageBuilder.offPage; infer_instance

/-- The count of lines 1419-1421: `++nTinyChars` for a tiny glyph unless tiny
glyphs are kept. -/
def PageBuilder.countTiny (keepTiny : Bool) (b : PageBuilder) (e : GlyphEvent) : PageBuilder :=
  if keepTiny = false ∧ |e.w1| < 3 ∧ |e.h1| < 3 then { b with nTinyChars := b.nTinyChars + 1 }
  else b

/-- The second test of `TextPage::addChar` (lines 1419-1425): the glyph is tiny
and the page has had its 50000 tiny glyphs. -/
def PageBuilder.tinyDropped (keepTiny : Bool) (b : PageBuilder) (e : GlyphEvent) : Prop :=
  keepTiny = false ∧ (|e.w1| < 3 ∧ |e.h1| < 3) ∧ b.nTinyChars + 1 > 50000

instance (keepTiny : Bool) (b : PageBuilder) (e : GlyphEvent) :
    Decidable (b.tinyDropped keepTiny e) := by
  unfold PageBuilder.tinyDropped; infer_instance

/-- Lines 1446-1482 of `TextPage::addChar`: end the current word when the
break test says so, and remember whether the glyph overlaps the one before. -/
def PageBuilder.breakWord (b : PageBuilder) (e : GlyphEvent) : PageBuilder :=
  match b.curWord with
  | none => { b with lastCharOverlap := false }
  | some cw =>
    if cw.len > 0 then
      let t := breakTest cw e b.lastCharOverlap
      let b1 : PageBuilder := if t.2 then b.endWord else b
      { b1 with lastCharOverlap := t.1 }
    else { b with lastCharOverlap := false }

/-- Method `TextPage::addChar` (lines 1392-1533), from the bounds check on;
`keepTiny` is `globalParams->getTextKeepTinyChars()`. -/
def PageBuilder.addChar (keepTiny : Bool) (b : PageBuilder) (e : GlyphEvent) : PageBuilder :=
  if b.offPage e then { b with charPos := b.charPos + e.nBytes }
  else
    let b0 : PageBuilder := b.countTiny keepTiny e
    if b.tinyDropped keepTiny e then { b0 with charPos := b0.charPos + e.nBytes }
    else if e.u = [0x20] then
      PageBuilder.endWord
        { b0 with curWord := b0.curWord.map (fun w => { w with charLen := w.charLen + 1 }),
                  charPos := b0.charPos + e.nBytes }
    else
      let b2 : PageBuilder := (b0.breakWord e).addGlyphs e
      { b2 with curWord := b2.curWord.map (fun w => { w with charLen := w.charLen + e.nBytes }),
                charPos := b2.charPos + e.nBytes }

/-- Method `TextPage::endPage` (lines 1198-1200). -/
def PageBuilder.endPage (b : PageBuilder) : PageBuilder :=
  match b.curWord with
  | none => b
  | some _ => b.endWord

/-- The word builder on a stream of glyph events: `startPage`, one
`addChar` for each event, `endPage`. -/
def buildWords (keepTiny : Bool) (pageWidth pageHeight : ℚ) (events : List GlyphEvent) :
    PageBuilder :=
  (events.foldl (PageBuilder.addChar keepTiny) (PageBuilder.init pageWidth pageHeight)).endPage

/-- The words of a pool, base line by base line. -/
def TextPool.words (pool : TextPool) : List TextWord := pool.pool.flatten

/-- Every word the builder has put in the pools. -/
def PageBuilder.words (b : PageBuilder) : List TextWord := b.pools.flatMap TextPool.words

/-- A glyph event at rotation 0 with the identity transform: the glyph at
`x` on base line `y` with advance `dx`, code points `u`, in font 0 without
font metrics at size `fontSize`. -/
def glyph (x y dx : ℚ) (u : List Unicode) (fontSize : ℚ) : GlyphEvent :=
  { x1 := x, y1 := y, w1 := dx, h1 := 0, nBytes := 1, u := u, m := (1, 0, 0, -1),
    font := ⟨0, none⟩, fontSize := fontSize }

/-! ## UTF-16 decoding, as the specification words it -/

/-- High surrogate: a code unit in `[0xD800, 0xDC00)`. -/
def isHighSurrogate (c : Unicode) : Prop := 0xD800 ≤ c ∧ c < 0xDC00

/-- Low surrogate: a code unit in `[0xDC00, 0xE000)`. -/
def isLowSurrogate (c : Unicode) : Prop := 0xDC00 ≤ c ∧ c < 0xE000

instance (c : Unicode) : Decidable (isHighSurrogate c) := by
  unfold isHighSurrogate; infer_instance

instance (c : Unicode) : Decidable (isLowSurrogate c) := by
  unfold isLowSurrogate; infer_instance

/-- The UTF-16 decoding of a buffer of code units, in the specification's
words: a high surrogate immediately followed by a low surrogate becomes the
single code point `0x10000 + (hi - 0xD800) * 0x400 + (lo - 0xDC00)`, every
unpaired surrogate becomes U+FFFD, every other unit is copied. -/
def decodeUTF16 : List Unicode → List Unicode
  | [] => []
  | [c] => [if isHighSurrogate c ∨ isLowSurrogate c then 0xFFFD else c]
  | hi :: lo :: rest =>
    if isHighSurrogate hi ∧ isLowSurrogate lo then
      (0x10000 + (hi - 0xD800) * 0x400 + (lo - 0xDC00)) :: decodeUTF16 rest
    else
      (if isHighSurrogate hi ∨ isLowSurrogate hi then 0xFFFD else hi) :: decodeUTF16 (lo :: rest)

/-- An accepted glyph event: `TextPage::addChar` reaches the loop of lines
1505-1528 with it, that is, the glyph is not thrown away by the bounds or the
tiny-glyph test, is not the space that only breaks the word, and has a code
unit. -/
def PageBuilder.accepts (keepTiny : Bool) (b : PageBuilder) (e : GlyphEvent) : Prop :=
  ¬ b.offPage e ∧ ¬ b.tinyDropped keepTiny e ∧ e.u ≠ [0x20] ∧ e.u ≠ []

instance (keepTiny : Bool) (b : PageBuilder) (e : GlyphEvent) :
    Decidable (b.accepts keepTiny e) := by
  unfold PageBuilder.accepts; infer_instance

/-! ## Primary axis of a rotation -/

/-- The coordinate along the primary axis: `x` for rotations 0 and 2, `y` for
1 and 3. -/
def pri (rot : Nat) (x y : ℚ) : ℚ := if rot = 0 ∨ rot = 2 then x else y

/-- The bound of the word on the side its glyphs are added: `xMax`, `yMax`,
`xMin`, `yMin` for rotations 0 to 3. -/
def TextWord.trail (w : TextWord) : ℚ :=
  match w.rot with
  | 0 => w.box.xMax
  | 1 => w.box.yMax
  | 2 => w.box.xMin
  | _ => w.box.yMin

/-- The bound of the word on the side of its first glyph: `xMin`, `yMin`,
`xMax`, `yMax` for rotations 0 to 3. -/
def TextWord.lead (w : TextWord) : ℚ :=
  match w.rot with
  | 0 => w.box.xMin
  | 1 => w.box.yMin
  | 2 => w.box.xMax
  | _ => w.box.yMax

/-- The direction of writing along the primary axis: 1 for rotations 0 and
1, -1 for 2 and 3. -/
def dirSign (rot : Nat) : ℚ := if rot = 0 ∨ rot = 1 then 1 else -1

/-- A word as `beginWord` makes it for the event: no glyph yet. -/
def FreshFor (e : GlyphEvent) (w : TextWord) : Prop :=
  w.text = [] ∧ w.edge = [] ∧ w.rot = e.rot ∧ w.fontSize = e.fontSize

/-! ## Runs of `TextWord::addChar` -/

/-- The arguments of one call `TextWord::addChar(state, x, y, dx, dy, c, u)`. -/
structure GlyphCall where
  x : ℚ
  y : ℚ
  dx : ℚ
  dy : ℚ
  u : Unicode
deriving DecidableEq

/-- Consecutive calls of `TextWord::addChar` on one word. -/
def TextWord.addChars (w : TextWord) (gs : List GlyphCall) : TextWord :=
  gs.foldl (fun w g => w.addChar g.x g.y g.dx g.dy g.u) w

/-- The glyph events of the example "Hello": H(0,6) e(6,4) l(10,2) l(12,2)
o(14,6) at font size 10 on the base line 0. -/
def helloEvents : List GlyphEvent :=
  [glyph 0 0 6 [72] 10, glyph 6 0 4 [101] 10, glyph 10 0 2 [108] 10, glyph 12 0 2 [108] 10,
    glyph 14 0 6 [111] 10]

/-! ## Monotone edges -/

/-- The edge array of the word is monotone in the direction of its rotation
up to `tol`: `len + 1` edges and, for `0 <= i < len`,
`edge[i] - tol <= edge[i+1]` for rotations 0 and 1 and
`edge[i+1] <= edge[i] + tol` for 2 and 3. With `tol = 0` the array is
monotone. -/
def TextWord.EdgesMonotoneWithin (w : TextWord) (tol : ℚ) : Prop :=
  w.edge.length = w.len + 1 ∧
    ∀ i, i < w.len →
      if w.rot = 0 ∨ w.rot = 1 then w.edge.getD i 0 - tol ≤ w.edge.getD (i + 1) 0
      else w.edge.getD (i + 1) 0 ≤ w.edge.getD i 0 + tol

instance (w : TextWord) (tol : ℚ) : Decidable (w.EdgesMonotoneWithin tol) := by
  unfold TextWord.EdgesMonotoneWithin; infer_instance

/-- A word under construction at rotation `r`, with a glyph: its edges are
`E ++ [a, t]` with `t` the bound on the trailing side, the last glyph runs
from `a` to `t` in the direction of writing, and the leading edges step back
by at most `minDupBreakOverlap * |fontSize|`. -/
def WordGood (r : Nat) (w : TextWord) : Prop :=
  w.rot = r ∧ ∃ (E : List ℚ) (a t : ℚ), w.edge = E ++ [a, t] ∧ w.len = E.length + 1 ∧
    w.trail = t ∧ 0 ≤ dirSign r * (t - a) ∧
    List.Chain' (fun a b => -(2 / 10 * |w.fontSize|) ≤ dirSign r * (b - a)) (E ++ [a])

/-- State of the word builder between two events of a stream at rotation `r`. -/
def BuilderInv (r : Nat) (b : PageBuilder) : Prop :=
  b.nest = 0 ∧ (∀ cw, b.curWord = some cw → WordGood r cw) ∧ ∀ w ∈ b.words, WordGood r w

/-- A combining acute accent (U+0301) with no advance at `x = 100`, then the
letter e drawn 1.5 to the left of it, at font size 10 on the base line
100. -/
def accentEvents : List GlyphEvent := [glyph 100 100 0 [0x301] 10, glyph (197 / 2) 100 5 [101] 10]

/-! ## `TextLine::coalesce` -/

/-- Method `TextWord::merge` (lines 257-284): the box is enlarged, the code
points and edges of `word` follow those of the word, `charLen` is added. -/
def TextWord.merge (w word : TextWord) : TextWord :=
  { w with box := ⟨if word.box.xMin < w.box.xMin then word.box.xMin else w.box.xMin,
                   if word.box.xMax > w.box.xMax then word.box.xMax else w.box.xMax,
                   if word.box.yMin < w.box.yMin then word.box.yMin else w.box.yMin,
                   if word.box.yMax > w.box.yMax then word.box.yMax else w.box.yMax⟩,
           text := w.text ++ word.text,
           edge := w.edge.take w.len ++ word.edge.take (word.len + 1),
           charLen := w.charLen + word.charLen }

/-- The loop of lines 537-547 with `word0 :: word1 :: ...` the words from
`word0` on. -/
def minSpaceLoop : List TextWord → ℚ → ℚ
  | word0 :: word1 :: rest, minSpace =>
    if minSpace > 0 then
      let m1 : ℚ := if word1.len > 1 then 0 else minSpace
      let delta := word0.primaryDelta word1
      minSpaceLoop (word1 :: rest) (if delta < m1 then delta else m1)
    else minSpace
  | _, minSpace => minSpace

/-- The inter-word space threshold of lines 532-556, for a line of at least
two words `w0 :: w1 :: rest`. -/
def spaceThreshold (w0 w1 : TextWord) (rest : List TextWord) : ℚ :=
  let minSpace : ℚ :=
    if w0.len > 1 ∨ w1.len > 1 then 0
    else minSpaceLoop (w1 :: rest) (w0.primaryDelta w1)
  if minSpace ≤ 0 then 3 / 100 * w0.fontSize
  else if 13 / 10 * minSpace > 4 / 10 * w0.fontSize then 4 / 10 * w0.fontSize
  else 13 / 10 * minSpace

/-- The merge loop of lines 559-578: `word0`, then the words from `word1`
on; `fontSize` is `words->fontSize`. -/
def mergeLoop (space fontSize : ℚ) : TextWord → List TextWord → List TextWord
  | word0, [] => [word0]
  | word0, word1 :: rest =>
    if word0.primaryDelta word1 ≥ space then
      { word0 with spaceAfter := true } :: mergeLoop space fontSize word1 rest
    else if word0.font = word1.font ∧
        |word0.fontSize - word1.fontSize| < 5 / 100 * fontSize ∧
        word1.charPos = word0.charPos + word0.charLen then
      mergeLoop space fontSize (word0.merge word1) rest
    else word0 :: mergeLoop space fontSize word1 rest

/-- The words of a line after lines 530-579 of `TextLine::coalesce`. -/
def coalesceWords : List TextWord → List TextWord
  | w0 :: w1 :: rest => mergeLoop (spaceThreshold w0 w1 rest) w0.fontSize w0 (w1 :: rest)
  | ws => ws

/-- Method `TextLine::coalesce` (lines 526-616): threshold, merge loop, then the
`*Pre` and `*Post` passes over the words. The box of the line is left as
`addWord` made it. -/
def TextLine.coalesce (line : TextLine) : TextLine :=
  { line with words := wordsPost (wordsPre (coalesceWords line.words)) }

/-- Method `TextLine::primaryCmp` (lines 489-508). -/
def TextLine.primaryCmp (l line : TextLine) : Int :=
  let cmp : ℚ :=
    match l.rot with
    | 0 => l.box.xMin - line.box.xMin
    | 1 => l.box.yMin - line.box.yMin
    | 2 => line.box.xMax - l.box.xMax
    | 3 => line.box.yMax - l.box.yMax
    | _ => 0
  if cmp < 0 then -1 else if cmp > 0 then 1 else 0

/-- Method `TextLine::secondaryCmp` (lines 510-515). -/
def TextLine.secondaryCmp (l line : TextLine) : Int :=
  let cmp : ℚ := if l.rot = 0 ∨ l.rot = 3 then l.base - line.base else line.base - l.base
  if cmp < 0 then -1 else if cmp > 0 then 1 else 0

/-- Method `TextLine::cmpYX` (lines 517-524). -/
def TextLine.cmpYX (l line : TextLine) : Int :=
  if l.secondaryCmp line ≠ 0 then l.secondaryCmp line else l.primaryCmp line

/-- A line as `new TextLine(blk, word0->rot, word0->base)` and `addWord` over
`ws` leave it (lines 438-487). -/
def newTextLine (rot : Nat) (base : ℚ) (ws : List TextWord) : TextLine :=
  { words := ws, box := lineBox ws, pre := ⟨0, 0, 0, 0⟩, post := ⟨0, 0, 0, 0⟩, rot := rot,
    base := base }

/-! ## `TextBlock::coalesce` -/

/-- A block while `TextPage::coalesce` fills it: the constructor
`TextBlock::TextBlock` (lines 622-636) gives the empty box `xMin = yMin = 0`,
`xMax = yMax = -1` and an empty pool. -/
structure NewBlock where
  rot : Nat
  box : Box := ⟨0, -1, 0, -1⟩
  pool : TextPool := TextPool.empty
deriving DecidableEq

/-- Method `TextBlock::addWord` (lines 648-669). -/
def NewBlock.addWord (blk : NewBlock) (word : TextWord) : NewBlock :=
  { blk with pool := blk.pool.addWord word, box := addWordBox blk.box word }

/-- Unlinking of the word at position `k` of base line `baseIdx`
(`word1->next = word2->next`, or `setPool(baseIdx, word2->next)` for the
head). -/
def TextPool.removeAt (pool : TextPool) (baseIdx : Int) (k : Nat) : TextPool :=
  pool.setPool baseIdx ((pool.getPool baseIdx).eraseIdx k)

/-- The test of lines 702-720 on `word2` for `word0`: same length and code
points, and the four bounds within `priDelta`, `secDelta`. -/
def isDup (rot : Nat) (word0 word2 : TextWord) : Bool :=
  let priDelta : ℚ := 1 / 10 * word0.fontSize
  let secDelta : ℚ := 2 / 10 * word0.fontSize
  decide (word2.len = word0.len ∧ word2.text = word0.text) &&
    (match rot with
     | 0 | 2 =>
       decide (|word0.box.xMin - word2.box.xMin| < priDelta ∧
         |word0.box.xMax - word2.box.xMax| < priDelta ∧
         |word0.box.yMin - word2.box.yMin| < secDelta ∧
         |word0.box.yMax - word2.box.yMax| < secDelta)
     | 1 | 3 =>
       decide (|word0.box.xMin - word2.box.xMin| < secDelta ∧
         |word0.box.xMax - word2.box.xMax| < secDelta ∧
         |word0.box.yMin - word2.box.yMin| < priDelta ∧
         |word0.box.yMax - word2.box.yMax| < priDelta)
     | _ => false)

/-- The walk `for (; word2; word1 = word2, word2 = word2->next)` of line 701
from position `k` of a base line: the position of the first duplicate. -/
def findDupFrom (rot : Nat) (word0 : TextWord) : List TextWord → Nat → Option Nat
  | [], _ => none
  | word2 :: rest, k =>
    if isDup rot word0 word2 then some k else findDupFrom rot word0 rest (k + 1)

/-- The loop `for (idx1 = idx0; idx1 <= maxBaseIdx; ++idx1)` of lines 693-729
for the word at position `k0` of base line `idx0`, from `idx1` on with
`todo` the distance to `maxBaseIdx + 1`: the base line and position of the
first duplicate. -/
def findDup (rot : Nat) (pool : TextPool) (word0 : TextWord) (idx0 : Int) (k0 : Nat) :
    Nat → Int → Option (Int × Nat)
  | 0, _ => none
  | todo + 1, idx1 =>
    let r : Option Nat :=
      if idx1 = idx0 then findDupFrom rot word0 ((pool.getPool idx0).drop (k0 + 1)) (k0 + 1)
      else findDupFrom rot word0 (pool.getPool idx1) 0
    match r with
    | some k => some (idx1, k)
    | none => findDup rot pool word0 idx0 k0 todo (idx1 + 1)

/-- The loop `while (word0)` of lines 683-740 on base line `idx0`, with
`word0` at position `k0`: a duplicate found is unlinked and deleted and
`word0` stays, else `word0` moves on. Returns the pool and the words
deleted. -/
def dedupeLine (rot : Nat) (idx0 : Int) :
    Nat → TextPool → Nat → List TextWord → Except Fault (TextPool × List TextWord)
  | 0, _, _, _ => .error .outOfFuel
  | fuel + 1, pool, k0, deleted =>
    match (pool.getPool idx0)[k0]? with
    | none => .ok (pool, deleted)
    | some word0 =>
      let secDelta : ℚ := 2 / 10 * word0.fontSize
      let maxBaseIdx : Int :=
        if rot = 0 ∨ rot = 3 then pool.getBaseIdx (word0.base + secDelta)
        else pool.getBaseIdx (word0.base - secDelta)
      match findDup rot pool word0 idx0 k0 (maxBaseIdx + 1 - idx0).toNat idx0 with
      | some (idx1, k) =>
        dedupeLine rot idx0 fuel (pool.removeAt idx1 k) k0
          (deleted ++ ((pool.getPool idx1)[k]?).toList)
      | none => dedupeLine rot idx0 fuel pool (k0 + 1) deleted

/-- The loop `for (idx0 = pool->minBaseIdx; idx0 <= pool->maxBaseIdx; ++idx0)`
of lines 681-741, from `idx0` on with `todo` the distance to
`maxBaseIdx + 1`; `fuel` bounds the rounds of the loop `while (word0)` on
each base line. -/
def dedupeFrom (rot : Nat) (fuel : Nat) :
    Nat → Int → TextPool → List TextWord → Except Fault (TextPool × List TextWord)
  | 0, _, pool, deleted => .ok (pool, deleted)
  | todo + 1, idx0, pool, deleted =>
    match dedupeLine rot idx0 fuel pool 0 deleted with
    | .error e => .error e
    | .ok r => dedupeFrom rot fuel todo (idx0 + 1) r.1 r.2

/-- The duplicate-removal pass of `TextBlock::coalesce` (lines 680-741):
the pool after it and the words deleted. A round of the loop
`while (word0)` deletes a word or moves `word0` on, so twice the number of
words bounds the rounds on a base line. -/
def dedupe (rot : Nat) (pool : TextPool) : Except Fault (TextPool × List TextWord) :=
  dedupeFrom rot (2 * pool.words.length + 1) (pool.maxBaseIdx + 1 - pool.minBaseIdx).toNat
    pool.minBaseIdx pool []

/-- Lines 759-770: the base line, among the first four from
`poolMinBaseIdx`, whose first word is the left-most. -/
def startBaseIdx (pool : TextPool) (poolMinBaseIdx : Int) : Int :=
  [1, 2, 3].foldl
    (fun (start : Int) (d : Int) =>
      let baseIdx := poolMinBaseIdx + d
      if baseIdx ≤ pool.maxBaseIdx then
        match (pool.getPool baseIdx).head?, (pool.getPool start).head? with
        | some w, some s => if w.primaryCmp s < 0 then baseIdx else start
        | _, _ => start
      else start)
    poolMinBaseIdx

/-- The walk of one base line in lines 795-810, from position `k`: the first
word whose base line is in the range and that does not begin more than
`-minCharSpacing * fontSize` before the end of `lastWord`. -/
def firstFit (lastWord : TextWord) (minBase maxBase fontSize : ℚ) :
    List TextWord → Nat → Option (Nat × TextWord)
  | [], _ => none
  | word1 :: rest, k =>
    if word1.base ≥ minBase ∧ word1.base ≤ maxBase ∧
        lastWord.primaryDelta word1 ≥ -(2 / 10) * fontSize then some (k, word1)
    else firstFit lastWord minBase maxBase fontSize rest (k + 1)

/-- The loop `for (baseIdx = minBaseIdx; baseIdx <= maxBaseIdx; ++baseIdx)` of
lines 794-811, from `baseIdx` on with `todo` the distance to
`maxBaseIdx + 1`; `best` is `(bestWordBaseIdx, position of bestWord1,
bestWord1)`. -/
def bestWord (pool : TextPool) (lastWord : TextWord) (minBase maxBase fontSize : ℚ) :
    Nat → Int → Option (Int × Nat × TextWord) → Option (Int × Nat × TextWord)
  | 0, _, best => best
  | todo + 1, baseIdx, best =>
    let best1 : Option (Int × Nat × TextWord) :=
      match firstFit lastWord minBase maxBase fontSize (pool.getPool baseIdx) 0 with
      | none => best
      | some (k, word1) =>
        if decide (lastWord.primaryDelta word1 < 15 / 10 * fontSize) &&
            (match best with
             | none => true
             | some b => decide (word1.primaryCmp b.2.2 < 0)) then some (baseIdx, k, word1)
        else best
    bestWord pool lastWord minBase maxBase fontSize todo (baseIdx + 1) best1

/-- The loop `while (1)` of lines 788-825: the words of the line in the order
they are added, and the pool left. -/
def lineLoop (minBase maxBase fontSize : ℚ) (minBaseIdx maxBaseIdx : Int) :
    Nat → TextPool → TextWord → List TextWord → Except Fault (List TextWord × TextPool)
  | 0, _, _, _ => .error .outOfFuel
  | fuel + 1, pool, lastWord, ws =>
    match bestWord pool lastWord minBase maxBase fontSize (maxBaseIdx + 1 - minBaseIdx).toNat
        minBaseIdx none with
    | none => .ok (ws, pool)
    | some (baseIdx, k, word1) =>
      lineLoop minBase maxBase fontSize minBaseIdx maxBaseIdx fuel (pool.removeAt baseIdx k)
        word1 (ws ++ [word1])

/-- Lines 757-825: the seed word of a line and the words that follow it, out of
the pool whose first non-empty base line is `poolMinBaseIdx`. -/
def buildLine (pool : TextPool) (poolMinBaseIdx : Int) : Except Fault (TextLine × TextPool) :=
  let start := startBaseIdx pool poolMinBaseIdx
  match pool.getPool start with
  | [] => .error .nullDeref
  | word0 :: rest =>
    let pool1 := pool.setPool start rest
    let fontSize := word0.fontSize
    let minBase := word0.base - 1 / 2 * fontSize
    let maxBase := word0.base + 1 / 2 * fontSize
    match lineLoop minBase maxBase fontSize (pool1.getBaseIdx minBase) (pool1.getBaseIdx maxBase)
        (pool1.words.length + 1) pool1 word0 [word0] with
    | .error e => .error e
    | .ok r => .ok (newTextLine word0.rot word0.base r.1, r.2)

/-- The scan of lines 835-837, `for (; line1 && line->cmpYX(line1) > 0; ...) ;`,
over the lines from position `k` on: the position of `line1` when it
stops. -/
def linePos (line : TextLine) : List TextLine → Nat → Nat
  | [], k => k
  | line1 :: rest, k => if line.cmpYX line1 > 0 then linePos line rest (k + 1) else k

/-- Lines 828-834: where the scan for the place of the line starts, behind
`curLine` when the line comes after it and at the head otherwise. -/
def lineStart (lines : List TextLine) (curLine : Option Nat) (line : TextLine) : Nat :=
  match curLine with
  | none => 0
  | some c =>
    match lines[c]? with
    | none => 0
    | some cl => if line.cmpYX cl > 0 then c + 1 else 0

/-- Lines 827-845: the line is linked where the scan stops, becomes `curLine`
and is coalesced. -/
def insertLine (lines : List TextLine) (curLine : Option Nat) (line : TextLine) :
    List TextLine × Nat :=
  let pos := linePos line (lines.drop (lineStart lines curLine line))
    (lineStart lines curLine line)
  (lines.take pos ++ line.coalesce :: lines.drop pos, pos)

/-- The loop `while (1)` of lines 747-847: lines are built and inserted until
the pool has no word. -/
def buildLines :
    Nat → TextPool → Int → List TextLine → Option Nat → Except Fault (List TextLine)
  | 0, _, _, _, _ => .error .outOfFuel
  | fuel + 1, pool, poolMinBaseIdx, lines, curLine =>
    let i := skipEmptyLines pool (pool.maxBaseIdx + 1 - poolMinBaseIdx).toNat poolMinBaseIdx
    if i > pool.maxBaseIdx then .ok lines
    else
      match buildLine pool i with
      | .error e => .error e
      | .ok r =>
        let ins := insertLine lines curLine r.1
        buildLines fuel r.2 i ins.1 (some ins.2)

/-- Method `TextBlock::coalesce` (lines 671-881): duplicate removal, line
building, then the `*Pre` and `*Post` passes over the lines (`lines` is
dereferenced at line 857). Returns the block and the words deleted as
duplicates. -/
def NewBlock.coalesce (blk : NewBlock) : Except Fault (TextBlock × List TextWord) :=
  match dedupe blk.rot blk.pool with
  | .error e => .error e
  | .ok d =>
    match buildLines (d.1.words.length + 1) d.1 d.1.minBaseIdx [] none with
    | .error e => .error e
    | .ok [] => .error .nullDeref
    | .ok (l :: ls) =>
      .ok ({ lines := linesPost (linesPre (l :: ls)), box := blk.box, pre := ⟨0, 0, 0, 0⟩,
             post := ⟨0, 0, 0, 0⟩, rot := blk.rot }, d.2)

/-- A block filled with the words `ws` by `TextBlock::addWord`, in that
order. -/
def blockOf (rot : Nat) (ws : List TextWord) : NewBlock := ws.foldl NewBlock.addWord { rot := rot }

/-! ## Block assembly of `TextPage::coalesce` (lines 1585-1892) -/

/-- The overlap test of the block along the primary axis, with margin `m`:
`word1->xMin < blk->xMax + m && word1->xMax > blk->xMin - m` for rotations 0
and 2, the same on `y` for 1 and 3. -/
def overlapsBlock (rot : Nat) (box : Box) (m : ℚ) (word1 : TextWord) : Bool :=
  if rot = 0 ∨ rot = 2 then
    decide (word1.box.xMin < box.xMax + m ∧ word1.box.xMax > box.xMin - m)
  else decide (word1.box.yMin < box.yMax + m ∧ word1.box.yMax > box.yMin - m)

/-- The test of lines 1644-1650: a word on a base line above the block, at
most `lineSpace` away, that overlaps the block and has about its font
size. -/
def testAbove (rot : Nat) (fontSize minBase : ℚ) (blk : NewBlock) (word1 : TextWord) : Bool :=
  decide (word1.base < minBase ∧ word1.base ≥ minBase - 15 / 10 * fontSize) &&
    overlapsBlock rot blk.box 0 word1 &&
    decide (|word1.fontSize - fontSize| < 5 / 100 * fontSize)

/-- The test of lines 1679-1685: the same below the block. -/
def testBelow (rot : Nat) (fontSize maxBase : ℚ) (blk : NewBlock) (word1 : TextWord) : Bool :=
  decide (word1.base > maxBase ∧ word1.base ≤ maxBase + 15 / 10 * fontSize) &&
    overlapsBlock rot blk.box 0 word1 &&
    decide (|word1.fontSize - fontSize| < 5 / 100 * fontSize)

/-- The test of lines 1713-1721: a word on a base line of the block that is
within `colSpace1` of the block. -/
def testInside (rot : Nat) (fontSize minBase maxBase : ℚ) (blk : NewBlock) (word1 : TextWord) :
    Bool :=
  decide (word1.base ≥ minBase - 1 / 2 * fontSize ∧ word1.base ≤ maxBase + 1 / 2 * fontSize) &&
    overlapsBlock rot blk.box (3 / 10 * fontSize) word1 &&
    decide (|word1.fontSize - fontSize| < 6 / 10 * fontSize)

/-- The test of lines 1754-1762 and 1776-1784: a word left of the block, less
than `colSpace2` away. -/
def testLeft (rot : Nat) (fontSize minBase maxBase : ℚ) (blk : NewBlock) (word1 : TextWord) :
    Bool :=
  decide (word1.base ≥ minBase - 1 / 2 * fontSize ∧ word1.base ≤ maxBase + 1 / 2 * fontSize) &&
    (if rot = 0 ∨ rot = 2 then
      decide (word1.box.xMax ≤ blk.box.xMin ∧ word1.box.xMax > blk.box.xMin - 1 * fontSize)
     else decide (word1.box.yMax ≤ blk.box.yMin ∧ word1.box.yMax > blk.box.yMin - 1 * fontSize)) &&
    decide (|word1.fontSize - fontSize| < 2 / 10 * fontSize)

/-- The test of lines 1818-1826 and 1840-1848: a word right of the block,
less than `colSpace2` away. -/
def testRight (rot : Nat) (fontSize minBase maxBase : ℚ) (blk : NewBlock) (word1 : TextWord) :
    Bool :=
  decide (word1.base ≥ minBase - 1 / 2 * fontSize ∧ word1.base ≤ maxBase + 1 / 2 * fontSize) &&
    (if rot = 0 ∨ rot = 2 then
      decide (word1.box.xMin ≥ blk.box.xMax ∧ word1.box.xMin < blk.box.xMax + 1 * fontSize)
     else decide (word1.box.yMin ≥ blk.box.yMax ∧ word1.box.yMin < blk.box.yMax + 1 * fontSize)) &&
    decide (|word1.fontSize - fontSize| < 2 / 10 * fontSize)

/-- The walk `while (word1)` of a base line in lines 1643-1666 (and 1678-1701,
1712-1736): each word that passes the test against the block as it is then
is unlinked and added to the block. Returns the words left in the base line,
the block, and the base of the last word moved (`last`, for `newMinBase`
and `newMaxBase`). -/
def takeAll (test : NewBlock → TextWord → Bool) :
    List TextWord → NewBlock → Option ℚ → List TextWord × NewBlock × Option ℚ
  | [], blk, last => ([], blk, last)
  | word1 :: rest, blk, last =>
    if test blk word1 then takeAll test rest (blk.addWord word1) (some word1.base)
    else
      let r := takeAll test rest blk last
      (word1 :: r.1, r.2.1, r.2.2)

/-- One of the loops over base lines of lines 1638-1667, 1673-1702 and
1707-1737: `todo` base lines from `baseIdx` on, in steps of `step` (-1 or
1). -/
def sweep (test : NewBlock → TextWord → Bool) (step : Int) :
    Nat → Int → TextPool → NewBlock → Option ℚ → TextPool × NewBlock × Option ℚ
  | 0, _, pool, blk, last => (pool, blk, last)
  | todo + 1, baseIdx, pool, blk, last =>
    let r := takeAll test (pool.getPool baseIdx) blk last
    sweep test step todo (baseIdx + step) (pool.setPool baseIdx r.1) r.2.1 r.2.2

/-- The counting loops of lines 1748-1768 and 1812-1832: the number of base
lines, `todo` of them from `baseIdx` on, that have a word passing the
test. -/
def countSide (test : TextWord → Bool) (pool : TextPool) : Nat → Int → Nat
  | 0, _ => 0
  | todo + 1, baseIdx =>
    (if (pool.getPool baseIdx).any test then 1 else 0) + countSide test pool todo (baseIdx + 1)

/-- The state of the loop `do ... while (found)` of lines 1632-1873. -/
structure Grow where
  pool : TextPool
  blk : NewBlock
  minBase : ℚ
  maxBase : ℚ
  found : Bool
deriving DecidableEq

/-- The loops of lines 1770-1806 and 1834-1870, from `baseIdx` on: in each
base line up to `getBaseIdx(maxBase + intraLineSpace)` (with `maxBase` as it
is then) the first word passing the test is moved to the block, and
`minBase` or `maxBase` follows its base. `todo` is the distance to
`pool->maxBaseIdx + 1`. -/
def sweepSide (test : ℚ → ℚ → NewBlock → TextWord → Bool) (fontSize : ℚ) :
    Nat → Int → Grow → Grow
  | 0, _, g => g
  | todo + 1, baseIdx, g =>
    if baseIdx ≤ g.pool.getBaseIdx (g.maxBase + 1 / 2 * fontSize) then
      let bucket := g.pool.getPool baseIdx
      match bucket.findIdx? (test g.minBase g.maxBase g.blk), bucket.find? (test g.minBase g.maxBase g.blk) with
      | some k, some word2 =>
        sweepSide test fontSize todo (baseIdx + 1)
          { pool := g.pool.removeAt baseIdx k, blk := g.blk.addWord word2,
            minBase := if word2.base < g.minBase then word2.base else g.minBase,
            maxBase := if word2.base < g.minBase then g.maxBase
                       else if word2.base > g.maxBase then word2.base else g.maxBase,
            found := true }
      | _, _ => sweepSide test fontSize todo (baseIdx + 1) g
    else g

/-- One side scan (lines 1745-1807 or 1809-1871): count the base lines with a
near word, and move the words when there are one to three of them. -/
def growSide (test : ℚ → ℚ → NewBlock → TextWord → Bool) (fontSize : ℚ) (g : Grow) : Grow :=
  let lo := g.pool.getBaseIdx (g.minBase - 1 / 2 * fontSize)
  let hi := g.pool.getBaseIdx (g.maxBase + 1 / 2 * fontSize)
  let n := countSide (test g.minBase g.maxBase g.blk) g.pool (hi + 1 - lo).toNat lo
  if n > 0 ∧ n ≤ 3 then sweepSide test fontSize (g.pool.maxBaseIdx + 1 - lo).toNat lo g
  else g

/-- One round of the loop `do ... while (found)` (lines 1633-1871). -/
def growStep (rot : Nat) (fontSize : ℚ) (g : Grow) : Grow :=
  -- words on the line above
  let hi1 := g.pool.getBaseIdx g.minBase
  let lo1 := g.pool.getBaseIdx (g.minBase - 15 / 10 * fontSize)
  let r1 := sweep (testAbove rot fontSize g.minBase) (-1) (hi1 + 1 - lo1).toNat hi1 g.pool g.blk
    none
  let minBase := r1.2.2.getD g.minBase
  -- words on the line below
  let lo2 := r1.1.getBaseIdx g.maxBase
  let hi2 := r1.1.getBaseIdx (g.maxBase + 15 / 10 * fontSize)
  let r2 := sweep (testBelow rot fontSize g.maxBase) 1 (hi2 + 1 - lo2).toNat lo2 r1.1 r1.2.1 none
  let maxBase := r2.2.2.getD g.maxBase
  -- words on the lines of the block
  let lo3 := r2.1.getBaseIdx (minBase - 1 / 2 * fontSize)
  let hi3 := r2.1.getBaseIdx (maxBase + 1 / 2 * fontSize)
  let r3 := sweep (testInside rot fontSize minBase maxBase) 1 (hi3 + 1 - lo3).toNat lo3 r2.1
    r2.2.1 none
  let found := r1.2.2.isSome || r2.2.2.isSome || r3.2.2.isSome
  let g3 : Grow := { pool := r3.1, blk := r3.2.1, minBase := minBase, maxBase := maxBase,
                     found := found }
  if found then g3
  else growSide (testRight rot fontSize) fontSize (growSide (testLeft rot fontSize) fontSize g3)

/-- The loop `do ... while (found)` of lines 1632-1873. -/
def growBlock (rot : Nat) (fontSize : ℚ) : Nat → Grow → Except Fault Grow
  | 0, _ => .error .outOfFuel
  | fuel + 1, g =>
    let g1 := growStep rot fontSize { g with found := false }
    if g1.found then growBlock rot fontSize fuel g1 else .ok g1

/-- Lines 1602-1879 on the pool whose first non-empty base line is
`poolMinBaseIdx`: the seed word, the growth of the block, and
`blk->coalesce()`. Returns the block, the words deleted as duplicates, and
the pool left. -/
def buildBlock (rot : Nat) (pool : TextPool) (poolMinBaseIdx : Int) :
    Except Fault (TextBlock × List TextWord × TextPool) :=
  let start := startBaseIdx pool poolMinBaseIdx
  match pool.getPool start with
  | [] => .error .nullDeref
  | word0 :: rest =>
    let g0 : Grow :=
      { pool := pool.setPool start rest, blk := NewBlock.addWord { rot := rot } word0,
        minBase := word0.base, maxBase := word0.base, found := false }
    match growBlock rot word0.fontSize (pool.words.length + 1) g0 with
    | .error e => .error e
    | .ok g =>
      match g.blk.coalesce with
      | .error e => .error e
      | .ok r => .ok (r.1, r.2, g.pool)

/-- The loop `while (1)` of lines 1591-1891 for one rotation, with the block
building in place; `deleted` collects the words deleted as duplicates. -/
def blocksOfPool (rot : Nat) :
    Nat → TextPool → Int → List TextBlock → List TextWord →
      Except Fault (List TextBlock × List TextWord × TextPool)
  | 0, _, _, _, _ => .error .outOfFuel
  | fuel + 1, pool, poolMinBaseIdx, blocks, deleted =>
    let i := skipEmptyLines pool (pool.maxBaseIdx + 1 - poolMinBaseIdx).toNat poolMinBaseIdx
    if i > pool.maxBaseIdx then .ok (blocks, deleted, pool)
    else
      match buildBlock rot pool i with
      | .error e => .error e
      | .ok r => blocksOfPool rot fuel r.2.2 i (blocks ++ [r.1]) (deleted ++ r.2.1)

/-- The loop over the rotations (line 1585), for the pools from `pools[rot]`
on: the blocks in the order they are made, the words deleted as duplicates,
and the pools as they are left. -/
def blocksOfPools :
    Nat → List TextPool → List TextBlock → List TextWord →
      Except Fault (List TextBlock × List TextWord × List TextPool)
  | _, [], blocks, deleted => .ok (blocks, deleted, [])
  | rot, pool :: pools, blocks, deleted =>
    match blocksOfPool rot (pool.words.length + 1) pool pool.minBaseIdx blocks deleted with
    | .error e => .error e
    | .ok r =>
      match blocksOfPools (rot + 1) pools r.1 r.2.1 with
      | .error e => .error e
      | .ok r2 => .ok (r2.1, r2.2.1, r.2.2 :: r2.2.2)

/-! ## Pages from glyph events -/

/-- A glyph event at rotation 1 (text rotated to read down the page, font
matrix `(0, 1, 1, 0)`): the glyph on the base line `x`, from `y` with
advance `dy`, code points `u`, in font 0 without font metrics at size
`fontSize`. -/
def glyphDown (x y dy : ℚ) (u : List Unicode) (fontSize : ℚ) : GlyphEvent :=
  { x1 := x, y1 := y, w1 := 0, h1 := dy, nBytes := 1, u := u, m := (0, 1, 1, 0),
    font := ⟨0, none⟩, fontSize := fontSize }

/-- The words of the blocks, block by block and line by line. -/
def blockWords (blocks : List TextBlock) : List TextWord :=
  blocks.flatMap (fun b => b.lines.flatMap (fun l => l.words))

/-- The word builder and the block assembly on a stream of glyph events, on
a page of 600 by 800: for each block the words of its lines as text, and
the number of words deleted as duplicates. -/
def pageLines (events : List GlyphEvent) : Except Fault (List (List (List (List Unicode))) × Nat) :=
  (blocksOfPools 0 (buildWords false 600 800 events).pools [] []).map
    (fun r => (r.1.map (fun b => b.lines.map (fun l => l.words.map (fun w => w.text))),
      r.2.1.length))

/-- The example of a duplicate: X at `0..6` and X at `0.05..6.05` on the
base line 100 at font size 10. -/
def dupEvents : List GlyphEvent := [glyph 0 100 6 [88] 10, glyph (5 / 100) 100 6 [88] 10]

/-- The same duplicate in text that reads down the page: X at `y = 0..6` and
X at `y = 0.05..6.05` on the base line `x = 100.5` at font size 10. -/
def dupEventsDown : List GlyphEvent :=
  [glyphDown (201 / 2) 0 6 [88] 10, glyphDown (201 / 2) (5 / 100) 6 [88] 10]

/-! ## Table detection and extended boxes of `TextPage::coalesce` (lines 1929-2177) -/

/-- The state of the search of lines 1935-1973: `bxMin0`, `byMin0`, `bxMin1`,
`byMin1` and the blocks `fblk2`, `fblk3`, `fblk4` (positions in the block
list). -/
structure Neighbours where
  bxMin0 : ℚ
  byMin0 : ℚ
  bxMin1 : ℚ
  byMin1 : ℚ
  fblk2 : Option Nat := none
  fblk3 : Option Nat := none
  fblk4 : Option Nat := none
deriving DecidableEq

/-- The body of the loop of lines 1950-1973 for `blk2` at position `j`. -/
def neighbourStep (i : Nat) (blk1 : TextBlock) (s : Neighbours) (j : Nat) (blk2 : TextBlock) :
    Neighbours :=
  if j = i then s
  else if blk2.box.yMin ≤ blk1.box.yMax ∧ blk2.box.yMax ≥ blk1.box.yMin ∧
      blk2.box.xMin > blk1.box.xMax ∧ blk2.box.xMin < s.bxMin0 then
    { s with bxMin0 := blk2.box.xMin, fblk2 := some j }
  else if blk2.box.xMin ≤ blk1.box.xMax ∧ blk2.box.xMax ≥ blk1.box.xMin ∧
      blk2.box.yMin > blk1.box.yMax ∧ blk2.box.yMin < s.byMin0 then
    { s with byMin0 := blk2.box.yMin, fblk3 := some j }
  else if blk2.box.xMin > blk1.box.xMax ∧ blk2.box.xMin < s.bxMin1 ∧
      blk2.box.yMin > blk1.box.yMax ∧ blk2.box.yMin < s.byMin1 then
    { s with bxMin1 := blk2.box.xMin, byMin1 := blk2.box.yMin, fblk4 := some j }
  else s

/-- The loop of lines 1950-1973 over `blk2` from position `j` on. -/
def neighbourLoop (i : Nat) (blk1 : TextBlock) : List TextBlock → Nat → Neighbours → Neighbours
  | [], _, s => s
  | blk2 :: rest, j, s => neighbourLoop i blk1 rest (j + 1) (neighbourStep i blk1 s j blk2)

/-- The test of lines 1982-1987 that throws the three blocks away. -/
def notACell (fblk2 fblk3 fblk4 : TextBlock) : Bool :=
  decide (((fblk3.box.xMin ≤ fblk4.box.xMax ∧ fblk3.box.xMax ≥ fblk4.box.xMin) ∨
      (fblk2.box.yMin ≤ fblk4.box.yMax ∧ fblk2.box.yMax ≥ fblk4.box.yMin) ∨
      (fblk2.box.xMin ≤ fblk3.box.xMax ∧ fblk2.box.xMax ≥ fblk3.box.xMin) ∨
      (fblk2.box.yMin ≤ fblk3.box.yMax ∧ fblk2.box.yMax ≥ fblk3.box.yMin)) ∨
    ¬ (fblk4.box.xMin ≤ fblk2.box.xMax ∧ fblk4.box.xMax ≥ fblk2.box.xMin ∧
        fblk4.box.yMin ≤ fblk3.box.yMax ∧ fblk4.box.yMax ≥ fblk3.box.yMin))

/-- The expression `blk->lines->words->fontSize`, when `blk->lines &&
blk->lines->words`. -/
def firstFontSize (blk : TextBlock) : Option ℚ :=
  match blk.lines with
  | [] => none
  | l :: _ =>
    match l.words with
    | [] => none
    | w :: _ => some w.fontSize

/-- Lines 2001-2019: `deltaX` before the scaling by `minColSpacing1` and
`maxIntraLineDelta`. -/
def tableDelta (blk1 fblk2 fblk3 fblk4 : TextBlock) : ℚ :=
  let d1 : ℚ := (firstFontSize blk1).getD 0
  let d2 : ℚ :=
    match firstFontSize fblk2 with
    | none => d1
    | some f => if d1 < f then d1 else f
  let d3 : ℚ :=
    match firstFontSize fblk3 with
    | none => d2
    | some f => if d2 < f then d2 else f
  match firstFontSize fblk4 with
  | none => d3
  | some f => if d3 < f then d3 else f

/-- Lines 2021-2062: the four blocks are aligned in `x` and in `y`. -/
def aligned (blk1 fblk2 fblk3 fblk4 : TextBlock) : Bool :=
  let deltaX : ℚ := tableDelta blk1 fblk2 fblk3 fblk4 * (3 / 10)
  let deltaY : ℚ := tableDelta blk1 fblk2 fblk3 fblk4 * (1 / 2)
  let xc (b : TextBlock) : ℚ := (b.box.xMax + b.box.xMin) / 2
  let yc (b : TextBlock) : ℚ := (b.box.yMax + b.box.yMin) / 2
  let correspondenceX : Nat :=
    (if |xc blk1 - xc fblk3| ≤ deltaX ∧ |xc fblk2 - xc fblk4| ≤ deltaX then 1 else 0) +
    (if |blk1.box.xMin - fblk3.box.xMin| ≤ deltaX ∧ |fblk2.box.xMin - fblk4.box.xMin| ≤ deltaX
      then 1 else 0) +
    (if |blk1.box.xMax - fblk3.box.xMax| ≤ deltaX ∧ |fblk2.box.xMax - fblk4.box.xMax| ≤ deltaX
      then 1 else 0)
  let correspondenceY : Nat :=
    (if |yc blk1 - yc fblk2| ≤ deltaY ∧ |yc fblk3 - yc fblk4| ≤ deltaY then 1 else 0) +
    (if |blk1.box.yMin - fblk2.box.yMin| ≤ deltaY ∧ |fblk3.box.yMin - fblk4.box.yMin| ≤ deltaY
      then 1 else 0) +
    (if |blk1.box.yMax - fblk2.box.yMax| ≤ deltaY ∧ |fblk3.box.yMax - fblk4.box.yMax| ≤ deltaY
      then 1 else 0)
  decide (correspondenceX > 0 ∧ correspondenceY > 0)

/-- Assignment `blk->tableId = tableId` to the block at position `j`. -/
def setTableId (blocks : List TextBlock) (j : Nat) (tableId : Int) : List TextBlock :=
  blocks.modify (fun b => { b with tableId := tableId }) j

/-- The body of the loop of lines 1929-2082 for `blk1` at position `i`:
returns the blocks and `numTables`; `dblMax` is `DBL_MAX`. -/
def tableStep (dblMax : ℚ) (blocks : List TextBlock) (numTables : Nat) (i : Nat) :
    List TextBlock × Nat :=
  match blocks[i]? with
  | none => (blocks, numTables)
  | some b1 =>
    let blk1 : TextBlock := { b1 with ex := b1.box }
    let blocks1 := blocks.set i blk1
    let s := neighbourLoop i blk1 blocks1 0
      { bxMin0 := dblMax, byMin0 := dblMax, bxMin1 := dblMax, byMin1 := dblMax }
    match s.fblk2, s.fblk3, s.fblk4 with
    | some j2, some j3, some j4 =>
      match blocks1[j2]?, blocks1[j3]?, blocks1[j4]? with
      | some fblk2, some fblk3, some fblk4 =>
        if notACell fblk2 fblk3 fblk4 then (blocks1, numTables)
        else if aligned blk1 fblk2 fblk3 fblk4 then
          let t0 : Int := if (-1 : Int) < fblk4.tableId then fblk4.tableId else -1
          let t1 : Int := if t0 < fblk3.tableId then fblk3.tableId else t0
          let t2 : Int := if t1 < fblk2.tableId then fblk2.tableId else t1
          let t3 : Int := if t2 < blk1.tableId then blk1.tableId else t2
          let tableId : Int := if t3 < 0 then numTables else t3
          let numTables1 : Nat := if t3 < 0 then numTables + 1 else numTables
          (setTableId (setTableId (setTableId (setTableId blocks1 i tableId) j2 tableId) j3
            tableId) j4 tableId, numTables1)
        else (blocks1, numTables)
      | _, _, _ => (blocks1, numTables)
    | _, _, _ => (blocks1, numTables)

/-- The loop of lines 1929-2082 over `blk1`, `todo` blocks from position `i`
on. -/
def detectTables (dblMax : ℚ) : Nat → Nat → List TextBlock → Nat → List TextBlock × Nat
  | 0, _, blocks, numTables => (blocks, numTables)
  | todo + 1, i, blocks, numTables =>
    let r := tableStep dblMax blocks numTables i
    detectTables dblMax todo (i + 1) r.1 r.2

/-- An entry of `envelopes` with the entry of `ending_blocks` (a position in
the block list, `none` while it is not assigned). -/
structure Envelope where
  x1 : ℚ
  x2 : ℚ
  y1 : ℚ
  y2 : ℚ
  ending : Option Nat := none
deriving DecidableEq

/-- The body of the loop of lines 2099-2118 for `blk1` at position `i`. -/
def envelopeStep (primaryLR : Bool) (envelopes : List Envelope) (i : Nat) (blk1 : TextBlock) :
    Except Fault (List Envelope) :=
  if blk1.tableId ≥ 0 then
    match envelopes[blk1.tableId.toNat]? with
    | none => .error .outOfBounds
    | some e =>
      let e1 : Envelope :=
        if blk1.ex.xMin < e.x1 then
          { e with x1 := blk1.ex.xMin, ending := if !primaryLR then some i else e.ending }
        else e
      let e2 : Envelope :=
        if blk1.ex.xMax > e1.x2 then
          { e1 with x2 := blk1.ex.xMax, ending := if primaryLR then some i else e1.ending }
        else e1
      .ok (envelopes.set blk1.tableId.toNat
        { e2 with y1 := if blk1.ex.yMin < e2.y1 then blk1.ex.yMin else e2.y1,
                  y2 := if blk1.ex.yMax > e2.y2 then blk1.ex.yMax else e2.y2 })
  else .ok envelopes

/-- The loop of lines 2099-2118 over the blocks from position `i` on. -/
def envelopeLoop (primaryLR : Bool) : List TextBlock → Nat → List Envelope →
    Except Fault (List Envelope)
  | [], _, envelopes => .ok envelopes
  | blk1 :: rest, i, envelopes =>
    match envelopeStep primaryLR envelopes i blk1 with
    | .error e => .error e
    | .ok envelopes1 => envelopeLoop primaryLR rest (i + 1) envelopes1

/-- The body of the loops of lines 2120-2135 for one block: `tableEnd`, then
the extended box from the envelope of the table. -/
def markTable (blocks : List TextBlock) (envelopes : List Envelope) (blk1 : TextBlock) :
    Except Fault TextBlock :=
  if blk1.tableId ≥ 0 then
    match envelopes[blk1.tableId.toNat]? with
    | none => .error .outOfBounds
    | some e =>
      match e.ending with
      | none => .error .nullDeref
      | some j =>
        match blocks[j]? with
        | none => .error .nullDeref
        | some eb =>
          .ok { blk1 with
                tableEnd := if blk1.box.xMin ≤ eb.box.xMax ∧ blk1.box.xMax ≥ eb.box.xMin then true
                            else blk1.tableEnd,
                ex := ⟨e.x1, e.x2, e.y1, e.y2⟩ }
  else .ok blk1

/-- The first inner loop of lines 2148-2159: the nearest neighbours of `blk1`
on its line, as `(xMax, xMin)`. -/
def sideLimits (i : Nat) (blk1 : TextBlock) : List TextBlock → Nat → ℚ × ℚ → ℚ × ℚ
  | [], _, s => s
  | blk2 :: rest, j, s =>
    if j = i then sideLimits i blk1 rest (j + 1) s
    else if blk1.box.yMin ≤ blk2.box.yMax ∧ blk1.box.yMax ≥ blk2.box.yMin then
      let xMax : ℚ := if blk2.box.xMin < s.1 ∧ blk2.box.xMin > blk1.box.xMax then blk2.box.xMin
                      else s.1
      let xMin : ℚ := if blk2.box.xMax > s.2 ∧ blk2.box.xMax < blk1.box.xMin then blk2.box.xMax
                      else s.2
      sideLimits i blk1 rest (j + 1) (xMax, xMin)
    else sideLimits i blk1 rest (j + 1) s

/-- The second inner loop of lines 2161-2175: `blk1->ExMax` and `blk1->ExMin`
follow the blocks below that stay within `(xMin, xMax)`. -/
def extendLoop (i : Nat) (xMax xMin : ℚ) : List TextBlock → Nat → TextBlock → TextBlock
  | [], _, blk1 => blk1
  | blk2 :: rest, j, blk1 =>
    if j = i then extendLoop i xMax xMin rest (j + 1) blk1
    else
      let b1 : TextBlock :=
        if blk2.box.xMax > blk1.ex.xMax ∧ blk2.box.xMax ≤ xMax ∧ blk2.box.yMin ≥ blk1.box.yMax then
          { blk1 with ex := { blk1.ex with xMax := blk2.box.xMax } }
        else blk1
      let b2 : TextBlock :=
        if blk2.box.xMin < b1.ex.xMin ∧ blk2.box.xMin ≥ xMin ∧ blk2.box.yMin ≥ b1.box.yMax then
          { b1 with ex := { b1.ex with xMin := blk2.box.xMin } }
        else b1
      extendLoop i xMax xMin rest (j + 1) b2

/-- The loop of lines 2143-2177, `todo` blocks from position `i` on. The
condition of line 2144 is `!blk1->tableId >= 0`, that is `(!blk1->tableId)
>= 0`, with `!blk1->tableId` equal to 1 for `tableId == 0` and to 0
otherwise. -/
def extendBlocks (dblMax dblMin : ℚ) : Nat → Nat → List TextBlock → List TextBlock
  | 0, _, blocks => blocks
  | todo + 1, i, blocks =>
    match blocks[i]? with
    | none => blocks
    | some blk1 =>
      if (if blk1.tableId = 0 then (1 : Int) else 0) ≥ 0 then
        let lim := sideLimits i blk1 blocks 0 (dblMax, dblMin)
        extendBlocks dblMax dblMin todo (i + 1)
          (blocks.set i (extendLoop i lim.1 lim.2 blocks 0 blk1))
      else extendBlocks dblMax dblMin todo (i + 1) blocks

/-- Lines 1929-2177 of `TextPage::coalesce` on the block list: table
detection, the envelope of each table and `tableEnd`, the extended boxes.
`primaryLR` is the primary direction found in lines 1896-1911, `dblMax` and
`dblMin` are `DBL_MAX` and `DBL_MIN` of `<float.h>`. -/
def extendedBoxes (primaryLR : Bool) (dblMax dblMin : ℚ) (blocks : List TextBlock) :
    Except Fault (List TextBlock) :=
  let t := detectTables dblMax blocks.length 0 blocks 0
  let env0 : List Envelope :=
    List.replicate t.2 { x1 := dblMax, x2 := dblMin, y1 := dblMax, y2 := dblMin }
  match envelopeLoop primaryLR t.1 0 env0 with
  | .error e => .error e
  | .ok envelopes =>
    match t.1.mapM (markTable t.1 envelopes) with
    | .error e => .error e
    | .ok marked => .ok (extendBlocks dblMax dblMin marked.length 0 marked)

/-- The envelope of the members of table `tableId`: `(min xMin, max xMax,
min yMin, max yMax)` over the blocks that have that `tableId`, `none` when
there is none. -/
def tableEnvelope (blocks : List TextBlock) (tableId : Int) : Option Box :=
  match (blocks.filter (fun b => b.tableId = tableId)).map (fun b => b.box) with
  | [] => none
  | b :: bs => some (bs.foldl Box.join b)

/-- The value of `DBL_MAX` for IEEE-754 doubles, `(2 - 2^-52) * 2^1023`. -/
def dblMaxIEEE : ℚ := 2 ^ 1024 - 2 ^ 971

/-- The value of `DBL_MIN` for IEEE-754 doubles, `2^-1022`, the smallest
positive normal number. -/
def dblMinIEEE : ℚ := 1 / 2 ^ 1022

/-- A table of two rows and two columns followed by a wider paragraph, at
font size 10: the cells A (`x = 0..6`) and B (`x = 20..26`) on the base line
100, C and D below them on the base line 120, and a word of ten glyphs from
`x = 0` to `x = 50` on the base line 140. -/
def tableEvents : List GlyphEvent :=
  [glyph 0 100 6 [65] 10, glyph 20 100 6 [66] 10, glyph 0 120 6 [67] 10, glyph 20 120 6 [68] 10] ++
    (List.range 10).map (fun i => glyph (5 * i) 140 5 [101] 10)

/-- The word builder, the block assembly and lines 1929-2177 of
`TextPage::coalesce` on a stream of glyph events, on a page of 600 by 800
with text that reads left to right. -/
def pageBlocks (events : List GlyphEvent) : Except Fault (List TextBlock) :=
  match blocksOfPools 0 (buildWords false 600 800 events).pools [] [] with
  | .error e => .error e
  | .ok r => extendedBoxes true dblMaxIEEE dblMinIEEE r.1

/-- A block of one line of one word as `TextBlock::coalesce` leaves it: the
envelopes of the word and of the line are the box of the word, and the box
of the block is that box. -/
def wordBlock (w : TextWord) : TextBlock :=
  { lines := [{ words := [{ w with pre := w.box, post := w.box }], box := w.box, pre := w.box,
                post := w.box, rot := w.rot, base := w.base }],
    box := w.box, pre := ⟨0, 0, 0, 0⟩, post := ⟨0, 0, 0, 0⟩, rot := w.rot }

/-- The blocks of `tableEvents`: the word builder makes five words of the
events, and no two of them are near enough for the block assembly to put
them in one block (the gaps are 14 along the lines and 20 between the base
lines, at font size 10). -/
def tableBlocks : List TextBlock := (buildWords false 600 800 tableEvents).words.map wordBlock

/-! ## Well-formed pools -/

/-- The array `pool` has one entry for each base line from `minBaseIdx` to
`maxBaseIdx`, as `TextPool::addWord` allocates it. -/
def TextPool.WF (pool : TextPool) : Prop :=
  pool.pool.length = (pool.maxBaseIdx + 1 - pool.minBaseIdx).toNat

instance (pool : TextPool) : Decidable pool.WF := by
  unfold TextPool.WF; infer_instance

/-- The base line index is one of the array. -/
def TextPool.InRange (pool : TextPool) (baseIdx : Int) : Prop :=
  pool.minBaseIdx ≤ baseIdx ∧ baseIdx ≤ pool.maxBaseIdx

instance (pool : TextPool) (baseIdx : Int) : Decidable (pool.InRange baseIdx) := by
  unfold TextPool.InRange; infer_instance

/-! ## Lines as `TextBlock::coalesce` builds them -/

/-- A line as lines 757-825 build it, before `TextLine::coalesce`: the seed
word `word0` and the words added after it, each with a primary delta of at
least `minCharSpacing * fontSize` to the word before (`fontSize` is that of
the seed). -/
def RawLine (raw : TextLine) : Prop :=
  ∃ (word0 : TextWord) (added : List TextWord),
    raw = newTextLine word0.rot word0.base (word0 :: added) ∧
    List.Chain' (fun a b => a.primaryDelta b ≥ -(2 / 10) * word0.fontSize) (word0 :: added)

/-- Consecutive lines are in `cmpYX` order. -/
def LinesSorted (ls : List TextLine) : Prop := List.Chain' (fun a b => a.cmpYX b ≤ 0) ls

/-- A word of one glyph `u` of width 6 at `x` on the base line `y`, rotation 0,
font size 10, as `TextWord::TextWord` and `TextWord::addChar` make it. -/
def oneGlyphWord (x y : ℚ) (u : Unicode) : TextWord :=
  (newTextWord 0 x y 0 ⟨0, none⟩ 10).addChar x y 6 0 u

/-! ## Words of a line, edge to edge -/

/-- A word as `TextWord::addChar` leaves it: at least one glyph, `len + 1`
edges, the first edge on the bound of the leading side and the last edge on
the bound of the trailing side (`xMin` and `xMax` for rotation 0). -/
def TextWord.Built (w : TextWord) : Prop :=
  0 < w.len ∧ w.edge.length = w.len + 1 ∧ w.edge[0]? = some w.lead ∧
    w.edge[w.len]? = some w.trail

instance (w : TextWord) : Decidable w.Built := by
  unfold TextWord.Built; infer_instance

/-- The word `w1` begins at most `tol` before the end of `w` along the
primary axis of rotation `rot`: `edge[len]` of `w` less `tol` is at most
`edge[0]` of `w1` for rotations 0 and 1, and `edge[0]` of `w1` is at most
`edge[len]` of `w` plus `tol` for 2 and 3. -/
def edgeFollows (rot : Nat) (tol : ℚ) (w w1 : TextWord) : Prop :=
  if rot = 0 ∨ rot = 1 then w.edge.getD w.len 0 - tol ≤ w1.edge.getD 0 0
  else w1.edge.getD 0 0 ≤ w.edge.getD w.len 0 + tol

instance (rot : Nat) (tol : ℚ) (w w1 : TextWord) : Decidable (edgeFollows rot tol w w1) := by
  unfold edgeFollows; infer_instance

/-- The shape of the edge array that the merge loop keeps: at least one
glyph and `len + 1` edges. -/
def TextWord.Shaped (w : TextWord) : Prop := 0 < w.len ∧ w.edge.length = w.len + 1

/-- Three glyphs drawn in the order A, C, B at font size 10 on the base line
100: A at `x = 0..10`, C at `7.5..20`, and the narrow B at `8.5..9`. -/
def overlapEvents : List GlyphEvent :=
  [glyph 0 100 10 [65] 10, glyph (15 / 2) 100 (25 / 2) [67] 10, glyph (17 / 2) 100 (1 / 2) [66] 10]

/-- The glyph A at `x = 0..6` and a space at `x = 6..9` on the base line 100
at font size 10, each drawn from a character code of two bytes (as with a
CID font and a two-byte CMap). -/
def twoByteEvents : List GlyphEvent :=
  [{ glyph 0 100 6 [65] 10 with nBytes := 2 }, { glyph 6 100 3 [0x20] 10 with nBytes := 2 }]

/-! ## The space threshold of `TextLine::coalesce` -/

/-- The primary gaps between adjacent words of a line, `word0->primaryDelta(word1)`
for each word and the one after it. -/
def gaps : List TextWord → List ℚ
  | w0 :: w1 :: rest => w0.primaryDelta w1 :: gaps (w1 :: rest)
  | _ => []

/-- As the specification words it: the positive primary gaps between
adjacent single-glyph words of a line. -/
def positiveGlyphGaps : List TextWord → List ℚ
  | w0 :: w1 :: rest =>
    (if w0.len = 1 ∧ w1.len = 1 ∧ 0 < w0.primaryDelta w1 then [w0.primaryDelta w1] else []) ++
      positiveGlyphGaps (w1 :: rest)
  | _ => []

/-- As the specification words it: `min(1.3 * minSpace, 0.4 * fontSize)` with
`minSpace` the least positive gap between adjacent single-glyph words when
there is one, `0.03 * fontSize` otherwise. -/
def specThreshold (ws : List TextWord) (fontSize : ℚ) : ℚ :=
  match positiveGlyphGaps ws with
  | [] => 3 / 100 * fontSize
  | g :: gs => min (13 / 10 * gs.foldl min g) (4 / 10 * fontSize)

/-- The word "ab" of two glyphs of width 6 at `x` on the base line `y`,
rotation 0, font size 10. -/
def twoGlyphWord (x y : ℚ) : TextWord := (oneGlyphWord x y 97).addChar (x + 6) y 6 0 98

/-! ## Sorted base lines of a pool -/

/-- The coordinate `TextWord::primaryCmp` compares (lines 290-303): `xMin`
for rotation 0, `yMin` for 1, `-xMax` for 2, `-yMax` for 3. -/
def TextWord.primaryKey (w : TextWord) : ℚ :=
  match w.rot with
  | 0 => w.box.xMin
  | 1 => w.box.yMin
  | 2 => -w.box.xMax
  | 3 => -w.box.yMax
  | _ => 0

/-- Every base line of the pool is sorted ascending by `primaryCmp`: no word
is followed by one that compares smaller. -/
def TextPool.Sorted (pool : TextPool) : Prop :=
  ∀ bucket ∈ pool.pool, ∀ (i : Nat) (a b : TextWord), bucket[i]? = some a →
    bucket[i + 1]? = some b → ¬ (b.primaryCmp a < 0)

/-- The base-line index of a word, `(int)(word->base / textPoolStep)`
(line 383). -/
def TextWord.baseIdx (w : TextWord) : Int := truncToInt (w.base / 4)

/-! ## ActualText spans (`drawChar`, `beginMarkedContent`, `endMarkedContent`) -/

/-- The fields of `TextPage` that the ActualText code works on. `actualText`
holds the bytes of the string (`NULL` is `none`). -/
structure SpanState where
  actualTextBMCLevel : Nat := 0
  newActualTextSpan : Bool := false
  actualText : Option (List Nat) := none
  actualText_x : ℚ := 0
  actualText_y : ℚ := 0
  actualText_dx : ℚ := 0
  actualText_dy : ℚ := 0
deriving DecidableEq

/-- A call `addChar(state, x, y, dx, dy, c, nBytes, u, uLen)`. -/
structure AddCharCall where
  x : ℚ
  y : ℚ
  dx : ℚ
  dy : ℚ
  c : Nat
  nBytes : Int
  u : List Unicode
deriving DecidableEq

/-- Method `TextPage::drawChar` (lines 1270-1294): the state after the call and
the calls of `addChar` it made. -/
def drawChar (s : SpanState) (x y dx dy : ℚ) (c : Nat) (nBytes : Int) (u : List Unicode) :
    SpanState × List AddCharCall :=
  if s.actualTextBMCLevel = 0 then (s, [⟨x, y, dx, dy, c, nBytes, u⟩])
  else if s.newActualTextSpan then
    ({ s with actualText_x := x, actualText_y := y, actualText_dx := dx, actualText_dy := dy,
              newActualTextSpan := false }, [])
  else
    let ax : ℚ := if x < s.actualText_x then x else s.actualText_x
    let ay : ℚ := if y < s.actualText_y then y else s.actualText_y
    let adx : ℚ := if x + dx > ax + s.actualText_dx then x + dx - ax else s.actualText_dx
    let ady : ℚ := if y + dy > ay + s.actualText_dy then y + dy - ay else s.actualText_dy
    ({ s with actualText_x := ax, actualText_y := ay, actualText_dx := adx,
              actualText_dy := ady }, [])

/-- Method `TextPage::beginMarkedContent` (lines 1296-1311); `actualText` is the
string that `properties->lookup("ActualText", &obj)` finds, `none` when
there is no dictionary, no such key or no string. -/
def beginMarkedContent (s : SpanState) (actualText : Option (List Nat)) : SpanState :=
  if s.actualTextBMCLevel > 0 then { s with actualTextBMCLevel := s.actualTextBMCLevel + 1 }
  else
    match actualText with
    | some t => { s with actualText := some t, actualTextBMCLevel := 1, newActualTextSpan := true }
    | none => s

/-- Modelled from the spec: `GooString::hasUnicodeMarker`, the string begins
with the bytes FE FF. -/
def hasUnicodeMarker (bytes : List Nat) : Bool :=
  decide (bytes[0]? = some 0xFE ∧ bytes[1]? = some 0xFF)

/-- The byte `actualText->getChar(i)`; `past` is the byte the string object
keeps behind its last byte, read at `i = length`. -/
def getChar (bytes : List Nat) (past : Nat) (i : Nat) : Nat := bytes.getD i past

/-- The loop of lines 1337-1340, `for (int i = 2; i < length; ++i)`:
`uni[i - 2] = ((getChar(i) << 8) & 0xffff) | (getChar(i + 1) & 0xff)`. -/
def markerUnits (bytes : List Nat) (past : Nat) : List Unicode :=
  (List.range (bytes.length - 2)).map
    (fun k => ((getChar bytes past (k + 2) <<< 8) &&& 0xffff) |||
      (getChar bytes past (k + 3) &&& 0xff))

/-- Method `TextPage::endMarkedContent` (lines 1313-1350): the state after the
call and the calls of `addChar` it made. `(curX, curY)` is the current point
of the graphics state and `pdfDocEncoding` the table of that name. -/
def endMarkedContent (pdfDocEncoding : Nat → Unicode) (past : Nat) (s : SpanState)
    (curX curY : ℚ) : Except Fault (SpanState × List AddCharCall) :=
  if s.actualTextBMCLevel > 0 then
    if s.actualTextBMCLevel - 1 = 0 then
      let s1 : SpanState :=
        if s.newActualTextSpan then
          { s with actualTextBMCLevel := 0, actualText_x := curX, actualText_y := curY,
                   actualText_dx := 0, actualText_dy := 0 }
        else { s with actualTextBMCLevel := 0 }
      match s1.actualText with
      | none => .error .nullDeref
      | some bytes =>
        let uni : List Unicode :=
          if hasUnicodeMarker bytes then markerUnits bytes past
          else bytes.map (fun b => pdfDocEncoding (b &&& 0xff))
        .ok ({ s1 with actualText := none },
          [⟨s1.actualText_x, s1.actualText_y, s1.actualText_dx, s1.actualText_dy, 0, 1, uni⟩])
    else .ok ({ s with actualTextBMCLevel := s.actualTextBMCLevel - 1 }, [])
  else .ok (s, [])

/-- What the output device hands to the page, in order. -/
inductive TextEvent where
  | drawChar (x y dx dy : ℚ) (c : Nat) (nBytes : Int) (u : List Unicode)
  | beginMarkedContent (actualText : Option (List Nat))
  | endMarkedContent (curX curY : ℚ)
deriving DecidableEq

/-- The events one after the other, from state `s`: the state at the end and
all calls of `addChar`, in order. -/
def runEvents (pdfDocEncoding : Nat → Unicode) (past : Nat) :
    List TextEvent → SpanState → List AddCharCall → Except Fault (SpanState × List AddCharCall)
  | [], s, calls => .ok (s, calls)
  | .drawChar x y dx dy c nBytes u :: rest, s, calls =>
    runEvents pdfDocEncoding past rest (drawChar s x y dx dy c nBytes u).1
      (calls ++ (drawChar s x y dx dy c nBytes u).2)
  | .beginMarkedContent t :: rest, s, calls =>
    runEvents pdfDocEncoding past rest (beginMarkedContent s t) calls
  | .endMarkedContent curX curY :: rest, s, calls =>
    match endMarkedContent pdfDocEncoding past s curX curY with
    | .error e => .error e
    | .ok r => runEvents pdfDocEncoding past rest r.1 (calls ++ r.2)

/-- As the specification words it: the code units of a string of `2 + 2n`
bytes after the marker, unit `j = byte[2 + 2j] * 256 + byte[3 + 2j]`. -/
def specUnits (bytes : List Nat) : List Unicode :=
  (List.range ((bytes.length - 2) / 2)).map
    (fun j => bytes.getD (2 + 2 * j) 0 * 256 + bytes.getD (3 + 2 * j) 0)

/-! ## Reading order of the blocks (lines 935-1148 and 2179-2202) -/

/-- Function `TextBlock::cmpXYPrimaryRot` (lines 935-964). -/
def cmpXYPrimaryRot (primaryRot : Nat) (blk1 blk2 : TextBlock) : Int :=
  let cmp : ℚ :=
    match primaryRot with
    | 0 =>
      if blk1.box.xMin - blk2.box.xMin = 0 then blk1.box.yMin - blk2.box.yMin
      else blk1.box.xMin - blk2.box.xMin
    | 1 =>
      if blk1.box.yMin - blk2.box.yMin = 0 then blk2.box.xMax - blk1.box.xMax
      else blk1.box.yMin - blk2.box.yMin
    | 2 =>
      if blk2.box.xMax - blk1.box.xMax = 0 then blk2.box.yMin - blk1.box.yMin
      else blk2.box.xMax - blk1.box.xMax
    | 3 =>
      if blk2.box.yMax - blk1.box.yMax = 0 then blk1.box.xMax - blk2.box.xMax
      else blk2.box.yMax - blk1.box.yMax
    | _ => 0
  if cmp < 0 then -1 else if cmp > 0 then 1 else 0

/-- Method `TextBlock::isBeforeByRule1` (lines 1013-1048): the extended boxes of
the two blocks overlap along the primary axis and this block is above the
other. -/
def TextBlock.isBeforeByRule1 (primaryRot : Nat) (b blk1 : TextBlock) : Bool :=
  let overlap : Bool :=
    match primaryRot with
    | 0 | 2 =>
      decide ((b.ex.xMin ≤ blk1.ex.xMin ∧ blk1.ex.xMin ≤ b.ex.xMax) ∨
        (blk1.ex.xMin ≤ b.ex.xMin ∧ b.ex.xMin ≤ blk1.ex.xMax))
    | 1 | 3 =>
      decide ((b.ex.yMin ≤ blk1.ex.yMin ∧ blk1.ex.yMin ≤ b.ex.yMax) ∨
        (blk1.ex.yMin ≤ b.ex.yMin ∧ b.ex.yMin ≤ blk1.ex.yMax))
    | _ => false
  match primaryRot with
  | 0 => overlap && decide (b.ex.yMin < blk1.ex.yMin)
  | 1 => overlap && decide (b.ex.xMax > blk1.ex.xMax)
  | 2 => overlap && decide (b.ex.yMax > blk1.ex.yMax)
  | 3 => overlap && decide (b.ex.xMin < blk1.ex.xMin)
  | _ => false

/-- Method `TextBlock::isBeforeByRule2` (lines 1050-1073): this block ends
before the other begins, along the direction of its own rotation. -/
def TextBlock.isBeforeByRule2 (primaryLR : Bool) (b blk1 : TextBlock) : Bool :=
  let rotLR : Nat := if primaryLR then b.rot else (b.rot + 2) % 4
  let cmp : ℚ :=
    match rotLR with
    | 0 => b.ex.xMax - blk1.ex.xMin
    | 1 => b.ex.yMin - blk1.ex.yMax
    | 2 => blk1.ex.xMax - b.ex.xMin
    | 3 => blk1.ex.yMin - b.ex.yMax
    | _ => 0
  decide (cmp ≤ 0)

/-- The loop over `blk3` of lines 1128-1137: there is a block other than
`blk1` (at `pos1`) and `blk2` (at `pos2`) that `blk1` is before and that is
before `blk2`, both by rule 1. -/
def intervening (primaryRot : Nat) (blkList : List TextBlock) (pos1 pos2 : Nat)
    (blk1 blk2 : TextBlock) : Bool :=
  (List.range blkList.length).any (fun pos3 =>
    match blkList[pos3]? with
    | none => false
    | some blk3 =>
      decide (pos3 ≠ pos2 ∧ pos3 ≠ pos1) && blk1.isBeforeByRule1 primaryRot blk3 &&
        blk3.isBeforeByRule1 primaryRot blk2)

/-- The value of `before` in `TextBlock::visitDepthFirst` (lines 1101-1139)
for `blk1` at position `pos1` of the list and `blk2` at position `pos2`:
`blk2` is before `blk1`. -/
def isBefore (primaryRot : Nat) (primaryLR : Bool) (blkList : List TextBlock)
    (pos2 pos1 : Nat) : Bool :=
  match blkList[pos1]?, blkList[pos2]? with
  | some blk1, some blk2 =>
    if blk1.tableId ≥ 0 ∧ blk1.tableId = blk2.tableId then
      (if primaryLR then
        decide (blk2.box.xMax ≤ blk1.box.xMin ∧ blk2.box.yMin ≤ blk1.box.yMax ∧
          blk2.box.yMax ≥ blk1.box.yMin)
       else
        decide (blk2.box.xMin ≥ blk1.box.xMax ∧ blk2.box.yMin ≤ blk1.box.yMax ∧
          blk2.box.yMax ≥ blk1.box.yMin)) ||
        decide (blk2.box.yMax ≤ blk1.box.yMin)
    else if blk2.isBeforeByRule1 primaryRot blk1 then true
    else if blk2.isBeforeByRule2 primaryLR blk1 then
      !intervening primaryRot blkList pos1 pos2 blk1 blk2
    else false
  | _, _ => false

/-- The arrays that `visitDepthFirst` works on: `sorted` (a block is its
position in the list `blocks`), the running `sortPos`, and `visited`. -/
structure SortState where
  sorted : List Nat
  sortPos : Nat
  visited : List Bool
deriving DecidableEq

/-- The loop `for (blk2 = blkList; blk2; blk2 = blk2->next)` of lines
1095-1145 over the positions `pos2` left: a block not yet visited that is
before `blk1` is visited first. `visit` is the recursive call. -/
def visitLoop (visit : Nat → SortState → Except Fault SortState) (before : Nat → Bool) :
    List Nat → SortState → Except Fault SortState
  | [], st => .ok st
  | pos2 :: rest, st =>
    match st.visited[pos2]? with
    | none => .error .outOfBounds
    | some true => visitLoop visit before rest st
    | some false =>
      if before pos2 then
        match visit pos2 st with
        | .error e => .error e
        | .ok st1 => visitLoop visit before rest st1
      else visitLoop visit before rest st

/-- Method `TextBlock::visitDepthFirst` (lines 1080-1148) for the block at
position `pos1` of a list of `n` blocks; `before pos2 pos1` is the value of
`before`, and `fuel` bounds the depth of the recursion. -/
def visitDepthFirst (before : Nat → Nat → Bool) (n : Nat) :
    Nat → Nat → SortState → Except Fault SortState
  | 0, _, _ => .error .outOfFuel
  | fuel + 1, pos1, st =>
    match st.visited[pos1]? with
    | none => .error .outOfBounds
    | some true => .ok st
    | some false =>
      match visitLoop (visitDepthFirst before n fuel) (fun pos2 => before pos2 pos1)
          (List.range n) { st with visited := st.visited.set pos1 true } with
      | .error e => .error e
      | .ok st2 =>
        if st2.sortPos < st2.sorted.length then
          .ok { st2 with sorted := st2.sorted.set st2.sortPos pos1, sortPos := st2.sortPos + 1 }
        else .error .outOfBounds

/-- The loop of lines 2185-2186 over the positions left: each block of the
list `blocks` is visited, in the order of the list. -/
def visitRoots (before : Nat → Nat → Bool) (n : Nat) :
    List Nat → SortState → Except Fault SortState
  | [], st => .ok st
  | i :: rest, st =>
    match visitDepthFirst before n (n + 1) i st with
    | .error e => .error e
    | .ok st1 => visitRoots before n rest st1

/-- Lines 2182-2186 of `TextPage::coalesce`: `blkarray`, which holds the blocks
as `qsort` left them, after the depth-first pass over the list `blocks`. -/
def readingOrder (primaryRot : Nat) (primaryLR : Bool) (blocks : List TextBlock)
    (blkarray : List Nat) : Except Fault (List Nat) :=
  match visitRoots (isBefore primaryRot primaryLR blocks) blocks.length
      (List.range blocks.length)
      { sorted := blkarray, sortPos := 0, visited := List.replicate blocks.length false } with
  | .error e => .error e
  | .ok st => .ok st.sorted

/-- The pointers that lines 2188-2201 write: `blocks`, `lastBlk`, and the
fields `next` and `prev` of each block (by position in the list as it was
formed). -/
structure BlockLinks where
  blocks : Option Nat
  lastBlk : Option Nat
  next : List (Option Nat)
  prev : List (Option Nat)
deriving DecidableEq

/-- The loop of lines 2191-2194 from `i` on, over `blkarray[i], blkarray[i + 1],
...`: `blkarray[i]->next = blkarray[i + 1]; blkarray[i + 1]->prev =
blkarray[i]`. -/
def relinkLoop : List Nat → BlockLinks → BlockLinks
  | a :: b :: rest, l =>
    relinkLoop (b :: rest) { l with next := l.next.set a (some b), prev := l.prev.set b (some a) }
  | _, l => l

/-- Lines 2188-2201 of `TextPage::coalesce`: the list is linked anew in the
order of `blkarray`. -/
def relink (blkarray : List Nat) (l : BlockLinks) : BlockLinks :=
  match blkarray with
  | [] => { l with blocks := none, lastBlk := none }
  | first :: rest =>
    let l1 : BlockLinks := { l with blocks := some first, prev := l.prev.set first none }
    let l2 : BlockLinks := relinkLoop (first :: rest) l1
    let last : Nat := (first :: rest).getLast (List.cons_ne_nil _ _)
    { l2 with lastBlk := some last, next := l2.next.set last none }

/-- Two glyphs that overlap, of different font sizes, with the same upper
edge: X of width 6 at `x = 10` on the base line 100 at font size 10, and Y
of width 12 at `x = 0` on the base line 109.5 at font size 20. The word
builder makes two words of them, X first, and the block assembly a block of
each (the font sizes differ by more than any of its tolerances). -/
def overlayBlocks : List TextBlock :=
  [wordBlock (oneGlyphWord 10 100 88),
   wordBlock ((newTextWord 0 0 (219 / 2) 1 ⟨0, none⟩ 20).addChar 0 (219 / 2) 12 0 89)]
/-! ## Invariant of the depth-first pass -/

/-- The relation `b` before `a` between two different blocks of a list of `n`
blocks. -/
def BeforeOn (R : Nat → Nat → Bool) (n : Nat) (b a : Nat) : Prop :=
  R b a = true ∧ b ≠ a ∧ b < n ∧ a < n

/-- The state of the depth-first pass: `out` is the list of blocks written
to `sorted` so far, `anc` the blocks that are being visited (marked and not
yet written). Each block written has all blocks before it written earlier,
unless the block is before itself or leads back to one of them. -/
def SortInv (R : Nat → Nat → Bool) (n : Nat) (st : SortState) (out anc : List Nat) : Prop :=
  st.visited.length = n ∧ st.sorted.length = n ∧ st.sortPos = out.length ∧
    st.sorted.take out.length = out ∧ (out ++ anc).Nodup ∧ (∀ p ∈ out ++ anc, p < n) ∧
    (∀ p, p < n → (st.visited[p]? = some true ↔ p ∈ out ++ anc)) ∧
    (∀ (i : Nat) (a : Nat), out[i]? = some a → ∀ b, b < n → R b a = true →
      (∃ j, j < i ∧ out[j]? = some b) ∨ b = a ∨ Relation.TransGen (BeforeOn R n) a b)
/-- The blocks of `overlayBlocks` after lines 1929-2177: no table, and no
block below another, so each extended box is the box of the block. -/
def overlayExtended : List TextBlock := overlayBlocks.map (fun b => { b with ex := b.box })

/-- The blocks of `tableBlocks` after lines 1929-2177 (table detection and
extended boxes). -/
def tableExtended : List TextBlock :=
  match extendedBoxes true dblMaxIEEE dblMinIEEE tableBlocks with
  | .ok bs => bs
  | .error _ => []

/-! ## What a step of the block assembly keeps -/

/-- From `g` to `g1` words have moved from the page pool to the block, and
none is lost: the arrays keep their shape, the words of pool and block
together are the same, `found` is set only when a word has left the pool,
an empty base line stays empty, and the block is the block before with
the words that left the pool added by `TextBlock::addWord`. -/
def Grow.Moved (g g1 : Grow) : Prop :=
  g1.pool.WF ∧ g1.pool.minBaseIdx = g.pool.minBaseIdx ∧
    g1.pool.maxBaseIdx = g.pool.maxBaseIdx ∧ g1.blk.pool.WF ∧ g1.blk.rot = g.blk.rot ∧
    (g.pool.words ++ g.blk.pool.words).Perm (g1.pool.words ++ g1.blk.pool.words) ∧
    g1.pool.words.length ≤ g.pool.words.length ∧
    (g1.found = true → g.found = true ∨ g1.pool.words.length < g.pool.words.length) ∧
    (∀ j, g.pool.InRange j → g.pool.getPool j = [] → g1.pool.getPool j = []) ∧
    ∃ moved : List TextWord, g1.blk = moved.foldl NewBlock.addWord g.blk ∧
      g.pool.words.Perm (g1.pool.words ++ moved)

/-! ## Pools with one base line in use -/

/-- The base line `i` of the pool holds the words `ws`, and no other base
line holds a word. -/
def TextPool.OnlyLine (pool : TextPool) (i : Int) (ws : List TextWord) : Prop :=
  pool.WF ∧ pool.InRange i ∧ pool.getPool i = ws ∧
    ∀ j, pool.InRange j → j ≠ i → pool.getPool j = []

/-! ## Two glyphs on one base line -/

/-- The word the builder makes of one glyph: `u` at `x` with advance `dx` on
the base line `y` at rotation 0, in font 0 at size `fontSize`, at byte
position `charPos`. -/
def glyphWord (x y dx : ℚ) (u : Unicode) (fontSize : ℚ) (charPos : Int) : TextWord :=
  let w : TextWord := (newTextWord 0 x y charPos ⟨0, none⟩ fontSize).addChar x y dx 0 u
  { w with charLen := 1 }

/-- The word builder and the block assembly on a stream of glyph events, on
a page of 600 by 800: for each block and each of its lines, the words as
text with their `spaceAfter`. -/
def pageWordMarks (events : List GlyphEvent) :
    Except Fault (List (List (List (List Unicode × Bool)))) :=
  (blocksOfPools 0 (buildWords false 600 800 events).pools [] []).map
    (fun r => r.1.map (fun b => b.lines.map (fun l =>
      l.words.map (fun w => (w.text, w.spaceAfter)))))

/-! ## Lemmas: Basic facts on positions -/

theorem lineAt_eq_some {p : TextPage} {b l : Nat} {ln : TextLine} :
    p.lineAt b l = some ln ↔ ∃ blk, p.blocks[b]? = some blk ∧ blk.lines[l]? = some ln := by
  unfold TextPage.lineAt
  cases h : p.blocks[b]? with
  | none => simp
  | some blk => simp

theorem wordAt_eq_some {p : TextPage} {r : WordRef} {w : TextWord} :
    p.wordAt r = some w ↔
      ∃ blk ln, p.blocks[r.blk]? = some blk ∧ blk.lines[r.line]? = some ln ∧
        ln.words[r.word]? = some w := by
  unfold TextPage.wordAt
  cases h : p.lineAt r.blk r.line with
  | none =>
    constructor
    · intro h'; cases h'
    · rintro ⟨blk, ln, hb, hl, _⟩
      have := (lineAt_eq_some (p := p)).mpr ⟨blk, hb, hl⟩
      rw [h] at this; cases this
  | some ln =>
    obtain ⟨blk, hb, hl⟩ := lineAt_eq_some.mp h
    constructor
    · intro hw; exact ⟨blk, ln, hb, hl, hw⟩
    · rintro ⟨blk', ln', hb', hl', hw'⟩
      rw [hb] at hb'; cases hb'
      rw [hl] at hl'; cases hl'
      exact hw'

theorem wordAt_line {p : TextPage} {r : WordRef} {w : TextWord} (h : p.wordAt r = some w) :
    ∃ ln, p.lineAt r.blk r.line = some ln ∧ ln.words[r.word]? = some w := by
  obtain ⟨blk, ln, hb, hl, hw⟩ := wordAt_eq_some.mp h
  exact ⟨ln, lineAt_eq_some.mpr ⟨blk, hb, hl⟩, hw⟩

theorem wordAt_of_line {p : TextPage} {b l w : Nat} {ln : TextLine} {wd : TextWord}
    (hl : p.lineAt b l = some ln) (hw : ln.words[w]? = some wd) :
    p.wordAt ⟨b, l, w⟩ = some wd := by
  unfold TextPage.wordAt; simp [hl, hw]

theorem wordAt_congr {p q : TextPage} (h : q.blocks = p.blocks) (r : WordRef) :
    q.wordAt r = p.wordAt r := by
  unfold TextPage.wordAt TextPage.lineAt; rw [h]

theorem mem_of_getElem? {α : Type} {xs : List α} {i : Nat} {a : α} (h : xs[i]? = some a) :
    a ∈ xs := List.mem_iff_getElem?.mpr ⟨i, h⟩

theorem TextPage.Queryable.line_ne {p : TextPage} (hq : p.Queryable) {b : Nat} {blk : TextBlock}
    (hb : p.blockAt b = some blk) : blk.lines ≠ [] :=
  (hq.2 blk (mem_of_getElem? hb)).1

theorem TextPage.Queryable.word_ne {p : TextPage} (hq : p.Queryable) {b l : Nat} {ln : TextLine}
    (hl : p.lineAt b l = some ln) : ln.words ≠ [] := by
  obtain ⟨blk, hb, hl'⟩ := lineAt_eq_some.mp hl
  exact ((hq.2 blk (mem_of_getElem? hb)).2 ln (mem_of_getElem? hl')).1

theorem TextPage.Queryable.len_pos {p : TextPage} (hq : p.Queryable) {r : WordRef} {w : TextWord}
    (hw : p.wordAt r = some w) : 1 ≤ w.len := by
  obtain ⟨blk, ln, hb, hl, hw'⟩ := wordAt_eq_some.mp hw
  exact ((hq.2 blk (mem_of_getElem? hb)).2 ln (mem_of_getElem? hl)).2 w (mem_of_getElem? hw')

theorem mem_allWords {p : TextPage} {v : TextWord} :
    v ∈ p.allWords ↔ ∃ r, p.wordAt r = some v := by
  unfold TextPage.allWords
  simp only [List.mem_flatMap]
  constructor
  · rintro ⟨blk, hb, ln, hl, hv⟩
    obtain ⟨b, hb'⟩ := List.mem_iff_getElem?.mp hb
    obtain ⟨l, hl'⟩ := List.mem_iff_getElem?.mp hl
    obtain ⟨w, hw'⟩ := List.mem_iff_getElem?.mp hv
    exact ⟨⟨b, l, w⟩, wordAt_eq_some.mpr ⟨blk, ln, hb', hl', hw'⟩⟩
  · rintro ⟨r, hr⟩
    obtain ⟨blk, ln, hb, hl, hw⟩ := wordAt_eq_some.mp hr
    exact ⟨blk, mem_of_getElem? hb, ln, mem_of_getElem? hl, mem_of_getElem? hw⟩

/-! ## Lemmas: Rectangular distance -/

theorem Box.dist_nonneg (b : Box) (px py : ℚ) : 0 ≤ b.dist px py := by
  unfold Box.dist
  have h1 := le_max_right (b.xMin - px) 0
  have h2 := le_max_right (px - b.xMax) 0
  have h3 := le_max_right (b.yMin - py) 0
  have h4 := le_max_right (py - b.yMax) 0
  linarith

theorem Box.dist_le_of_covers {o i : Box} (h : o.covers i) (px py : ℚ) :
    o.dist px py ≤ i.dist px py := by
  obtain ⟨h1, h2, h3, h4⟩ := h
  unfold Box.dist
  have a1 : max (o.xMin - px) 0 ≤ max (i.xMin - px) 0 := max_le_max (by linarith) le_rfl
  have a2 : max (px - o.xMax) 0 ≤ max (px - i.xMax) 0 := max_le_max (by linarith) le_rfl
  have a3 : max (o.yMin - py) 0 ≤ max (i.yMin - py) 0 := max_le_max (by linarith) le_rfl
  have a4 : max (py - o.yMax) 0 ≤ max (py - i.yMax) 0 := max_le_max (by linarith) le_rfl
  linarith

theorem Box.covers_refl (b : Box) : b.covers b := ⟨le_rfl, le_rfl, le_rfl, le_rfl⟩

theorem Box.covers_trans {a b c : Box} (h1 : a.covers b) (h2 : b.covers c) : a.covers c :=
  ⟨le_trans h1.1 h2.1, le_trans h2.2.1 h1.2.1, le_trans h1.2.2.1 h2.2.2.1,
    le_trans h2.2.2.2 h1.2.2.2⟩

theorem Box.join_covers_left (a b : Box) : (a.join b).covers a :=
  ⟨min_le_left _ _, le_max_left _ _, min_le_left _ _, le_max_left _ _⟩

theorem Box.join_covers_right (a b : Box) : (a.join b).covers b :=
  ⟨min_le_right _ _, le_max_right _ _, min_le_right _ _, le_max_right _ _⟩

/-! ## Lemmas: Termination measure of the walks -/

theorem walkFuel_eq (p : TextPage) : p.walkFuel = blocksLeft p 0 + 1 := by
  unfold TextPage.walkFuel blocksLeft blockWeight lineWeight
  simp

theorem sum_drop_of_getElem? {α : Type} (f : α → Nat) {xs : List α} {k : Nat} {a : α}
    (h : xs[k]? = some a) :
    ((xs.drop k).map f).sum = f a + ((xs.drop (k + 1)).map f).sum := by
  induction xs generalizing k with
  | nil => simp at h
  | cons x xs ih =>
    cases k with
    | zero =>
      simp only [List.getElem?_cons_zero, Option.some.injEq] at h
      subst h
      simp
    | succ k =>
      simp only [List.getElem?_cons_succ] at h
      simpa using ih h

theorem sum_take_of_getElem? {α : Type} (f : α → Nat) {xs : List α} {k : Nat} {a : α}
    (h : xs[k]? = some a) :
    ((xs.take (k + 1)).map f).sum = ((xs.take k).map f).sum + f a := by
  rw [List.take_succ, h]
  simp

theorem sum_drop_le {α : Type} (f : α → Nat) (xs : List α) (k : Nat) :
    ((xs.drop k).map f).sum ≤ (xs.map f).sum := by
  have h := congrArg (fun l => (l.map f).sum) (List.take_append_drop k xs)
  simp only [List.map_append, List.sum_append] at h
  omega

theorem sum_take_le {α : Type} (f : α → Nat) (xs : List α) (k : Nat) :
    ((xs.take k).map f).sum ≤ (xs.map f).sum := by
  have h := congrArg (fun l => (l.map f).sum) (List.take_append_drop k xs)
  simp only [List.map_append, List.sum_append] at h
  omega

theorem linesLeft_step {p : TextPage} {b l : Nat} {ln : TextLine} (h : p.lineAt b l = some ln) :
    linesLeft p b l = ln.words.length + 1 + linesLeft p b (l + 1) := by
  obtain ⟨blk, hb, hl⟩ := lineAt_eq_some.mp h
  unfold linesLeft
  simp only [hb]
  rw [sum_drop_of_getElem? lineWeight hl]
  rfl

theorem blocksLeft_step {p : TextPage} {b : Nat} {blk : TextBlock} (h : p.blockAt b = some blk) :
    blocksLeft p b = linesLeft p b 0 + 1 + blocksLeft p (b + 1) := by
  have hb : p.blocks[b]? = some blk := h
  unfold blocksLeft linesLeft
  simp only [hb]
  rw [sum_drop_of_getElem? blockWeight hb]
  simp [blockWeight]

theorem linesLeft_le (p : TextPage) (b l : Nat) : linesLeft p b l ≤ linesLeft p b 0 := by
  unfold linesLeft
  cases p.blocks[b]? with
  | none => exact le_rfl
  | some blk => simpa using sum_drop_le lineWeight blk.lines l

theorem blocksLeft_le (p : TextPage) (b : Nat) : blocksLeft p b ≤ blocksLeft p 0 := by
  unfold blocksLeft
  simpa using sum_drop_le blockWeight p.blocks b

theorem wordsLeft_step {p : TextPage} {b l w : Nat} {wd : TextWord}
    (h : p.wordAt ⟨b, l, w⟩ = some wd) : wordsLeft p b l w = wordsLeft p b l (w + 1) + 1 := by
  obtain ⟨ln, hl, hw⟩ := wordAt_line h
  unfold wordsLeft
  simp only [hl]
  obtain ⟨hk, _⟩ := List.getElem?_eq_some.mp hw
  simp only at hk
  omega

theorem wordsLeft_zero {p : TextPage} {b l : Nat} {ln : TextLine} (h : p.lineAt b l = some ln) :
    wordsLeft p b l 0 = ln.words.length := by
  unfold wordsLeft; simp [h]

theorem wordsLeft_le {p : TextPage} {b l w : Nat} {ln : TextLine} (h : p.lineAt b l = some ln) :
    wordsLeft p b l w ≤ ln.words.length := by
  unfold wordsLeft; simp [h]

theorem linesBefore_step {p : TextPage} {b l : Nat} {ln : TextLine}
    (h : p.lineAt b l = some ln) :
    linesBefore p b (l + 1) = linesBefore p b l + ln.words.length + 1 := by
  obtain ⟨blk, hb, hl⟩ := lineAt_eq_some.mp h
  unfold linesBefore
  simp only [hb]
  rw [sum_take_of_getElem? lineWeight hl]
  rfl

theorem blocksBefore_step {p : TextPage} {b : Nat} {blk : TextBlock}
    (h : p.blockAt b = some blk) :
    blocksBefore p (b + 1) = blocksBefore p b + linesBefore p b blk.lines.length + 1 := by
  have hb : p.blocks[b]? = some blk := h
  unfold blocksBefore linesBefore
  simp only [hb]
  rw [sum_take_of_getElem? blockWeight hb]
  simp only [blockWeight, List.take_length]
  omega

theorem linesBefore_le {p : TextPage} {b : Nat} {blk : TextBlock} (h : p.blockAt b = some blk)
    (l : Nat) : linesBefore p b l ≤ linesBefore p b blk.lines.length := by
  have hb : p.blocks[b]? = some blk := h
  unfold linesBefore
  simp only [hb]
  simpa using sum_take_le lineWeight blk.lines l

theorem blocksBefore_le (p : TextPage) (b : Nat) : blocksBefore p b ≤ blocksLeft p 0 := by
  unfold blocksBefore blocksLeft
  simpa using sum_take_le blockWeight p.blocks b

/-! ## Lemmas: The walks of `findNearest` -/

theorem pruned_none (m px py : ℚ) : pruned m px py none = true := rfl

theorem pruned_some (m px py : ℚ) (e : Box) :
    pruned m px py (some e) = true ↔ m < e.dist px py := by
  simp [pruned]

theorem getElem?_none_of_le {α : Type} {xs : List α} {i j : Nat} (h : xs[i]? = none)
    (hij : i ≤ j) : xs[j]? = none := by
  rw [List.getElem?_eq_none_iff] at h ⊢; omega

theorem wordAt_none_of_word {p : TextPage} {b l w w' : Nat} (h : p.wordAt ⟨b, l, w⟩ = none)
    (hw : w ≤ w') : p.wordAt ⟨b, l, w'⟩ = none := by
  cases h' : p.wordAt ⟨b, l, w'⟩ with
  | none => rfl
  | some v =>
    obtain ⟨ln, hl, hv⟩ := wordAt_line h'
    have : ln.words[w]? = none := by
      cases h2 : ln.words[w]? with
      | none => rfl
      | some u => rw [wordAt_of_line hl h2] at h; cases h
    rw [getElem?_none_of_le this hw] at hv; cases hv

theorem wordAt_none_of_line {p : TextPage} {b l l' w' : Nat} (h : p.lineAt b l = none)
    (hl : l ≤ l') : p.wordAt ⟨b, l', w'⟩ = none := by
  cases h' : p.wordAt ⟨b, l', w'⟩ with
  | none => rfl
  | some v =>
    obtain ⟨blk, ln, hb, hl', _⟩ := wordAt_eq_some.mp h'
    have : blk.lines[l]? = none := by
      cases h2 : blk.lines[l]? with
      | none => rfl
      | some u => rw [lineAt_eq_some.mpr ⟨blk, hb, h2⟩] at h; cases h
    rw [getElem?_none_of_le this hl] at hl'; cases hl'

theorem wordAt_none_of_block {p : TextPage} {b b' l' w' : Nat} (h : p.blockAt b = none)
    (hb : b ≤ b') : p.wordAt ⟨b', l', w'⟩ = none := by
  cases h' : p.wordAt ⟨b', l', w'⟩ with
  | none => rfl
  | some v =>
    obtain ⟨blk, ln, hb', _, _⟩ := wordAt_eq_some.mp h'
    have h0 : p.blocks[b]? = none := h
    rw [getElem?_none_of_le h0 hb] at hb'; cases hb'

theorem lineAt_zero_isSome {p : TextPage} (hq : p.Queryable) {b : Nat} {blk : TextBlock}
    (hb : p.blockAt b = some blk) : ∃ ln, p.lineAt b 0 = some ln := by
  have hne := hq.line_ne hb
  cases hl : blk.lines with
  | nil => exact absurd hl hne
  | cons ln rest => exact ⟨ln, lineAt_eq_some.mpr ⟨blk, hb, by simp [hl]⟩⟩

/-- The forward walk returns with enough fuel; its result is a word of the
page at distance `m'`, not farther than the best word so far, and (with
sound `*Post` envelopes) not farther than any word from the cursor on. -/
theorem fwdWalk_spec (p : TextPage) (hq : p.Queryable) (px py : ℚ) :
    ∀ (fuel b l w : Nat) (m : ℚ) (best : WordRef),
      (∃ ln, p.lineAt b l = some ln) →
      wordsLeft p b l w + linesLeft p b (l + 1) + blocksLeft p (b + 1) + 1 ≤ fuel →
      (∃ bw, p.wordAt best = some bw ∧ bw.box.dist px py = m) →
      ∃ m' best', fwdWalk p px py fuel b l w m best = .ok (m', best') ∧ m' ≤ m ∧
        (∃ bw, p.wordAt best' = some bw ∧ bw.box.dist px py = m') ∧
        (PostSound p px py → ∀ r v, p.wordAt r = some v → WordRef.le ⟨b, l, w⟩ r →
          m' ≤ v.box.dist px py) := by
  intro fuel
  induction fuel with
  | zero => intro b l w m best _ hf _; omega
  | succ f ih =>
    intro b l w m best hl hf hbest
    obtain ⟨ln, hln⟩ := hl
    simp only [fwdWalk]
    by_cases hpr : pruned m px py ((p.wordAt ⟨b, l, w⟩).map (fun wd => wd.post)) = true
    · rw [if_pos hpr]
      -- the rest of the line is farther than `m`
      have hA : PostSound p px py → ∀ w' v, p.wordAt ⟨b, l, w'⟩ = some v → w ≤ w' →
          m ≤ v.box.dist px py := by
        intro hs w' v hv hww
        cases hw : p.wordAt ⟨b, l, w⟩ with
        | none => rw [wordAt_none_of_word hw hww] at hv; cases hv
        | some wd =>
          rw [hw, Option.map_some', pruned_some] at hpr
          exact le_trans (le_of_lt hpr) (hs.word b l w w' wd v hw hv hww)
      by_cases hpl : pruned m px py ((p.lineAt b (l + 1)).map (fun ln => ln.post)) = true
      · rw [if_pos hpl]
        have hB : PostSound p px py → ∀ l' w' v, p.wordAt ⟨b, l', w'⟩ = some v → l + 1 ≤ l' →
            m ≤ v.box.dist px py := by
          intro hs l' w' v hv hll
          cases hl1 : p.lineAt b (l + 1) with
          | none => rw [wordAt_none_of_line hl1 hll] at hv; cases hv
          | some ln1 =>
            rw [hl1, Option.map_some', pruned_some] at hpl
            exact le_trans (le_of_lt hpl) (hs.line b (l + 1) l' w' ln1 v hl1 hv hll)
        have hAB : PostSound p px py → ∀ r v, p.wordAt r = some v → WordRef.le ⟨b, l, w⟩ r →
            r.blk = b → m ≤ v.box.dist px py := by
          intro hs r v hv hle hrb
          obtain ⟨rb, rl, rw⟩ := r
          simp only at hrb; subst hrb
          rcases hle with h | ⟨_, h | ⟨h1, h2⟩⟩
          · simp only at h; omega
          · simp only at h; exact hB hs rl rw v hv (by omega)
          · simp only at h1 h2; subst h1; exact hA hs rw v hv h2
        cases hb : p.blockAt (b + 1) with
        | none =>
          refine ⟨m, best, rfl, le_rfl, hbest, ?_⟩
          intro hs r v hv hle
          by_cases hrb : r.blk = b
          · exact hAB hs r v hv hle hrb
          · have : b + 1 ≤ r.blk := by
              rcases hle with h | ⟨h, _⟩
              · simp only at h; omega
              · simp only at h; omega
            obtain ⟨rb, rl, rw⟩ := r
            rw [wordAt_none_of_block hb this] at hv; cases hv
        | some blk =>
          simp only
          by_cases hpb : m < blk.post.dist px py
          · rw [if_pos hpb]
            refine ⟨m, best, rfl, le_rfl, hbest, ?_⟩
            intro hs r v hv hle
            by_cases hrb : r.blk = b
            · exact hAB hs r v hv hle hrb
            · have : b + 1 ≤ r.blk := by
                rcases hle with h | ⟨h, _⟩
                · simp only at h; omega
                · simp only at h; omega
              obtain ⟨rb, rl, rw⟩ := r
              exact le_trans (le_of_lt hpb) (hs.block (b + 1) rb rl rw blk v hb hv this)
          · rw [if_neg hpb]
            have hne := hq.line_ne hb
            have hemp : blk.lines.isEmpty = false := by
              cases hh : blk.lines with
              | nil => exact absurd hh hne
              | cons _ _ => rfl
            simp only [hemp, Bool.false_eq_true, if_false]
            obtain ⟨ln0, hln0⟩ := lineAt_zero_isSome hq hb
            have hfuel : wordsLeft p (b + 1) 0 0 + linesLeft p (b + 1) (0 + 1) +
                blocksLeft p (b + 1 + 1) + 1 ≤ f := by
              have e1 := blocksLeft_step hb
              have e2 := linesLeft_step hln0
              have e3 := wordsLeft_zero hln0
              omega
            obtain ⟨m', best', hres, hle', hb', hmin⟩ :=
              ih (b + 1) 0 0 m best ⟨ln0, hln0⟩ hfuel hbest
            refine ⟨m', best', hres, hle', hb', ?_⟩
            intro hs r v hv hle
            by_cases hrb : r.blk = b
            · exact le_trans hle' (hAB hs r v hv hle hrb)
            · apply hmin hs r v hv
              have : b + 1 ≤ r.blk := by
                rcases hle with h | ⟨h, _⟩
                · simp only at h; omega
                · simp only at h; omega
              rcases Nat.lt_or_ge (b + 1) r.blk with h | h
              · exact Or.inl h
              · exact Or.inr ⟨by simp only; omega, by
                  rcases Nat.eq_zero_or_pos r.line with h0 | h0
                  · exact Or.inr ⟨by simp only; omega, Nat.zero_le _⟩
                  · exact Or.inl h0⟩
      · rw [if_neg hpl]
        cases hl1 : p.lineAt b (l + 1) with
        | none => rw [hl1] at hpl; exact absurd (pruned_none m px py) hpl
        | some ln1 =>
          have hfuel : wordsLeft p b (l + 1) 0 + linesLeft p b (l + 1 + 1) +
              blocksLeft p (b + 1) + 1 ≤ f := by
            have e2 := linesLeft_step hl1
            have e3 := wordsLeft_zero hl1
            omega
          obtain ⟨m', best', hres, hle', hb', hmin⟩ :=
            ih b (l + 1) 0 m best ⟨ln1, hl1⟩ hfuel hbest
          refine ⟨m', best', hres, hle', hb', ?_⟩
          intro hs r v hv hle
          obtain ⟨rb, rl, rw⟩ := r
          rcases hle with h | ⟨h0, h | ⟨h1, h2⟩⟩
          · exact hmin hs _ v hv (Or.inl h)
          · simp only at h0 h; subst h0
            apply hmin hs _ v hv
            rcases Nat.lt_or_ge (l + 1) rl with h' | h'
            · exact Or.inr ⟨rfl, Or.inl h'⟩
            · exact Or.inr ⟨rfl, Or.inr ⟨by simp only; omega, Nat.zero_le _⟩⟩
          · simp only at h0 h1 h2; subst h0; subst h1
            exact le_trans hle' (hA hs rw v hv h2)
    · rw [if_neg hpr]
      cases hw : p.wordAt ⟨b, l, w⟩ with
      | none => rw [hw] at hpr; exact absurd (pruned_none m px py) hpr
      | some wd =>
        simp only
        have hstep := wordsLeft_step hw
        have hfuel : wordsLeft p b l (w + 1) + linesLeft p b (l + 1) + blocksLeft p (b + 1) + 1
            ≤ f := by omega
        -- positions from `(b, l, w)` on are `(b, l, w)` itself or from `(b, l, w + 1)` on
        have hsplit : ∀ r : WordRef, WordRef.le ⟨b, l, w⟩ r →
            r = ⟨b, l, w⟩ ∨ WordRef.le ⟨b, l, w + 1⟩ r := by
          intro r hle
          obtain ⟨rb, rl, rw⟩ := r
          rcases hle with h | ⟨h0, h | ⟨h1, h2⟩⟩
          · exact Or.inr (Or.inl h)
          · exact Or.inr (Or.inr ⟨h0, Or.inl h⟩)
          · simp only at h0 h1 h2
            rcases Nat.eq_or_lt_of_le h2 with h3 | h3
            · left; subst h0; subst h1; subst h3; rfl
            · exact Or.inr (Or.inr ⟨h0, Or.inr ⟨h1, h3⟩⟩)
        by_cases hd : wd.box.dist px py < m
        · rw [if_pos hd]
          by_cases hz : wd.box.dist px py = 0
          · rw [if_pos hz]
            refine ⟨wd.box.dist px py, ⟨b, l, w⟩, rfl, le_of_lt hd, ⟨wd, hw, rfl⟩, ?_⟩
            intro _ r v _ _
            rw [hz]; exact Box.dist_nonneg _ _ _
          · rw [if_neg hz]
            obtain ⟨m', best', hres, hle', hb', hmin⟩ :=
              ih b l (w + 1) (wd.box.dist px py) ⟨b, l, w⟩ ⟨ln, hln⟩ hfuel ⟨wd, hw, rfl⟩
            refine ⟨m', best', hres, le_trans hle' (le_of_lt hd), hb', ?_⟩
            intro hs r v hv hle
            rcases hsplit r hle with h | h
            · subst h; rw [hw] at hv; cases hv; exact hle'
            · exact hmin hs r v hv h
        · rw [if_neg hd]
          obtain ⟨m', best', hres, hle', hb', hmin⟩ :=
            ih b l (w + 1) m best ⟨ln, hln⟩ hfuel hbest
          refine ⟨m', best', hres, hle', hb', ?_⟩
          intro hs r v hv hle
          rcases hsplit r hle with h | h
          · subst h; rw [hw] at hv; cases hv
            exact le_trans hle' (not_lt.mp hd)
          · exact hmin hs r v hv h

theorem getElem?_some_of_le {α : Type} {xs : List α} {i j : Nat} {a : α} (h : xs[j]? = some a)
    (hij : i ≤ j) : ∃ c, xs[i]? = some c := by
  obtain ⟨hj, _⟩ := List.getElem?_eq_some.mp h
  exact ⟨xs[i], List.getElem?_eq_some.mpr ⟨by omega, rfl⟩⟩

theorem lineAt_some_of_le {p : TextPage} {b l l' : Nat} {ln : TextLine}
    (h : p.lineAt b l = some ln) (hl : l' ≤ l) : ∃ ln', p.lineAt b l' = some ln' := by
  obtain ⟨blk, hb, hl0⟩ := lineAt_eq_some.mp h
  obtain ⟨c, hc⟩ := getElem?_some_of_le hl0 hl
  exact ⟨c, lineAt_eq_some.mpr ⟨blk, hb, hc⟩⟩

theorem blockAt_some_of_line {p : TextPage} {b b' l : Nat} {ln : TextLine}
    (h : p.lineAt b l = some ln) (hb : b' ≤ b) : ∃ blk, p.blockAt b' = some blk := by
  obtain ⟨blk, hb0, _⟩ := lineAt_eq_some.mp h
  exact getElem?_some_of_le hb0 hb

theorem wordAt_some_of_le {p : TextPage} {b l w w' : Nat} {wd : TextWord}
    (h : p.wordAt ⟨b, l, w⟩ = some wd) (hw : w' ≤ w) : ∃ v, p.wordAt ⟨b, l, w'⟩ = some v := by
  obtain ⟨ln, hl, hw0⟩ := wordAt_line h
  obtain ⟨c, hc⟩ := getElem?_some_of_le hw0 hw
  exact ⟨c, wordAt_of_line hl hc⟩

theorem lastLine_some {p : TextPage} (hq : p.Queryable) {b : Nat} {blk : TextBlock}
    (hb : p.blockAt b = some blk) : ∃ ln, p.lineAt b (blk.lines.length - 1) = some ln := by
  have hne := hq.line_ne hb
  have hlen : 0 < blk.lines.length := List.length_pos.mpr hne
  exact ⟨blk.lines[blk.lines.length - 1], lineAt_eq_some.mpr ⟨blk, hb,
    List.getElem?_eq_some.mpr ⟨by omega, rfl⟩⟩⟩

theorem wordsBefore_lastWordOf {p : TextPage} {b l : Nat} {ln : TextLine}
    (h : p.lineAt b l = some ln) : wordsBefore (p.lastWordOf b l) = ln.words.length := by
  unfold TextPage.lastWordOf
  simp only [h]
  cases hw : ln.words with
  | nil => rfl
  | cons a rest => simp [wordsBefore]

theorem lastWordOf_valid {p : TextPage} {b l w : Nat} (h : p.lastWordOf b l = some w) :
    ∃ wd, p.wordAt ⟨b, l, w⟩ = some wd := by
  unfold TextPage.lastWordOf at h
  cases hl : p.lineAt b l with
  | none => rw [hl] at h; cases h
  | some ln =>
    rw [hl] at h
    simp only at h
    cases hw : ln.words with
    | nil => rw [hw] at h; simp at h
    | cons a rest =>
      rw [hw] at h
      simp only [List.isEmpty_cons, Bool.false_eq_true, if_false, Option.some.injEq,
        List.length_cons, Nat.add_sub_cancel] at h
      subst h
      exact ⟨(a :: rest)[rest.length], wordAt_of_line hl (by
        rw [hw]; exact List.getElem?_eq_some.mpr ⟨by simp, rfl⟩)⟩

theorem le_lastWordOf {p : TextPage} {b l w' : Nat} {v : TextWord}
    (h : p.wordAt ⟨b, l, w'⟩ = some v) : ∃ w, p.lastWordOf b l = some w ∧ w' ≤ w := by
  obtain ⟨ln, hl, hw⟩ := wordAt_line h
  obtain ⟨hlt, _⟩ := List.getElem?_eq_some.mp hw
  simp only at hlt
  unfold TextPage.lastWordOf
  simp only [hl]
  cases hws : ln.words with
  | nil => rw [hws] at hlt; simp at hlt
  | cons a rest =>
    rw [hws] at hlt
    simp only [List.length_cons] at hlt
    exact ⟨rest.length, by simp, by omega⟩

/-- The backward walk returns with enough fuel; its result is a word of
the page at distance `m'`, not farther than the best word so far, and
(with sound `*Pre` envelopes) not farther than any word up to the cursor. -/
theorem bwdWalk_spec (p : TextPage) (hq : p.Queryable) (px py : ℚ) :
    ∀ (fuel b l : Nat) (word : Option Nat) (m : ℚ) (best : WordRef),
      (∃ ln, p.lineAt b l = some ln) →
      (∀ w, word = some w → ∃ wd, p.wordAt ⟨b, l, w⟩ = some wd) →
      wordsBefore word + linesBefore p b l + blocksBefore p b + 1 ≤ fuel →
      (∃ bw, p.wordAt best = some bw ∧ bw.box.dist px py = m) →
      ∃ m' best', bwdWalk p px py fuel b l word m best = .ok (m', best') ∧ m' ≤ m ∧
        (∃ bw, p.wordAt best' = some bw ∧ bw.box.dist px py = m') ∧
        (PreSound p px py → ∀ r v, p.wordAt r = some v → BeforeCur b l word r →
          m' ≤ v.box.dist px py) := by
  intro fuel
  induction fuel with
  | zero => intro b l word m best _ _ hf _; omega
  | succ f ih =>
    intro b l word m best hl hcur hf hbest
    obtain ⟨ln, hln⟩ := hl
    simp only [bwdWalk]
    by_cases hpr : pruned m px py ((p.wordAtCur b l word).map (fun wd => wd.pre)) = true
    · rw [if_pos hpr]
      have hA : PreSound p px py → ∀ w' v, p.wordAt ⟨b, l, w'⟩ = some v →
          (∃ w, word = some w ∧ w' ≤ w) → m ≤ v.box.dist px py := by
        intro hs w' v hv hex
        obtain ⟨w, hw, hww⟩ := hex
        subst hw
        obtain ⟨wd, hwd⟩ := hcur w rfl
        simp only [TextPage.wordAtCur, hwd, Option.map_some', pruned_some] at hpr
        exact le_trans (le_of_lt hpr) (hs.word b l w w' wd v hwd hv hww)
      by_cases hpl : pruned m px py ((p.linePrev b l).map (fun ln => ln.pre)) = true
      · rw [if_pos hpl]
        have hB : PreSound p px py → ∀ l' w' v, p.wordAt ⟨b, l', w'⟩ = some v → l' < l →
            m ≤ v.box.dist px py := by
          intro hs l' w' v hv hll
          cases l with
          | zero => omega
          | succ l1 =>
            obtain ⟨ln1, hl1⟩ := lineAt_some_of_le hln (Nat.le_succ l1)
            simp only [TextPage.linePrev, hl1, Option.map_some', pruned_some] at hpl
            exact le_trans (le_of_lt hpl) (hs.line b l1 l' w' ln1 v hl1 hv (by omega))
        have hAB : PreSound p px py → ∀ r v, p.wordAt r = some v → BeforeCur b l word r →
            r.blk = b → m ≤ v.box.dist px py := by
          intro hs r v hv hle hrb
          obtain ⟨rb, rl, rw⟩ := r
          simp only at hrb; subst hrb
          rcases hle with h | ⟨_, h | ⟨h1, h2⟩⟩
          · simp only at h; omega
          · simp only at h; exact hB hs rl rw v hv h
          · simp only at h1 h2; subst h1; exact hA hs rw v hv h2
        have hblk : ∀ r : WordRef, BeforeCur b l word r → r.blk ≠ b → r.blk < b := by
          intro r hle hne
          rcases hle with h | ⟨h, _⟩
          · exact h
          · exact absurd h hne
        cases b with
        | zero =>
          refine ⟨m, best, rfl, le_rfl, hbest, ?_⟩
          intro hs r v hv hle
          by_cases hrb : r.blk = 0
          · exact hAB hs r v hv hle hrb
          · have := hblk r hle hrb; omega
        | succ b1 =>
          simp only
          obtain ⟨blk, hb⟩ := blockAt_some_of_line hln (Nat.le_succ b1)
          rw [hb]
          simp only
          by_cases hpb : m < blk.pre.dist px py
          · rw [if_pos hpb]
            refine ⟨m, best, rfl, le_rfl, hbest, ?_⟩
            intro hs r v hv hle
            by_cases hrb : r.blk = b1 + 1
            · exact hAB hs r v hv hle hrb
            · have := hblk r hle hrb
              obtain ⟨rb, rl, rw⟩ := r
              exact le_trans (le_of_lt hpb)
                (hs.block b1 rb rl rw blk v hb hv (by simp only at this; omega))
          · rw [if_neg hpb]
            have hne := hq.line_ne hb
            have hemp : blk.lines.isEmpty = false := by
              cases hh : blk.lines with
              | nil => exact absurd hh hne
              | cons _ _ => rfl
            simp only [hemp, Bool.false_eq_true, if_false]
            obtain ⟨lnL, hlnL⟩ := lastLine_some hq hb
            have hlen : 0 < blk.lines.length := List.length_pos.mpr hne
            have hfuel : wordsBefore (p.lastWordOf b1 (blk.lines.length - 1)) +
                linesBefore p b1 (blk.lines.length - 1) + blocksBefore p b1 + 1 ≤ f := by
              have e1 := blocksBefore_step hb
              have e2 := linesBefore_step hlnL
              have e3 := wordsBefore_lastWordOf hlnL
              have e4 : blk.lines.length - 1 + 1 = blk.lines.length := by omega
              rw [e4] at e2
              omega
            obtain ⟨m', best', hres, hle', hb', hmin⟩ :=
              ih b1 (blk.lines.length - 1) (p.lastWordOf b1 (blk.lines.length - 1)) m best
                ⟨lnL, hlnL⟩ (fun w hw => lastWordOf_valid hw) hfuel hbest
            refine ⟨m', best', hres, hle', hb', ?_⟩
            intro hs r v hv hle
            by_cases hrb : r.blk = b1 + 1
            · exact le_trans hle' (hAB hs r v hv hle hrb)
            · have hlt := hblk r hle hrb
              apply hmin hs r v hv
              obtain ⟨rb, rl, rw⟩ := r
              simp only at hlt
              rcases Nat.lt_or_ge rb b1 with h | h
              · exact Or.inl h
              · have hrb1 : rb = b1 := by omega
                subst hrb1
                refine Or.inr ⟨rfl, ?_⟩
                obtain ⟨blk', ln', hb'', hl'', _⟩ := wordAt_eq_some.mp hv
                have hbb : p.blocks[rb]? = some blk := hb
                rw [hbb] at hb''; cases hb''
                obtain ⟨hrl, _⟩ := List.getElem?_eq_some.mp hl''
                simp only at hrl
                rcases Nat.lt_or_ge rl (blk.lines.length - 1) with h1 | h1
                · exact Or.inl h1
                · have hrl1 : rl = blk.lines.length - 1 := by omega
                  subst hrl1
                  exact Or.inr ⟨rfl, le_lastWordOf hv⟩
      · rw [if_neg hpl]
        cases l with
        | zero => exact absurd (pruned_none m px py) hpl
        | succ l1 =>
          obtain ⟨ln1, hl1⟩ := lineAt_some_of_le hln (Nat.le_succ l1)
          simp only [Nat.add_sub_cancel]
          have hfuel : wordsBefore (p.lastWordOf b l1) + linesBefore p b l1 +
              blocksBefore p b + 1 ≤ f := by
            have e2 := linesBefore_step hl1
            have e3 := wordsBefore_lastWordOf hl1
            omega
          obtain ⟨m', best', hres, hle', hb', hmin⟩ :=
            ih b l1 (p.lastWordOf b l1) m best ⟨ln1, hl1⟩ (fun w hw => lastWordOf_valid hw)
              hfuel hbest
          refine ⟨m', best', hres, hle', hb', ?_⟩
          intro hs r v hv hle
          obtain ⟨rb, rl, rw⟩ := r
          rcases hle with h | ⟨h0, h | ⟨h1, h2⟩⟩
          · exact hmin hs _ v hv (Or.inl h)
          · simp only at h0 h; subst h0
            apply hmin hs _ v hv
            rcases Nat.lt_or_ge rl l1 with h' | h'
            · exact Or.inr ⟨rfl, Or.inl h'⟩
            · have : rl = l1 := by omega
              subst this
              exact Or.inr ⟨rfl, Or.inr ⟨rfl, le_lastWordOf hv⟩⟩
          · simp only at h0 h1 h2; subst h0; subst h1
            exact le_trans hle' (hA hs rw v hv h2)
    · rw [if_neg hpr]
      cases word with
      | none => exact absurd (pruned_none m px py) hpr
      | some w =>
        obtain ⟨wd, hw⟩ := hcur w rfl
        simp only [TextPage.wordAtCur, hw]
        have hvalid : ∀ w1, prevPos (some w) = some w1 → ∃ wd1, p.wordAt ⟨b, l, w1⟩ = some wd1 := by
          intro w1 h1
          cases w with
          | zero => simp [prevPos] at h1
          | succ n =>
            simp only [prevPos, Option.some.injEq] at h1
            subst h1
            exact wordAt_some_of_le hw (Nat.le_succ _)
        have hfuel : wordsBefore (prevPos (some w)) + linesBefore p b l + blocksBefore p b + 1
            ≤ f := by
          have : wordsBefore (prevPos (some w)) + 1 = wordsBefore (some w) := by
            cases w with
            | zero => rfl
            | succ n => rfl
          omega
        have hsplit : ∀ r : WordRef, BeforeCur b l (some w) r →
            r = ⟨b, l, w⟩ ∨ BeforeCur b l (prevPos (some w)) r := by
          intro r hle
          obtain ⟨rb, rl, rw⟩ := r
          rcases hle with h | ⟨h0, h | ⟨h1, w0, h2, h3⟩⟩
          · exact Or.inr (Or.inl h)
          · exact Or.inr (Or.inr ⟨h0, Or.inl h⟩)
          · simp only at h0 h1 h3
            cases h2
            rcases Nat.eq_or_lt_of_le h3 with h4 | h4
            · left; subst h0; subst h1; subst h4; rfl
            · right
              refine Or.inr ⟨h0, Or.inr ⟨h1, ?_⟩⟩
              cases w with
              | zero => omega
              | succ n => exact ⟨n, rfl, by simp only; omega⟩
        by_cases hd : wd.box.dist px py < m
        · rw [if_pos hd]
          by_cases hz : wd.box.dist px py = 0
          · rw [if_pos hz]
            refine ⟨wd.box.dist px py, ⟨b, l, w⟩, rfl, le_of_lt hd, ⟨wd, hw, rfl⟩, ?_⟩
            intro _ r v _ _
            rw [hz]; exact Box.dist_nonneg _ _ _
          · rw [if_neg hz]
            obtain ⟨m', best', hres, hle', hb', hmin⟩ :=
              ih b l (prevPos (some w)) (wd.box.dist px py) ⟨b, l, w⟩ ⟨ln, hln⟩ hvalid hfuel
                ⟨wd, hw, rfl⟩
            refine ⟨m', best', hres, le_trans hle' (le_of_lt hd), hb', ?_⟩
            intro hs r v hv hle
            rcases hsplit r hle with h | h
            · subst h; rw [hw] at hv; cases hv; exact hle'
            · exact hmin hs r v hv h
        · rw [if_neg hd]
          obtain ⟨m', best', hres, hle', hb', hmin⟩ :=
            ih b l (prevPos (some w)) m best ⟨ln, hln⟩ hvalid hfuel hbest
          refine ⟨m', best', hres, hle', hb', ?_⟩
          intro hs r v hv hle
          rcases hsplit r hle with h | h
          · subst h; rw [hw] at hv; cases hv
            exact le_trans hle' (not_lt.mp hd)
          · exact hmin hs r v hv h

/-! ## Lemmas: The zoom and `findNearest` -/

theorem ltMin_false {d : ℚ} {m : Option ℚ} (h : ltMin d m = false) : m ≠ none := by
  intro hm; subst hm; simp [ltMin] at h

theorem posMin_false {m : Option ℚ} (h : posMin m = false) : m ≠ none := by
  intro hm; subst hm; simp [posMin] at h

/-- A zoom loop over a non-empty list, or entered with a best position,
ends with a best position and `mindist` is the distance of its box. -/
theorem zoomLoop_spec (px py : ℚ) (all : List Box) :
    ∀ (bs : List Box) (i : Nat) (m : Option ℚ) (best : Option Nat),
      all.drop i = bs →
      (m = none ∨ ∃ v j bx, m = some v ∧ best = some j ∧ all[j]? = some bx ∧
        bx.dist px py = v) →
      (bs ≠ [] ∨ m ≠ none) →
      ∃ v j bx, zoomLoop px py bs i m best = (some v, some j) ∧ all[j]? = some bx ∧
        bx.dist px py = v := by
  intro bs
  induction bs with
  | nil =>
    intro i m best _ hinv hne
    rcases hne with h | h
    · exact absurd rfl h
    · rcases hinv with h' | ⟨v, j, bx, hm, hb, hj, hd⟩
      · exact absurd h' h
      · exact ⟨v, j, bx, by simp [zoomLoop, hm, hb], hj, hd⟩
  | cons b bs ih =>
    intro i m best hdrop hinv _
    have hi : all[i]? = some b := by
      have := List.getElem?_drop all i 0
      rw [hdrop] at this
      simpa using this.symm
    have hdrop' : all.drop (i + 1) = bs := by
      have := congrArg (List.drop 1) hdrop
      simpa [List.drop_drop, Nat.add_comm] using this
    simp only [zoomLoop]
    by_cases hp : posMin m = true
    · rw [if_pos hp]
      by_cases hl : ltMin (b.dist px py) m = true
      · rw [if_pos hl]
        exact ih (i + 1) (some (b.dist px py)) (some i) hdrop'
          (Or.inr ⟨b.dist px py, i, b, rfl, rfl, hi, rfl⟩) (Or.inr (by simp))
      · rw [if_neg hl]
        have hm := ltMin_false (Bool.eq_false_iff.mpr hl)
        exact ih (i + 1) m best hdrop' hinv (Or.inr hm)
    · rw [if_neg hp]
      have hm := posMin_false (Bool.eq_false_iff.mpr hp)
      rcases hinv with h' | ⟨v, j, bx, hm', hb, hj, hd⟩
      · exact absurd h' hm
      · exact ⟨v, j, bx, by rw [hm', hb], hj, hd⟩

theorem zoomLoop_start (px py : ℚ) (all : List Box) (hne : all ≠ []) :
    ∃ v j bx, zoomLoop px py all 0 none none = (some v, some j) ∧ all[j]? = some bx ∧
      bx.dist px py = v :=
  zoomLoop_spec px py all all 0 none none rfl (Or.inl rfl) (Or.inl hne)

/-- On a queryable page the zoom returns a word of the page and its
distance. -/
theorem zoom_spec (p : TextPage) (hq : p.Queryable) (px py : ℚ) :
    ∃ s m w, zoom p px py = .ok (s, m) ∧ p.wordAt s = some w ∧ w.box.dist px py = m := by
  unfold zoom
  obtain ⟨v1, b, bx1, h1, hb1, _⟩ :=
    zoomLoop_start px py (p.blocks.map (fun b => b.box)) (by simpa using hq.1)
  rw [h1]
  simp only
  rw [List.getElem?_map] at hb1
  cases hblk : p.blocks[b]? with
  | none => rw [hblk] at hb1; cases hb1
  | some blk =>
    have hba : p.blockAt b = some blk := hblk
    rw [hba]
    simp only
    obtain ⟨v2, l, bx2, h2, hb2, _⟩ :=
      zoomLoop_start px py (blk.lines.map (fun l => l.box)) (by simpa using hq.line_ne hba)
    rw [h2]
    simp only
    rw [List.getElem?_map] at hb2
    cases hln : blk.lines[l]? with
    | none => rw [hln] at hb2; cases hb2
    | some ln =>
      simp only
      have hla : p.lineAt b l = some ln := lineAt_eq_some.mpr ⟨blk, hblk, hln⟩
      obtain ⟨v3, w, bx3, h3, hb3, hd3⟩ :=
        zoomLoop_start px py (ln.words.map (fun w => w.box)) (by simpa using hq.word_ne hla)
      rw [h3]
      simp only
      rw [List.getElem?_map] at hb3
      cases hwd : ln.words[w]? with
      | none => rw [hwd] at hb3; cases hb3
      | some wd =>
        rw [hwd] at hb3
        simp only [Option.map_some', Option.some.injEq] at hb3
        subst hb3
        exact ⟨⟨b, l, w⟩, v3, wd, rfl, wordAt_of_line hla hwd, hd3⟩

/-- Any position is the start, after it, or before it. -/
theorem position_cases (s r : WordRef) :
    r = s ∨ WordRef.le ⟨s.blk, s.line, s.word + 1⟩ r ∨
      BeforeCur s.blk s.line (prevPos (some s.word)) r := by
  obtain ⟨sb, sl, sw⟩ := s
  obtain ⟨rb, rl, rw⟩ := r
  simp only [WordRef.le, BeforeCur, WordRef.mk.injEq]
  rcases Nat.lt_trichotomy rb sb with h | h | h
  · right; right; exact Or.inl h
  · subst h
    rcases Nat.lt_trichotomy rl sl with h | h | h
    · right; right; exact Or.inr ⟨rfl, Or.inl h⟩
    · subst h
      rcases Nat.lt_trichotomy rw sw with h | h | h
      · right; right
        refine Or.inr ⟨rfl, Or.inr ⟨rfl, ?_⟩⟩
        cases sw with
        | zero => omega
        | succ n => exact ⟨n, rfl, by omega⟩
      · left; exact ⟨rfl, rfl, h⟩
      · right; left; exact Or.inr ⟨rfl, Or.inr ⟨rfl, h⟩⟩
    · right; left; exact Or.inr ⟨rfl, Or.inl h⟩
  · right; left; exact Or.inl h

/-- Function `findNearest` on a queryable page returns a word of the page; with
sound envelopes no word of the page is nearer. -/
theorem findNearest_spec (p : TextPage) (hq : p.Queryable) (px py : ℚ)
    (start : Option WordRef) (hs : ∀ s, start = some s → ∃ w, p.wordAt s = some w) :
    ∃ r w, findNearest p px py start = .ok (some r) ∧ p.wordAt r = some w ∧
      (PostSound p px py → PreSound p px py →
        ∀ r' v, p.wordAt r' = some v → w.box.dist px py ≤ v.box.dist px py) := by
  have hinit : ∃ s m w, (match start with
      | none => zoom p px py
      | some s =>
        match p.wordAt s with
        | none => .error .nullDeref
        | some w => .ok (s, w.box.dist px py)) = Except.ok (s, m) ∧
      p.wordAt s = some w ∧ w.box.dist px py = m := by
    cases start with
    | none => exact zoom_spec p hq px py
    | some s =>
      obtain ⟨w, hw⟩ := hs s rfl
      exact ⟨s, w.box.dist px py, w, by simp [hw], hw, rfl⟩
  obtain ⟨s, m, sw, hi, hsw, hsm⟩ := hinit
  have hemp : p.blocks.isEmpty = false := by
    cases hh : p.blocks with
    | nil => exact absurd hh hq.1
    | cons _ _ => rfl
  obtain ⟨ln, hln, hwln⟩ := wordAt_line hsw
  obtain ⟨blk, hblk, _⟩ := lineAt_eq_some.mp hln
  have hba : p.blockAt s.blk = some blk := hblk
  obtain ⟨hwlt, _⟩ := List.getElem?_eq_some.mp hwln
  have hf1 : wordsLeft p s.blk s.line (s.word + 1) + linesLeft p s.blk (s.line + 1) +
      blocksLeft p (s.blk + 1) + 1 ≤ p.walkFuel := by
    have e0 := walkFuel_eq p
    have e1 := wordsLeft_le (w := s.word + 1) hln
    have e2 := linesLeft_step hln
    have e3 := linesLeft_le p s.blk s.line
    have e4 := blocksLeft_step hba
    have e5 := blocksLeft_le p s.blk
    omega
  obtain ⟨m1, best1, hr1, hle1, hb1, hmin1⟩ :=
    fwdWalk_spec p hq px py p.walkFuel s.blk s.line (s.word + 1) m s ⟨ln, hln⟩ hf1
      ⟨sw, hsw, hsm⟩
  have hcur : ∀ w, prevPos (some s.word) = some w →
      ∃ wd, p.wordAt ⟨s.blk, s.line, w⟩ = some wd := by
    intro w hw
    cases hsw' : s.word with
    | zero => rw [hsw'] at hw; simp [prevPos] at hw
    | succ n =>
      rw [hsw'] at hw
      simp only [prevPos, Option.some.injEq] at hw
      subst hw
      have : p.wordAt ⟨s.blk, s.line, s.word⟩ = some sw := hsw
      exact wordAt_some_of_le this (by omega)
  have hf2 : wordsBefore (prevPos (some s.word)) + linesBefore p s.blk s.line +
      blocksBefore p s.blk + 1 ≤ p.walkFuel := by
    have e0 := walkFuel_eq p
    have e1 : wordsBefore (prevPos (some s.word)) = s.word := by
      cases s.word with
      | zero => rfl
      | succ n => rfl
    have e2 := linesBefore_step hln
    have e3 := linesBefore_le hba (s.line + 1)
    have e4 := blocksBefore_step hba
    have e5 := blocksBefore_le p (s.blk + 1)
    omega
  obtain ⟨m2, best2, hr2, hle2, hb2, hmin2⟩ :=
    bwdWalk_spec p hq px py p.walkFuel s.blk s.line (prevPos (some s.word)) m1 best1
      ⟨ln, hln⟩ hcur hf2 hb1
  obtain ⟨bw2, hbw2, hd2⟩ := hb2
  refine ⟨best2, bw2, ?_, hbw2, ?_⟩
  · unfold findNearest
    simp only [hemp, Bool.false_eq_true, if_false]
    rw [hi]
    simp only [hr1, hr2]
  · intro hpost hpre r' v hv
    rw [hd2]
    rcases position_cases s r' with h | h | h
    · subst h
      rw [hsw] at hv; cases hv
      rw [hsm]; exact le_trans hle2 hle1
    · exact le_trans hle2 (hmin1 hpost r' v hv h)
    · exact hmin2 hpre r' v hv h

/-! ## Lemmas: Soundness of the envelopes -/

section Envelopes

variable {α : Type} (box pre post : α → Box) (setPre setPost : α → Box → α)

theorem fillPreFrom_covers (hbox : ∀ a e, box (setPre a e) = box a)
    (hpre : ∀ a e, pre (setPre a e) = e) :
    ∀ (as : List α) (prev : Box) (k : Nat) (a : α),
      (fillPreFrom box setPre prev as)[k]? = some a →
      (pre a).covers prev ∧
        ∀ k' c, k' ≤ k → (fillPreFrom box setPre prev as)[k']? = some c →
          (pre a).covers (box c) := by
  intro as
  induction as with
  | nil => intro prev k a h; simp [fillPreFrom] at h
  | cons x xs ih =>
    intro prev k a h
    simp only [fillPreFrom] at h ⊢
    cases k with
    | zero =>
      simp only [List.getElem?_cons_zero, Option.some.injEq] at h
      subst h
      rw [hpre]
      refine ⟨Box.join_covers_right _ _, ?_⟩
      intro k' c hk hc
      have : k' = 0 := by omega
      subst this
      simp only [List.getElem?_cons_zero, Option.some.injEq] at hc
      subst hc
      rw [hbox]
      exact Box.join_covers_left _ _
    | succ k1 =>
      simp only [List.getElem?_cons_succ] at h
      obtain ⟨h1, h2⟩ := ih ((box x).join prev) k1 a h
      refine ⟨Box.covers_trans h1 (Box.join_covers_right _ _), ?_⟩
      intro k' c hk hc
      cases k' with
      | zero =>
        simp only [List.getElem?_cons_zero, Option.some.injEq] at hc
        subst hc
        rw [hbox]
        exact Box.covers_trans h1 (Box.join_covers_left _ _)
      | succ k2 =>
        simp only [List.getElem?_cons_succ] at hc
        exact h2 k2 c (by omega) hc

/-- After the `*Pre` pass the `*Pre` box of an element contains the box of
every element up to it. -/
theorem fillPre_covers (hbox : ∀ a e, box (setPre a e) = box a)
    (hpre : ∀ a e, pre (setPre a e) = e) (as : List α) (k k' : Nat) (a c : α)
    (ha : (fillPre box setPre as)[k]? = some a) (hc : (fillPre box setPre as)[k']? = some c)
    (hk : k' ≤ k) : (pre a).covers (box c) := by
  cases as with
  | nil => simp [fillPre] at ha
  | cons x xs =>
    simp only [fillPre] at ha hc
    cases k with
    | zero =>
      have : k' = 0 := by omega
      subst this
      simp only [List.getElem?_cons_zero, Option.some.injEq] at ha hc
      subst ha; subst hc
      rw [hpre, hbox]
      exact Box.covers_refl _
    | succ k1 =>
      simp only [List.getElem?_cons_succ] at ha
      obtain ⟨h1, h2⟩ := fillPreFrom_covers box pre setPre hbox hpre xs (box x) k1 a ha
      cases k' with
      | zero =>
        simp only [List.getElem?_cons_zero, Option.some.injEq] at hc
        subst hc
        rw [hbox]; exact h1
      | succ k2 =>
        simp only [List.getElem?_cons_succ] at hc
        exact h2 k2 c (by omega) hc

/-- After the `*Post` pass the `*Post` box of an element contains the box
of every element from it on. -/
theorem fillPost_covers (hbox : ∀ a e, box (setPost a e) = box a)
    (hpost : ∀ a e, post (setPost a e) = e) :
    ∀ (as : List α) (k k' : Nat) (a c : α),
      (fillPost box post setPost as)[k]? = some a →
      (fillPost box post setPost as)[k']? = some c → k ≤ k' →
      (post a).covers (box c) := by
  intro as
  induction as with
  | nil => intro k k' a c h; simp [fillPost] at h
  | cons x xs ih =>
    intro k k' a c ha hc hk
    simp only [fillPost] at ha hc
    cases hout : fillPost box post setPost xs with
    | nil =>
      rw [hout] at ha hc
      simp only at ha hc
      cases k with
      | zero =>
        cases k' with
        | zero =>
          simp only [List.getElem?_cons_zero, Option.some.injEq] at ha hc
          subst ha; subst hc
          rw [hpost, hbox]; exact Box.covers_refl _
        | succ k2 => simp at hc
      | succ k1 => simp at ha
    | cons v vs =>
      rw [hout] at ha hc ih
      simp only at ha hc
      cases k with
      | zero =>
        simp only [List.getElem?_cons_zero, Option.some.injEq] at ha
        subst ha
        rw [hpost]
        cases k' with
        | zero =>
          simp only [List.getElem?_cons_zero, Option.some.injEq] at hc
          subst hc
          rw [hbox]; exact Box.join_covers_left _ _
        | succ k2 =>
          simp only [List.getElem?_cons_succ] at hc
          exact Box.covers_trans (Box.join_covers_right _ _)
            (ih 0 k2 v c (by simp) hc (Nat.zero_le _))
      | succ k1 =>
        cases k' with
        | zero => omega
        | succ k2 =>
          simp only [List.getElem?_cons_succ] at ha hc
          exact ih k1 k2 a c ha hc (by omega)

/-- The `*Post` pass leaves a field it does not write unchanged. -/
theorem fillPost_map {β : Type} (g : α → β) (hg : ∀ a e, g (setPost a e) = g a) :
    ∀ as : List α, (fillPost box post setPost as).map g = as.map g := by
  intro as
  induction as with
  | nil => rfl
  | cons x xs ih =>
    simp only [fillPost]
    cases hout : fillPost box post setPost xs with
    | nil =>
      rw [hout] at ih
      cases xs with
      | nil => simp [hg]
      | cons y ys => simp at ih
    | cons v vs =>
      rw [hout] at ih
      simp only [List.map_cons, hg]
      rw [← ih]; rfl

end Envelopes

theorem getElem?_map_eq {α β : Type} (g : α → β) {xs ys : List α} (h : xs.map g = ys.map g)
    {k : Nat} {a : α} (ha : xs[k]? = some a) : ∃ c, ys[k]? = some c ∧ g c = g a := by
  have h1 : (xs.map g)[k]? = some (g a) := by rw [List.getElem?_map, ha]; rfl
  rw [h, List.getElem?_map] at h1
  cases hy : ys[k]? with
  | none => rw [hy] at h1; cases h1
  | some c =>
    rw [hy] at h1
    simp only [Option.map_some', Option.some.injEq] at h1
    exact ⟨c, rfl, h1⟩

/-- Envelopes of the words of a line written by `TextLine::coalesce`. -/
theorem words_envelopes {ws : List TextWord} (hfix : ws = wordsPost (wordsPre ws))
    {k k' : Nat} {a c : TextWord} (ha : ws[k]? = some a) (hc : ws[k']? = some c) :
    (k ≤ k' → a.post.covers c.box) ∧ (k' ≤ k → a.pre.covers c.box) := by
  constructor
  · intro hk
    rw [hfix] at ha hc
    exact fillPost_covers (fun (w : TextWord) => w.box) (fun w => w.post)
      (fun w e => { w with post := e }) (fun _ _ => rfl) (fun _ _ => rfl) (wordsPre ws)
      k k' a c ha hc hk
  · intro hk
    rw [hfix] at ha hc
    have hb := fillPost_map (fun w => w.box) (fun w => w.post)
      (fun (w : TextWord) e => { w with post := e }) (fun w => w.box) (fun _ _ => rfl)
      (wordsPre ws)
    have hp := fillPost_map (fun w => w.box) (fun w => w.post)
      (fun (w : TextWord) e => { w with post := e }) (fun w => w.pre) (fun _ _ => rfl)
      (wordsPre ws)
    obtain ⟨a0, ha0, hae⟩ := getElem?_map_eq (fun (w : TextWord) => w.pre) hp ha
    obtain ⟨c0, hc0, hce⟩ := getElem?_map_eq (fun (w : TextWord) => w.box) hb hc
    rw [← hae, ← hce]
    exact fillPre_covers (fun (w : TextWord) => w.box) (fun w => w.pre)
      (fun w e => { w with pre := e }) (fun _ _ => rfl) (fun _ _ => rfl) ws
      k k' a0 c0 ha0 hc0 hk

/-- Envelopes of the lines of a block written by `TextBlock::coalesce`. -/
theorem lines_envelopes {ls : List TextLine} (hfix : ls = linesPost (linesPre ls))
    {k k' : Nat} {a c : TextLine} (ha : ls[k]? = some a) (hc : ls[k']? = some c) :
    (k ≤ k' → a.post.covers c.box) ∧ (k' ≤ k → a.pre.covers c.box) := by
  constructor
  · intro hk
    rw [hfix] at ha hc
    exact fillPost_covers (fun (l : TextLine) => l.box) (fun l => l.post)
      (fun l e => { l with post := e }) (fun _ _ => rfl) (fun _ _ => rfl) (linesPre ls)
      k k' a c ha hc hk
  · intro hk
    rw [hfix] at ha hc
    have hb := fillPost_map (fun l => l.box) (fun l => l.post)
      (fun (l : TextLine) e => { l with post := e }) (fun l => l.box) (fun _ _ => rfl)
      (linesPre ls)
    have hp := fillPost_map (fun l => l.box) (fun l => l.post)
      (fun (l : TextLine) e => { l with post := e }) (fun l => l.pre) (fun _ _ => rfl)
      (linesPre ls)
    obtain ⟨a0, ha0, hae⟩ := getElem?_map_eq (fun (l : TextLine) => l.pre) hp ha
    obtain ⟨c0, hc0, hce⟩ := getElem?_map_eq (fun (l : TextLine) => l.box) hb hc
    rw [← hae, ← hce]
    exact fillPre_covers (fun (l : TextLine) => l.box) (fun l => l.pre)
      (fun l e => { l with pre := e }) (fun _ _ => rfl) (fun _ _ => rfl) ls
      k k' a0 c0 ha0 hc0 hk

/-- Envelopes of the blocks written by `TextPage::coalesce`. -/
theorem blocks_envelopes {bs : List TextBlock} (hfix : bs = blocksPost (blocksPre bs))
    {k k' : Nat} {a c : TextBlock} (ha : bs[k]? = some a) (hc : bs[k']? = some c) :
    (k ≤ k' → a.post.covers c.box) ∧ (k' ≤ k → a.pre.covers c.box) := by
  constructor
  · intro hk
    rw [hfix] at ha hc
    exact fillPost_covers (fun (b : TextBlock) => b.box) (fun b => b.post)
      (fun b e => { b with post := e }) (fun _ _ => rfl) (fun _ _ => rfl) (blocksPre bs)
      k k' a c ha hc hk
  · intro hk
    rw [hfix] at ha hc
    have hb := fillPost_map (fun b => b.box) (fun b => b.post)
      (fun (b : TextBlock) e => { b with post := e }) (fun b => b.box) (fun _ _ => rfl)
      (blocksPre bs)
    have hp := fillPost_map (fun b => b.box) (fun b => b.post)
      (fun (b : TextBlock) e => { b with post := e }) (fun b => b.pre) (fun _ _ => rfl)
      (blocksPre bs)
    obtain ⟨a0, ha0, hae⟩ := getElem?_map_eq (fun (b : TextBlock) => b.pre) hp ha
    obtain ⟨c0, hc0, hce⟩ := getElem?_map_eq (fun (b : TextBlock) => b.box) hb hc
    rw [← hae, ← hce]
    exact fillPre_covers (fun (b : TextBlock) => b.box) (fun b => b.pre)
      (fun b e => { b with pre := e }) (fun _ _ => rfl) (fun _ _ => rfl) bs
      k k' a0 c0 ha0 hc0 hk

theorem addWordBox_fold (ws : List TextWord) (hw : ∀ w ∈ ws, w.box.xMin ≤ w.box.xMax) :
    ∀ init : Box, init.xMin ≤ init.xMax →
      (ws.foldl addWordBox init).covers init ∧ ∀ v ∈ ws, (ws.foldl addWordBox init).covers v.box := by
  induction ws with
  | nil => intro init _; exact ⟨Box.covers_refl _, by simp⟩
  | cons w ws ih =>
    intro init hinit
    have hw0 := hw w (List.mem_cons_self _ _)
    have hstep : addWordBox init w = init.join w.box := by
      unfold addWordBox; rw [if_neg (not_lt.mpr hinit)]
    have hj : (init.join w.box).xMin ≤ (init.join w.box).xMax := by
      simp only [Box.join]
      exact le_trans (min_le_left _ _) (le_trans hinit (le_max_left _ _))
    obtain ⟨h1, h2⟩ := ih (fun v hv => hw v (List.mem_cons_of_mem _ hv)) (init.join w.box) hj
    simp only [List.foldl_cons, hstep]
    refine ⟨Box.covers_trans h1 (Box.join_covers_left _ _), ?_⟩
    intro v hv
    rcases List.mem_cons.mp hv with h | h
    · subst h; exact Box.covers_trans h1 (Box.join_covers_right _ _)
    · exact h2 v h

/-- The line box accumulated by `TextLine::addWord` contains every word of
the line. -/
theorem lineBox_covers (ws : List TextWord) (hw : ∀ w ∈ ws, w.box.xMin ≤ w.box.xMax) :
    ∀ v ∈ ws, (lineBox ws).covers v.box := by
  cases ws with
  | nil => simp
  | cons w rest =>
    have hw0 := hw w (List.mem_cons_self _ _)
    have hstep : addWordBox ⟨0, -1, 0, -1⟩ w = w.box := by
      unfold addWordBox; rw [if_pos (by norm_num)]
    obtain ⟨h1, h2⟩ := addWordBox_fold rest (fun v hv => hw v (List.mem_cons_of_mem _ hv))
      w.box hw0
    intro v hv
    unfold lineBox
    simp only [List.foldl_cons, hstep]
    rcases List.mem_cons.mp hv with h | h
    · subst h; exact h1
    · exact h2 v h

/-- On a coalesced page a block box contains the words of the block. -/
theorem Coalesced_word_in_boxes {p : TextPage} (hc : p.Coalesced) {b l w : Nat}
    {blk : TextBlock} {ln : TextLine} {v : TextWord} (hb : p.blocks[b]? = some blk)
    (hl : blk.lines[l]? = some ln) (hv : ln.words[w]? = some v) :
    ln.box.covers v.box ∧ blk.box.covers v.box := by
  obtain ⟨_, hL, hB, _, _⟩ := hc
  obtain ⟨h1, _, h3⟩ := hL blk (mem_of_getElem? hb) ln (mem_of_getElem? hl)
  have hlv : ln.box.covers v.box := by
    rw [h1]; exact lineBox_covers ln.words h3 v (mem_of_getElem? hv)
  exact ⟨hlv, Box.covers_trans ((hB blk (mem_of_getElem? hb)).1 ln (mem_of_getElem? hl)) hlv⟩

/-- On a coalesced page the `*Post` envelopes are sound for every point. -/
theorem Coalesced_postSound {p : TextPage} (hc : p.Coalesced) (px py : ℚ) :
    PostSound p px py := by
  have hc' := hc
  obtain ⟨_, hL, hB, hP, _⟩ := hc
  refine ⟨?_, ?_, ?_⟩
  · intro b l w w' wd v hwd hv hww
    obtain ⟨blk, ln, hb, hl, hw⟩ := wordAt_eq_some.mp hwd
    obtain ⟨blk', ln', hb', hl', hw'⟩ := wordAt_eq_some.mp hv
    simp only at hb hl hw hb' hl' hw'
    rw [hb] at hb'; cases hb'
    rw [hl] at hl'; cases hl'
    have hfix := (hL blk (mem_of_getElem? hb) ln (mem_of_getElem? hl)).2.1
    exact Box.dist_le_of_covers ((words_envelopes hfix hw hw').1 hww) px py
  · intro b l l' w' ln v hln hv hll
    obtain ⟨blk, hb, hl⟩ := lineAt_eq_some.mp hln
    obtain ⟨blk', ln', hb', hl', hw'⟩ := wordAt_eq_some.mp hv
    simp only at hb' hl' hw'
    rw [hb] at hb'; cases hb'
    have hfix := (hB blk (mem_of_getElem? hb)).2
    exact Box.dist_le_of_covers (Box.covers_trans ((lines_envelopes hfix hl hl').1 hll)
      (Coalesced_word_in_boxes hc' hb hl' hw').1) px py
  · intro b b' l' w' blk v hblk hv hbb
    have hb : p.blocks[b]? = some blk := hblk
    obtain ⟨blk', ln', hb', hl', hw'⟩ := wordAt_eq_some.mp hv
    simp only at hb' hl' hw'
    exact Box.dist_le_of_covers (Box.covers_trans ((blocks_envelopes hP hb hb').1 hbb)
      (Coalesced_word_in_boxes hc' hb' hl' hw').2) px py

/-- On a coalesced page the `*Pre` envelopes are sound for every point. -/
theorem Coalesced_preSound {p : TextPage} (hc : p.Coalesced) (px py : ℚ) :
    PreSound p px py := by
  have hc' := hc
  obtain ⟨_, hL, hB, hP, _⟩ := hc
  refine ⟨?_, ?_, ?_⟩
  · intro b l w w' wd v hwd hv hww
    obtain ⟨blk, ln, hb, hl, hw⟩ := wordAt_eq_some.mp hwd
    obtain ⟨blk', ln', hb', hl', hw'⟩ := wordAt_eq_some.mp hv
    simp only at hb hl hw hb' hl' hw'
    rw [hb] at hb'; cases hb'
    rw [hl] at hl'; cases hl'
    have hfix := (hL blk (mem_of_getElem? hb) ln (mem_of_getElem? hl)).2.1
    exact Box.dist_le_of_covers ((words_envelopes hfix hw hw').2 hww) px py
  · intro b l l' w' ln v hln hv hll
    obtain ⟨blk, hb, hl⟩ := lineAt_eq_some.mp hln
    obtain ⟨blk', ln', hb', hl', hw'⟩ := wordAt_eq_some.mp hv
    simp only at hb' hl' hw'
    rw [hb] at hb'; cases hb'
    have hfix := (hB blk (mem_of_getElem? hb)).2
    exact Box.dist_le_of_covers (Box.covers_trans ((lines_envelopes hfix hl hl').2 hll)
      (Coalesced_word_in_boxes hc' hb hl' hw').1) px py
  · intro b b' l' w' blk v hblk hv hbb
    have hb : p.blocks[b]? = some blk := hblk
    obtain ⟨blk', ln', hb', hl', hw'⟩ := wordAt_eq_some.mp hv
    simp only at hb' hl' hw'
    exact Box.dist_le_of_covers (Box.covers_trans ((blocks_envelopes hP hb hb').2 hbb)
      (Coalesced_word_in_boxes hc' hb' hl' hw').2) px py

/-! ## Lemmas: The brute-force minimum -/

theorem bruteForceMinDist_spec (px py : ℚ) :
    ∀ (ws : List TextWord) (m : ℚ), bruteForceMinDist px py ws = some m →
      (∃ w ∈ ws, w.box.dist px py = m) ∧ ∀ v ∈ ws, m ≤ v.box.dist px py := by
  intro ws
  induction ws with
  | nil => intro m h; simp [bruteForceMinDist] at h
  | cons x xs ih =>
    intro m h
    simp only [bruteForceMinDist] at h
    cases hr : bruteForceMinDist px py xs with
    | none =>
      rw [hr] at h
      simp only [Option.some.injEq] at h
      have hxs : xs = [] := by
        cases xs with
        | nil => rfl
        | cons y ys =>
          simp only [bruteForceMinDist] at hr
          cases h2 : bruteForceMinDist px py ys <;> rw [h2] at hr <;> simp at hr
      subst hxs
      refine ⟨⟨x, List.mem_cons_self _ _, h⟩, ?_⟩
      intro v hv
      simp only [List.mem_singleton] at hv
      subst hv; exact le_of_eq h.symm
    | some m1 =>
      rw [hr] at h
      simp only [Option.some.injEq] at h
      obtain ⟨⟨w1, hw1, hd1⟩, hlb⟩ := ih m1 hr
      constructor
      · rcases le_total (x.box.dist px py) m1 with hle | hle
        · exact ⟨x, List.mem_cons_self _ _, by rw [← h, min_eq_left hle]⟩
        · exact ⟨w1, List.mem_cons_of_mem _ hw1, by rw [← h, min_eq_right hle, hd1]⟩
      · intro v hv
        rw [← h]
        rcases List.mem_cons.mp hv with h1 | h1
        · subst h1; exact min_le_left _ _
        · exact le_trans (min_le_right _ _) (hlb v h1)

theorem bruteForceMinDist_eq (px py : ℚ) (ws : List TextWord) (w : TextWord) (hw : w ∈ ws)
    (hmin : ∀ v ∈ ws, w.box.dist px py ≤ v.box.dist px py) :
    bruteForceMinDist px py ws = some (w.box.dist px py) := by
  cases hr : bruteForceMinDist px py ws with
  | none =>
    cases ws with
    | nil => cases hw
    | cons y ys =>
      simp only [bruteForceMinDist] at hr
      cases h2 : bruteForceMinDist px py ys <;> rw [h2] at hr <;> simp at hr
  | some m =>
    obtain ⟨⟨w1, hw1, hd1⟩, hlb⟩ := bruteForceMinDist_spec px py ws m hr
    have h1 := hmin w1 hw1
    have h2 := hlb w hw
    rw [hd1] at h1
    exact congrArg some (le_antisymm h2 h1)

/-! ## Lemmas: `calIdx` and `startSelection` -/

theorem prev_valid {p : TextPage} {r r1 : WordRef} {w : TextWord} (hw : p.wordAt r = some w)
    (h : p.prev r = some r1) : ∃ w1, p.wordAt r1 = some w1 := by
  obtain ⟨rb, rl, rw⟩ := r
  unfold TextPage.prev at h
  cases rw with
  | zero => simp at h
  | succ n =>
    simp only [Option.some.injEq] at h
    subst h
    exact wordAt_some_of_le hw (Nat.le_succ n)

/-- Function `calIdx` on a word of at least one glyph returns a selectable position
of the word it hands back (the given word or its predecessor), whatever
index the refinement loops end with. -/
theorem calIdx_spec (p : TextPage) (px py : ℚ) (r : WordRef) (w : TextWord)
    (hw : p.wordAt r = some w) (hlen : 1 ≤ w.len) :
    ∃ idx r1 w1, calIdx p px py r = .ok (idx, r1) ∧ p.wordAt r1 = some w1 ∧
      Selectable w1 idx := by
  have hlen' : (1 : Int) ≤ (w.len : Int) := by exact_mod_cast hlen
  have hzero : Selectable w 0 := ⟨le_rfl, by omega, by intro h; omega⟩
  unfold calIdx
  simp only [hw]
  cases hoff : calOffset px py w with
  | none => exact ⟨0, r, w, rfl, hw, hzero⟩
  | some po =>
    obtain ⟨pos, offset⟩ := po
    simp only
    generalize (if 0 ≤ Int.floor (offset * (w.len : ℚ)) ∧ Int.floor (offset * (w.len : ℚ)) < w.len
      then
        if w.rot = 0 ∨ w.rot = 1 then
          calDownAsc w.edge pos (calUpAsc w.edge pos
            (w.len - (Int.floor (offset * (w.len : ℚ))).toNat)
            (Int.floor (offset * (w.len : ℚ))).toNat)
        else
          calDownDesc w.edge pos (calUpDesc w.edge pos
            (w.len - (Int.floor (offset * (w.len : ℚ))).toNat)
            (Int.floor (offset * (w.len : ℚ))).toNat)
      else Int.floor (offset * (w.len : ℚ))) = rtn
    by_cases h1 : rtn < 0
    · rw [if_pos h1]
      cases hp : p.prev r with
      | none => exact ⟨0, r, w, rfl, hw, hzero⟩
      | some r1 =>
        obtain ⟨w1, hw1⟩ := prev_valid hw hp
        simp only [hw1]
        by_cases hsp : w1.spaceAfter = true
        · rw [if_pos hsp]
          exact ⟨w1.len, r1, w1, rfl, hw1, ⟨by omega, le_rfl, fun _ => hsp⟩⟩
        · rw [if_neg hsp]
          exact ⟨0, r, w, rfl, hw, hzero⟩
    · rw [if_neg h1]
      by_cases h2 : rtn ≥ w.len
      · rw [if_pos h2]
        by_cases hsp : w.spaceAfter = true
        · rw [if_pos hsp]
          exact ⟨w.len, r, w, rfl, hw, ⟨by omega, le_rfl, fun _ => hsp⟩⟩
        · rw [if_neg hsp]
          exact ⟨(w.len : Int) - 1, r, w, rfl, hw, ⟨by omega, by omega, by intro h; omega⟩⟩
      · rw [if_neg h2]
        exact ⟨rtn, r, w, rfl, hw, ⟨by omega, by omega, by intro h; omega⟩⟩

theorem drop_take_one {α : Type} {xs : List α} {i : Nat} {c : α} (h : xs[i]? = some c) :
    (xs.drop i).take 1 = [c] := by
  induction xs generalizing i with
  | nil => simp at h
  | cons x xs ih =>
    cases i with
    | zero =>
      simp only [List.getElem?_cons_zero, Option.some.injEq] at h
      subst h; rfl
    | succ n =>
      simp only [List.getElem?_cons_succ] at h
      simpa using ih h

/-- The selection state `startSelection` leaves: one word, one position. -/
theorem startSelection_spec (p : TextPage) (hq : p.Queryable) (x y : ℚ) :
    ∃ q r w idx, startSelection p x y = .ok q ∧ q.blocks = p.blocks ∧
      q.pageWidth = p.pageWidth ∧ q.pageHeight = p.pageHeight ∧
      q.selStart = some r ∧ q.selEnd = some r ∧ q.selIdx1 = idx ∧ q.selIdx2 = idx ∧
      q.selIdxSave = idx ∧ p.wordAt r = some w ∧ Selectable w idx := by
  obtain ⟨s, sw, hs, hsw, _⟩ :=
    findNearest_spec p hq (x * p.pageWidth) (y * p.pageHeight) none (by intro s h; cases h)
  obtain ⟨idx, r1, w1, hcal, hw1, hsel⟩ :=
    calIdx_spec p (x * p.pageWidth) (y * p.pageHeight) s sw hsw (hq.len_pos hsw)
  refine ⟨⟨p.blocks, p.pageWidth, p.pageHeight, some r1, some r1, idx, idx, idx⟩, r1, w1, idx,
    ?_, rfl, rfl, rfl, rfl, rfl, rfl, rfl, rfl, hw1, hsel⟩
  unfold startSelection
  simp only [hs, hcal]

/-- Result of `getSelectedText(false)` when the selection is one position of one
word. -/
theorem getSelectedText_single (ops : UnicodeOps) (q : TextPage) (r : WordRef) (w : TextWord)
    (idx : Int) (hs : q.selStart = some r) (he : q.selEnd = some r) (h1 : q.selIdx1 = idx)
    (h2 : q.selIdx2 = idx) (hw : q.wordAt r = some w) :
    getSelectedText ops q false =
      .ok (some (if idx = w.len then [32] else (w.text.drop idx.toNat).take 1)) := by
  unfold getSelectedText
  rw [hs, he]
  simp only [hw, h1, h2, lt_self_iff_false, decide_False, Bool.false_eq_true, if_false,
    and_self, and_true]
  by_cases hlen : idx = w.len
  · rw [if_pos hlen, if_pos hlen]
  · rw [if_neg hlen, if_neg hlen]
    simp only [hlen, if_false, hw, if_true, sliceText, Bool.false_eq_true,
      List.nil_append, sub_self, zero_add, decide_False]
    rfl

/-! ## Lemmas: The index pass -/

theorem TextWord.span_nonneg (w : TextWord) : 0 ≤ w.span := by
  unfold TextWord.span
  split <;> omega

theorem indexWords_consec : ∀ (ws : List TextWord) (i : Int),
    ConsecW i (indexWords i ws).1 (indexWords i ws).2 := by
  intro ws
  induction ws with
  | nil => intro i; rfl
  | cons w ws ih =>
    intro i
    simp only [indexWords, ConsecW]
    refine ⟨trivial, ?_⟩
    have := ih (i + w.len + (if w.spaceAfter then 1 else 0))
    have e : i + ({ w with index := i } : TextWord).span
        = i + w.len + (if w.spaceAfter then 1 else 0) := by
      simp only [TextWord.span, TextWord.len]; omega
    rw [e]; exact this

theorem indexLines_consec : ∀ (ls : List TextLine) (i : Int),
    ConsecL i (indexLines i ls).1 (indexLines i ls).2 := by
  intro ls
  induction ls with
  | nil => intro i; rfl
  | cons l ls ih =>
    intro i
    simp only [indexLines, ConsecL]
    exact ⟨(indexWords i l.words).2, indexWords_consec l.words i, ih _⟩

theorem indexBlocks_consec : ∀ (bs : List TextBlock) (i : Int),
    ConsecB i (indexBlocks i bs).1 (indexBlocks i bs).2 := by
  intro bs
  induction bs with
  | nil => intro i; rfl
  | cons b bs ih =>
    intro i
    simp only [indexBlocks, ConsecB]
    exact ⟨(indexLines i b.lines).2, indexLines_consec b.lines i, ih _⟩

theorem ConsecW.start_le : ∀ {ws : List TextWord} {i j : Int}, ConsecW i ws j → i ≤ j := by
  intro ws
  induction ws with
  | nil => intro i j h; exact le_of_eq h
  | cons w ws ih =>
    intro i j h
    have := ih h.2
    have := w.span_nonneg
    omega

theorem ConsecL.lines_start_le : ∀ {ls : List TextLine} {i j : Int}, ConsecL i ls j → i ≤ j := by
  intro ls
  induction ls with
  | nil => intro i j h; exact le_of_eq h
  | cons l ls ih =>
    intro i j h
    obtain ⟨m, h1, h2⟩ := h
    exact le_trans h1.start_le (ih h2)

theorem ConsecB.blocks_start_le : ∀ {bs : List TextBlock} {i j : Int}, ConsecB i bs j → i ≤ j := by
  intro bs
  induction bs with
  | nil => intro i j h; exact le_of_eq h
  | cons b bs ih =>
    intro i j h
    obtain ⟨m, h1, h2⟩ := h
    exact le_trans h1.lines_start_le (ih h2)

theorem ConsecW.word_bounds : ∀ {ws : List TextWord} {i j : Int} {k : Nat} {w : TextWord},
    ConsecW i ws j → ws[k]? = some w → i ≤ w.index ∧ w.index + w.span ≤ j := by
  intro ws
  induction ws with
  | nil => intro i j k w _ h; simp at h
  | cons x xs ih =>
    intro i j k w h hk
    cases k with
    | zero =>
      simp only [List.getElem?_cons_zero, Option.some.injEq] at hk
      subst hk
      have := h.2.start_le
      exact ⟨le_of_eq h.1.symm, by rw [h.1]; exact this⟩
    | succ n =>
      simp only [List.getElem?_cons_succ] at hk
      obtain ⟨h1, h2⟩ := ih h.2 hk
      have := x.span_nonneg
      exact ⟨by omega, h2⟩

theorem ConsecW.word_gap : ∀ {ws : List TextWord} {i j : Int} {k k' : Nat} {w w' : TextWord},
    ConsecW i ws j → ws[k]? = some w → ws[k']? = some w' → k < k' →
    w.index + w.span ≤ w'.index := by
  intro ws
  induction ws with
  | nil => intro i j k k' w w' _ h; simp at h
  | cons x xs ih =>
    intro i j k k' w w' h hk hk' hlt
    cases k' with
    | zero => omega
    | succ n' =>
      simp only [List.getElem?_cons_succ] at hk'
      cases k with
      | zero =>
        simp only [List.getElem?_cons_zero, Option.some.injEq] at hk
        subst hk
        have := (ConsecW.word_bounds h.2 hk').1
        rw [h.1]; exact this
      | succ n =>
        simp only [List.getElem?_cons_succ] at hk
        exact ih h.2 hk hk' (by omega)

theorem ConsecL.line_bounds : ∀ {ls : List TextLine} {i j : Int} {l k : Nat} {ln : TextLine}
    {w : TextWord}, ConsecL i ls j → ls[l]? = some ln → ln.words[k]? = some w →
    i ≤ w.index ∧ w.index + w.span ≤ j := by
  intro ls
  induction ls with
  | nil => intro i j l k ln w _ h; simp at h
  | cons x xs ih =>
    intro i j l k ln w h hl hk
    obtain ⟨m, h1, h2⟩ := h
    cases l with
    | zero =>
      simp only [List.getElem?_cons_zero, Option.some.injEq] at hl
      subst hl
      obtain ⟨a, b⟩ := ConsecW.word_bounds h1 hk
      exact ⟨a, le_trans b h2.lines_start_le⟩
    | succ n =>
      simp only [List.getElem?_cons_succ] at hl
      obtain ⟨a, b⟩ := ih h2 hl hk
      exact ⟨le_trans h1.start_le a, b⟩

theorem ConsecL.line_gap : ∀ {ls : List TextLine} {i j : Int} {l l' k k' : Nat}
    {ln ln' : TextLine} {w w' : TextWord}, ConsecL i ls j →
    ls[l]? = some ln → ln.words[k]? = some w → ls[l']? = some ln' → ln'.words[k']? = some w' →
    (l < l' ∨ (l = l' ∧ k < k')) → w.index + w.span ≤ w'.index := by
  intro ls
  induction ls with
  | nil => intro i j l l' k k' ln ln' w w' _ h; simp at h
  | cons x xs ih =>
    intro i j l l' k k' ln ln' w w' h hl hk hl' hk' hlt
    obtain ⟨m, h1, h2⟩ := h
    cases l with
    | zero =>
      simp only [List.getElem?_cons_zero, Option.some.injEq] at hl
      subst hl
      cases l' with
      | zero =>
        simp only [List.getElem?_cons_zero, Option.some.injEq] at hl'
        subst hl'
        rcases hlt with h3 | ⟨_, h3⟩
        · omega
        · exact ConsecW.word_gap h1 hk hk' h3
      | succ n' =>
        simp only [List.getElem?_cons_succ] at hl'
        exact le_trans (ConsecW.word_bounds h1 hk).2 (ConsecL.line_bounds h2 hl' hk').1
    | succ n =>
      simp only [List.getElem?_cons_succ] at hl
      cases l' with
      | zero => omega
      | succ n' =>
        simp only [List.getElem?_cons_succ] at hl'
        exact ih h2 hl hk hl' hk' (by omega)

theorem ConsecB.block_bounds : ∀ {bs : List TextBlock} {i j : Int} {b l k : Nat} {blk : TextBlock}
    {ln : TextLine} {w : TextWord}, ConsecB i bs j → bs[b]? = some blk →
    blk.lines[l]? = some ln → ln.words[k]? = some w → i ≤ w.index ∧ w.index + w.span ≤ j := by
  intro bs
  induction bs with
  | nil => intro i j b l k blk ln w _ h; simp at h
  | cons x xs ih =>
    intro i j b l k blk ln w h hb hl hk
    obtain ⟨m, h1, h2⟩ := h
    cases b with
    | zero =>
      simp only [List.getElem?_cons_zero, Option.some.injEq] at hb
      subst hb
      obtain ⟨a, c⟩ := ConsecL.line_bounds h1 hl hk
      exact ⟨a, le_trans c h2.blocks_start_le⟩
    | succ n =>
      simp only [List.getElem?_cons_succ] at hb
      obtain ⟨a, c⟩ := ih h2 hb hl hk
      exact ⟨le_trans h1.lines_start_le a, c⟩

theorem ConsecB.block_gap : ∀ {bs : List TextBlock} {i j : Int} {b b' l l' k k' : Nat}
    {blk blk' : TextBlock} {ln ln' : TextLine} {w w' : TextWord}, ConsecB i bs j →
    bs[b]? = some blk → blk.lines[l]? = some ln → ln.words[k]? = some w →
    bs[b']? = some blk' → blk'.lines[l']? = some ln' → ln'.words[k']? = some w' →
    (b < b' ∨ (b = b' ∧ (l < l' ∨ (l = l' ∧ k < k')))) → w.index + w.span ≤ w'.index := by
  intro bs
  induction bs with
  | nil => intro i j b b' l l' k k' blk blk' ln ln' w w' _ h; simp at h
  | cons x xs ih =>
    intro i j b b' l l' k k' blk blk' ln ln' w w' h hb hl hk hb' hl' hk' hlt
    obtain ⟨m, h1, h2⟩ := h
    cases b with
    | zero =>
      simp only [List.getElem?_cons_zero, Option.some.injEq] at hb
      subst hb
      cases b' with
      | zero =>
        simp only [List.getElem?_cons_zero, Option.some.injEq] at hb'
        subst hb'
        rcases hlt with h3 | ⟨_, h3⟩
        · omega
        · exact ConsecL.line_gap h1 hl hk hl' hk' h3
      | succ n' =>
        simp only [List.getElem?_cons_succ] at hb'
        exact le_trans (ConsecL.line_bounds h1 hl hk).2 (ConsecB.block_bounds h2 hb' hl' hk').1
    | succ n =>
      simp only [List.getElem?_cons_succ] at hb
      cases b' with
      | zero => omega
      | succ n' =>
        simp only [List.getElem?_cons_succ] at hb'
        exact ih h2 hb hl hk hb' hl' hk' (by omega)

theorem WordRef.lt_or_eq_or_gt (a b : WordRef) : a.lt b ∨ a = b ∨ b.lt a := by
  obtain ⟨ab, al, aw⟩ := a
  obtain ⟨bb, bl, bw⟩ := b
  simp only [WordRef.lt, WordRef.mk.injEq]
  omega

/-- After the index pass a word that comes later in reading order starts
after the glyphs and the space of every earlier word. -/
theorem index_gap {p : TextPage} (hfix : p.blocks = (indexBlocks 0 p.blocks).1)
    {r r' : WordRef} {w w' : TextWord} (hw : p.wordAt r = some w) (hw' : p.wordAt r' = some w')
    (hlt : r.lt r') : w.index + w.span ≤ w'.index := by
  have hc := indexBlocks_consec p.blocks 0
  rw [← hfix] at hc
  obtain ⟨blk, ln, hb, hl, hk⟩ := wordAt_eq_some.mp hw
  obtain ⟨blk', ln', hb', hl', hk'⟩ := wordAt_eq_some.mp hw'
  exact ConsecB.block_gap hc hb hl hk hb' hl' hk' hlt

/-- The map `(word, idx) -> word.index + idx` is injective on selectable
positions. -/
theorem index_injective {p : TextPage} (hfix : p.blocks = (indexBlocks 0 p.blocks).1)
    {r r' : WordRef} {w w' : TextWord} {i i' : Int} (hw : p.wordAt r = some w)
    (hw' : p.wordAt r' = some w') (hi : Selectable w i) (hi' : Selectable w' i')
    (heq : w.index + i = w'.index + i') : r = r' ∧ i = i' := by
  have hspan : ∀ (v : TextWord) (k : Int), Selectable v k → k < v.span := by
    intro v k hk
    obtain ⟨_, h2, h3⟩ := hk
    unfold TextWord.span
    by_cases hs : v.spaceAfter = true
    · rw [if_pos hs]; omega
    · rw [if_neg hs]
      have : k ≠ v.len := fun h => hs (h3 h)
      omega
  rcases WordRef.lt_or_eq_or_gt r r' with h | h | h
  · have := index_gap hfix hw hw' h
    have := hspan w i hi
    have := hi'.1
    omega
  · subst h
    rw [hw] at hw'; cases hw'
    exact ⟨rfl, by omega⟩
  · have := index_gap hfix hw' hw h
    have := hspan w' i' hi'
    have := hi.1
    omega

/-! ## Lemmas: `moveSelEndTo` -/

theorem Queryable_congr {p q : TextPage} (h : q.blocks = p.blocks) (hq : p.Queryable) :
    q.Queryable := by
  unfold TextPage.Queryable at hq ⊢; rw [h]; exact hq

/-- The three-way update of `moveSelEndTo` keeps `selIdx2` selectable. -/
theorem move_update (q : TextPage) (selEnd : WordRef) (startW endW : TextWord) (idx2 : Int)
    (c1 c2 : Prop) [Decidable c1] [Decidable c2] (hlen : 1 ≤ endW.len)
    (hsel : Selectable endW idx2) (Q : TextPage)
    (hQ : Q = (if c1 then
        { q with selEnd := some selEnd, selIdx2 := idx2, selIdx1 := q.selIdxSave }
      else if c2 then
        { q with selEnd := some selEnd,
                 selIdx1 := if q.selIdx1 < startW.len then 0 else q.selIdx1,
                 selIdx2 := if idx2 < endW.len then (endW.len : Int) - 1 else idx2 }
      else
        { q with selEnd := some selEnd,
                 selIdx2 := if idx2 < endW.len then 0 else idx2,
                 selIdx1 :=
                   if q.selIdx1 < startW.len then (startW.len : Int) - 1
                   else q.selIdx1 })) :
    Q.blocks = q.blocks ∧ Q.selStart = q.selStart ∧ Q.selEnd = some selEnd ∧
      Selectable endW Q.selIdx2 := by
  obtain ⟨h0, hle, hsp⟩ := hsel
  have hlen' : (1 : Int) ≤ (endW.len : Int) := by exact_mod_cast hlen
  subst hQ
  by_cases h1 : c1
  · rw [if_pos h1]; exact ⟨rfl, rfl, rfl, h0, hle, hsp⟩
  · rw [if_neg h1]
    by_cases h2 : c2
    · rw [if_pos h2]
      refine ⟨rfl, rfl, rfl, ?_⟩
      simp only
      by_cases h3 : idx2 < endW.len
      · rw [if_pos h3]; exact ⟨by omega, by omega, by intro h; omega⟩
      · rw [if_neg h3]; exact ⟨h0, hle, hsp⟩
    · rw [if_neg h2]
      refine ⟨rfl, rfl, rfl, ?_⟩
      simp only
      by_cases h3 : idx2 < endW.len
      · rw [if_pos h3]; exact ⟨le_rfl, by omega, by intro h; omega⟩
      · rw [if_neg h3]; exact ⟨h0, hle, hsp⟩

/-- One `moveSelEndTo` from a state with the invariant: it returns, keeps
the invariant, and the value returned tells whether `(selEnd, selIdx2)`
changed. -/
theorem moveSelEndTo_spec (p0 : TextPage) (hc : p0.Coalesced) (q : TextPage)
    (hinv : SelInv p0 q) (x y : ℚ) :
    ∃ q' changed, moveSelEndTo q x y = .ok (q', changed) ∧ SelInv p0 q' ∧
      (changed = true ↔ (q'.selEnd, q'.selIdx2) ≠ (q.selEnd, q.selIdx2)) := by
  obtain ⟨hb, s, e, sw, ew, hs, he, hsw, hew, hsel⟩ := hinv
  have hq : q.Queryable := Queryable_congr hb hc.1
  have hfix : q.blocks = (indexBlocks 0 q.blocks).1 := by rw [hb]; exact hc.2.2.2.2
  obtain ⟨e0, e0w, hfn, he0w, _⟩ :=
    findNearest_spec q hq (x * q.pageWidth) (y * q.pageHeight) (some e)
      (by intro s' h; cases h; exact ⟨ew, hew⟩)
  obtain ⟨idx2, selEnd, endW, hcal, hendW, hsel2⟩ :=
    calIdx_spec q (x * q.pageWidth) (y * q.pageHeight) e0 e0w he0w (hq.len_pos he0w)
  obtain ⟨Q, hQ⟩ : ∃ Q : TextPage, Q =
      (if s = selEnd ∨ (q.next s = some selEnd ∧ q.selIdxSave = sw.len) ∨
          (q.next selEnd = some s ∧ idx2 = endW.len) then
        { q with selEnd := some selEnd, selIdx2 := idx2, selIdx1 := q.selIdxSave }
      else if sw.index < endW.index then
        { q with selEnd := some selEnd,
                 selIdx1 := if q.selIdx1 < sw.len then 0 else q.selIdx1,
                 selIdx2 := if idx2 < endW.len then (endW.len : Int) - 1 else idx2 }
      else
        { q with selEnd := some selEnd,
                 selIdx2 := if idx2 < endW.len then 0 else idx2,
                 selIdx1 :=
                   if q.selIdx1 < sw.len then (sw.len : Int) - 1
                   else q.selIdx1 }) := ⟨_, rfl⟩
  obtain ⟨hQb, hQs, hQe, hQsel⟩ := move_update q selEnd sw endW idx2 _ _
    (hq.len_pos hendW) hsel2 Q hQ
  refine ⟨Q, decide (q.selIdx2 + ew.index ≠ Q.selIdx2 + endW.index), ?_, ?_, ?_⟩
  · unfold moveSelEndTo
    simp only [hs, he, hew, hsw, hfn, hcal, hendW]
    rw [hs] at hQ
    rw [← hQ]
  · refine ⟨by rw [hQb, hb], s, selEnd, sw, endW, by rw [hQs, hs], hQe, ?_, ?_, hQsel⟩
    · rw [wordAt_congr hQb]; exact hsw
    · rw [wordAt_congr hQb]; exact hendW
  · rw [decide_eq_true_iff, hQe, he]
    constructor
    · intro hne heq
      simp only [Prod.mk.injEq, Option.some.injEq] at heq
      obtain ⟨h1, h2⟩ := heq
      subst h1
      rw [hendW] at hew; cases hew
      apply hne
      rw [h2]
    · intro hne heq
      apply hne
      have := index_injective hfix hew hendW hsel hQsel (by omega)
      simp only [Prod.mk.injEq, Option.some.injEq]
      exact ⟨this.1.symm, this.2.symm⟩

theorem startSelection_inv (p0 : TextPage) (hc : p0.Coalesced) (x y : ℚ) (q : TextPage)
    (h : startSelection p0 x y = .ok q) : SelInv p0 q := by
  obtain ⟨q1, r, w, idx, hres, hb, _, _, hs, he, _, h2, _, hw, hsel⟩ :=
    startSelection_spec p0 hc.1 x y
  rw [h] at hres
  simp only [Except.ok.injEq] at hres
  subst hres
  exact ⟨hb, r, r, w, w, hs, he, by rw [wordAt_congr hb]; exact hw,
    by rw [wordAt_congr hb]; exact hw, by rw [h2]; exact hsel⟩

theorem Reachable.inv {p0 : TextPage} (hc : p0.Coalesced) {q : TextPage}
    (hr : Reachable p0 q) : SelInv p0 q := by
  induction hr with
  | start x y q h => exact startSelection_inv p0 hc x y q h
  | move q x y q' changed _ hmove ih =>
    obtain ⟨q1, c1, hres, hinv, _⟩ := moveSelEndTo_spec p0 hc q ih x y
    rw [hmove] at hres
    simp only [Except.ok.injEq, Prod.mk.injEq] at hres
    rw [hres.1]; exact hinv

/-! ## Lemmas: The refinement loops of `calIdx` -/

theorem calUpAscReads_bound (edge : List ℚ) (pos : ℚ) (todo rtn : Nat) :
    ∀ i ∈ calUpAscReads edge pos todo rtn, 0 ≤ i ∧ i ≤ ((rtn + todo : Nat) : Int) := by
  induction todo generalizing rtn with
  | zero => intro i hi; simp [calUpAscReads] at hi
  | succ n ih =>
    intro i hi
    simp only [calUpAscReads, List.mem_cons] at hi
    rcases hi with h | h
    · subst h; omega
    · by_cases hc : edge.getD (rtn + 1) 0 < pos
      · rw [if_pos hc] at h
        have := ih (rtn + 1) i h
        omega
      · rw [if_neg hc] at h; cases h

theorem calUpDescReads_bound (edge : List ℚ) (pos : ℚ) (todo rtn : Nat) :
    ∀ i ∈ calUpDescReads edge pos todo rtn, 0 ≤ i ∧ i ≤ ((rtn + todo : Nat) : Int) := by
  induction todo generalizing rtn with
  | zero => intro i hi; simp [calUpDescReads] at hi
  | succ n ih =>
    intro i hi
    simp only [calUpDescReads, List.mem_cons] at hi
    rcases hi with h | h
    · subst h; omega
    · by_cases hc : edge.getD (rtn + 1) 0 > pos
      · rw [if_pos hc] at h
        have := ih (rtn + 1) i h
        omega
      · rw [if_neg hc] at h; cases h

theorem calDownAscReads_bound (edge : List ℚ) (pos : ℚ) (n : Nat) :
    ∀ i ∈ calDownAscReads edge pos n, 0 ≤ i ∧ i ≤ (n : Int) := by
  induction n with
  | zero => intro i hi; simp [calDownAscReads] at hi; subst hi; simp
  | succ n ih =>
    intro i hi
    simp only [calDownAscReads, List.mem_cons] at hi
    rcases hi with h | h
    · subst h; omega
    · by_cases hc : edge.getD (n + 1) 0 > pos
      · rw [if_pos hc] at h
        have := ih i h
        omega
      · rw [if_neg hc] at h; cases h

theorem calDownDescReads_bound (edge : List ℚ) (pos : ℚ) (n : Nat) :
    ∀ i ∈ calDownDescReads edge pos n, 0 ≤ i ∧ i ≤ (n : Int) := by
  induction n with
  | zero => intro i hi; simp [calDownDescReads] at hi; subst hi; simp
  | succ n ih =>
    intro i hi
    simp only [calDownDescReads, List.mem_cons] at hi
    rcases hi with h | h
    · subst h; omega
    · by_cases hc : edge.getD (n + 1) 0 < pos
      · rw [if_pos hc] at h
        have := ih i h
        omega
      · rw [if_neg hc] at h; cases h

/-- The first loop for rotations 0 and 1 stops at an index `k` between the
guess and `len`; below `len` the edge after `k` is not left of the cursor,
and whenever the loop moved, the edge at `k` is left of the cursor. -/
theorem calUpAsc_spec (edge : List ℚ) (pos : ℚ) (todo rtn : Nat) :
    rtn ≤ calUpAsc edge pos todo rtn ∧ calUpAsc edge pos todo rtn ≤ rtn + todo ∧
      (calUpAsc edge pos todo rtn < rtn + todo →
        ¬ edge.getD (calUpAsc edge pos todo rtn + 1) 0 < pos) ∧
      (rtn < calUpAsc edge pos todo rtn → edge.getD (calUpAsc edge pos todo rtn) 0 < pos) := by
  induction todo generalizing rtn with
  | zero => simp [calUpAsc]
  | succ n ih =>
    simp only [calUpAsc]
    by_cases hc : edge.getD (rtn + 1) 0 < pos
    · rw [if_pos hc]
      obtain ⟨h1, h2, h3, h4⟩ := ih (rtn + 1)
      refine ⟨by omega, by omega, fun h => h3 (by omega), fun _ => ?_⟩
      by_cases he : rtn + 1 < calUpAsc edge pos n (rtn + 1)
      · exact h4 he
      · have : calUpAsc edge pos n (rtn + 1) = rtn + 1 := by omega
        rw [this]; exact hc
    · rw [if_neg hc]
      exact ⟨le_rfl, by omega, fun _ => hc, fun h => absurd h (lt_irrefl _)⟩

theorem calUpDesc_spec (edge : List ℚ) (pos : ℚ) (todo rtn : Nat) :
    rtn ≤ calUpDesc edge pos todo rtn ∧ calUpDesc edge pos todo rtn ≤ rtn + todo ∧
      (calUpDesc edge pos todo rtn < rtn + todo →
        ¬ edge.getD (calUpDesc edge pos todo rtn + 1) 0 > pos) ∧
      (rtn < calUpDesc edge pos todo rtn → edge.getD (calUpDesc edge pos todo rtn) 0 > pos) := by
  induction todo generalizing rtn with
  | zero => simp [calUpDesc]
  | succ n ih =>
    simp only [calUpDesc]
    by_cases hc : edge.getD (rtn + 1) 0 > pos
    · rw [if_pos hc]
      obtain ⟨h1, h2, h3, h4⟩ := ih (rtn + 1)
      refine ⟨by omega, by omega, fun h => h3 (by omega), fun _ => ?_⟩
      by_cases he : rtn + 1 < calUpDesc edge pos n (rtn + 1)
      · exact h4 he
      · have : calUpDesc edge pos n (rtn + 1) = rtn + 1 := by omega
        rw [this]; exact hc
    · rw [if_neg hc]
      exact ⟨le_rfl, by omega, fun _ => hc, fun h => absurd h (lt_irrefl _)⟩

/-- The second loop for rotations 0 and 1, started at `n` with the first
edge not right of the cursor, stops at an index `j` in `0..n` whose edge is
not right of the cursor; whenever the loop moved, the edge after `j` is
right of the cursor. -/
theorem calDownAsc_spec (edge : List ℚ) (pos : ℚ) (n : Nat) (h0 : ¬ edge.getD 0 0 > pos) :
    ∃ j : Nat, calDownAsc edge pos n = (j : Int) ∧ j ≤ n ∧ ¬ edge.getD j 0 > pos ∧
      (j < n → edge.getD (j + 1) 0 > pos) := by
  induction n with
  | zero =>
    refine ⟨0, ?_, le_rfl, h0, fun h => absurd h (lt_irrefl _)⟩
    simp only [calDownAsc]; rw [if_neg h0]; rfl
  | succ n ih =>
    simp only [calDownAsc]
    by_cases hc : edge.getD (n + 1) 0 > pos
    · rw [if_pos hc]
      obtain ⟨j, hj, hle, hn, hnext⟩ := ih
      refine ⟨j, hj, by omega, hn, fun _ => ?_⟩
      by_cases he : j < n
      · exact hnext he
      · have : j = n := by omega
        subst this; exact hc
    · rw [if_neg hc]
      exact ⟨n + 1, rfl, le_rfl, hc, fun h => absurd h (lt_irrefl _)⟩

theorem calDownDesc_spec (edge : List ℚ) (pos : ℚ) (n : Nat) (h0 : ¬ edge.getD 0 0 < pos) :
    ∃ j : Nat, calDownDesc edge pos n = (j : Int) ∧ j ≤ n ∧ ¬ edge.getD j 0 < pos ∧
      (j < n → edge.getD (j + 1) 0 < pos) := by
  induction n with
  | zero =>
    refine ⟨0, ?_, le_rfl, h0, fun h => absurd h (lt_irrefl _)⟩
    simp only [calDownDesc]; rw [if_neg h0]; rfl
  | succ n ih =>
    simp only [calDownDesc]
    by_cases hc : edge.getD (n + 1) 0 < pos
    · rw [if_pos hc]
      obtain ⟨j, hj, hle, hn, hnext⟩ := ih
      refine ⟨j, hj, by omega, hn, fun _ => ?_⟩
      by_cases he : j < n
      · exact hnext he
      · have : j = n := by omega
        subst this; exact hc
    · rw [if_neg hc]
      exact ⟨n + 1, rfl, le_rfl, hc, fun h => absurd h (lt_irrefl _)⟩

/-- Both loops for rotations 0 and 1 from any guess `g < len`, with the
cursor strictly between the first and the last edge: the index found is a
glyph index whose edges bracket the cursor. -/
theorem refineAsc_brackets (edge : List ℚ) (pos : ℚ) (len g : Nat) (hg : g < len)
    (hlo : edge.getD 0 0 < pos) (hhi : pos < edge.getD len 0) :
    ∃ j : Nat, calDownAsc edge pos (calUpAsc edge pos (len - g) g) = (j : Int) ∧ j < len ∧
      edge.getD j 0 ≤ pos ∧ pos ≤ edge.getD (j + 1) 0 := by
  obtain ⟨h1, h2, h3, h4⟩ := calUpAsc_spec edge pos (len - g) g
  have hk : calUpAsc edge pos (len - g) g < len := by
    by_contra hcon
    have hkl : calUpAsc edge pos (len - g) g = len := by omega
    have := h4 (by omega)
    rw [hkl] at this
    exact absurd hhi (not_lt.mpr (le_of_lt this))
  obtain ⟨j, hj, hle, hn, hnext⟩ :=
    calDownAsc_spec edge pos (calUpAsc edge pos (len - g) g) (not_lt.mpr (le_of_lt hlo))
  refine ⟨j, hj, by omega, not_lt.mp hn, ?_⟩
  by_cases he : j < calUpAsc edge pos (len - g) g
  · exact le_of_lt (hnext he)
  · have hjk : j = calUpAsc edge pos (len - g) g := by omega
    rw [hjk]
    exact not_lt.mp (h3 (by omega))

theorem refineDesc_brackets (edge : List ℚ) (pos : ℚ) (len g : Nat) (hg : g < len)
    (hlo : edge.getD 0 0 > pos) (hhi : pos > edge.getD len 0) :
    ∃ j : Nat, calDownDesc edge pos (calUpDesc edge pos (len - g) g) = (j : Int) ∧ j < len ∧
      edge.getD j 0 ≥ pos ∧ pos ≥ edge.getD (j + 1) 0 := by
  obtain ⟨h1, h2, h3, h4⟩ := calUpDesc_spec edge pos (len - g) g
  have hk : calUpDesc edge pos (len - g) g < len := by
    by_contra hcon
    have hkl : calUpDesc edge pos (len - g) g = len := by omega
    have := h4 (by omega)
    rw [hkl] at this
    exact absurd hhi (not_lt.mpr (le_of_lt this))
  obtain ⟨j, hj, hle, hn, hnext⟩ :=
    calDownDesc_spec edge pos (calUpDesc edge pos (len - g) g) (not_lt.mpr (le_of_lt hlo))
  refine ⟨j, hj, by omega, not_lt.mp hn, ?_⟩
  by_cases he : j < calUpDesc edge pos (len - g) g
  · exact le_of_lt (hnext he)
  · have hjk : j = calUpDesc edge pos (len - g) g := by omega
    rw [hjk]
    exact not_lt.mp (h3 (by omega))

/-- Function `calIdx` on a word of at least one glyph returns a selectable position
of the word it hands back, and that word is the given one or its `prev`. -/
theorem calIdx_returns (p : TextPage) (px py : ℚ) (r : WordRef) (w : TextWord)
    (hw : p.wordAt r = some w) (hlen : 1 ≤ w.len) :
    ∃ idx r1 w1, calIdx p px py r = .ok (idx, r1) ∧ (r1 = r ∨ p.prev r = some r1) ∧
      p.wordAt r1 = some w1 ∧ Selectable w1 idx := by
  have hlen' : (1 : Int) ≤ (w.len : Int) := by exact_mod_cast hlen
  have hzero : Selectable w 0 := ⟨le_rfl, by omega, by intro h; omega⟩
  unfold calIdx
  simp only [hw]
  cases hoff : calOffset px py w with
  | none => exact ⟨0, r, w, rfl, Or.inl rfl, hw, hzero⟩
  | some po =>
    obtain ⟨pos, offset⟩ := po
    simp only
    generalize (if 0 ≤ Int.floor (offset * (w.len : ℚ)) ∧ Int.floor (offset * (w.len : ℚ)) < w.len
      then
        if w.rot = 0 ∨ w.rot = 1 then
          calDownAsc w.edge pos (calUpAsc w.edge pos
            (w.len - (Int.floor (offset * (w.len : ℚ))).toNat)
            (Int.floor (offset * (w.len : ℚ))).toNat)
        else
          calDownDesc w.edge pos (calUpDesc w.edge pos
            (w.len - (Int.floor (offset * (w.len : ℚ))).toNat)
            (Int.floor (offset * (w.len : ℚ))).toNat)
      else Int.floor (offset * (w.len : ℚ))) = rtn
    by_cases h1 : rtn < 0
    · rw [if_pos h1]
      cases hp : p.prev r with
      | none => exact ⟨0, r, w, rfl, Or.inl rfl, hw, hzero⟩
      | some r1 =>
        obtain ⟨w1, hw1⟩ := prev_valid hw hp
        simp only [hw1]
        by_cases hsp : w1.spaceAfter = true
        · rw [if_pos hsp]
          exact ⟨w1.len, r1, w1, rfl, Or.inr rfl, hw1, ⟨by omega, le_rfl, fun _ => hsp⟩⟩
        · rw [if_neg hsp]
          exact ⟨0, r, w, rfl, Or.inl rfl, hw, hzero⟩
    · rw [if_neg h1]
      by_cases h2 : rtn ≥ w.len
      · rw [if_pos h2]
        by_cases hsp : w.spaceAfter = true
        · rw [if_pos hsp]
          exact ⟨w.len, r, w, rfl, Or.inl rfl, hw, ⟨by omega, le_rfl, fun _ => hsp⟩⟩
        · rw [if_neg hsp]
          exact ⟨(w.len : Int) - 1, r, w, rfl, Or.inl rfl, hw,
            ⟨by omega, by omega, by intro h; omega⟩⟩
      · rw [if_neg h2]
        exact ⟨rtn, r, w, rfl, Or.inl rfl, hw, ⟨by omega, by omega, by intro h; omega⟩⟩

/-- Every index in the read trace of `calIdx` lies in `0..len`. -/
theorem calIdxReads_bound (p : TextPage) (px py : ℚ) (r : WordRef) (w : TextWord)
    (hw : p.wordAt r = some w) : ∀ i ∈ calIdxReads p px py r, 0 ≤ i ∧ i ≤ (w.len : Int) := by
  intro i hi
  unfold calIdxReads at hi
  simp only [hw] at hi
  cases hoff : calOffset px py w with
  | none => rw [hoff] at hi; cases hi
  | some po =>
    obtain ⟨pos, offset⟩ := po
    rw [hoff] at hi
    simp only at hi
    by_cases hc : 0 ≤ Int.floor (offset * (w.len : ℚ)) ∧ Int.floor (offset * (w.len : ℚ)) < w.len
    · rw [if_pos hc] at hi
      have hsum : (Int.floor (offset * (w.len : ℚ))).toNat +
          (w.len - (Int.floor (offset * (w.len : ℚ))).toNat) = w.len := by omega
      by_cases hrot : w.rot = 0 ∨ w.rot = 1
      · rw [if_pos hrot, List.mem_append] at hi
        rcases hi with h | h
        · have := calUpAscReads_bound _ _ _ _ i h
          rw [hsum] at this; exact this
        · have := calDownAscReads_bound _ _ _ i h
          have hk := (calUpAsc_spec w.edge pos (w.len - (Int.floor (offset * (w.len : ℚ))).toNat)
            (Int.floor (offset * (w.len : ℚ))).toNat).2.1
          omega
      · rw [if_neg hrot, List.mem_append] at hi
        rcases hi with h | h
        · have := calUpDescReads_bound _ _ _ _ i h
          rw [hsum] at this; exact this
        · have := calDownDescReads_bound _ _ _ i h
          have hk := (calUpDesc_spec w.edge pos (w.len - (Int.floor (offset * (w.len : ℚ))).toNat)
            (Int.floor (offset * (w.len : ℚ))).toNat).2.1
          omega
    · rw [if_neg hc] at hi; cases hi

/-- The interpolation guess for a cursor strictly inside the extent is a
glyph index. -/
theorem floor_guess_in_range {lo hi x : ℚ} {len : Nat} (h1 : lo < x) (h2 : x < hi) :
    0 ≤ Int.floor ((x - lo) / (hi - lo) * (len : ℚ)) ∧
      (1 ≤ len → Int.floor ((x - lo) / (hi - lo) * (len : ℚ)) < len) := by
  have hd : 0 < hi - lo := by linarith
  have hq0 : 0 ≤ (x - lo) / (hi - lo) := div_nonneg (by linarith) (le_of_lt hd)
  have hq1 : (x - lo) / (hi - lo) < 1 := by rw [div_lt_one hd]; linarith
  constructor
  · exact Int.floor_nonneg.mpr (mul_nonneg hq0 (Nat.cast_nonneg len))
  · intro hl
    have hlen : (0 : ℚ) < (len : ℚ) := by exact_mod_cast hl
    rw [Int.floor_lt]
    have : (x - lo) / (hi - lo) * (len : ℚ) < 1 * (len : ℚ) := mul_lt_mul_of_pos_right hq1 hlen
    simpa using this

theorem calOffset_asc (px py : ℚ) (w : TextWord) (h : w.rot = 0 ∨ w.rot = 1) :
    calOffset px py w = some (calPos px py w,
      (calPos px py w - w.extentMin) / (w.extentMax - w.extentMin)) := by
  rcases h with h | h <;> simp [calOffset, calPos, TextWord.extentMin, TextWord.extentMax, h]

theorem calOffset_desc (px py : ℚ) (w : TextWord) (h : w.rot = 2 ∨ w.rot = 3) :
    calOffset px py w = some (calPos px py w,
      (w.extentMax - calPos px py w) / (w.extentMax - w.extentMin)) := by
  rcases h with h | h <;> simp [calOffset, calPos, TextWord.extentMin, TextWord.extentMax, h]

/-- Function `calIdx` returns the index the refinement loops end with when that is
a glyph index. -/
theorem calIdx_of_refined (p : TextPage) (px py : ℚ) (r : WordRef) (w : TextWord)
    (hw : p.wordAt r = some w) (pos offset : ℚ) (hoff : calOffset px py w = some (pos, offset))
    (hg : 0 ≤ Int.floor (offset * (w.len : ℚ)) ∧ Int.floor (offset * (w.len : ℚ)) < w.len)
    (j : Nat) (hj : j < w.len)
    (href : (if w.rot = 0 ∨ w.rot = 1 then
        calDownAsc w.edge pos (calUpAsc w.edge pos
          (w.len - (Int.floor (offset * (w.len : ℚ))).toNat)
          (Int.floor (offset * (w.len : ℚ))).toNat)
      else
        calDownDesc w.edge pos (calUpDesc w.edge pos
          (w.len - (Int.floor (offset * (w.len : ℚ))).toNat)
          (Int.floor (offset * (w.len : ℚ))).toNat)) = (j : Int)) :
    calIdx p px py r = .ok ((j : Int), r) := by
  unfold calIdx
  simp only [hw, hoff]
  rw [if_pos hg, href, if_neg (by omega), if_neg (by omega)]

theorem getElem?_eq_some_getD {xs : List ℚ} {i : Nat} (h : i < xs.length) :
    xs[i]? = some (xs.getD i 0) := by
  rw [List.getD_eq_getElem?_getD, List.getElem?_eq_getElem h]; rfl

theorem getD_of_getElem? {xs : List ℚ} {i : Nat} {a : ℚ} (h : xs[i]? = some a) :
    xs.getD i 0 = a := by
  rw [List.getD_eq_getElem?_getD, h]; rfl

theorem map_eq_singleton {α β : Type} {f : α → β} {l : List α} {b : β} (h : l.map f = [b]) :
    ∃ a, l = [a] ∧ f a = b := by
  cases l with
  | nil => simp at h
  | cons a t =>
    cases t with
    | nil => exact ⟨a, rfl, by simpa using h⟩
    | cons c t => simp at h

/-! ## Lemmas: `getSelectedRegion` and `getSelectedText` on one line or word -/

theorem walkFuel_pos (p : TextPage) : ∃ f, p.walkFuel = f + 1 := ⟨_, walkFuel_eq p⟩

/-- Function `getSelectedRegion` in terms of the ordered ends, when the end index
is a glyph of `end`. -/
theorem getSelectedRegion_ordered (p : TextPage) (bg en : WordRef) (bIdx eIdx : Int)
    (bgW enW : TextWord) (hord : orderedSelection p = some (bg, bIdx, en, eIdx))
    (hbw : p.wordAt bg = some bgW) (hew : p.wordAt en = some enW) (he : eIdx ≠ enW.len) :
    getSelectedRegion p =
      match p.lineAt bg.blk bg.line, bgW.edgeAt bIdx with
      | some line, some e1 =>
        match p.lineAt en.blk en.line with
        | some endLine =>
          match regionLoop p (p.lineNext en.blk en.line) p.walkFuel
              (p.lineNext bg.blk bg.line) (beginRect line e1) with
          | .error err => .error err
          | .ok result =>
            match result.getLast?, enW.edgeAt (eIdx + 1) with
            | some last, some e2 =>
              .ok ((result.dropLast ++ [clipLast endLine.rot e2 last]).map (scaleRect p))
            | _, _ => .error .outOfBounds
        | none => .error .nullDeref
      | none, _ => .error .nullDeref
      | _, none => .error .outOfBounds := by
  unfold orderedSelection at hord
  unfold getSelectedRegion
  cases hs : p.selStart with
  | none => rw [hs] at hord; cases hord
  | some s =>
    cases hE : p.selEnd with
    | none => rw [hs, hE] at hord; cases hord
    | some e =>
      rw [hs, hE] at hord
      simp only at hord ⊢
      cases hsw : p.wordAt s with
      | none => rw [hsw] at hord; cases hord
      | some sw =>
        cases hee : p.wordAt e with
        | none => rw [hsw, hee] at hord; cases hord
        | some ew =>
          rw [hsw, hee] at hord
          simp only at hord ⊢
          by_cases hlt : sw.index + p.selIdx1 < ew.index + p.selIdx2
          · rw [if_pos hlt] at hord
            simp only [Option.some.injEq, Prod.mk.injEq] at hord
            obtain ⟨rfl, rfl, rfl, rfl⟩ := hord
            rw [hsw] at hbw; cases hbw
            rw [hee] at hew; cases hew
            simp only [hlt, decide_True, if_true, if_neg he, hee]
            cases p.lineAt s.blk s.line <;> cases bgW.edgeAt p.selIdx1 <;> simp only
            cases p.lineAt e.blk e.line <;> simp only
          · rw [if_neg hlt] at hord
            simp only [Option.some.injEq, Prod.mk.injEq] at hord
            obtain ⟨rfl, rfl, rfl, rfl⟩ := hord
            rw [hee] at hbw; cases hbw
            rw [hsw] at hew; cases hew
            simp only [hlt, decide_False, Bool.false_eq_true, if_false, if_neg he, hsw]
            cases p.lineAt e.blk e.line <;> cases bgW.edgeAt p.selIdx2 <;> simp only
            cases p.lineAt s.blk s.line <;> simp only

/-- Function `getSelectedText` in terms of the ordered ends, when the begin index
is a glyph of `begin`. -/
theorem getSelectedText_ordered (ops : UnicodeOps) (p : TextPage) (normalize : Bool)
    (bg en : WordRef) (bIdx eIdx : Int) (bgW enW : TextWord)
    (hord : orderedSelection p = some (bg, bIdx, en, eIdx))
    (hbw : p.wordAt bg = some bgW) (hew : p.wordAt en = some enW) (hb : bIdx ≠ bgW.len) :
    getSelectedText ops p normalize =
      match (if bg = en then
          Except.ok (sliceText ops normalize bgW bIdx
            ((if eIdx = enW.len then eIdx - 1 else eIdx) - bIdx + 1))
        else
          match textLoop ops p normalize en p.walkFuel (p.next bg) bg.blk bg.line
              (sliceText ops normalize bgW bIdx (bgW.len - bIdx) ++
                (if bgW.spaceAfter then [32] else [])) with
          | .error e => .error e
          | .ok r =>
            .ok (r ++ sliceText ops normalize enW 0
              (if normalize then (if eIdx = enW.len then eIdx - 1 else eIdx) + 1
               else (if eIdx = enW.len then eIdx - 1 else eIdx)))) with
      | .error e => .error e
      | .ok r => .ok (some (if decide (eIdx = enW.len) then r ++ [32] else r)) := by
  unfold orderedSelection at hord
  unfold getSelectedText
  cases hs : p.selStart with
  | none => rw [hs] at hord; cases hord
  | some s =>
    cases hE : p.selEnd with
    | none => rw [hs, hE] at hord; cases hord
    | some e =>
      rw [hs, hE] at hord
      simp only at hord ⊢
      cases hsw : p.wordAt s with
      | none => rw [hsw] at hord; cases hord
      | some sw =>
        cases hee : p.wordAt e with
        | none => rw [hsw, hee] at hord; cases hord
        | some ew =>
          rw [hsw, hee] at hord
          simp only at hord ⊢
          by_cases hlt : sw.index + p.selIdx1 < ew.index + p.selIdx2
          · rw [if_pos hlt] at hord
            simp only [Option.some.injEq, Prod.mk.injEq] at hord
            obtain ⟨rfl, rfl, rfl, rfl⟩ := hord
            rw [hsw] at hbw; cases hbw
            rw [hee] at hew; cases hew
            simp only [hlt, decide_True, if_true, hb, false_and, if_false, hsw,
              List.nil_append]
          · rw [if_neg hlt] at hord
            simp only [Option.some.injEq, Prod.mk.injEq] at hord
            obtain ⟨rfl, rfl, rfl, rfl⟩ := hord
            rw [hee] at hbw; cases hbw
            rw [hsw] at hew; cases hew
            simp only [hlt, decide_False, Bool.false_eq_true, if_false, hb, false_and, hee,
              List.nil_append]

theorem sliceText_all (ops : UnicodeOps) (w : TextWord) (c : Int) (hc : c = w.len) :
    sliceText ops false w 0 c = w.text := by
  subst hc
  simp [sliceText, TextWord.len]

/-! ## Lemmas: The text loop of `getSelectedText` -/

theorem wordText_false (ops : UnicodeOps) (w : TextWord) : wordText ops false w = dumpWord w := by
  simp [wordText, dumpWord]

theorem next_eq_cursorAt (p : TextPage) (b l w : Nat) :
    p.next ⟨b, l, w⟩ = cursorAt p b l (w + 1) := rfl

theorem drop_of_getElem? {α : Type} {xs : List α} {k : Nat} {a : α} (h : xs[k]? = some a) :
    xs.drop k = a :: xs.drop (k + 1) := by
  induction xs generalizing k with
  | nil => simp at h
  | cons x xs ih =>
    cases k with
    | zero =>
      simp only [List.getElem?_cons_zero, Option.some.injEq] at h
      subst h; simp
    | succ k =>
      simp only [List.getElem?_cons_succ] at h
      simpa using ih h

theorem drop_of_getElem?_none {α : Type} {xs : List α} {k : Nat} (h : xs[k]? = none) :
    xs.drop k = [] := by
  rw [List.getElem?_eq_none_iff] at h
  exact List.drop_eq_nil_of_le h

/-- A word of the dump is its text followed by the rest of the dump. -/
theorem textFrom_word {p : TextPage} {b l w : Nat} {wd : TextWord}
    (h : p.wordAt ⟨b, l, w⟩ = some wd) :
    textFrom p b l w = dumpWord wd ++ textFrom p b l (w + 1) := by
  obtain ⟨blk, ln, hb, hl, hw⟩ := wordAt_eq_some.mp h
  simp only at hb hl hw
  unfold textFrom
  simp only [hb, hl]
  rw [drop_of_getElem? hw]
  simp [List.flatMap_cons, List.append_assoc]

/-- Past the last word of a line that has a next line, the dump goes on
with U+000A and the next line. -/
theorem textFrom_line {p : TextPage} {b l w : Nat} {ln ln1 : TextLine}
    (h : p.lineAt b l = some ln) (hw : ln.words.length ≤ w) (h1 : p.lineAt b (l + 1) = some ln1) :
    textFrom p b l w = 10 :: textFrom p b (l + 1) 0 := by
  obtain ⟨blk, hb, hl⟩ := lineAt_eq_some.mp h
  obtain ⟨blk1, hb1, hl1⟩ := lineAt_eq_some.mp h1
  rw [hb] at hb1; cases hb1
  unfold textFrom
  simp only [hb, hl, hl1]
  rw [List.drop_eq_nil_of_le hw, drop_of_getElem? hl1]
  simp [dumpLinesAfter, dumpLine, List.flatMap_cons, List.append_assoc]

/-- Past the last word of the last line of a block that has a next block,
the dump goes on with U+000A and the first line of the next block. -/
theorem textFrom_block {p : TextPage} {b l w : Nat} {ln : TextLine} {blk1 : TextBlock}
    (h : p.lineAt b l = some ln) (hw : ln.words.length ≤ w) (h1 : p.lineAt b (l + 1) = none)
    (hb1 : p.blockAt (b + 1) = some blk1) (hne : blk1.lines ≠ []) :
    textFrom p b l w = 10 :: textFrom p (b + 1) 0 0 := by
  obtain ⟨blk, hb, hl⟩ := lineAt_eq_some.mp h
  have hl1 : blk.lines[l + 1]? = none := by
    cases h2 : blk.lines[l + 1]? with
    | none => rfl
    | some u => rw [lineAt_eq_some.mpr ⟨blk, hb, h2⟩] at h1; cases h1
  have hb1' : p.blocks[b + 1]? = some blk1 := hb1
  unfold textFrom
  simp only [hb, hl, hb1']
  rw [List.drop_eq_nil_of_le hw, drop_of_getElem?_none hl1, drop_of_getElem? hb1']
  obtain ⟨ln0, rest, hrest⟩ := List.exists_cons_of_ne_nil hne
  simp [dumpLinesAfter, dumpLine, List.flatMap_cons, List.append_assoc, hrest]

/-- From the last word of the page the dump is that word. -/
theorem textFrom_last {p : TextPage} {r : WordRef} {w : TextWord} (h : p.wordAt r = some w)
    (hl : p.IsLastWord r) : textFrom p r.blk r.line r.word = dumpWord w := by
  obtain ⟨_, hnw, hnl, hnb⟩ := hl
  obtain ⟨blk, ln, hb, hln, hw⟩ := wordAt_eq_some.mp h
  have h1 : ln.words[r.word + 1]? = none := by
    cases h2 : ln.words[r.word + 1]? with
    | none => rfl
    | some u =>
      rw [wordAt_of_line (lineAt_eq_some.mpr ⟨blk, hb, hln⟩) h2] at hnw; cases hnw
  have h2 : blk.lines[r.line + 1]? = none := by
    cases h2 : blk.lines[r.line + 1]? with
    | none => rfl
    | some u => rw [lineAt_eq_some.mpr ⟨blk, hb, h2⟩] at hnl; cases hnl
  have h3 : p.blocks[r.blk + 1]? = none := hnb
  unfold textFrom
  simp only [hb, hln]
  rw [drop_of_getElem? hw, drop_of_getElem?_none h1, drop_of_getElem?_none h2,
    drop_of_getElem?_none h3]
  simp [dumpLinesAfter]

theorem wordAt_none_of_length {p : TextPage} {b l w : Nat} {ln : TextLine}
    (hln : p.lineAt b l = some ln) (hw : ln.words.length ≤ w) : p.wordAt ⟨b, l, w⟩ = none := by
  unfold TextPage.wordAt
  simp only [hln]
  exact List.getElem?_eq_none_iff.mpr hw

theorem first_word_of_line {p : TextPage} (hq : p.Queryable) {b l : Nat} {ln : TextLine}
    (hln : p.lineAt b l = some ln) :
    ∃ w0, p.wordAt ⟨b, l, 0⟩ = some w0 ∧ 1 ≤ ln.words.length := by
  have hne := hq.word_ne hln
  obtain ⟨w0, rest, hrest⟩ := List.exists_cons_of_ne_nil hne
  exact ⟨w0, wordAt_of_line hln (by rw [hrest]; simp), by rw [hrest]; simp⟩

/-- The text loop of `getSelectedText(false)`, started anywhere at or
before the last word of the page with that word as `end`, returns within
the walk bound, and what it appended is the text dump from the start to
just before the last word. -/
theorem textLoop_dump (ops : UnicodeOps) (p : TextPage) (hq : p.Queryable) (last : WordRef)
    (lastW : TextWord) (hlw : p.wordAt last = some lastW) (hlast : p.IsLastWord last) :
    ∀ (fuel b l w : Nat) (acc : List Unicode) (ln : TextLine), p.lineAt b l = some ln →
      w ≤ ln.words.length →
      wordsLeft p b l w + linesLeft p b (l + 1) + blocksLeft p (b + 1) + 1 ≤ fuel →
      WordRef.le ⟨b, l, w⟩ last →
      ∃ r, textLoop ops p false last fuel (cursorAt p b l w) b l acc = .ok r ∧
        r ++ dumpWord lastW = acc ++ textFrom p b l w := by
  obtain ⟨lblk, lln, hlb, hll, hlwd⟩ := wordAt_eq_some.mp hlw
  have hlline : p.lineAt last.blk last.line = some lln := lineAt_eq_some.mpr ⟨lblk, hlb, hll⟩
  have hlword : last.word < lln.words.length := (List.getElem?_eq_some.mp hlwd).1
  intro fuel
  induction fuel with
  | zero => intro b l w acc ln _ _ hf; omega
  | succ f ih =>
    intro b l w acc ln hln hw hfuel hle
    by_cases hcur : w < ln.words.length
    · have hget : ln.words[w]? = some ln.words[w] := List.getElem?_eq_getElem hcur
      have hwd := wordAt_of_line hln hget
      have hc : cursorAt p b l w = some ⟨b, l, w⟩ := by simp [cursorAt, hwd]
      rw [hc]
      simp only [textLoop]
      by_cases heq : (⟨b, l, w⟩ : WordRef) = last
      · rw [if_pos heq]
        refine ⟨acc, rfl, ?_⟩
        have := textFrom_last hlw hlast
        rw [← heq] at this
        rw [this]
      · rw [if_neg heq]
        simp only [hwd]
        rw [next_eq_cursorAt]
        have hm := wordsLeft_step hwd
        have hle' : WordRef.le ⟨b, l, w + 1⟩ last := by
          obtain ⟨lb, ll, lw⟩ := last
          simp only [WordRef.le, WordRef.mk.injEq] at hle heq ⊢
          omega
        obtain ⟨r, hr, hrr⟩ := ih b l (w + 1) (acc ++ wordText ops false ln.words[w]) ln hln
          (by omega) (by omega) hle'
        refine ⟨r, hr, ?_⟩
        rw [hrr, wordText_false, textFrom_word hwd, List.append_assoc]
    · have hwl : ln.words.length ≤ w := by omega
      have hc : cursorAt p b l w = none := by simp [cursorAt, wordAt_none_of_length hln hwl]
      rw [hc]
      have hbefore : b < last.blk ∨ (b = last.blk ∧ l < last.line) := by
        rcases hle with h | ⟨h1, h | ⟨h2, h3⟩⟩
        · exact Or.inl h
        · exact Or.inr ⟨h1, h⟩
        · exfalso
          simp only at h1 h2 h3
          rw [h1, h2, hlline] at hln
          cases hln
          omega
      simp only [textLoop, textAdvance]
      cases hl1 : p.lineAt b (l + 1) with
      | some ln1 =>
        obtain ⟨w0, hw0, hlen1⟩ := first_word_of_line hq hl1
        simp only [Option.isSome_some, if_true, hw0]
        by_cases heq : (⟨b, l + 1, 0⟩ : WordRef) = last
        · have heq' : some (⟨b, l + 1, 0⟩ : WordRef) = some last := by rw [heq]
          rw [if_pos heq']
          refine ⟨acc ++ [10], rfl, ?_⟩
          have := textFrom_last hlw hlast
          rw [← heq] at this
          rw [textFrom_line hln hwl hl1, this]
          simp
        · have heq' : ¬ some (⟨b, l + 1, 0⟩ : WordRef) = some last := by
            intro h; exact heq (Option.some.inj h)
          rw [if_neg heq']
          rw [next_eq_cursorAt]
          have hm1 := linesLeft_step hl1
          have hm2 := wordsLeft_le (w := 0 + 1) hl1
          have hle' : WordRef.le ⟨b, l + 1, 0 + 1⟩ last := by
            obtain ⟨lb, ll, lw⟩ := last
            simp only [WordRef.le, WordRef.mk.injEq] at hbefore heq ⊢
            omega
          obtain ⟨r, hr, hrr⟩ := ih b (l + 1) (0 + 1) (acc ++ [10] ++ wordText ops false w0) ln1
            hl1 (by omega) (by omega) hle'
          refine ⟨r, hr, ?_⟩
          rw [hrr, wordText_false, textFrom_line hln hwl hl1, textFrom_word hw0]
          simp [List.append_assoc]
      | none =>
        simp only [Option.isSome_none, Bool.false_eq_true, if_false]
        have hlt : b < last.blk := by
          rcases hbefore with h | ⟨h1, h2⟩
          · exact h
          · exfalso
            obtain ⟨blk, hb, _⟩ := lineAt_eq_some.mp hln
            rw [h1, hlb] at hb
            cases hb
            obtain ⟨c, hc⟩ := getElem?_some_of_le hll (by omega : l + 1 ≤ last.line)
            rw [h1, lineAt_eq_some.mpr ⟨lblk, hlb, hc⟩] at hl1
            cases hl1
        obtain ⟨blk1, hb1⟩ := getElem?_some_of_le hlb (by omega : b + 1 ≤ last.blk)
        have hb1' : p.blockAt (b + 1) = some blk1 := hb1
        have hne := hq.line_ne hb1'
        obtain ⟨ln0, rest, hrest⟩ := List.exists_cons_of_ne_nil hne
        have hl0 : p.lineAt (b + 1) 0 = some ln0 := lineAt_eq_some.mpr ⟨blk1, hb1, by rw [hrest]; simp⟩
        obtain ⟨w0, hw0, hlen0⟩ := first_word_of_line hq hl0
        have hemp : blk1.lines.isEmpty = false := by rw [hrest]; rfl
        simp only [hb1', hemp, Bool.false_eq_true, if_false, hw0, Option.isSome_some, if_true]
        by_cases heq : (⟨b + 1, 0, 0⟩ : WordRef) = last
        · have heq' : some (⟨b + 1, 0, 0⟩ : WordRef) = some last := by rw [heq]
          rw [if_pos heq']
          refine ⟨acc ++ [10], rfl, ?_⟩
          have := textFrom_last hlw hlast
          rw [← heq] at this
          rw [textFrom_block hln hwl hl1 hb1' hne, this]
          simp
        · have heq' : ¬ some (⟨b + 1, 0, 0⟩ : WordRef) = some last := by
            intro h; exact heq (Option.some.inj h)
          rw [if_neg heq']
          rw [next_eq_cursorAt]
          have hm0 := blocksLeft_step hb1'
          have hm1 := linesLeft_step hl0
          have hm2 := wordsLeft_le (w := 0 + 1) hl0
          have hle' : WordRef.le ⟨b + 1, 0, 0 + 1⟩ last := by
            obtain ⟨lb, ll, lw⟩ := last
            simp only [WordRef.le, WordRef.mk.injEq] at hlt heq ⊢
            omega
          obtain ⟨r, hr, hrr⟩ := ih (b + 1) 0 (0 + 1) (acc ++ [10] ++ wordText ops false w0) ln0
            hl0 (by omega) (by omega) hle'
          refine ⟨r, hr, ?_⟩
          rw [hrr, wordText_false, textFrom_block hln hwl hl1 hb1' hne, textFrom_word hw0]
          simp [List.append_assoc]

theorem intercalate_newline_cons (x : List Unicode) (xs : List (List Unicode)) :
    List.intercalate [10] (x :: xs) = x ++ xs.flatMap (fun y => 10 :: y) := by
  induction xs generalizing x with
  | nil => simp [List.intercalate]
  | cons y ys ih =>
    have h := ih y
    simp only [List.intercalate] at h ⊢
    rw [List.intersperse_cons₂, List.flatten_cons, List.flatten_cons, h]
    simp [List.flatMap_cons]

theorem flatMap_map_newline (ls : List TextLine) :
    (ls.map dumpLine).flatMap (fun y => 10 :: y) = dumpLinesAfter ls := by
  induction ls with
  | nil => rfl
  | cons l ls ih => simp [dumpLinesAfter, List.flatMap_cons] at ih ⊢; exact ih

theorem dumpLinesAfter_append (xs ys : List TextLine) :
    dumpLinesAfter (xs ++ ys) = dumpLinesAfter xs ++ dumpLinesAfter ys := by
  simp [dumpLinesAfter]

theorem dumpLinesAfter_flatMap (bs : List TextBlock) :
    dumpLinesAfter (bs.flatMap (fun b => b.lines)) = bs.flatMap (fun b1 => dumpLinesAfter b1.lines) := by
  induction bs with
  | nil => rfl
  | cons b bs ih => simp only [List.flatMap_cons, dumpLinesAfter_append, ih]

/-- On a page with a word the text dump is the dump from the first word
on. -/
theorem pageDump_eq_textFrom (p : TextPage) (hq : p.Queryable) : pageDump p = textFrom p 0 0 0 := by
  obtain ⟨blk0, bs, hbs⟩ := List.exists_cons_of_ne_nil hq.1
  have hne : blk0.lines ≠ [] := (hq.2 blk0 (by rw [hbs]; simp)).1
  obtain ⟨ln0, ls, hls⟩ := List.exists_cons_of_ne_nil hne
  unfold pageDump textFrom TextPage.allLines
  simp only [hbs, List.flatMap_cons, hls, List.cons_append, List.map_cons,
    intercalate_newline_cons, flatMap_map_newline, dumpLinesAfter_append, dumpLinesAfter_flatMap,
    List.getElem?_cons_zero, List.drop_zero, List.drop_succ_cons, List.append_assoc]
  rfl

/-! ## Lemmas: Consecutive indices, word by word -/

theorem ConsecW.head_index {w : TextWord} {ws : List TextWord} {i j : Int}
    (h : ConsecW i (w :: ws) j) : w.index = i := h.1

theorem ConsecW.word_step : ∀ {ws : List TextWord} {i j : Int} {k : Nat} {w w' : TextWord},
    ConsecW i ws j → ws[k]? = some w → ws[k + 1]? = some w' → w'.index = w.index + w.span := by
  intro ws
  induction ws with
  | nil => intro i j k w w' _ h; simp at h
  | cons x xs ih =>
    intro i j k w w' h hk hk'
    simp only [List.getElem?_cons_succ] at hk'
    cases k with
    | zero =>
      simp only [List.getElem?_cons_zero, Option.some.injEq] at hk
      subst hk
      cases xs with
      | nil => simp at hk'
      | cons y ys =>
        simp only [List.getElem?_cons_zero, Option.some.injEq] at hk'
        subst hk'
        rw [h.2.1, h.1]
    | succ n =>
      simp only [List.getElem?_cons_succ] at hk
      exact ih h.2 hk hk'

theorem ConsecW.last_index : ∀ {ws : List TextWord} {i j : Int} {k : Nat} {w : TextWord},
    ConsecW i ws j → ws[k]? = some w → ws[k + 1]? = none → w.index + w.span = j := by
  intro ws
  induction ws with
  | nil => intro i j k w _ h; simp at h
  | cons x xs ih =>
    intro i j k w h hk hk'
    simp only [List.getElem?_cons_succ] at hk'
    cases k with
    | zero =>
      simp only [List.getElem?_cons_zero, Option.some.injEq] at hk
      subst hk
      cases xs with
      | nil =>
        have h2 : i + x.span = j := h.2
        rw [h.1]; exact h2
      | cons y ys => simp at hk'
    | succ n =>
      simp only [List.getElem?_cons_succ] at hk
      exact ih h.2 hk hk'

/-- The index state around line `l` of a list of lines: the running index
on entry and on exit of the line. -/
theorem ConsecL.at_line : ∀ {ls : List TextLine} {i j : Int} {l : Nat} {ln : TextLine},
    ConsecL i ls j → ls[l]? = some ln →
    ∃ a b, ConsecW a ln.words b ∧ (l = 0 → a = i) ∧ ConsecL b (ls.drop (l + 1)) j := by
  intro ls
  induction ls with
  | nil => intro i j l ln _ h; simp at h
  | cons x xs ih =>
    intro i j l ln h hl
    obtain ⟨m, h1, h2⟩ := h
    cases l with
    | zero =>
      simp only [List.getElem?_cons_zero, Option.some.injEq] at hl
      subst hl
      exact ⟨i, m, h1, fun _ => rfl, by simpa using h2⟩
    | succ n =>
      simp only [List.getElem?_cons_succ] at hl
      obtain ⟨a, b, hw, _, hd⟩ := ih h2 hl
      exact ⟨a, b, hw, fun h => by omega, by simpa using hd⟩

/-- The index state around block `b` of a list of blocks. -/
theorem ConsecB.at_block : ∀ {bs : List TextBlock} {i j : Int} {b : Nat} {blk : TextBlock},
    ConsecB i bs j → bs[b]? = some blk →
    ∃ a c, ConsecL a blk.lines c ∧ (b = 0 → a = i) ∧ ConsecB c (bs.drop (b + 1)) j := by
  intro bs
  induction bs with
  | nil => intro i j b blk _ h; simp at h
  | cons x xs ih =>
    intro i j b blk h hb
    obtain ⟨m, h1, h2⟩ := h
    cases b with
    | zero =>
      simp only [List.getElem?_cons_zero, Option.some.injEq] at hb
      subst hb
      exact ⟨i, m, h1, fun _ => rfl, by simpa using h2⟩
    | succ n =>
      simp only [List.getElem?_cons_succ] at hb
      obtain ⟨a, c, hl, _, hd⟩ := ih h2 hb
      exact ⟨a, c, hl, fun h => by omega, by simpa using hd⟩

theorem getElem?_drop_zero {α : Type} {xs : List α} {k : Nat} {a : α} (h : xs[k]? = some a) :
    ∃ rest, xs.drop k = a :: rest := ⟨xs.drop (k + 1), drop_of_getElem? h⟩

theorem words_of_getElem?_zero {ws : List TextWord} {w : TextWord} (h : ws[0]? = some w) :
    ∃ rest, ws = w :: rest := by
  cases ws with
  | nil => simp at h
  | cons x xs =>
    simp only [List.getElem?_cons_zero, Option.some.injEq] at h
    exact ⟨xs, by rw [h]⟩

/-- After the index pass the word that `nextWord` gives carries the index
of the word before it plus its glyphs and its space. -/
theorem nextWord_index {p : TextPage} {j : Int} (hc : ConsecB 0 p.blocks j) {r r' : WordRef}
    {w w' : TextWord} (hn : nextWord p r = some r') (hw : p.wordAt r = some w)
    (hw' : p.wordAt r' = some w') : w'.index = w.index + w.span := by
  obtain ⟨blk, ln, hb, hl, hk⟩ := wordAt_eq_some.mp hw
  obtain ⟨a, c, hcl, _, hcb⟩ := ConsecB.at_block hc hb
  obtain ⟨a1, b1, hcw, _, hcl1⟩ := ConsecL.at_line hcl hl
  unfold nextWord at hn
  by_cases h1 : (p.wordAt ⟨r.blk, r.line, r.word + 1⟩).isSome = true
  · rw [if_pos h1] at hn
    simp only [Option.some.injEq] at hn
    subst hn
    obtain ⟨blk', ln', hb', hl', hk'⟩ := wordAt_eq_some.mp hw'
    simp only at hb' hl' hk'
    rw [hb] at hb'; cases hb'
    rw [hl] at hl'; cases hl'
    exact ConsecW.word_step hcw hk hk'
  · rw [if_neg h1] at hn
    have hkn : ln.words[r.word + 1]? = none := by
      cases h2 : ln.words[r.word + 1]? with
      | none => rfl
      | some u =>
        exfalso; apply h1
        rw [wordAt_of_line (lineAt_eq_some.mpr ⟨blk, hb, hl⟩) h2]; rfl
    have hlast := ConsecW.last_index hcw hk hkn
    by_cases h2 : (p.lineAt r.blk (r.line + 1)).isSome = true
    · rw [if_pos h2] at hn
      by_cases h3 : (p.wordAt ⟨r.blk, r.line + 1, 0⟩).isSome = true
      · rw [if_pos h3] at hn
        simp only [Option.some.injEq] at hn
        subst hn
        obtain ⟨blk', ln', hb', hl', hk'⟩ := wordAt_eq_some.mp hw'
        simp only at hb' hl' hk'
        rw [hb] at hb'; cases hb'
        rw [drop_of_getElem? hl'] at hcl1
        obtain ⟨m, hm, _⟩ := hcl1
        obtain ⟨rest, hrest⟩ := words_of_getElem?_zero hk'
        rw [hrest] at hm
        rw [hm.head_index, hlast]
      · rw [if_neg h3] at hn; cases hn
    · rw [if_neg h2] at hn
      have hln : blk.lines[r.line + 1]? = none := by
        cases h4 : blk.lines[r.line + 1]? with
        | none => rfl
        | some u =>
          exfalso; apply h2
          rw [lineAt_eq_some.mpr ⟨blk, hb, h4⟩]; rfl
      rw [drop_of_getElem?_none hln] at hcl1
      have hb1c : b1 = c := hcl1
      by_cases h3 : (p.blockAt (r.blk + 1)).isSome = true
      · rw [if_pos h3] at hn
        by_cases h5 : (p.wordAt ⟨r.blk + 1, 0, 0⟩).isSome = true
        · rw [if_pos h5] at hn
          simp only [Option.some.injEq] at hn
          subst hn
          obtain ⟨blk', ln', hb', hl', hk'⟩ := wordAt_eq_some.mp hw'
          simp only at hb' hl' hk'
          rw [drop_of_getElem? hb'] at hcb
          obtain ⟨m, hm, _⟩ := hcb
          rw [← List.drop_zero blk'.lines, drop_of_getElem? hl'] at hm
          obtain ⟨m', hm', _⟩ := hm
          obtain ⟨rest, hrest⟩ := words_of_getElem?_zero hk'
          rw [hrest] at hm'
          rw [hm'.head_index, hlast, hb1c]
        · rw [if_neg h5] at hn; cases hn
      · rw [if_neg h3] at hn; cases hn

/-- After the index pass the first word of the page has index 0. -/
theorem first_index {p : TextPage} {j : Int} (hc : ConsecB 0 p.blocks j) {w : TextWord}
    (hw : p.wordAt ⟨0, 0, 0⟩ = some w) : w.index = 0 := by
  obtain ⟨blk, ln, hb, hl, hk⟩ := wordAt_eq_some.mp hw
  simp only at hb hl hk
  obtain ⟨a, c, hcl, ha, _⟩ := ConsecB.at_block hc hb
  obtain ⟨a1, b1, hcw, ha1, _⟩ := ConsecL.at_line hcl hl
  obtain ⟨rest, hrest⟩ := words_of_getElem?_zero hk
  rw [hrest] at hcw
  rw [hcw.head_index, ha1 rfl, ha rfl]

/-- Function `coalesceFinish` leaves consecutive indices from 0. -/
theorem coalesceFinish_consec {n : Nat} {arr blocks : List TextBlock}
    (h : coalesceFinish n arr = .ok blocks) : ∃ j, ConsecB 0 blocks j := by
  unfold coalesceFinish at h
  simp only at h
  split at h
  · cases h
  · simp only [Except.ok.injEq] at h
    rw [← h]
    exact ⟨_, indexBlocks_consec _ 0⟩

theorem index_gap_consec {p : TextPage} {j : Int} (hc : ConsecB 0 p.blocks j)
    {r r' : WordRef} {w w' : TextWord} (hw : p.wordAt r = some w) (hw' : p.wordAt r' = some w')
    (hlt : r.lt r') : w.index + w.span ≤ w'.index := by
  obtain ⟨blk, ln, hb, hl, hk⟩ := wordAt_eq_some.mp hw
  obtain ⟨blk', ln', hb', hl', hk'⟩ := wordAt_eq_some.mp hw'
  exact ConsecB.block_gap hc hb hl hk hb' hl' hk' hlt

theorem selectable_lt_span {v : TextWord} {k : Int} (hk : Selectable v k) : k < v.span := by
  obtain ⟨_, h2, h3⟩ := hk
  unfold TextWord.span
  by_cases hs : v.spaceAfter = true
  · rw [if_pos hs]; omega
  · rw [if_neg hs]
    have : k ≠ v.len := fun h => hs (h3 h)
    omega

theorem index_injective_consec {p : TextPage} {j : Int} (hc : ConsecB 0 p.blocks j)
    {r r' : WordRef} {w w' : TextWord} {i i' : Int} (hw : p.wordAt r = some w)
    (hw' : p.wordAt r' = some w') (hi : Selectable w i) (hi' : Selectable w' i')
    (heq : w.index + i = w'.index + i') : r = r' ∧ i = i' := by
  rcases WordRef.lt_or_eq_or_gt r r' with h | h | h
  · have := index_gap_consec hc hw hw' h
    have := selectable_lt_span hi
    have := hi'.1
    omega
  · subst h
    rw [hw] at hw'; cases hw'
    exact ⟨rfl, by omega⟩
  · have := index_gap_consec hc hw' hw h
    have := selectable_lt_span hi'
    have := hi.1
    omega

/-! ## Lemmas: The word builder -/

theorem TextWord.addChar_text (w : TextWord) (x y dx dy : ℚ) (u : Unicode) :
    (w.addChar x y dx dy u).text = w.text ++ [u] := by
  unfold TextWord.addChar
  split <;> rfl

theorem surrogate_pair_value (c lo : Nat) (hc : 0xd800 ≤ c ∧ c < 0xdc00)
    (hl : 0xdc00 ≤ lo ∧ lo < 0xe000) :
    (((c &&& 0x3ff) <<< 10) ||| (lo &&& 0x3ff)) + 0x10000 =
      0x10000 + (c - 0xD800) * 0x400 + (lo - 0xDC00) := by
  have h1 : c &&& 0x3ff = c % 2 ^ 10 := Nat.and_pow_two_sub_one_eq_mod c 10
  have h2 : lo &&& 0x3ff = lo % 2 ^ 10 := Nat.and_pow_two_sub_one_eq_mod lo 10
  have h3 : lo % 2 ^ 10 < 2 ^ 10 := Nat.mod_lt _ (by norm_num)
  rw [h1, h2, Nat.shiftLeft_eq, Nat.mul_comm _ (2 ^ 10), ← Nat.mul_add_lt_is_or h3]
  omega

theorem addCharLoop_text (x1 y1 w1 h1 : ℚ) (us : List Unicode) :
    ∀ (i : Nat) (w : TextWord),
      (addCharLoop x1 y1 w1 h1 i us w).text = w.text ++ decodeUTF16 us := by
  induction us using decodeUTF16.induct with
  | case1 => intro i w; simp [addCharLoop, decodeUTF16]
  | case2 c =>
    intro i w
    simp only [addCharLoop, decodeUTF16, isHighSurrogate, isLowSurrogate]
    split <;> simp [TextWord.addChar_text]
  | case3 hi lo rest hp ih =>
    intro i w
    obtain ⟨hh, hl⟩ := hp
    have hv := surrogate_pair_value hi lo hh hl
    unfold isHighSurrogate at hh
    unfold isLowSurrogate at hl
    rw [addCharLoop, if_pos hh, if_pos hl, ih, TextWord.addChar_text, decodeUTF16,
      if_pos ⟨hh, hl⟩, hv]
    simp
  | case4 hi lo rest hp ih =>
    intro i w
    rw [decodeUTF16, if_neg hp]
    unfold isHighSurrogate isLowSurrogate at *
    rw [addCharLoop]
    by_cases hh : 0xd800 ≤ hi ∧ hi < 0xdc00
    · have hl : ¬ (0xdc00 ≤ lo ∧ lo < 0xe000) := fun h => hp ⟨hh, h⟩
      rw [if_pos hh, if_neg hl, ih, TextWord.addChar_text, if_pos (Or.inl hh)]
      simp
    · rw [if_neg hh]
      by_cases hl : 0xdc00 ≤ hi ∧ hi < 0xe000
      · rw [if_pos hl, ih, TextWord.addChar_text, if_pos (Or.inr hl)]
        simp
      · rw [if_neg hl, ih, TextWord.addChar_text, if_neg (by tauto)]
        simp

theorem TextWord.addChar_len (w : TextWord) (x y dx dy : ℚ) (u : Unicode) :
    (w.addChar x y dx dy u).len = w.len + 1 := by
  simp [TextWord.len, TextWord.addChar_text]

theorem TextWord.addChar_rot (w : TextWord) (x y dx dy : ℚ) (u : Unicode) :
    (w.addChar x y dx dy u).rot = w.rot := by
  unfold TextWord.addChar
  split <;> simp_all

theorem TextWord.addChar_fontSize (w : TextWord) (x y dx dy : ℚ) (u : Unicode) :
    (w.addChar x y dx dy u).fontSize = w.fontSize := by
  unfold TextWord.addChar
  split <;> rfl

theorem TextWord.addChar_edge (w : TextWord) (x y dx dy : ℚ) (u : Unicode) (h : w.rot < 4) :
    (w.addChar x y dx dy u).edge =
      w.edge.take w.len ++ [pri w.rot x y, pri w.rot x y + pri w.rot dx dy] := by
  have : w.rot = 0 ∨ w.rot = 1 ∨ w.rot = 2 ∨ w.rot = 3 := by omega
  rcases this with h0 | h0 | h0 | h0 <;> simp [TextWord.addChar, pri, h0]

theorem TextWord.addChar_trail (w : TextWord) (x y dx dy : ℚ) (u : Unicode) (h : w.rot < 4) :
    (w.addChar x y dx dy u).trail = pri w.rot x y + pri w.rot dx dy := by
  unfold TextWord.trail
  rw [TextWord.addChar_rot]
  have : w.rot = 0 ∨ w.rot = 1 ∨ w.rot = 2 ∨ w.rot = 3 := by omega
  rcases this with h0 | h0 | h0 | h0 <;> simp [TextWord.addChar, pri, h0]

theorem TextWord.addChar_lead (w : TextWord) (x y dx dy : ℚ) (u : Unicode) (h : w.rot < 4) :
    (w.addChar x y dx dy u).lead = if w.len = 0 then pri w.rot x y else w.lead := by
  unfold TextWord.lead
  rw [TextWord.addChar_rot]
  have : w.rot = 0 ∨ w.rot = 1 ∨ w.rot = 2 ∨ w.rot = 3 := by omega
  rcases this with h0 | h0 | h0 | h0 <;> simp [TextWord.addChar, pri, h0]

theorem GlyphEvent.rot_lt (e : GlyphEvent) : e.rot < 4 := by
  unfold GlyphEvent.rot
  split <;> split <;> omega

theorem newTextWord_fresh (e : GlyphEvent) (x y : ℚ) (charPos : Int) :
    FreshFor e (newTextWord e.rot x y charPos e.font e.fontSize) :=
  ⟨rfl, rfl, rfl, rfl⟩

theorem PageBuilder.endWord_curWord (b : PageBuilder) :
    b.endWord.curWord = b.curWord ∨ b.endWord.curWord = none := by
  unfold PageBuilder.endWord
  split
  · exact Or.inl rfl
  · split
    · exact Or.inl rfl
    · exact Or.inr rfl

theorem PageBuilder.beginWord_curWord (b : PageBuilder) (e : GlyphEvent) (x y : ℚ) :
    ∃ c, (b.beginWord e x y).curWord = some c ∧
      (b.curWord = some c ∨ (b.curWord = none ∧ FreshFor e c)) := by
  obtain hc | ⟨cw, hc⟩ : b.curWord = none ∨ ∃ cw, b.curWord = some cw := by
    cases b.curWord <;> simp
  · exact ⟨newTextWord e.rot x y b.charPos e.font e.fontSize,
      by simp only [PageBuilder.beginWord, hc], Or.inr ⟨hc, newTextWord_fresh e x y _⟩⟩
  · exact ⟨cw, by simp only [PageBuilder.beginWord, hc], Or.inl hc⟩

theorem PageBuilder.endBegin_curWord (b : PageBuilder) (e : GlyphEvent) (x y : ℚ) :
    ∃ c, (b.endWord.beginWord e x y).curWord = some c ∧ (b.curWord = some c ∨ FreshFor e c) := by
  obtain ⟨c, hc, h⟩ := PageBuilder.beginWord_curWord b.endWord e x y
  refine ⟨c, hc, ?_⟩
  rcases h with h | ⟨_, h⟩
  · rcases PageBuilder.endWord_curWord b with h2 | h2
    · exact Or.inl (h2 ▸ h)
    · rw [h2] at h; cases h
  · exact Or.inr h

theorem PageBuilder.addGlyphs_curWord (b : PageBuilder) (e : GlyphEvent) (hu : e.u ≠ []) :
    ∃ w0 x1 y1 w1 h1, (b.addGlyphs e).curWord = some (addCharLoop x1 y1 w1 h1 0 e.u w0) ∧
      (b.curWord = some w0 ∨ FreshFor e w0) ∧ (b.curWord = none → FreshFor e w0) := by
  have hl : ¬ e.u.length = 0 := by simpa using hu
  obtain hc | ⟨cw, hc⟩ : b.curWord = none ∨ ∃ cw, b.curWord = some cw := by
    cases b.curWord <;> simp
  · have hb1 : (b.beginWord e e.x1 e.y1).curWord =
        some (newTextWord e.rot e.x1 e.y1 b.charPos e.font e.fontSize) := by
      simp [PageBuilder.beginWord, hc]
    by_cases hr : reversed (newTextWord e.rot e.x1 e.y1 b.charPos e.font e.fontSize) e = true
    · obtain ⟨c, hc2, h2⟩ := PageBuilder.endBegin_curWord (b.beginWord e e.x1 e.y1) e
        (e.x1 + e.w1) (e.y1 + e.h1)
      have hf : FreshFor e c := by
        rcases h2 with h2 | h2
        · rw [hb1] at h2
          cases h2
          exact newTextWord_fresh e _ _ _
        · exact h2
      refine ⟨c, e.x1 + e.w1, e.y1 + e.h1, -e.w1 / e.u.length, -e.h1 / e.u.length, ?_,
        Or.inr hf, fun _ => hf⟩
      simp only [PageBuilder.addGlyphs, if_neg hl, hc, Option.isNone_none, if_true, hb1, hr, hc2,
        Option.map_some']
    · refine ⟨_, e.x1, e.y1, e.w1 / e.u.length, e.h1 / e.u.length, ?_,
        Or.inr (newTextWord_fresh e e.x1 e.y1 b.charPos),
        fun _ => newTextWord_fresh e e.x1 e.y1 b.charPos⟩
      simp only [PageBuilder.addGlyphs, if_neg hl, hc, Option.isNone_none, if_true, hb1, hr]
      rfl
  · by_cases hr : reversed cw e = true
    · obtain ⟨c, hc2, h2⟩ := PageBuilder.endBegin_curWord b e (e.x1 + e.w1) (e.y1 + e.h1)
      refine ⟨c, e.x1 + e.w1, e.y1 + e.h1, -e.w1 / e.u.length, -e.h1 / e.u.length, ?_, h2,
        fun h => by rw [hc] at h; cases h⟩
      simp only [PageBuilder.addGlyphs, if_neg hl, hc, Option.isNone_some, Bool.false_eq_true,
        if_false, hr, if_true, hc2, Option.map_some']
    · refine ⟨cw, e.x1, e.y1, e.w1 / e.u.length, e.h1 / e.u.length, ?_, Or.inl hc,
        fun h => by rw [hc] at h; cases h⟩
      simp only [PageBuilder.addGlyphs, if_neg hl, hc, Option.isNone_some, Bool.false_eq_true,
        if_false, hr]

theorem PageBuilder.countTiny_curWord (keepTiny : Bool) (b : PageBuilder) (e : GlyphEvent) :
    (b.countTiny keepTiny e).curWord = b.curWord := by
  unfold PageBuilder.countTiny
  split <;> rfl

theorem PageBuilder.breakWord_curWord (b : PageBuilder) (e : GlyphEvent) :
    (b.breakWord e).curWord = b.curWord ∨ (b.breakWord e).curWord = none := by
  unfold PageBuilder.breakWord
  split
  · exact Or.inl rfl
  · split
    · simp only
      split
      · exact PageBuilder.endWord_curWord b
      · exact Or.inl rfl
    · exact Or.inl rfl

theorem TextWord.addChar_xMin_rot0 (w : TextWord) (x y dx dy : ℚ) (u : Unicode) (h : w.rot = 0) :
    (w.addChar x y dx dy u).box.xMin = (if w.len = 0 then x else w.box.xMin) ∧
      (w.addChar x y dx dy u).box.xMax = x + dx := by
  simp [TextWord.addChar, h]

theorem TextWord.addChars_rot0 (gs : List GlyphCall) :
    ∀ (w : TextWord) (g : GlyphCall), w.rot = 0 → w.len ≤ w.edge.length →
      (w.addChars (g :: gs)).len = w.len + (g :: gs).length ∧
      (w.addChars (g :: gs)).edge = w.edge.take w.len ++ (g :: gs).map (fun g => g.x) ++
        [((g :: gs).getLast (List.cons_ne_nil g gs)).x +
          ((g :: gs).getLast (List.cons_ne_nil g gs)).dx] ∧
      (w.addChars (g :: gs)).box.xMin = (if w.len = 0 then g.x else w.box.xMin) ∧
      (w.addChars (g :: gs)).box.xMax = ((g :: gs).getLast (List.cons_ne_nil g gs)).x +
        ((g :: gs).getLast (List.cons_ne_nil g gs)).dx := by
  induction gs with
  | nil =>
    intro w g hr hl
    have he := TextWord.addChar_edge w g.x g.y g.dx g.dy g.u (by omega)
    have hb := TextWord.addChar_xMin_rot0 w g.x g.y g.dx g.dy g.u hr
    simp only [hr, pri, true_or, if_true] at he
    refine ⟨TextWord.addChar_len _ _ _ _ _ _, ?_, hb.1, hb.2⟩
    simp [TextWord.addChars, he]
  | cons g2 gs ih =>
    intro w g hr hl
    have he := TextWord.addChar_edge w g.x g.y g.dx g.dy g.u (by omega)
    have hb := TextWord.addChar_xMin_rot0 w g.x g.y g.dx g.dy g.u hr
    have hlen := TextWord.addChar_len w g.x g.y g.dx g.dy g.u
    simp only [hr, pri, true_or, if_true] at he
    have hr2 : (w.addChar g.x g.y g.dx g.dy g.u).rot = 0 := by rw [TextWord.addChar_rot, hr]
    have hl2 : (w.addChar g.x g.y g.dx g.dy g.u).len ≤ (w.addChar g.x g.y g.dx g.dy g.u).edge.length := by
      rw [hlen, he]
      simp
      omega
    obtain ⟨i1, i2, i3, i4⟩ := ih (w.addChar g.x g.y g.dx g.dy g.u) g2 hr2 hl2
    have hfold : w.addChars (g :: g2 :: gs) =
        (w.addChar g.x g.y g.dx g.dy g.u).addChars (g2 :: gs) := rfl
    have hlast : (g :: g2 :: gs).getLast (List.cons_ne_nil g (g2 :: gs)) =
        (g2 :: gs).getLast (List.cons_ne_nil g2 gs) := by
      simp [List.getLast_cons]
    rw [hfold, hlast]
    refine ⟨?_, ?_, ?_, i4⟩
    · rw [i1, hlen]
      simp
      omega
    · rw [i2, hlen, he]
      have ht : (List.take w.len w.edge ++ [g.x, g.x + g.dx]).take (w.len + 1) =
          List.take w.len w.edge ++ [g.x] := by
        rw [List.take_append_eq_append_take]
        simp [List.length_take, Nat.min_eq_left hl]
      rw [ht]
      simp
    · rw [i3, hlen, hb.1]
      simp

/-! ## Lemmas: Monotone edges of the words built -/

theorem pri_add (r : Nat) (x y dx dy : ℚ) : pri r (x + dx) (y + dy) = pri r x y + pri r dx dy := by
  unfold pri
  split <;> rfl

theorem pri_step (r : Nat) (x y dx dy : ℚ) (i : Nat) :
    pri r (x + i * dx) (y + i * dy) = pri r x y + i * pri r dx dy := by
  unfold pri
  split <;> rfl

theorem pri_div (r : Nat) (x y n : ℚ) : pri r (x / n) (y / n) = pri r x y / n := by
  unfold pri
  split <;> rfl

theorem pri_neg (r : Nat) (x y : ℚ) : pri r (-x) (-y) = -pri r x y := by
  unfold pri
  split <;> rfl

theorem abs_tol_nonneg (fs : ℚ) : 0 ≤ 2 / 10 * |fs| := by
  have := abs_nonneg fs
  positivity

theorem WordGood.has_glyph {r : Nat} {w : TextWord} (h : WordGood r w) : 0 < w.len := by
  obtain ⟨_, E, a, t, _, hl, _⟩ := h
  omega

theorem TextWord.addChar_good (r : Nat) (hr : r < 4) (w : TextWord) (x y dx dy : ℚ) (u : Unicode)
    (hrot : w.rot = r) (hd : 0 ≤ dirSign r * pri r dx dy)
    (hw : w.len = 0 ∨
      (WordGood r w ∧ -(2 / 10 * |w.fontSize|) ≤ dirSign r * (pri r x y - w.trail))) :
    WordGood r (w.addChar x y dx dy u) ∧
      (w.addChar x y dx dy u).trail = pri r x y + pri r dx dy := by
  have he := TextWord.addChar_edge w x y dx dy u (by omega)
  have ht := TextWord.addChar_trail w x y dx dy u (by omega)
  have hlen := TextWord.addChar_len w x y dx dy u
  have hfs := TextWord.addChar_fontSize w x y dx dy u
  rw [hrot] at he ht
  refine ⟨⟨by rw [TextWord.addChar_rot, hrot], ?_⟩, ht⟩
  rcases hw with h0 | ⟨⟨_, E, a, t, hE, hl, htr, hat, hch⟩, hq⟩
  · refine ⟨[], pri r x y, pri r x y + pri r dx dy, ?_, ?_, ht, ?_, ?_⟩
    · rw [he, h0]; simp
    · rw [hlen, h0]; rfl
    · have : pri r x y + pri r dx dy - pri r x y = pri r dx dy := by ring
      rw [this]; exact hd
    · simp
  · refine ⟨E ++ [a], pri r x y, pri r x y + pri r dx dy, ?_, ?_, ht, ?_, ?_⟩
    · rw [he, hE, hl]
      have : (E ++ [a, t]).take (E.length + 1) = E ++ [a] := by
        rw [List.take_append_eq_append_take]
        simp
      rw [this]
    · rw [hlen, hl]; simp
    · have : pri r x y + pri r dx dy - pri r x y = pri r dx dy := by ring
      rw [this]; exact hd
    · rw [hfs]
      rw [List.chain'_append]
      refine ⟨hch, by simp, ?_⟩
      intro p hp q hq2
      have hp2 : p = a := by simpa [List.getLast?_append] using hp.symm
      have hq3 : q = pri r x y := by simpa using hq2.symm
      subst hp2
      subst hq3
      rw [htr] at hq
      have : dirSign r * (pri r x y - p) =
          dirSign r * (pri r x y - t) + dirSign r * (t - p) := by ring
      rw [this]
      linarith


theorem addCharLoop_good (r : Nat) (hr : r < 4) (x1 y1 w1 h1 : ℚ)
    (hd : 0 ≤ dirSign r * pri r w1 h1) (us : List Unicode) :
    ∀ (i : Nat) (w : TextWord), w.rot = r →
      ((w.len = 0 ∧ us ≠ []) ∨
        (WordGood r w ∧
          -(2 / 10 * |w.fontSize|) ≤ dirSign r * (pri r x1 y1 + i * pri r w1 h1 - w.trail))) →
      WordGood r (addCharLoop x1 y1 w1 h1 i us w) := by
  have step : ∀ (i : Nat) (w : TextWord) (u : Unicode), w.rot = r →
      (w.len = 0 ∨
        (WordGood r w ∧
          -(2 / 10 * |w.fontSize|) ≤ dirSign r * (pri r x1 y1 + i * pri r w1 h1 - w.trail))) →
      (w.addChar (x1 + i * w1) (y1 + i * h1) w1 h1 u).rot = r ∧
      WordGood r (w.addChar (x1 + i * w1) (y1 + i * h1) w1 h1 u) ∧
        -(2 / 10 * |(w.addChar (x1 + i * w1) (y1 + i * h1) w1 h1 u).fontSize|) ≤
          dirSign r * (pri r x1 y1 + (i + 1 : Nat) * pri r w1 h1 -
            (w.addChar (x1 + i * w1) (y1 + i * h1) w1 h1 u).trail) := by
    intro i w u hrot hw
    have h := TextWord.addChar_good r hr w (x1 + i * w1) (y1 + i * h1) w1 h1 u hrot hd
      (by rw [pri_step]; exact hw)
    refine ⟨by rw [TextWord.addChar_rot, hrot], h.1, ?_⟩
    rw [h.2, pri_step]
    have : pri r x1 y1 + ((i + 1 : Nat) : ℚ) * pri r w1 h1 -
        (pri r x1 y1 + i * pri r w1 h1 + pri r w1 h1) = 0 := by
      push_cast; ring
    rw [this, mul_zero]
    have := abs_tol_nonneg (w.addChar (x1 + i * w1) (y1 + i * h1) w1 h1 u).fontSize
    linarith
  have weaken : ∀ (i : Nat) (w : TextWord),
      -(2 / 10 * |w.fontSize|) ≤ dirSign r * (pri r x1 y1 + i * pri r w1 h1 - w.trail) →
      -(2 / 10 * |w.fontSize|) ≤
        dirSign r * (pri r x1 y1 + (i + 1 : Nat) * pri r w1 h1 - w.trail) := by
    intro i w h
    have : dirSign r * (pri r x1 y1 + ((i + 1 : Nat) : ℚ) * pri r w1 h1 - w.trail) =
        dirSign r * (pri r x1 y1 + i * pri r w1 h1 - w.trail) + dirSign r * pri r w1 h1 := by
      push_cast; ring
    rw [this]
    linarith
  induction us using decodeUTF16.induct with
  | case1 =>
    intro i w hrot hw
    rcases hw with ⟨_, h⟩ | ⟨h, _⟩
    · exact absurd rfl h
    · exact h
  | case2 c =>
    intro i w hrot hw
    have hw2 : w.len = 0 ∨ (WordGood r w ∧
        -(2 / 10 * |w.fontSize|) ≤ dirSign r * (pri r x1 y1 + i * pri r w1 h1 - w.trail)) := by
      rcases hw with ⟨h, _⟩ | h
      · exact Or.inl h
      · exact Or.inr h
    rw [addCharLoop]
    split
    · exact (step i w _ hrot hw2).2.1
    · exact (step i w _ hrot hw2).2.1
  | case3 hi lo rest hp ih =>
    intro i w hrot hw
    obtain ⟨hh, hl⟩ := hp
    unfold isHighSurrogate at hh
    unfold isLowSurrogate at hl
    rw [addCharLoop, if_pos hh, if_pos hl]
    have hw2 : w.len = 0 ∨ (WordGood r w ∧
        -(2 / 10 * |w.fontSize|) ≤
          dirSign r * (pri r x1 y1 + (i + 1 : Nat) * pri r w1 h1 - w.trail)) := by
      rcases hw with ⟨h, _⟩ | ⟨h, h2⟩
      · exact Or.inl h
      · exact Or.inr ⟨h, weaken i w h2⟩
    obtain ⟨s1, s2, s3⟩ := step (i + 1) w
      ((((hi &&& 0x3ff) <<< 10) ||| (lo &&& 0x3ff)) + 0x10000) hrot hw2
    exact ih (i + 2) _ s1 (Or.inr ⟨s2, s3⟩)
  | case4 hi lo rest hp ih =>
    intro i w hrot hw
    have hw2 : w.len = 0 ∨ (WordGood r w ∧
        -(2 / 10 * |w.fontSize|) ≤ dirSign r * (pri r x1 y1 + i * pri r w1 h1 - w.trail)) := by
      rcases hw with ⟨h, _⟩ | h
      · exact Or.inl h
      · exact Or.inr h
    unfold isHighSurrogate isLowSurrogate at hp
    rw [addCharLoop]
    by_cases hh : 0xd800 ≤ hi ∧ hi < 0xdc00
    · have hl : ¬ (0xdc00 ≤ lo ∧ lo < 0xe000) := fun h => hp ⟨hh, h⟩
      rw [if_pos hh, if_neg hl]
      obtain ⟨s1, s2, s3⟩ := step i w 0xfffd hrot hw2
      exact ih (i + 1) _ s1 (Or.inr ⟨s2, s3⟩)
    · rw [if_neg hh]
      split
      · obtain ⟨s1, s2, s3⟩ := step i w 0xfffd hrot hw2
        exact ih (i + 1) _ s1 (Or.inr ⟨s2, s3⟩)
      · obtain ⟨s1, s2, s3⟩ := step i w hi hrot hw2
        exact ih (i + 1) _ s1 (Or.inr ⟨s2, s3⟩)

theorem breakTest_no_break (r : Nat) (hr : r < 4) (cw : TextWord) (e : GlyphEvent) (lco : Bool)
    (hrot : cw.rot = r) (h : (breakTest cw e lco).2 = false) :
    -(2 / 10 * |cw.fontSize|) ≤ dirSign r * (pri r e.x1 e.y1 - cw.trail) := by
  have habs : -(2 / 10 * |cw.fontSize|) ≤ -(2 / 10) * cw.fontSize := by
    have := le_abs_self cw.fontSize
    linarith
  have h0 : r = 0 ∨ r = 1 ∨ r = 2 ∨ r = 3 := by omega
  subst hrot
  rcases h0 with h0 | h0 | h0 | h0 <;>
    · simp only [breakTest, h0, Bool.or_eq_false_iff, decide_eq_false_iff_not, not_lt] at h
      simp only [dirSign, pri, TextWord.trail, h0]
      norm_num
      linarith [h.1.1.1.2]

theorem not_reversed_sign (r : Nat) (hr : r < 4) (cw : TextWord) (e : GlyphEvent)
    (hrot : cw.rot = r) (h : ¬ reversed cw e = true) : 0 ≤ dirSign r * pri r e.w1 e.h1 := by
  have h0 : r = 0 ∨ r = 1 ∨ r = 2 ∨ r = 3 := by omega
  subst hrot
  rcases h0 with h0 | h0 | h0 | h0 <;>
    · simp only [reversed, h0, decide_eq_true_eq] at h
      simp only [dirSign, pri, h0]
      norm_num at h ⊢
      linarith

theorem reversed_sign (r : Nat) (hr : r < 4) (cw : TextWord) (e : GlyphEvent)
    (hrot : cw.rot = r) (h : reversed cw e = true) : 0 ≤ dirSign r * pri r (-e.w1) (-e.h1) := by
  have h0 : r = 0 ∨ r = 1 ∨ r = 2 ∨ r = 3 := by omega
  subst hrot
  rcases h0 with h0 | h0 | h0 | h0 <;>
    · simp only [reversed, h0, decide_eq_true_eq] at h
      simp only [dirSign, pri, h0]
      norm_num at h ⊢
      linarith

theorem sign_div (s d : ℚ) (n : Nat) (h : 0 ≤ s * d) : 0 ≤ s * (d / n) := by
  have : s * (d / n) = s * d / n := by ring
  rw [this]
  positivity

theorem flatten_replicate_nil_eq (n : Nat) :
    (List.replicate n ([] : List TextWord)).flatten = [] := by
  induction n with
  | zero => rfl
  | succ n ih => rw [List.replicate_succ, List.flatten_cons, ih]; rfl

theorem TextPool.words_setPool (pool : TextPool) (i : Int) (ws : List TextWord) (v : TextWord)
    (h : v ∈ (pool.setPool i ws).words) : v ∈ ws ∨ v ∈ pool.words := by
  simp only [TextPool.words, TextPool.setPool, List.mem_flatten] at h ⊢
  obtain ⟨l, hl, hv⟩ := h
  rcases List.mem_or_eq_of_mem_set hl with h1 | h1
  · exact Or.inr ⟨l, h1, hv⟩
  · exact Or.inl (h1 ▸ hv)

theorem TextPool.getPool_subset (pool : TextPool) (i : Int) (v : TextWord)
    (h : v ∈ pool.getPool i) : v ∈ pool.words := by
  simp only [TextPool.getPool, List.getD_eq_getElem?_getD] at h
  cases hg : pool.pool[(i - pool.minBaseIdx).toNat]? with
  | none => rw [hg] at h; simp at h
  | some l =>
    rw [hg] at h
    simp only [Option.getD_some] at h
    exact List.mem_flatten.mpr ⟨l, List.mem_iff_getElem?.mpr ⟨_, hg⟩, h⟩

theorem TextPool.mem_addWord (pool : TextPool) (w v : TextWord)
    (h : v ∈ (pool.addWord w).words) : v = w ∨ v ∈ pool.words := by
  unfold TextPool.addWord at h
  simp only at h
  have hw : ∀ p : TextPool, (∀ x, x ∈ p.words → x ∈ pool.words) →
      ∀ (pos : Nat) (c : Option Nat) (ci : Int),
        v ∈ TextPool.words { p.setPool (truncToInt (w.base / 4))
          ((p.getPool (truncToInt (w.base / 4))).take pos ++
            w :: (p.getPool (truncToInt (w.base / 4))).drop pos) with
          cursor := c, cursorBaseIdx := ci } → v = w ∨ v ∈ pool.words := by
    intro p hp pos c ci hv
    have hv2 : v ∈ (p.setPool (truncToInt (w.base / 4))
          ((p.getPool (truncToInt (w.base / 4))).take pos ++
            w :: (p.getPool (truncToInt (w.base / 4))).drop pos)).words := hv
    rcases TextPool.words_setPool _ _ _ _ hv2 with h1 | h1
    · rw [List.mem_append, List.mem_cons] at h1
      rcases h1 with h1 | h1 | h1
      · exact Or.inr (hp _ (TextPool.getPool_subset _ _ _ (List.mem_of_mem_take h1)))
      · exact Or.inl h1
      · exact Or.inr (hp _ (TextPool.getPool_subset _ _ _ (List.mem_of_mem_drop h1)))
    · exact Or.inr (hp _ h1)
  refine hw _ ?_ _ _ _ h
  split
  · intro x hx
    simp only [TextPool.words, flatten_replicate_nil_eq, List.not_mem_nil] at hx
  · split
    · intro x hx
      simpa only [TextPool.words, List.flatten_append, flatten_replicate_nil_eq,
        List.nil_append] using hx
    · split
      · intro x hx
        simpa only [TextPool.words, List.flatten_append, flatten_replicate_nil_eq,
          List.append_nil] using hx
      · exact fun x hx => hx


theorem PageBuilder.mem_words_addWord (b : PageBuilder) (w v : TextWord)
    (h : v ∈ (b.addWord w).words) : (v = w ∧ 0 < w.len) ∨ v ∈ b.words := by
  unfold PageBuilder.addWord at h
  split at h
  · exact Or.inr h
  · next hlen =>
    split at h
    · exact Or.inr h
    · next pool hp =>
      simp only [PageBuilder.words, List.mem_flatMap] at h ⊢
      obtain ⟨q, hq, hv⟩ := h
      rcases List.mem_or_eq_of_mem_set hq with h1 | h1
      · exact Or.inr ⟨q, h1, hv⟩
      · subst h1
        rcases TextPool.mem_addWord _ _ _ hv with h2 | h2
        · exact Or.inl ⟨h2, Nat.pos_of_ne_zero hlen⟩
        · exact Or.inr ⟨pool, List.mem_iff_getElem?.mpr ⟨_, hp⟩, h2⟩

theorem PageBuilder.addWord_fields (b : PageBuilder) (w : TextWord) :
    (b.addWord w).nest = b.nest ∧ (b.addWord w).curWord = b.curWord ∧
      (b.addWord w).charPos = b.charPos := by
  unfold PageBuilder.addWord
  split
  · exact ⟨rfl, rfl, rfl⟩
  · split <;> exact ⟨rfl, rfl, rfl⟩

theorem PageBuilder.endWord_nest_zero (b : PageBuilder) (hn : b.nest = 0) :
    b.endWord.nest = 0 ∧ b.endWord.curWord = none ∧
      ∀ v ∈ b.endWord.words, v ∈ b.words ∨ (b.curWord = some v ∧ 0 < v.len) := by
  obtain hcw | ⟨cw, hcw⟩ : b.curWord = none ∨ ∃ cw, b.curWord = some cw := by
    cases b.curWord <;> simp
  · have he : b.endWord = b := by
      simp only [PageBuilder.endWord, hn, hcw]
      rfl
    rw [he]
    exact ⟨hn, hcw, fun v hv => Or.inl hv⟩
  · have he : b.endWord = { b.addWord cw with curWord := none } := by
      simp only [PageBuilder.endWord, hn, hcw]
      rfl
    rw [he]
    refine ⟨?_, rfl, ?_⟩
    · show (b.addWord cw).nest = 0
      rw [(PageBuilder.addWord_fields b cw).1, hn]
    · intro v hv
      have hv2 : v ∈ (b.addWord cw).words := hv
      rcases PageBuilder.mem_words_addWord _ _ _ hv2 with ⟨h1, h2⟩ | h1
      · subst h1
        exact Or.inr ⟨hcw, h2⟩
      · exact Or.inl h1

theorem BuilderInv.endWord {r : Nat} {b : PageBuilder} (h : BuilderInv r b) :
    BuilderInv r b.endWord ∧ b.endWord.curWord = none := by
  obtain ⟨hn, hc, hw⟩ := h
  obtain ⟨h1, h2, h3⟩ := PageBuilder.endWord_nest_zero b hn
  refine ⟨⟨h1, ?_, ?_⟩, h2⟩
  · intro c hc2
    rw [h2] at hc2
    cases hc2
  · intro v hv
    rcases h3 v hv with h4 | ⟨h4, _⟩
    · exact hw v h4
    · exact hc v h4

theorem PageBuilder.beginWord_of_none (b : PageBuilder) (e : GlyphEvent) (x y : ℚ)
    (h : b.curWord = none) :
    b.beginWord e x y =
      { b with curWord := some (newTextWord e.rot x y b.charPos e.font e.fontSize) } := by
  simp only [PageBuilder.beginWord, h]

theorem PageBuilder.endBegin_inv (r : Nat) (b : PageBuilder) (e : GlyphEvent) (x y : ℚ)
    (hn : b.nest = 0) (hc : ∀ cw, b.curWord = some cw → cw.len = 0 ∨ WordGood r cw)
    (hw : ∀ w ∈ b.words, WordGood r w) :
    (b.endWord.beginWord e x y).nest = 0 ∧
      (∃ c, (b.endWord.beginWord e x y).curWord = some c ∧ FreshFor e c) ∧
      ∀ v ∈ (b.endWord.beginWord e x y).words, WordGood r v := by
  obtain ⟨h1, h2, h3⟩ := PageBuilder.endWord_nest_zero b hn
  rw [PageBuilder.beginWord_of_none _ _ _ _ h2]
  refine ⟨h1, ⟨_, rfl, newTextWord_fresh e x y _⟩, ?_⟩
  intro v hv
  have hv2 : v ∈ b.endWord.words := hv
  rcases h3 v hv2 with h4 | ⟨h4, h5⟩
  · exact hw v h4
  · rcases hc v h4 with h6 | h6
    · omega
    · exact h6

theorem addCharLoop_fresh (r : Nat) (e : GlyphEvent) (hr : e.rot = r) (c : TextWord)
    (hf : FreshFor e c) (x1 y1 w1 h1 : ℚ) (hd : 0 ≤ dirSign r * pri r w1 h1) (hu : e.u ≠ []) :
    WordGood r (addCharLoop x1 y1 w1 h1 0 e.u c) := by
  have hlt : r < 4 := hr ▸ e.rot_lt
  refine addCharLoop_good r hlt x1 y1 w1 h1 hd e.u 0 c (hf.2.2.1.trans hr) (Or.inl ⟨?_, hu⟩)
  simp [TextWord.len, hf.1]

theorem BuilderInv.addGlyphs {r : Nat} {b : PageBuilder} {e : GlyphEvent} (hr : e.rot = r)
    (h : BuilderInv r b)
    (hsp : ∀ cw, b.curWord = some cw →
      -(2 / 10 * |cw.fontSize|) ≤ dirSign r * (pri r e.x1 e.y1 - cw.trail)) :
    BuilderInv r (b.addGlyphs e) := by
  have hlt : r < 4 := hr ▸ e.rot_lt
  obtain ⟨hn, hc, hw⟩ := h
  by_cases hl : e.u.length = 0
  · simp only [PageBuilder.addGlyphs, hl, if_true]
    exact ⟨hn, hc, hw⟩
  have hu : e.u ≠ [] := by
    intro h0
    rw [h0] at hl
    exact hl rfl
  obtain hcw | ⟨cw, hcw⟩ : b.curWord = none ∨ ∃ cw, b.curWord = some cw := by
    cases b.curWord <;> simp
  · have hb1 := PageBuilder.beginWord_of_none b e e.x1 e.y1 hcw
    have hfresh := newTextWord_fresh e e.x1 e.y1 b.charPos
    by_cases hrev : reversed (newTextWord e.rot e.x1 e.y1 b.charPos e.font e.fontSize) e = true
    · obtain ⟨i1, ⟨c, i2, i3⟩, i4⟩ := PageBuilder.endBegin_inv r (b.beginWord e e.x1 e.y1) e
        (e.x1 + e.w1) (e.y1 + e.h1) (by rw [hb1]; exact hn)
        (by
          intro cw h
          rw [hb1] at h
          cases h
          exact Or.inl rfl)
        (by rw [hb1]; exact hw)
      have hd := sign_div _ _ e.u.length
        (reversed_sign r hlt _ e (hfresh.2.2.1.trans hr) hrev)
      rw [← pri_div] at hd
      have hgood := addCharLoop_fresh r e hr c i3 (e.x1 + e.w1) (e.y1 + e.h1) _ _ hd hu
      simp only [PageBuilder.addGlyphs, if_neg hl, hcw, Option.isNone_none, if_true]
      rw [hb1] at i1 i2 i4 ⊢
      simp only [hrev, if_true, i2, Option.map_some']
      refine ⟨i1, ?_, i4⟩
      intro cw h
      cases h
      exact hgood
    · have hd := sign_div _ _ e.u.length
        (not_reversed_sign r hlt _ e (hfresh.2.2.1.trans hr) hrev)
      rw [← pri_div] at hd
      have hgood := addCharLoop_fresh r e hr _ hfresh e.x1 e.y1 _ _ hd hu
      simp only [PageBuilder.addGlyphs, if_neg hl, hcw, Option.isNone_none, if_true]
      rw [hb1]
      simp only [hrev]
      refine ⟨hn, ?_, hw⟩
      intro cw h
      cases h
      exact hgood
  · have hgcw := hc cw hcw
    by_cases hrev : reversed cw e = true
    · obtain ⟨i1, ⟨c, i2, i3⟩, i4⟩ := PageBuilder.endBegin_inv r b e
        (e.x1 + e.w1) (e.y1 + e.h1) hn (fun c h => Or.inr (hc c h)) hw
      have hd := sign_div _ _ e.u.length (reversed_sign r hlt _ e hgcw.1 hrev)
      rw [← pri_div] at hd
      have hgood := addCharLoop_fresh r e hr c i3 (e.x1 + e.w1) (e.y1 + e.h1) _ _ hd hu
      simp only [PageBuilder.addGlyphs, if_neg hl, hcw, Option.isNone_some, Bool.false_eq_true,
        if_false, hrev, if_true, i2, Option.map_some']
      refine ⟨i1, ?_, i4⟩
      intro cw h
      cases h
      exact hgood
    · have hd := sign_div _ _ e.u.length (not_reversed_sign r hlt _ e hgcw.1 hrev)
      rw [← pri_div] at hd
      have hgood := addCharLoop_good r hlt e.x1 e.y1 _ _ hd e.u 0 cw hgcw.1
        (Or.inr ⟨hgcw, by simpa using hsp cw hcw⟩)
      simp only [PageBuilder.addGlyphs, if_neg hl, hcw, Option.isNone_some, Bool.false_eq_true,
        if_false, hrev]
      refine ⟨hn, ?_, hw⟩
      intro cw h
      cases h
      exact hgood

theorem WordGood.charLen {r : Nat} {w : TextWord} (c : Int) (h : WordGood r w) :
    WordGood r { w with charLen := c } := h

theorem BuilderInv.breakWord {r : Nat} {b : PageBuilder} (e : GlyphEvent) (hr : r < 4)
    (h : BuilderInv r b) :
    BuilderInv r (b.breakWord e) ∧
      ∀ cw, (b.breakWord e).curWord = some cw →
        -(2 / 10 * |cw.fontSize|) ≤ dirSign r * (pri r e.x1 e.y1 - cw.trail) := by
  obtain hcw | ⟨cw, hcw⟩ : b.curWord = none ∨ ∃ cw, b.curWord = some cw := by
    cases b.curWord <;> simp
  · have he : b.breakWord e = { b with lastCharOverlap := false } := by
      simp only [PageBuilder.breakWord, hcw]
    rw [he]
    refine ⟨h, ?_⟩
    intro cw h2
    have h3 : b.curWord = some cw := h2
    rw [hcw] at h3
    cases h3
  · have hg := h.2.1 cw hcw
    have hpos := hg.has_glyph
    by_cases ht : (breakTest cw e b.lastCharOverlap).2 = true
    · have he : b.breakWord e =
          { b.endWord with lastCharOverlap := (breakTest cw e b.lastCharOverlap).1 } := by
        simp only [PageBuilder.breakWord, hcw, hpos, ht, if_true]
      rw [he]
      obtain ⟨h1, h2⟩ := h.endWord
      refine ⟨h1, ?_⟩
      intro c h3
      have h4 : b.endWord.curWord = some c := h3
      rw [h2] at h4
      cases h4
    · have he : b.breakWord e =
          { b with lastCharOverlap := (breakTest cw e b.lastCharOverlap).1 } := by
        simp only [PageBuilder.breakWord, hcw, hpos, ht, if_true, Bool.false_eq_true, if_false]
      rw [he]
      refine ⟨h, ?_⟩
      intro c h3
      have h4 : b.curWord = some c := h3
      rw [hcw] at h4
      cases h4
      exact breakTest_no_break r hr cw e _ hg.1 (by simpa using ht)

theorem BuilderInv.countTiny {r : Nat} {b : PageBuilder} (keepTiny : Bool) (e : GlyphEvent)
    (h : BuilderInv r b) : BuilderInv r (b.countTiny keepTiny e) := by
  unfold PageBuilder.countTiny
  split
  · exact h
  · exact h

theorem BuilderInv.mapCharLen {r : Nat} {b : PageBuilder} (f : TextWord → Int) (c : Int)
    (h : BuilderInv r b) :
    BuilderInv r { b with curWord := b.curWord.map (fun w => { w with charLen := f w }),
                          charPos := c } := by
  refine ⟨h.1, ?_, h.2.2⟩
  intro cw hcw
  simp only [Option.map_eq_some'] at hcw
  obtain ⟨w, hw, rfl⟩ := hcw
  exact (h.2.1 w hw).charLen _

theorem BuilderInv.addChar {r : Nat} {b : PageBuilder} (keepTiny : Bool) {e : GlyphEvent}
    (hr : e.rot = r) (h : BuilderInv r b) : BuilderInv r (b.addChar keepTiny e) := by
  have hlt : r < 4 := hr ▸ e.rot_lt
  unfold PageBuilder.addChar
  split
  · exact h
  · simp only
    split
    · exact h.countTiny keepTiny e
    · split
      · exact ((h.countTiny keepTiny e).mapCharLen (fun w => w.charLen + 1) _).endWord.1
      · obtain ⟨h1, h2⟩ := (h.countTiny keepTiny e).breakWord e hlt
        exact (BuilderInv.addGlyphs hr h1 h2).mapCharLen (fun w => w.charLen + e.nBytes) _

theorem BuilderInv.foldl {r : Nat} (keepTiny : Bool) (events : List GlyphEvent)
    (hr : ∀ e ∈ events, e.rot = r) :
    ∀ b : PageBuilder, BuilderInv r b →
      BuilderInv r (events.foldl (PageBuilder.addChar keepTiny) b) := by
  induction events with
  | nil => exact fun b h => h
  | cons e es ih =>
    intro b h
    exact ih (fun e2 h2 => hr e2 (List.mem_cons_of_mem _ h2)) _
      (h.addChar keepTiny (hr e (List.mem_cons_self _ _)))

theorem BuilderInv.init (r : Nat) (pageWidth pageHeight : ℚ) :
    BuilderInv r (PageBuilder.init pageWidth pageHeight) := by
  refine ⟨rfl, ?_, ?_⟩
  · intro cw h
    cases h
  · intro w hw
    simp [PageBuilder.init, PageBuilder.words, TextPool.words, TextPool.empty] at hw

theorem BuilderInv.buildWords (r : Nat) (keepTiny : Bool) (pageWidth pageHeight : ℚ)
    (events : List GlyphEvent) (hr : ∀ e ∈ events, e.rot = r) :
    BuilderInv r (buildWords keepTiny pageWidth pageHeight events) := by
  have h := BuilderInv.foldl keepTiny events hr _ (BuilderInv.init r pageWidth pageHeight)
  unfold PdfTextLib.buildWords PageBuilder.endPage
  split
  · exact h
  · exact h.endWord.1

theorem WordGood.monotone {r : Nat} {w : TextWord} (h : WordGood r w) :
    w.EdgesMonotoneWithin (2 / 10 * |w.fontSize|) := by
  obtain ⟨hrot, E, a, t, hE, hl, _, hat, hch⟩ := h
  have hconv : ∀ x y : ℚ, -(2 / 10 * |w.fontSize|) ≤ dirSign r * (y - x) →
      (if w.rot = 0 ∨ w.rot = 1 then x - 2 / 10 * |w.fontSize| ≤ y
        else y ≤ x + 2 / 10 * |w.fontSize|) := by
    intro x y hxy
    rw [hrot]
    unfold dirSign at hxy
    split
    · next h01 => rw [if_pos h01] at hxy; linarith
    · next h01 => rw [if_neg h01] at hxy; linarith
  have hlen : w.edge.length = w.len + 1 := by rw [hE, hl]; simp
  refine ⟨hlen, ?_⟩
  have hall : List.Chain' (fun x y => if w.rot = 0 ∨ w.rot = 1 then x - 2 / 10 * |w.fontSize| ≤ y
      else y ≤ x + 2 / 10 * |w.fontSize|) w.edge := by
    rw [hE]
    have : E ++ [a, t] = (E ++ [a]) ++ [t] := by simp
    rw [this, List.chain'_append]
    refine ⟨hch.imp (fun {x y} hxy => hconv x y hxy), by simp, ?_⟩
    intro p hp q hq
    have hp2 : p = a := by simpa [List.getLast?_append] using hp.symm
    have hq2 : q = t := by simpa using hq.symm
    subst hp2
    subst hq2
    apply hconv
    have := abs_tol_nonneg w.fontSize
    linarith
  intro i hi
  have h := List.chain'_iff_get.mp hall i (by omega)
  have e1 : w.edge.getD i 0 = w.edge.get ⟨i, by omega⟩ := by
    rw [List.getD_eq_getElem?_getD, List.getElem?_eq_getElem (by omega)]
    rfl
  have e2 : w.edge.getD (i + 1) 0 = w.edge.get ⟨i + 1, by omega⟩ := by
    rw [List.getD_eq_getElem?_getD, List.getElem?_eq_getElem (by omega)]
    rfl
  rw [e1, e2]
  exact h

/-- A stream of two rotations: the letter A upright at `0..6`, then a glyph
of an upside-down font (rotation 2, advance -6) starting at `6.5`. The break
test lets the glyph continue the word, the reversal test of lines 1493-1496
compares its advance with the rotation of that word, and the glyph ends
up alone in a word of rotation 2 with ascending edges. -/
theorem mixed_rotation_stream_example :
    (buildWords false 600 800
        [glyph 0 100 6 [65] 10,
          { glyph (13 / 2) 100 (-6) [66] 10 with m := (-1, 0, 0, 1) }]).words.map
        (fun w => (w.text, w.rot, w.edge)) =
      [([65], 0, [0, 6]), ([66], 2, [1 / 2, 13 / 2])] := by
  decide!

/-! ## Lemmas: Pools -/

theorem perm_take_cons_drop {α : Type} (l : List α) (n : Nat) (a : α) :
    (l.take n ++ a :: l.drop n).Perm (a :: l) := by
  have h : (l.take n ++ a :: l.drop n).Perm (a :: (l.take n ++ l.drop n)) := List.perm_middle
  rw [List.take_append_drop] at h
  exact h

theorem flatten_set_perm {α : Type} (l : List (List α)) (k : Nat) (h : k < l.length) :
    ∃ rest : List α, l.flatten.Perm (l.getD k [] ++ rest) ∧
      ∀ x : List α, (l.set k x).flatten.Perm (x ++ rest) := by
  induction l generalizing k with
  | nil => simp at h
  | cons a as ih =>
    cases k with
    | zero =>
      refine ⟨as.flatten, ?_, ?_⟩
      · simp
      · intro x; simp
    | succ k =>
      obtain ⟨rest, h1, h2⟩ := ih k (by simpa using h)
      refine ⟨a ++ rest, ?_, ?_⟩
      · simp only [List.flatten_cons, List.getD_cons_succ]
        exact (List.Perm.append_left a h1).trans (by
          rw [← List.append_assoc, ← List.append_assoc]
          exact List.Perm.append_right rest List.perm_append_comm)
      · intro x
        simp only [List.set_cons_succ, List.flatten_cons]
        exact (List.Perm.append_left a (h2 x)).trans (by
          rw [← List.append_assoc, ← List.append_assoc]
          exact List.Perm.append_right rest List.perm_append_comm)

theorem TextPool.InRange.lt_length {pool : TextPool} {i : Int} (hwf : pool.WF)
    (hi : pool.InRange i) : (i - pool.minBaseIdx).toNat < pool.pool.length := by
  unfold TextPool.WF at hwf
  unfold TextPool.InRange at hi
  omega

theorem TextPool.setPool_perm (pool : TextPool) (i : Int) (hwf : pool.WF)
    (hi : pool.InRange i) :
    ∃ rest : List TextWord, pool.words.Perm (pool.getPool i ++ rest) ∧
      ∀ ws : List TextWord, (pool.setPool i ws).words.Perm (ws ++ rest) :=
  flatten_set_perm pool.pool (i - pool.minBaseIdx).toNat (hi.lt_length hwf)

theorem TextPool.setPool_WF (pool : TextPool) (i : Int) (ws : List TextWord) (hwf : pool.WF) :
    (pool.setPool i ws).WF ∧ (pool.setPool i ws).minBaseIdx = pool.minBaseIdx ∧
      (pool.setPool i ws).maxBaseIdx = pool.maxBaseIdx := by
  refine ⟨?_, rfl, rfl⟩
  unfold TextPool.WF TextPool.setPool
  simpa using hwf

theorem TextPool.getPool_setPool (pool : TextPool) (i j : Int) (ws : List TextWord)
    (hwf : pool.WF) (hi : pool.InRange i) (hj : pool.InRange j) :
    (pool.setPool i ws).getPool j = if j = i then ws else pool.getPool j := by
  have hlt := hi.lt_length hwf
  unfold TextPool.InRange at hi hj
  unfold TextPool.getPool TextPool.setPool
  simp only [List.getD_eq_getElem?_getD]
  split
  · next h =>
    subst h
    rw [List.getElem?_set_self hlt]
    rfl
  · next h =>
    rw [List.getElem?_set_ne (by omega)]

theorem TextPool.getBaseIdx_inRange (pool : TextPool) (base : ℚ)
    (h : pool.minBaseIdx ≤ pool.maxBaseIdx) : pool.InRange (pool.getBaseIdx base) := by
  unfold TextPool.getBaseIdx TextPool.InRange
  simp only
  split
  · omega
  · split <;> omega

theorem perm_cons_eraseIdx {α : Type} (l : List α) (k : Nat) (w : α) (h : l[k]? = some w) :
    l.Perm (w :: l.eraseIdx k) := by
  induction l generalizing k with
  | nil => simp at h
  | cons a as ih =>
    cases k with
    | zero =>
      simp only [List.getElem?_cons_zero, Option.some.injEq] at h
      subst h
      simp
    | succ k =>
      simp only [List.getElem?_cons_succ] at h
      simp only [List.eraseIdx_cons_succ]
      exact (List.Perm.cons a (ih k h)).trans (List.Perm.swap w a _)

theorem TextPool.removeAt_perm (pool : TextPool) (i : Int) (k : Nat) (w : TextWord)
    (hwf : pool.WF) (hi : pool.InRange i) (hk : (pool.getPool i)[k]? = some w) :
    pool.words.Perm (w :: (pool.removeAt i k).words) := by
  obtain ⟨rest, h1, h2⟩ := pool.setPool_perm i hwf hi
  have h3 := perm_cons_eraseIdx _ k w hk
  have h4 := h2 ((pool.getPool i).eraseIdx k)
  refine h1.trans ?_
  refine (List.Perm.append_right rest h3).trans ?_
  exact List.Perm.cons w h4.symm

theorem TextPool.removeAt_WF (pool : TextPool) (i : Int) (k : Nat) (hwf : pool.WF) :
    (pool.removeAt i k).WF ∧ (pool.removeAt i k).minBaseIdx = pool.minBaseIdx ∧
      (pool.removeAt i k).maxBaseIdx = pool.maxBaseIdx :=
  pool.setPool_WF i _ hwf

theorem TextPool.getBaseIdx_setPool (pool : TextPool) (i : Int) (ws : List TextWord) (base : ℚ) :
    (pool.setPool i ws).getBaseIdx base = pool.getBaseIdx base := rfl

theorem TextPool.getBaseIdx_removeAt (pool : TextPool) (i : Int) (k : Nat) (base : ℚ) :
    (pool.removeAt i k).getBaseIdx base = pool.getBaseIdx base := rfl

theorem TextPool.empty_WF : TextPool.empty.WF := by decide

theorem TextPool.words_nil_of_empty (pool : TextPool) (hwf : pool.WF)
    (h : pool.minBaseIdx > pool.maxBaseIdx) : pool.words = [] := by
  unfold TextPool.WF at hwf
  have : pool.pool.length = 0 := by omega
  have h2 : pool.pool = [] := List.length_eq_zero.mp this
  simp [TextPool.words, h2]

theorem TextPool.addWord_spec (pool : TextPool) (w : TextWord) (hwf : pool.WF) :
    (pool.addWord w).WF ∧ (pool.addWord w).minBaseIdx ≤ (pool.addWord w).maxBaseIdx ∧
      (pool.addWord w).words.Perm (w :: pool.words) := by
  -- the pool after the array has grown
  have key : ∀ p1 : TextPool, p1.WF → p1.InRange (truncToInt (w.base / 4)) →
      p1.words.Perm pool.words → ∀ (pos : Nat) (c : Option Nat) (ci : Int),
      let r : TextPool := { p1.setPool (truncToInt (w.base / 4))
        ((p1.getPool (truncToInt (w.base / 4))).take pos ++
          w :: (p1.getPool (truncToInt (w.base / 4))).drop pos) with
        cursor := c, cursorBaseIdx := ci }
      r.WF ∧ r.minBaseIdx ≤ r.maxBaseIdx ∧ r.words.Perm (w :: pool.words) := by
    intro p1 h1 h2 h3 pos c ci
    obtain ⟨rest, e1, e2⟩ := p1.setPool_perm _ h1 h2
    refine ⟨(p1.setPool_WF _ _ h1).1, ?_, ?_⟩
    · show p1.minBaseIdx ≤ p1.maxBaseIdx
      unfold TextPool.InRange at h2
      omega
    · have e3 := e2 ((p1.getPool (truncToInt (w.base / 4))).take pos ++
          w :: (p1.getPool (truncToInt (w.base / 4))).drop pos)
      refine (show (TextPool.words _).Perm _ from e3).trans ?_
      have e4 : ((p1.getPool (truncToInt (w.base / 4))).take pos ++
          w :: (p1.getPool (truncToInt (w.base / 4))).drop pos).Perm
          (w :: p1.getPool (truncToInt (w.base / 4))) := by
        exact perm_take_cons_drop _ pos w
      refine (List.Perm.append_right rest e4).trans ?_
      exact List.Perm.cons w (e1.symm.trans h3)
  unfold TextPool.addWord
  simp only
  apply key
  · unfold TextPool.WF at hwf ⊢
    split
    · simp only [List.length_replicate]
      omega
    · split
      · simp only [List.length_append, List.length_replicate]
        omega
      · split
        · simp only [List.length_append, List.length_replicate]
          omega
        · exact hwf
  · unfold TextPool.InRange
    split
    · simp only; omega
    · split
      · simp only; omega
      · split
        · simp only; omega
        · omega
  · split
    · next h =>
      rw [pool.words_nil_of_empty hwf h]
      simp only [TextPool.words, flatten_replicate_nil_eq]
      exact List.Perm.refl _
    · split
      · simp only [TextPool.words, List.flatten_append, flatten_replicate_nil_eq,
          List.nil_append]
        exact List.Perm.refl _
      · split
        · simp only [TextPool.words, List.flatten_append, flatten_replicate_nil_eq,
            List.append_nil]
          exact List.Perm.refl _
        · exact List.Perm.refl _

/-! ## Lemmas: Line building of `TextBlock::coalesce` -/

theorem firstFit_spec (lastWord : TextWord) (minBase maxBase fontSize : ℚ) :
    ∀ (l : List TextWord) (k0 k : Nat) (w : TextWord),
      firstFit lastWord minBase maxBase fontSize l k0 = some (k, w) →
      k0 ≤ k ∧ l[k - k0]? = some w ∧ lastWord.primaryDelta w ≥ -(2 / 10) * fontSize := by
  intro l
  induction l with
  | nil => intro k0 k w h; simp [firstFit] at h
  | cons a as ih =>
    intro k0 k w h
    simp only [firstFit] at h
    split at h
    · next hc =>
      simp only [Option.some.injEq, Prod.mk.injEq] at h
      obtain ⟨rfl, rfl⟩ := h
      exact ⟨le_refl _, by simp, hc.2.2⟩
    · obtain ⟨h1, h2, h3⟩ := ih (k0 + 1) k w h
      refine ⟨by omega, ?_, h3⟩
      have : k - k0 = (k - (k0 + 1)) + 1 := by omega
      rw [this, List.getElem?_cons_succ]
      exact h2

theorem bestWord_spec (pool : TextPool) (lastWord : TextWord) (minBase maxBase fontSize : ℚ) :
    ∀ (todo : Nat) (baseIdx : Int) (best : Option (Int × Nat × TextWord)) (i : Int) (k : Nat)
      (w : TextWord),
      bestWord pool lastWord minBase maxBase fontSize todo baseIdx best = some (i, k, w) →
      best = some (i, k, w) ∨
        (baseIdx ≤ i ∧ i < baseIdx + todo ∧ (pool.getPool i)[k]? = some w ∧
          lastWord.primaryDelta w ≥ -(2 / 10) * fontSize) := by
  intro todo
  induction todo with
  | zero =>
    intro baseIdx best i k w h
    simp only [bestWord] at h
    exact Or.inl h
  | succ todo ih =>
    intro baseIdx best i k w h
    simp only [bestWord] at h
    rcases ih _ _ i k w h with h1 | ⟨h1, h2, h3, h4⟩
    · split at h1
      · exact Or.inl h1
      · next k1 w1 hf =>
        split at h1
        · simp only [Option.some.injEq, Prod.mk.injEq] at h1
          obtain ⟨rfl, rfl, rfl⟩ := h1
          obtain ⟨_, f2, f3⟩ := firstFit_spec _ _ _ _ _ _ _ _ hf
          exact Or.inr ⟨le_refl _, by omega, by simpa using f2, f3⟩
        · exact Or.inl h1
    · exact Or.inr ⟨by omega, by push_cast; omega, h3, h4⟩

theorem TextPool.removeAt_nil (pool : TextPool) (i j : Int) (k : Nat) (hwf : pool.WF)
    (hi : pool.InRange i) (hj : pool.InRange j) (h : pool.getPool j = []) :
    (pool.removeAt i k).getPool j = [] := by
  unfold TextPool.removeAt
  rw [pool.getPool_setPool i j _ hwf hi hj]
  split
  · next hji =>
    rw [← hji, h]
    rfl
  · exact h

theorem TextPool.inRange_congr {p q : TextPool} (h1 : q.minBaseIdx = p.minBaseIdx)
    (h2 : q.maxBaseIdx = p.maxBaseIdx) (j : Int) : q.InRange j ↔ p.InRange j := by
  unfold TextPool.InRange
  rw [h1, h2]

/-- The state of the line loop: the words of the line added so far end
with `lastWord`, and each word follows the one before with a primary delta
of at least `minCharSpacing * fontSize`. -/
theorem lineLoop_spec (minBase maxBase fontSize : ℚ) (minBaseIdx maxBaseIdx : Int) :
    ∀ (fuel : Nat) (pool : TextPool) (lastWord : TextWord) (ws : List TextWord),
      pool.WF → pool.minBaseIdx ≤ minBaseIdx → maxBaseIdx ≤ pool.maxBaseIdx →
      pool.words.length < fuel → ws.getLast? = some lastWord →
      List.Chain' (fun a b => a.primaryDelta b ≥ -(2 / 10) * fontSize) ws →
      ∃ (added : List TextWord) (pool1 : TextPool),
        lineLoop minBase maxBase fontSize minBaseIdx maxBaseIdx fuel pool lastWord ws =
          .ok (ws ++ added, pool1) ∧
        pool1.WF ∧ pool1.minBaseIdx = pool.minBaseIdx ∧ pool1.maxBaseIdx = pool.maxBaseIdx ∧
        pool.words.Perm (added ++ pool1.words) ∧
        List.Chain' (fun a b => a.primaryDelta b ≥ -(2 / 10) * fontSize) (ws ++ added) ∧
        (∀ j, pool.InRange j → pool.getPool j = [] → pool1.getPool j = []) := by
  intro fuel
  induction fuel with
  | zero => intro pool lastWord ws _ _ _ h; omega
  | succ fuel ih =>
    intro pool lastWord ws hwf hlo hhi hfuel hlast hch
    simp only [lineLoop]
    cases hb : bestWord pool lastWord minBase maxBase fontSize
        (maxBaseIdx + 1 - minBaseIdx).toNat minBaseIdx none with
    | none =>
      exact ⟨[], pool, by simp, hwf, rfl, rfl, by simp, by simpa using hch, fun j _ h => h⟩
    | some r =>
      obtain ⟨i, k, w⟩ := r
      rcases bestWord_spec _ _ _ _ _ _ _ _ _ _ _ hb with h0 | ⟨h1, h2, h3, h4⟩
      · cases h0
      · have hir : pool.InRange i := by
          unfold TextPool.InRange
          omega
        have hperm := pool.removeAt_perm i k w hwf hir h3
        obtain ⟨hwf1, hmin1, hmax1⟩ := pool.removeAt_WF i k hwf
        have hlen : (pool.removeAt i k).words.length < fuel := by
          have := hperm.length_eq
          simp only [List.length_cons] at this
          omega
        have hch2 : List.Chain' (fun a b => a.primaryDelta b ≥ -(2 / 10) * fontSize)
            (ws ++ [w]) := by
          rw [List.chain'_append]
          refine ⟨hch, by simp, ?_⟩
          intro x hx y hy
          have hx2 : x = lastWord := by
            rw [hlast] at hx
            exact (Option.some.inj hx).symm
          have hy2 : y = w := by simpa using hy.symm
          rw [hx2, hy2]
          exact h4
        obtain ⟨added, pool1, e1, e2, e3, e4, e5, e6, e7⟩ := ih (pool.removeAt i k) w
          (ws ++ [w]) hwf1 (by omega) (by omega) hlen (by simp) hch2
        refine ⟨w :: added, pool1, ?_, e2, by omega, by omega, ?_, ?_, ?_⟩
        · simp only
          rw [e1]
          simp
        · exact hperm.trans (List.Perm.cons w e5)
        · simpa using e6
        · intro j hj h0
          exact e7 j ((TextPool.inRange_congr hmin1 hmax1 j).mpr hj)
            (pool.removeAt_nil i j k hwf hir hj h0)

theorem skipEmptyLines_spec (pool : TextPool) :
    ∀ (todo : Nat) (i : Int), (pool.maxBaseIdx + 1 - i).toNat ≤ todo →
      i ≤ skipEmptyLines pool todo i ∧
      (∀ j, i ≤ j → j < skipEmptyLines pool todo i → pool.getPool j = []) ∧
      (skipEmptyLines pool todo i ≤ pool.maxBaseIdx →
        pool.getPool (skipEmptyLines pool todo i) ≠ []) := by
  intro todo
  induction todo with
  | zero =>
    intro i h
    simp only [skipEmptyLines]
    exact ⟨le_refl _, fun j h1 h2 => by omega, fun h2 => by omega⟩
  | succ todo ih =>
    intro i h
    simp only [skipEmptyLines]
    split
    · next hc =>
      obtain ⟨h1, h2, h3⟩ := ih (i + 1) (by omega)
      refine ⟨by omega, ?_, h3⟩
      intro j hj1 hj2
      by_cases hji : j = i
      · subst hji
        simpa using hc.2
      · exact h2 j (by omega) hj2
    · next hc =>
      refine ⟨le_refl _, fun j h1 h2 => by omega, ?_⟩
      intro hle h0
      exact hc ⟨hle, by simp [h0]⟩

theorem startBaseIdx_spec (pool : TextPool) (i : Int) (hi : pool.InRange i)
    (hne : pool.getPool i ≠ []) :
    pool.InRange (startBaseIdx pool i) ∧ pool.getPool (startBaseIdx pool i) ≠ [] := by
  have step : ∀ (s : Int) (d : Int), 0 ≤ d → (pool.InRange s ∧ pool.getPool s ≠ []) →
      (pool.InRange
          (if i + d ≤ pool.maxBaseIdx then
            match (pool.getPool (i + d)).head?, (pool.getPool s).head? with
            | some w, some s0 => if w.primaryCmp s0 < 0 then i + d else s
            | _, _ => s
          else s) ∧
        pool.getPool
          (if i + d ≤ pool.maxBaseIdx then
            match (pool.getPool (i + d)).head?, (pool.getPool s).head? with
            | some w, some s0 => if w.primaryCmp s0 < 0 then i + d else s
            | _, _ => s
          else s) ≠ []) := by
    intro s d hd hs
    split
    · next hle =>
      split
      · next w s0 hw hs0 =>
        split
        · refine ⟨⟨by unfold TextPool.InRange at hi; omega, hle⟩, ?_⟩
          intro h0
          rw [h0] at hw
          cases hw
        · exact hs
      · exact hs
    · exact hs
  unfold startBaseIdx
  simp only [List.foldl_cons, List.foldl_nil]
  exact step _ 3 (by omega) (step _ 2 (by omega) (step _ 1 (by omega) ⟨hi, hne⟩))

theorem buildLine_spec (pool : TextPool) (i : Int) (hwf : pool.WF) (hi : pool.InRange i)
    (hne : pool.getPool i ≠ []) :
    ∃ (word0 : TextWord) (added : List TextWord) (pool1 : TextPool),
      buildLine pool i = .ok (newTextLine word0.rot word0.base (word0 :: added), pool1) ∧
      pool1.WF ∧ pool1.minBaseIdx = pool.minBaseIdx ∧ pool1.maxBaseIdx = pool.maxBaseIdx ∧
      pool.words.Perm ((word0 :: added) ++ pool1.words) ∧
      List.Chain' (fun a b => a.primaryDelta b ≥ -(2 / 10) * word0.fontSize) (word0 :: added) ∧
      (∀ j, pool.InRange j → pool.getPool j = [] → pool1.getPool j = []) := by
  obtain ⟨hs, hsne⟩ := startBaseIdx_spec pool i hi hne
  unfold buildLine
  simp only
  cases hg : pool.getPool (startBaseIdx pool i) with
  | nil => exact absurd hg hsne
  | cons word0 rest =>
    simp only
    obtain ⟨hwf1, hmin1, hmax1⟩ := pool.setPool_WF (startBaseIdx pool i) rest hwf
    have hperm : pool.words.Perm (word0 :: (pool.setPool (startBaseIdx pool i) rest).words) := by
      have := pool.removeAt_perm (startBaseIdx pool i) 0 word0 hwf hs (by rw [hg]; simp)
      unfold TextPool.removeAt at this
      rw [hg] at this
      exact this
    have hrange : pool.minBaseIdx ≤ pool.maxBaseIdx := by
      unfold TextPool.InRange at hi
      omega
    have hr1 : (pool.setPool (startBaseIdx pool i) rest).minBaseIdx ≤
        (pool.setPool (startBaseIdx pool i) rest).maxBaseIdx := by omega
    have hlo := TextPool.getBaseIdx_inRange (pool.setPool (startBaseIdx pool i) rest)
      (word0.base - 1 / 2 * word0.fontSize) hr1
    have hhi := TextPool.getBaseIdx_inRange (pool.setPool (startBaseIdx pool i) rest)
      (word0.base + 1 / 2 * word0.fontSize) hr1
    obtain ⟨added, pool1, e1, e2, e3, e4, e5, e6, e7⟩ :=
      lineLoop_spec (word0.base - 1 / 2 * word0.fontSize) (word0.base + 1 / 2 * word0.fontSize)
        word0.fontSize _ _ ((pool.setPool (startBaseIdx pool i) rest).words.length + 1)
        (pool.setPool (startBaseIdx pool i) rest) word0 [word0] hwf1 hlo.1 hhi.2
        (Nat.lt_succ_self _) rfl (by simp)
    refine ⟨word0, added, pool1, ?_, e2, by omega, by omega, ?_, by simpa using e6, ?_⟩
    · rw [e1]
      rfl
    · exact hperm.trans (List.Perm.cons word0 e5)
    · intro j hj h0
      apply e7 j ((TextPool.inRange_congr hmin1 hmax1 j).mpr hj)
      rw [pool.getPool_setPool _ j _ hwf hs hj]
      split
      · next hji =>
        rw [hji, hg] at h0
        cases h0
      · exact h0

theorem TextLine.primaryCmp_swap (a b : TextLine) (h : a.rot = b.rot) :
    b.primaryCmp a = -(a.primaryCmp b) := by
  unfold TextLine.primaryCmp
  rw [← h]
  have hr : a.rot = 0 ∨ a.rot = 1 ∨ a.rot = 2 ∨ a.rot = 3 ∨ 4 ≤ a.rot := by omega
  rcases hr with h0 | h0 | h0 | h0 | h0
  · simp only [h0]
    split_ifs <;> first | rfl | omega | linarith
  · simp only [h0]
    split_ifs <;> first | rfl | omega | linarith
  · simp only [h0]
    split_ifs <;> first | rfl | omega | linarith
  · simp only [h0]
    split_ifs <;> first | rfl | omega | linarith
  · split
    · omega
    · omega
    · omega
    · omega
    · simp

theorem TextLine.secondaryCmp_swap (a b : TextLine) (h : a.rot = b.rot) :
    b.secondaryCmp a = -(a.secondaryCmp b) := by
  unfold TextLine.secondaryCmp
  rw [← h]
  simp only
  split_ifs <;> first | rfl | omega | linarith

theorem TextLine.cmpYX_antisymm (a b : TextLine) (h : a.rot = b.rot) (hab : a.cmpYX b > 0) :
    b.cmpYX a ≤ 0 := by
  unfold TextLine.cmpYX at *
  rw [TextLine.primaryCmp_swap a b h, TextLine.secondaryCmp_swap a b h]
  split_ifs at hab ⊢ <;> omega

theorem TextLine.cmpYX_coalesce_left (a b : TextLine) : a.coalesce.cmpYX b = a.cmpYX b := rfl

theorem TextLine.cmpYX_coalesce_right (a b : TextLine) : a.cmpYX b.coalesce = a.cmpYX b := rfl

theorem linePos_spec (line : TextLine) :
    ∀ (l : List TextLine) (k0 : Nat),
      k0 ≤ linePos line l k0 ∧ linePos line l k0 ≤ k0 + l.length ∧
      (∀ j x, j < linePos line l k0 - k0 → l[j]? = some x → line.cmpYX x > 0) ∧
      (∀ x, l[linePos line l k0 - k0]? = some x → line.cmpYX x ≤ 0) := by
  intro l
  induction l with
  | nil =>
    intro k0
    simp [linePos]
  | cons a as ih =>
    intro k0
    simp only [linePos]
    split
    · next hc =>
      obtain ⟨h1, h2, h3, h4⟩ := ih (k0 + 1)
      refine ⟨by omega, by simp only [List.length_cons]; omega, ?_, ?_⟩
      · intro j x hj hx
        cases j with
        | zero =>
          simp only [List.getElem?_cons_zero, Option.some.injEq] at hx
          exact hx ▸ hc
        | succ j =>
          simp only [List.getElem?_cons_succ] at hx
          exact h3 j x (by omega) hx
      · intro x hx
        have : linePos line as (k0 + 1) - k0 = (linePos line as (k0 + 1) - (k0 + 1)) + 1 := by
          omega
        rw [this, List.getElem?_cons_succ] at hx
        exact h4 x hx
    · next hc =>
      refine ⟨le_refl _, by omega, fun j x hj => by omega, ?_⟩
      intro x hx
      simp only [Nat.sub_self, List.getElem?_cons_zero, Option.some.injEq] at hx
      rw [← hx]
      omega

theorem insertLine_sorted (lines : List TextLine) (curLine : Option Nat) (line : TextLine)
    (r : Nat) (hs : LinesSorted lines) (hrot : ∀ l ∈ lines, l.rot = r) (hl : line.rot = r) :
    LinesSorted (insertLine lines curLine line).1 := by
  unfold insertLine
  simp only
  -- the start of the scan, and the line before it
  have hbefore : lineStart lines curLine line = 0 ∨
      ∃ cl, lines[lineStart lines curLine line - 1]? = some cl ∧ line.cmpYX cl > 0 := by
    unfold lineStart
    split
    · exact Or.inl rfl
    · next c =>
      split
      · exact Or.inl rfl
      · next cl hcl =>
        split
        · next hc => exact Or.inr ⟨cl, by simpa using hcl, hc⟩
        · exact Or.inl rfl
  generalize lineStart lines curLine line = start at hbefore
  have hsl : start ≤ lines.length := by
    rcases hbefore with h0 | ⟨cl, hcl, _⟩
    · omega
    · by_contra hc
      rw [List.getElem?_eq_none (by omega)] at hcl
      cases hcl
  obtain ⟨h1, h2, h3, h4⟩ := linePos_spec line (lines.drop start) start
  generalize hpos : linePos line (lines.drop start) start = pos at h1 h2 h3 h4
  unfold LinesSorted at hs ⊢
  rw [List.chain'_append]
  refine ⟨hs.take pos, ?_, ?_⟩
  · rw [List.chain'_cons']
    refine ⟨?_, hs.drop pos⟩
    intro y hy
    rw [TextLine.cmpYX_coalesce_left]
    apply h4 y
    rw [List.getElem?_drop]
    have : start + (pos - start) = pos := by omega
    rw [this]
    rw [List.head?_drop] at hy
    exact hy
  · intro x hx y hy
    simp only [List.head?_cons, Option.mem_def, Option.some.injEq] at hy
    subst hy
    rw [TextLine.cmpYX_coalesce_right]
    -- the last line before the position
    have hx2 : pos ≠ 0 ∧ lines[pos - 1]? = some x := by
      rw [Option.mem_def, List.getLast?_take] at hx
      split at hx
      · cases hx
      · next hp =>
        refine ⟨hp, ?_⟩
        cases hget : lines[pos - 1]? with
        | none =>
          rw [hget] at hx
          simp only [Option.none_or] at hx
          have hlen : lines.length ≤ pos - 1 := by
            by_contra hc
            rw [List.getElem?_eq_getElem (by omega)] at hget
            cases hget
          simp only [List.length_drop] at h2
          omega
        | some v =>
          rw [hget] at hx
          simpa using hx
    obtain ⟨hp0, hx3⟩ := hx2
    have hxrot : x.rot = r := hrot x (List.mem_iff_getElem?.mpr ⟨_, hx3⟩)
    apply TextLine.cmpYX_antisymm line x (by rw [hl, hxrot])
    by_cases hps : pos = start
    · rcases hbefore with h0 | ⟨cl, hcl, hcmp⟩
      · omega
      · rw [← hps, hx3] at hcl
        cases hcl
        exact hcmp
    · apply h3 (pos - 1 - start) x (by omega)
      rw [List.getElem?_drop]
      have : start + (pos - 1 - start) = pos - 1 := by omega
      rw [this]
      exact hx3

theorem TextPool.words_nil_of_buckets (pool : TextPool) (hwf : pool.WF)
    (h : ∀ j, pool.InRange j → pool.getPool j = []) : pool.words = [] := by
  unfold TextPool.words
  rw [List.flatten_eq_nil_iff]
  intro l hl
  obtain ⟨n, hn⟩ := List.mem_iff_getElem?.mp hl
  have hlt : n < pool.pool.length := by
    by_contra hc
    rw [List.getElem?_eq_none (by omega)] at hn
    cases hn
  unfold TextPool.WF at hwf
  have hj := h (pool.minBaseIdx + n) ⟨by omega, by omega⟩
  unfold TextPool.getPool at hj
  have : (pool.minBaseIdx + (n : Int) - pool.minBaseIdx).toNat = n := by omega
  rw [this, List.getD_eq_getElem?_getD, hn] at hj
  exact hj

theorem buildLines_spec (r : Nat) :
    ∀ (fuel : Nat) (pool : TextPool) (i : Int) (lines : List TextLine) (cur : Option Nat),
      pool.WF → pool.minBaseIdx ≤ i →
      (∀ j, pool.InRange j → j < i → pool.getPool j = []) →
      pool.words.length < fuel → LinesSorted lines → (∀ l ∈ lines, l.rot = r) →
      (∀ w ∈ pool.words, w.rot = r) →
      ∃ (lines1 raws : List TextLine),
        buildLines fuel pool i lines cur = .ok lines1 ∧ LinesSorted lines1 ∧
        (∀ l ∈ lines1, l.rot = r) ∧
        lines1.Perm (lines ++ raws.map TextLine.coalesce) ∧
        pool.words.Perm (raws.flatMap (fun l => l.words)) ∧ ∀ raw ∈ raws, RawLine raw := by
  intro fuel
  induction fuel with
  | zero => intro pool i lines cur _ _ _ h; omega
  | succ fuel ih =>
    intro pool i lines cur hwf hmin hempty hfuel hsorted hrot hwrot
    obtain ⟨s1, s2, s3⟩ := skipEmptyLines_spec pool (pool.maxBaseIdx + 1 - i).toNat i (le_refl _)
    simp only [buildLines]
    generalize hi1 : skipEmptyLines pool (pool.maxBaseIdx + 1 - i).toNat i = i1 at s1 s2 s3
    by_cases hend : i1 > pool.maxBaseIdx
    · rw [if_pos hend]
      have hnil : pool.words = [] := by
        apply pool.words_nil_of_buckets hwf
        intro j hj
        by_cases hji : j < i
        · exact hempty j hj hji
        · exact s2 j (by omega) (by unfold TextPool.InRange at hj; omega)
      exact ⟨lines, [], rfl, hsorted, hrot, by simp, by simp [hnil], by simp⟩
    · rw [if_neg hend]
      have hir : pool.InRange i1 := ⟨by omega, by omega⟩
      obtain ⟨word0, added, pool1, b1, b2, b3, b4, b5, b6, b7⟩ :=
        buildLine_spec pool i1 hwf hir (s3 (by omega))
      rw [b1]
      simp only
      have hw0 : word0.rot = r := hwrot word0 (b5.symm.subset (by simp))
      have hlen : pool1.words.length < fuel := by
        have := b5.length_eq
        simp only [List.length_append, List.length_cons] at this
        omega
      have hins := insertLine_sorted lines cur (newTextLine word0.rot word0.base (word0 :: added))
        r hsorted hrot hw0
      have hinsrot : ∀ l ∈ (insertLine lines cur
          (newTextLine word0.rot word0.base (word0 :: added))).1, l.rot = r := by
        intro l hl
        simp only [insertLine, List.mem_append, List.mem_cons] at hl
        rcases hl with hl | hl | hl
        · exact hrot l (List.mem_of_mem_take hl)
        · rw [hl]; exact hw0
        · exact hrot l (List.mem_of_mem_drop hl)
      obtain ⟨lines1, raws, c1, c2, c3, c4, c5, c6⟩ := ih pool1 i1
        (insertLine lines cur (newTextLine word0.rot word0.base (word0 :: added))).1
        (some (insertLine lines cur (newTextLine word0.rot word0.base (word0 :: added))).2)
        b2 (by omega)
        (by
          intro j hj hlt
          apply b7 j ((TextPool.inRange_congr b3 b4 j).mp hj)
          by_cases hji : j < i
          · exact hempty j ((TextPool.inRange_congr b3 b4 j).mp hj) hji
          · exact s2 j (by omega) hlt)
        hlen hins hinsrot
        (fun w hw => hwrot w (b5.symm.subset (List.mem_append_right _ hw)))
      refine ⟨lines1, newTextLine word0.rot word0.base (word0 :: added) :: raws, c1, c2, c3,
        ?_, ?_, ?_⟩
      · refine c4.trans ?_
        simp only [insertLine, List.map_cons]
        have h1 : (List.take
            (linePos (newTextLine word0.rot word0.base (word0 :: added))
              (List.drop (lineStart lines cur (newTextLine word0.rot word0.base (word0 :: added)))
                lines)
              (lineStart lines cur (newTextLine word0.rot word0.base (word0 :: added)))) lines ++
            (newTextLine word0.rot word0.base (word0 :: added)).coalesce ::
              List.drop
                (linePos (newTextLine word0.rot word0.base (word0 :: added))
                  (List.drop
                    (lineStart lines cur (newTextLine word0.rot word0.base (word0 :: added)))
                    lines)
                  (lineStart lines cur (newTextLine word0.rot word0.base (word0 :: added))))
                lines).Perm
            ((newTextLine word0.rot word0.base (word0 :: added)).coalesce :: lines) := by
          exact perm_take_cons_drop lines _ _
        refine (List.Perm.append_right _ h1).trans ?_
        simp only [List.cons_append]
        exact (List.perm_middle).symm
      · simp only [List.flatMap_cons]
        exact b5.trans (List.Perm.append_left _ c5)
      · intro raw hraw
        rcases List.mem_cons.mp hraw with h | h
        · exact h ▸ ⟨word0, added, rfl, b6⟩
        · exact c6 raw h

/-! ## Lemmas: Duplicate removal of `TextBlock::coalesce` -/

theorem findDupFrom_spec (rot : Nat) (word0 : TextWord) :
    ∀ (l : List TextWord) (k0 k : Nat), findDupFrom rot word0 l k0 = some k →
      k0 ≤ k ∧ ∃ w2, l[k - k0]? = some w2 ∧ isDup rot word0 w2 = true := by
  intro l
  induction l with
  | nil => intro k0 k h; simp [findDupFrom] at h
  | cons a as ih =>
    intro k0 k h
    simp only [findDupFrom] at h
    split at h
    · next hc =>
      simp only [Option.some.injEq] at h
      subst h
      exact ⟨le_refl _, a, by simp, hc⟩
    · obtain ⟨h1, w2, h2, h3⟩ := ih (k0 + 1) k h
      refine ⟨by omega, w2, ?_, h3⟩
      have : k - k0 = (k - (k0 + 1)) + 1 := by omega
      rw [this, List.getElem?_cons_succ]
      exact h2

theorem findDup_spec (rot : Nat) (pool : TextPool) (word0 : TextWord) (idx0 : Int) (k0 : Nat) :
    ∀ (todo : Nat) (idx1 i : Int) (k : Nat),
      findDup rot pool word0 idx0 k0 todo idx1 = some (i, k) →
      idx1 ≤ i ∧ i < idx1 + todo ∧ (i = idx0 → k0 < k) ∧
        ∃ w2, (pool.getPool i)[k]? = some w2 ∧ isDup rot word0 w2 = true := by
  intro todo
  induction todo with
  | zero => intro idx1 i k h; simp [findDup] at h
  | succ todo ih =>
    intro idx1 i k h
    simp only [findDup] at h
    split at h
    · next k1 hk1 =>
      simp only [Option.some.injEq, Prod.mk.injEq] at h
      obtain ⟨rfl, rfl⟩ := h
      refine ⟨le_refl _, by omega, ?_, ?_⟩
      · intro heq
        rw [if_pos heq] at hk1
        exact (findDupFrom_spec _ _ _ _ _ hk1).1
      · split at hk1
        · next heq =>
          obtain ⟨h1, w2, h2, h3⟩ := findDupFrom_spec _ _ _ _ _ hk1
          refine ⟨w2, ?_, h3⟩
          rw [List.getElem?_drop] at h2
          have : k0 + 1 + (k1 - (k0 + 1)) = k1 := by omega
          rw [this] at h2
          rw [heq]
          exact h2
        · obtain ⟨h1, w2, h2, h3⟩ := findDupFrom_spec _ _ _ _ _ hk1
          exact ⟨w2, by simpa using h2, h3⟩
    · obtain ⟨h1, h2, h3, h4⟩ := ih (idx1 + 1) i k h
      exact ⟨by omega, by push_cast; omega, h3, h4⟩

theorem TextPool.getPool_removeAt_length (pool : TextPool) (i j : Int) (k : Nat) (hwf : pool.WF)
    (hi : pool.InRange i) (hj : pool.InRange j) :
    ((pool.removeAt i k).getPool j).length ≤ (pool.getPool j).length := by
  unfold TextPool.removeAt
  rw [pool.getPool_setPool i j _ hwf hi hj]
  split
  · next hji =>
    rw [hji]
    exact List.length_eraseIdx_le _ _
  · exact le_refl _

theorem TextPool.getPool_removeAt_keep (pool : TextPool) (i j : Int) (k k0 : Nat) (w : TextWord)
    (hwf : pool.WF) (hi : pool.InRange i) (hj : pool.InRange j)
    (hk : i = j → k0 < k) (hw : (pool.getPool j)[k0]? = some w) :
    ((pool.removeAt i k).getPool j)[k0]? = some w := by
  unfold TextPool.removeAt
  rw [pool.getPool_setPool i j _ hwf hi hj]
  split
  · next hji =>
    rw [hji] at hw
    rw [List.getElem?_eraseIdx_of_lt _ _ _ (hk hji.symm)]
    exact hw
  · exact hw

theorem dedupeLine_spec (rot : Nat) (idx0 : Int) :
    ∀ (fuel : Nat) (pool : TextPool) (k0 : Nat) (deleted : List TextWord),
      pool.WF → pool.InRange idx0 →
      pool.words.length + ((pool.getPool idx0).length - k0) < fuel →
      ∃ (pool1 : TextPool) (del : List TextWord),
        dedupeLine rot idx0 fuel pool k0 deleted = .ok (pool1, deleted ++ del) ∧
        pool1.WF ∧ pool1.minBaseIdx = pool.minBaseIdx ∧ pool1.maxBaseIdx = pool.maxBaseIdx ∧
        pool.words.Perm (del ++ pool1.words) ∧ (pool.words ≠ [] → pool1.words ≠ []) := by
  intro fuel
  induction fuel with
  | zero => intro pool k0 deleted _ _ h; omega
  | succ fuel ih =>
    intro pool k0 deleted hwf hi hfuel
    simp only [dedupeLine]
    cases hw0 : (pool.getPool idx0)[k0]? with
    | none => exact ⟨pool, [], by simp, hwf, rfl, rfl, by simp, fun h => h⟩
    | some word0 =>
      simp only
      have hk0 : k0 < (pool.getPool idx0).length := by
        by_contra hc
        rw [List.getElem?_eq_none (by omega)] at hw0
        cases hw0
      generalize hmax : (if rot = 0 ∨ rot = 3 then
          pool.getBaseIdx (word0.base + 2 / 10 * word0.fontSize)
        else pool.getBaseIdx (word0.base - 2 / 10 * word0.fontSize)) = maxBaseIdx
      have hmaxr : pool.InRange maxBaseIdx := by
        have hrange : pool.minBaseIdx ≤ pool.maxBaseIdx := by
          unfold TextPool.InRange at hi
          omega
        rw [← hmax]
        split
        · exact pool.getBaseIdx_inRange _ hrange
        · exact pool.getBaseIdx_inRange _ hrange
      cases hf : findDup rot pool word0 idx0 k0 (maxBaseIdx + 1 - idx0).toNat idx0 with
      | none =>
        simp only
        obtain ⟨pool1, del, e1, e2, e3, e4, e5, e6⟩ := ih pool (k0 + 1) deleted hwf hi (by omega)
        exact ⟨pool1, del, e1, e2, e3, e4, e5, e6⟩
      | some r =>
        obtain ⟨i, k⟩ := r
        simp only
        obtain ⟨f1, f2, f3, w2, f4, f5⟩ := findDup_spec _ _ _ _ _ _ _ _ _ hf
        have hir : pool.InRange i := by
          unfold TextPool.InRange at hi hmaxr ⊢
          omega
        have hperm := pool.removeAt_perm i k w2 hwf hir f4
        obtain ⟨hwf1, hmin1, hmax1⟩ := pool.removeAt_WF i k hwf
        have hi1 : (pool.removeAt i k).InRange idx0 := (TextPool.inRange_congr hmin1 hmax1 _).mpr hi
        have hlen := hperm.length_eq
        simp only [List.length_cons] at hlen
        have hbl := pool.getPool_removeAt_length i idx0 k hwf hir hi
        obtain ⟨pool1, del, e1, e2, e3, e4, e5, e6⟩ := ih (pool.removeAt i k) k0
          (deleted ++ ((pool.getPool i)[k]?).toList) hwf1 hi1 (by omega)
        have hkeep := pool.getPool_removeAt_keep i idx0 k k0 word0 hwf hir hi f3 hw0
        have hne1 : (pool.removeAt i k).words ≠ [] := by
          intro h0
          have hmem := TextPool.getPool_subset _ _ _ (List.mem_iff_getElem?.mpr ⟨_, hkeep⟩)
          rw [h0] at hmem
          cases hmem
        refine ⟨pool1, w2 :: del, ?_, e2, by omega, by omega, ?_, fun _ => e6 hne1⟩
        · rw [e1, f4]
          simp
        · exact hperm.trans (List.Perm.cons w2 e5)

theorem dedupeFrom_spec (rot : Nat) (fuel : Nat) :
    ∀ (todo : Nat) (idx0 : Int) (pool : TextPool) (deleted : List TextWord),
      pool.WF → pool.minBaseIdx ≤ idx0 → idx0 + todo ≤ pool.maxBaseIdx + 1 →
      2 * pool.words.length < fuel →
      ∃ (pool1 : TextPool) (del : List TextWord),
        dedupeFrom rot fuel todo idx0 pool deleted = .ok (pool1, deleted ++ del) ∧
        pool1.WF ∧ pool1.minBaseIdx = pool.minBaseIdx ∧ pool1.maxBaseIdx = pool.maxBaseIdx ∧
        pool.words.Perm (del ++ pool1.words) ∧ (pool.words ≠ [] → pool1.words ≠ []) := by
  intro todo
  induction todo with
  | zero =>
    intro idx0 pool deleted hwf _ _ _
    exact ⟨pool, [], by simp [dedupeFrom], hwf, rfl, rfl, by simp, fun h => h⟩
  | succ todo ih =>
    intro idx0 pool deleted hwf hlo hhi hfuel
    have hi : pool.InRange idx0 := ⟨hlo, by omega⟩
    have hbucket : (pool.getPool idx0).length ≤ pool.words.length := by
      obtain ⟨rest, h1, _⟩ := pool.setPool_perm idx0 hwf hi
      have := h1.length_eq
      simp only [List.length_append] at this
      omega
    obtain ⟨pool1, del1, e1, e2, e3, e4, e5, e6⟩ := dedupeLine_spec rot idx0 fuel pool 0 deleted
      hwf hi (by omega)
    have hlen1 : pool1.words.length ≤ pool.words.length := by
      have := e5.length_eq
      simp only [List.length_append] at this
      omega
    obtain ⟨pool2, del2, g1, g2, g3, g4, g5, g6⟩ := ih (idx0 + 1) pool1 (deleted ++ del1) e2
      (by omega) (by push_cast at hhi ⊢; omega) (by omega)
    refine ⟨pool2, del1 ++ del2, ?_, g2, by omega, by omega, ?_, fun h => g6 (e6 h)⟩
    · simp only [dedupeFrom, e1, g1, List.append_assoc]
    · refine e5.trans ?_
      rw [List.append_assoc]
      exact List.Perm.append_left _ g5

theorem dedupe_spec (rot : Nat) (pool : TextPool) (hwf : pool.WF) :
    ∃ (pool1 : TextPool) (del : List TextWord),
      dedupe rot pool = .ok (pool1, del) ∧
      pool1.WF ∧ pool1.minBaseIdx = pool.minBaseIdx ∧ pool1.maxBaseIdx = pool.maxBaseIdx ∧
      pool.words.Perm (del ++ pool1.words) ∧ (pool.words ≠ [] → pool1.words ≠ []) := by
  by_cases h : pool.minBaseIdx ≤ pool.maxBaseIdx + 1
  · obtain ⟨pool1, del, e1, e2, e3, e4, e5, e6⟩ := dedupeFrom_spec rot
      (2 * pool.words.length + 1) (pool.maxBaseIdx + 1 - pool.minBaseIdx).toNat pool.minBaseIdx
      pool [] hwf (le_refl _) (by omega) (by omega)
    exact ⟨pool1, del, by simpa [dedupe] using e1, e2, e3, e4, e5, e6⟩
  · have h0 : (pool.maxBaseIdx + 1 - pool.minBaseIdx).toNat = 0 := by omega
    refine ⟨pool, [], ?_, hwf, rfl, rfl, by simp, fun h => h⟩
    simp only [dedupe, h0, dedupeFrom]

/-! ## Lemmas: `TextBlock::coalesce` -/

theorem fillPreFrom_keeps {α β : Type} (box : α → Box) (setPre : α → Box → α) (g : α → β)
    (hg : ∀ a e, g (setPre a e) = g a) :
    ∀ (as : List α) (prev : Box), (fillPreFrom box setPre prev as).map g = as.map g := by
  intro as
  induction as with
  | nil => intro prev; rfl
  | cons a as ih =>
    intro prev
    simp only [fillPreFrom, List.map_cons, hg, ih]

theorem fillPre_keeps {α β : Type} (box : α → Box) (setPre : α → Box → α) (g : α → β)
    (hg : ∀ a e, g (setPre a e) = g a) (as : List α) :
    (fillPre box setPre as).map g = as.map g := by
  cases as with
  | nil => rfl
  | cons a as => simp only [fillPre, List.map_cons, hg, fillPreFrom_keeps box setPre g hg]

/-- What the envelope passes leave of a line: all but `pre` and `post`. -/
theorem lines_keep (ls : List TextLine) :
    (linesPost (linesPre ls)).map (fun l => (l.words, l.box, l.rot, l.base)) =
      ls.map (fun l => (l.words, l.box, l.rot, l.base)) := by
  unfold linesPost linesPre
  rw [fillPost_map (fun l => l.box) (fun l => l.post)
    (fun (l : TextLine) e => { l with post := e }) (fun l => (l.words, l.box, l.rot, l.base))
    (fun _ _ => rfl)]
  exact fillPre_keeps (fun l => l.box) (fun (l : TextLine) e => { l with pre := e })
    (fun l => (l.words, l.box, l.rot, l.base)) (fun _ _ => rfl) ls

theorem TextLine.cmpYX_congr (a a0 c c0 : TextLine)
    (ha : (a.words, a.box, a.rot, a.base) = (a0.words, a0.box, a0.rot, a0.base))
    (hc : (c.words, c.box, c.rot, c.base) = (c0.words, c0.box, c0.rot, c0.base)) :
    a.cmpYX c = a0.cmpYX c0 := by
  simp only [Prod.mk.injEq] at ha hc
  obtain ⟨_, h1, h2, h3⟩ := ha
  obtain ⟨_, h4, h5, h6⟩ := hc
  simp only [TextLine.cmpYX, TextLine.secondaryCmp, TextLine.primaryCmp, h1, h2, h3, h4, h5, h6]

theorem NewBlock.foldl_addWord (ws : List TextWord) :
    ∀ blk : NewBlock, blk.pool.WF →
      (ws.foldl NewBlock.addWord blk).pool.WF ∧
      (ws.foldl NewBlock.addWord blk).pool.words.Perm (blk.pool.words ++ ws) ∧
      (ws.foldl NewBlock.addWord blk).rot = blk.rot ∧
      (ws.foldl NewBlock.addWord blk).box = ws.foldl addWordBox blk.box := by
  induction ws with
  | nil => intro blk h; exact ⟨h, by simp, rfl, rfl⟩
  | cons w ws ih =>
    intro blk h
    obtain ⟨a1, _, a3⟩ := blk.pool.addWord_spec w h
    obtain ⟨b1, b2, b3, b4⟩ := ih (blk.addWord w) a1
    refine ⟨b1, ?_, b3, b4⟩
    refine b2.trans ?_
    have : (blk.addWord w).pool.words.Perm (w :: blk.pool.words) := a3
    refine (List.Perm.append_right ws this).trans ?_
    simp only [List.cons_append]
    exact List.perm_middle.symm

theorem blockOf_spec (rot : Nat) (ws : List TextWord) :
    (blockOf rot ws).pool.WF ∧ (blockOf rot ws).pool.words.Perm ws ∧
      (blockOf rot ws).rot = rot ∧ (blockOf rot ws).box = lineBox ws := by
  obtain ⟨h1, h2, h3, h4⟩ := NewBlock.foldl_addWord ws ({ rot := rot } : NewBlock)
    TextPool.empty_WF
  exact ⟨h1, by simpa [TextPool.words, TextPool.empty] using h2, h3, h4⟩

theorem NewBlock.coalesce_spec (blk : NewBlock) (r : Nat) (hwf : blk.pool.WF)
    (hne : blk.pool.words ≠ []) (hrot : ∀ w ∈ blk.pool.words, w.rot = r) :
    ∃ (b : TextBlock) (lines raws : List TextLine) (del : List TextWord),
      blk.coalesce = .ok (b, del) ∧ b.lines = linesPost (linesPre lines) ∧ b.box = blk.box ∧
      b.rot = blk.rot ∧ lines ≠ [] ∧ LinesSorted lines ∧ (∀ l ∈ lines, l.rot = r) ∧
      lines.Perm (raws.map TextLine.coalesce) ∧
      blk.pool.words.Perm (del ++ raws.flatMap (fun l => l.words)) ∧
      ∀ raw ∈ raws, RawLine raw := by
  obtain ⟨pool1, del, d1, d2, d3, d4, d5, d6⟩ := dedupe_spec blk.rot blk.pool hwf
  have hrot1 : ∀ w ∈ pool1.words, w.rot = r :=
    fun w hw => hrot w (d5.symm.subset (List.mem_append_right _ hw))
  have hrange : pool1.WF → ∀ j, pool1.InRange j → j < pool1.minBaseIdx → pool1.getPool j = [] := by
    intro _ j hj hlt
    unfold TextPool.InRange at hj
    omega
  obtain ⟨lines, raws, b1, b2, b3, b4, b5, b6⟩ := buildLines_spec r (pool1.words.length + 1) pool1
    pool1.minBaseIdx [] none d2 (le_refl _) (hrange d2) (Nat.lt_succ_self _)
    (by unfold LinesSorted; simp) (by simp) hrot1
  have hlne : lines ≠ [] := by
    intro h0
    rw [h0] at b4
    have hr0 : raws = [] := by
      have := b4.length_eq
      simp only [List.length_nil, List.nil_append, List.length_map] at this
      exact List.length_eq_zero.mp this.symm
    rw [hr0] at b5
    simp only [List.flatMap_nil] at b5
    exact d6 hne (List.Perm.eq_nil b5)
  have hperm := d5.trans (List.Perm.append_left _ b5)
  cases hl : lines with
  | nil => exact absurd hl hlne
  | cons l ls =>
    rw [hl] at b1 b2 b3 b4
    have he : ∃ b : TextBlock, blk.coalesce = .ok (b, del) ∧
        b.lines = linesPost (linesPre (l :: ls)) ∧ b.box = blk.box ∧ b.rot = blk.rot := by
      unfold NewBlock.coalesce
      rw [d1]
      simp only
      rw [b1]
      exact ⟨_, rfl, rfl, rfl, rfl⟩
    obtain ⟨b, e1, e2, e3, e4⟩ := he
    exact ⟨b, l :: ls, raws, del, e1, e2, e3, e4, by simp, b2, b3, by simpa using b4, hperm, b6⟩

/-! ## Lemmas: Words of a line, edge to edge -/

theorem TextWord.Built.shaped {w : TextWord} (h : w.Built) : w.Shaped := ⟨h.1, h.2.1⟩

theorem primaryDelta_edges (r : Nat) (hr : r < 4) (a b : TextWord) (ha : a.Built) (hb : b.Built)
    (hra : a.rot = r) (hrb : b.rot = r) (tol : ℚ) (h : a.primaryDelta b ≥ -tol) :
    edgeFollows r tol a b := by
  obtain ⟨_, _, _, ha4⟩ := ha
  obtain ⟨_, _, hb3, _⟩ := hb
  have e1 : a.edge.getD a.len 0 = a.trail := by
    rw [List.getD_eq_getElem?_getD, ha4]; rfl
  have e2 : b.edge.getD 0 0 = b.lead := by
    rw [List.getD_eq_getElem?_getD, hb3]; rfl
  unfold edgeFollows
  rw [e1, e2]
  unfold TextWord.primaryDelta at h
  unfold TextWord.trail TextWord.lead
  rw [hra] at h ⊢
  rw [hrb]
  have h0 : r = 0 ∨ r = 1 ∨ r = 2 ∨ r = 3 := by omega
  rcases h0 with h0 | h0 | h0 | h0 <;>
    · subst h0
      simp only at h ⊢
      norm_num
      linarith

theorem TextWord.merge_shaped (w v : TextWord) (hw : w.Shaped) (hv : v.Shaped) :
    (w.merge v).Shaped ∧ (w.merge v).edge.getD 0 0 = w.edge.getD 0 0 ∧
      (w.merge v).edge.getD (w.merge v).len 0 = v.edge.getD v.len 0 ∧
      (w.merge v).fontSize = w.fontSize ∧ (w.merge v).rot = w.rot := by
  obtain ⟨hw1, hw2⟩ := hw
  obtain ⟨hv1, hv2⟩ := hv
  have hlen : (w.merge v).len = w.len + v.len := by
    simp [TextWord.merge, TextWord.len]
  have hedge : (w.merge v).edge = w.edge.take w.len ++ v.edge.take (v.len + 1) := rfl
  have htk : (w.edge.take w.len).length = w.len := by
    rw [List.length_take]; omega
  have hv3 : v.edge.take (v.len + 1) = v.edge := List.take_of_length_le (by omega)
  refine ⟨⟨by omega, ?_⟩, ?_, ?_, rfl, rfl⟩
  · rw [hedge, hlen, List.length_append, htk, hv3, hv2]
    omega
  · rw [hedge, List.getD_eq_getElem?_getD, List.getD_eq_getElem?_getD,
      List.getElem?_append_left (by omega), List.getElem?_take_of_lt (by omega)]
  · rw [hedge, hlen, List.getD_eq_getElem?_getD, List.getD_eq_getElem?_getD,
      List.getElem?_append_right (by omega), htk, hv3]
    congr 2
    omega

theorem mergeLoop_edges (rot : Nat) (tol space fontSize : ℚ) :
    ∀ (rest : List TextWord) (word0 : TextWord), word0.Shaped → (∀ w ∈ rest, w.Shaped) →
      List.Chain' (edgeFollows rot tol) (word0 :: rest) →
      List.Chain' (edgeFollows rot tol) (mergeLoop space fontSize word0 rest) ∧
      (∀ w ∈ mergeLoop space fontSize word0 rest, w.Shaped) ∧
      ∃ h tl, mergeLoop space fontSize word0 rest = h :: tl ∧
        h.edge.getD 0 0 = word0.edge.getD 0 0 ∧ h.fontSize = word0.fontSize := by
  intro rest
  induction rest with
  | nil =>
    intro word0 h0 _ _
    simp only [mergeLoop]
    exact ⟨by simp, by simpa using h0, word0, [], rfl, rfl, rfl⟩
  | cons word1 rest ih =>
    intro word0 h0 hrest hch
    have h1 : word1.Shaped := hrest word1 (List.mem_cons_self _ _)
    have hrest2 : ∀ w ∈ rest, w.Shaped := fun w hw => hrest w (List.mem_cons_of_mem _ hw)
    have hch1 : List.Chain' (edgeFollows rot tol) (word1 :: rest) := hch.tail
    have h01 : edgeFollows rot tol word0 word1 := by
      rw [List.chain'_cons] at hch
      exact hch.1
    -- a word with the edges of `word0` in front of the line from `word1` on
    have keep : ∀ w0 : TextWord, w0.Shaped → w0.edge = word0.edge → w0.len = word0.len →
        w0.fontSize = word0.fontSize →
        List.Chain' (edgeFollows rot tol) (w0 :: mergeLoop space fontSize word1 rest) ∧
        (∀ w ∈ w0 :: mergeLoop space fontSize word1 rest, w.Shaped) ∧
        ∃ h tl, w0 :: mergeLoop space fontSize word1 rest = h :: tl ∧
          h.edge.getD 0 0 = word0.edge.getD 0 0 ∧ h.fontSize = word0.fontSize := by
      intro w0 hs he hl hf
      obtain ⟨i1, i2, hd, tl, i3, i4, _⟩ := ih word1 h1 hrest2 hch1
      refine ⟨?_, ?_, w0, _, rfl, by rw [he], hf⟩
      · rw [i3, List.chain'_cons]
        refine ⟨?_, i3 ▸ i1⟩
        unfold edgeFollows at h01 ⊢
        rw [i4, he, hl]
        exact h01
      · intro w hw
        rcases List.mem_cons.mp hw with h | h
        · exact h ▸ hs
        · exact i2 w h
    simp only [mergeLoop]
    split
    · exact keep { word0 with spaceAfter := true } h0 rfl rfl rfl
    · split
      · obtain ⟨m1, m2, m3, m4, _⟩ := TextWord.merge_shaped word0 word1 h0 h1
        have hchm : List.Chain' (edgeFollows rot tol) (word0.merge word1 :: rest) := by
          cases rest with
          | nil => simp
          | cons x xs =>
            rw [List.chain'_cons] at hch1 ⊢
            refine ⟨?_, hch1.2⟩
            have := hch1.1
            unfold edgeFollows at this ⊢
            rw [m3]
            exact this
        obtain ⟨i1, i2, hd, tl, i3, i4, i5⟩ := ih (word0.merge word1) m1 hrest2 hchm
        exact ⟨i1, i2, hd, tl, i3, by rw [i4, m2], by rw [i5, m4]⟩
      · exact keep word0 h0 rfl rfl rfl

/-- What the envelope passes leave of a word: all but `pre` and `post`. -/
theorem words_keep (ws : List TextWord) :
    (wordsPost (wordsPre ws)).map (fun w => (w.text, w.edge, w.fontSize)) =
      ws.map (fun w => (w.text, w.edge, w.fontSize)) := by
  unfold wordsPost wordsPre
  rw [fillPost_map (fun w => w.box) (fun w => w.post)
    (fun (w : TextWord) e => { w with post := e }) (fun w => (w.text, w.edge, w.fontSize))
    (fun _ _ => rfl)]
  exact fillPre_keeps (fun w => w.box) (fun (w : TextWord) e => { w with pre := e })
    (fun w => (w.text, w.edge, w.fontSize)) (fun _ _ => rfl) ws

theorem coalesceWords_edges (rot : Nat) (tol : ℚ) (word0 : TextWord) (added : List TextWord)
    (hs : ∀ w ∈ word0 :: added, w.Shaped)
    (hch : List.Chain' (edgeFollows rot tol) (word0 :: added)) :
    List.Chain' (edgeFollows rot tol) (coalesceWords (word0 :: added)) ∧
      ∃ h tl, coalesceWords (word0 :: added) = h :: tl ∧ h.fontSize = word0.fontSize := by
  cases added with
  | nil => exact ⟨by simp [coalesceWords], word0, [], rfl, rfl⟩
  | cons w1 rest =>
    obtain ⟨i1, _, h, tl, i3, _, i5⟩ := mergeLoop_edges rot tol (spaceThreshold word0 w1 rest)
      word0.fontSize (w1 :: rest) word0 (hs word0 (List.mem_cons_self _ _))
      (fun w hw => hs w (List.mem_cons_of_mem _ hw)) hch
    exact ⟨i1, h, tl, i3, i5⟩

theorem RawLine.coalesce_edges (r : Nat) (hr : r < 4) (raw : TextLine) (hraw : RawLine raw)
    (hb : ∀ w ∈ raw.words, w.Built) (hrot : ∀ w ∈ raw.words, w.rot = r) :
    ∀ (i : Nat) (w0 w w1 : TextWord), raw.coalesce.words[0]? = some w0 →
      raw.coalesce.words[i]? = some w → raw.coalesce.words[i + 1]? = some w1 →
      edgeFollows r (2 / 10 * w0.fontSize) w w1 := by
  obtain ⟨word0, added, rfl, hch⟩ := hraw
  have hwords : (newTextLine word0.rot word0.base (word0 :: added)).words = word0 :: added := rfl
  rw [hwords] at hb hrot
  have hch2 : List.Chain' (edgeFollows r (2 / 10 * word0.fontSize)) (word0 :: added) := by
    rw [List.Chain'.iff_mem] at hch
    refine hch.imp ?_
    intro a b ⟨ha, hb2, hab⟩
    refine primaryDelta_edges r hr a b (hb a ha) (hb b hb2) (hrot a ha) (hrot b hb2) _ ?_
    have : -(2 / 10 * word0.fontSize) = -(2 / 10) * word0.fontSize := by ring
    rw [this]
    exact hab
  obtain ⟨c1, h, tl, c2, c3⟩ := coalesceWords_edges r (2 / 10 * word0.fontSize) word0 added
    (fun w hw => (hb w hw).shaped) hch2
  intro i w0 w w1 h0 hw hw1
  have hcw : (newTextLine word0.rot word0.base (word0 :: added)).coalesce.words =
      wordsPost (wordsPre (coalesceWords (word0 :: added))) := rfl
  rw [hcw] at h0 hw hw1
  obtain ⟨a0, ha0, hk0⟩ := getElem?_map_eq _ (words_keep _) h0
  obtain ⟨a, ha, hk⟩ := getElem?_map_eq _ (words_keep _) hw
  obtain ⟨a1, ha1, hk1⟩ := getElem?_map_eq _ (words_keep _) hw1
  simp only [Prod.mk.injEq] at hk0 hk hk1
  have hfs : w0.fontSize = word0.fontSize := by
    rw [c2] at ha0
    simp only [List.getElem?_cons_zero, Option.some.injEq] at ha0
    rw [← hk0.2.2, ← ha0, c3]
  have hlt : i + 1 < (coalesceWords (word0 :: added)).length := by
    by_contra hcon
    rw [List.getElem?_eq_none (by omega)] at ha1
    cases ha1
  have hget := List.chain'_iff_get.mp c1 i (by omega)
  rw [List.getElem?_eq_getElem (by omega)] at ha ha1
  cases ha
  cases ha1
  unfold edgeFollows at hget ⊢
  rw [hfs]
  have hl : w.len = ((coalesceWords (word0 :: added)).get ⟨i, by omega⟩).len := by
    unfold TextWord.len
    rw [← hk.1]
    rfl
  rw [hl, ← hk.2.1, ← hk1.2.1]
  exact hget

/-! ## Lemmas: The space threshold -/

theorem minSpaceLoop_nonpos (ws : List TextWord) (m : ℚ) (hm : m ≤ 0) :
    minSpaceLoop ws m = m := by
  match ws with
  | [] => rfl
  | [_] => rfl
  | _ :: _ :: _ =>
    unfold minSpaceLoop
    rw [if_neg (not_lt.mpr hm)]

theorem minSpaceLoop_spec (ws : List TextWord) :
    ∀ (w : TextWord) (m : ℚ), 0 < m →
      (((∀ v ∈ ws, v.len ≤ 1) ∧ (∀ g ∈ gaps (w :: ws), 0 < g)) →
        minSpaceLoop (w :: ws) m = (gaps (w :: ws)).foldl min m ∧
          0 < (gaps (w :: ws)).foldl min m) ∧
      (¬ ((∀ v ∈ ws, v.len ≤ 1) ∧ (∀ g ∈ gaps (w :: ws), 0 < g)) →
        minSpaceLoop (w :: ws) m ≤ 0) := by
  induction ws with
  | nil =>
    intro w m hm
    refine ⟨fun _ => ⟨rfl, hm⟩, fun h => ?_⟩
    exact absurd ⟨by simp, by simp [gaps]⟩ h
  | cons v vs ih =>
    intro w m hm
    have hunf : minSpaceLoop (w :: v :: vs) m =
        minSpaceLoop (v :: vs)
          (if w.primaryDelta v < (if v.len > 1 then 0 else m) then w.primaryDelta v
           else (if v.len > 1 then 0 else m)) := by
      rw [minSpaceLoop, if_pos hm]
    have hg : gaps (w :: v :: vs) = w.primaryDelta v :: gaps (v :: vs) := rfl
    by_cases hv : v.len > 1
    · -- a word of several glyphs
      rw [hunf, if_pos hv]
      refine ⟨fun h => absurd (h.1 v (List.mem_cons_self _ _)) (by omega), fun _ => ?_⟩
      rw [minSpaceLoop_nonpos _ _ (by split <;> linarith)]
      split <;> linarith
    · rw [hunf, if_neg hv]
      by_cases hd : 0 < w.primaryDelta v
      · have hm' : 0 < (if w.primaryDelta v < m then w.primaryDelta v else m) := by
          split <;> assumption
        have hmin : (if w.primaryDelta v < m then w.primaryDelta v else m) =
            min m (w.primaryDelta v) := by
          split
          · next h => rw [min_eq_right (le_of_lt h)]
          · next h => rw [min_eq_left (not_lt.mp h)]
        obtain ⟨ih1, ih2⟩ := ih v _ hm'
        constructor
        · intro h
          have hc : (∀ u ∈ vs, u.len ≤ 1) ∧ (∀ g ∈ gaps (v :: vs), 0 < g) :=
            ⟨fun u hu => h.1 u (List.mem_cons_of_mem _ hu),
              fun g hgm => h.2 g (by rw [hg]; exact List.mem_cons_of_mem _ hgm)⟩
          have := ih1 hc
          rw [hg, List.foldl_cons, ← hmin]
          exact this
        · intro h
          apply ih2
          intro hc
          apply h
          refine ⟨?_, ?_⟩
          · intro u hu
            rcases List.mem_cons.mp hu with rfl | hu
            · omega
            · exact hc.1 u hu
          · intro g hgm
            rw [hg] at hgm
            rcases List.mem_cons.mp hgm with rfl | hgm
            · exact hd
            · exact hc.2 g hgm
      · -- a gap that is not positive
        have hle : w.primaryDelta v ≤ 0 := not_lt.mp hd
        refine ⟨fun h => absurd (h.2 _ (by rw [hg]; exact List.mem_cons_self _ _)) hd, fun _ => ?_⟩
        rw [if_pos (lt_of_le_of_lt hle hm), minSpaceLoop_nonpos _ _ hle]
        exact hle

/-! ## Lemmas: Words marked with a space after them -/

theorem getLast?_cons_of_ne {α : Type} (a : α) (l : List α) (h : l ≠ []) :
    (a :: l).getLast? = l.getLast? := by
  cases l with
  | nil => exact absurd rfl h
  | cons b t => exact List.getLast?_cons_cons

theorem mergeLoop_ne_nil (space fontSize : ℚ) (rest : List TextWord) :
    ∀ word0 : TextWord, mergeLoop space fontSize word0 rest ≠ [] := by
  induction rest with
  | nil => intro word0; simp [mergeLoop]
  | cons word1 rest ih =>
    intro word0
    unfold mergeLoop
    split
    · simp
    · split
      · exact ih _
      · simp

/-- The merge loop leaves the last word without a space after it. -/
theorem mergeLoop_last (space fontSize : ℚ) (rest : List TextWord) :
    ∀ word0 : TextWord, word0.spaceAfter = false → (∀ w ∈ rest, w.spaceAfter = false) →
      ∀ w, (mergeLoop space fontSize word0 rest).getLast? = some w → w.spaceAfter = false := by
  induction rest with
  | nil =>
    intro word0 h0 _ w hw
    simp only [mergeLoop, List.getLast?_singleton, Option.some.injEq] at hw
    rw [← hw]; exact h0
  | cons word1 rest ih =>
    intro word0 h0 hr w hw
    have h1 : word1.spaceAfter = false := hr word1 (List.mem_cons_self _ _)
    have hr' : ∀ v ∈ rest, v.spaceAfter = false := fun v hv => hr v (List.mem_cons_of_mem _ hv)
    unfold mergeLoop at hw
    split at hw
    · rw [getLast?_cons_of_ne _ _ (mergeLoop_ne_nil _ _ _ _)] at hw
      exact ih word1 h1 hr' w hw
    · split at hw
      · exact ih (word0.merge word1) h0 hr' w hw
      · rw [getLast?_cons_of_ne _ _ (mergeLoop_ne_nil _ _ _ _)] at hw
        exact ih word1 h1 hr' w hw

theorem coalesceWords_last (ws : List TextWord) (h : ∀ w ∈ ws, w.spaceAfter = false) :
    ∀ w, (coalesceWords ws).getLast? = some w → w.spaceAfter = false := by
  intro w hw
  match ws, h, hw with
  | [], _, hw => simp [coalesceWords] at hw
  | [a], h, hw =>
    simp only [coalesceWords, List.getLast?_singleton, Option.some.injEq] at hw
    rw [← hw]; exact h a (List.mem_cons_self _ _)
  | w0 :: w1 :: rest, h, hw =>
    simp only [coalesceWords] at hw
    exact mergeLoop_last _ _ _ w0 (h w0 (List.mem_cons_self _ _))
      (fun v hv => h v (List.mem_cons_of_mem _ hv)) w hw

theorem words_keep_spaceAfter (ws : List TextWord) :
    (wordsPost (wordsPre ws)).map (fun w => w.spaceAfter) = ws.map (fun w => w.spaceAfter) := by
  unfold wordsPost wordsPre
  rw [fillPost_map (fun w => w.box) (fun w => w.post)
    (fun (w : TextWord) e => { w with post := e }) (fun w => w.spaceAfter) (fun _ _ => rfl)]
  exact fillPre_keeps (fun w => w.box) (fun (w : TextWord) e => { w with pre := e })
    (fun w => w.spaceAfter) (fun _ _ => rfl) ws

/-- In a list whose last element is not marked, a marked element has a
successor. -/
theorem marked_has_successor (flags : List Bool) (hlast : ∀ f, flags.getLast? = some f → f = false)
    (i : Nat) (hi : flags[i]? = some true) : i + 1 < flags.length := by
  have hlt : i < flags.length := by
    by_contra hcon
    rw [List.getElem?_eq_none (by omega)] at hi
    cases hi
  by_contra hcon
  have hil : i = flags.length - 1 := by omega
  have : flags.getLast? = some true := by
    rw [List.getLast?_eq_getElem?, ← hil]; exact hi
  exact absurd (hlast true this) (by decide)

/-- After `TextLine::coalesce` on words that are not marked, a marked word
has a successor in the line. -/
theorem TextLine.coalesce_marked (l0 : TextLine) (h0 : ∀ w ∈ l0.words, w.spaceAfter = false) :
    ∀ f, (l0.coalesce.words.map (fun w => w.spaceAfter)).getLast? = some f → f = false := by
  intro f hf
  have e : l0.coalesce.words.map (fun w => w.spaceAfter) =
      (coalesceWords l0.words).map (fun w => w.spaceAfter) := words_keep_spaceAfter _
  rw [e, List.getLast?_map] at hf
  cases hl : (coalesceWords l0.words).getLast? with
  | none => rw [hl] at hf; cases hf
  | some w =>
    rw [hl] at hf
    simp only [Option.map_some', Option.some.injEq] at hf
    rw [← hf]
    exact coalesceWords_last _ h0 w hl

/-- What `moveSelEndTo` does to the start of the selection: the start word
stays, and `selIdx1` stays a selectable position of it. -/
theorem moveSelEndTo_start (q : TextPage) (x y : ℚ) (q' : TextPage) (changed : Bool)
    (h : moveSelEndTo q x y = .ok (q', changed)) (s : WordRef) (sw : TextWord)
    (hs : q.selStart = some s) (hsw : q.wordAt s = some sw) (hlen : 1 ≤ sw.len)
    (h1 : Selectable sw q.selIdx1) (h2 : Selectable sw q.selIdxSave) :
    q'.blocks = q.blocks ∧ q'.selStart = some s ∧ q'.selIdxSave = q.selIdxSave ∧
      Selectable sw q'.selIdx1 := by
  have hlen' : (1 : Int) ≤ (sw.len : Int) := by exact_mod_cast hlen
  unfold moveSelEndTo at h
  simp only [hs] at h
  split at h
  · cases h
  · split at h
    · next oldEndW startW ho hst =>
      rw [hsw] at hst
      cases hst
      split at h
      · cases h
      · cases h
      · split at h
        · cases h
        · split at h
          · cases h
          · simp only [Except.ok.injEq, Prod.mk.injEq] at h
            obtain ⟨hq, _⟩ := h
            subst hq
            split
            · exact ⟨rfl, rfl, rfl, h2⟩
            · split
              · refine ⟨rfl, rfl, rfl, ?_⟩
                simp only
                split
                · exact ⟨le_rfl, by omega, by intro h; omega⟩
                · exact h1
              · refine ⟨rfl, rfl, rfl, ?_⟩
                simp only
                split
                · exact ⟨by omega, by omega, by intro h; omega⟩
                · exact h1
    · cases h

theorem Reachable.start_inv {p0 : TextPage} (hc : p0.Coalesced) {q : TextPage}
    (hr : Reachable p0 q) :
    ∃ s sw, q.selStart = some s ∧ q.wordAt s = some sw ∧ Selectable sw q.selIdx1 ∧
      Selectable sw q.selIdxSave := by
  induction hr with
  | start x y q h =>
    obtain ⟨q1, r, w, idx, hres, hb, _, _, hs, _, h1, _, h3, hw, hsel⟩ :=
      startSelection_spec p0 hc.1 x y
    rw [h] at hres
    simp only [Except.ok.injEq] at hres
    subst hres
    exact ⟨r, w, hs, by rw [wordAt_congr hb]; exact hw, by rw [h1]; exact hsel,
      by rw [h3]; exact hsel⟩
  | move q x y q' changed hq hmove ih =>
    obtain ⟨s, sw, hs, hsw, h1, h2⟩ := ih
    have hinv := Reachable.inv hc hq
    have hqq : q.Queryable := Queryable_congr hinv.1 hc.1
    obtain ⟨e1, e2, e3, e4⟩ :=
      moveSelEndTo_start q x y q' changed hmove s sw hs hsw (hqq.len_pos hsw) h1 h2
    exact ⟨s, sw, e2, by rw [wordAt_congr e1]; exact hsw, e4, by rw [e3]; exact h2⟩

/-! ## Lemmas: Sorted base lines of a pool -/

theorem sign_pos_neg (c : ℚ) :
    ((if c < 0 then (-1 : Int) else if c > 0 then 1 else 0) > 0 ↔ c > 0) ∧
      ((if c < 0 then (-1 : Int) else if c > 0 then 1 else 0) < 0 ↔ c < 0) := by
  by_cases h1 : c < 0
  · simp only [if_pos h1]
    exact ⟨⟨fun h => absurd h (by decide), fun h => absurd h (by linarith)⟩,
      ⟨fun _ => h1, fun _ => by decide⟩⟩
  · by_cases h2 : c > 0
    · simp only [if_neg h1, if_pos h2]
      exact ⟨⟨fun _ => h2, fun _ => by decide⟩, ⟨fun h => absurd h (by decide), fun h => absurd h h1⟩⟩
    · simp only [if_neg h1, if_neg h2]
      exact ⟨⟨fun h => absurd h (by decide), fun h => absurd h h2⟩,
        ⟨fun h => absurd h (by decide), fun h => absurd h h1⟩⟩

theorem TextWord.primaryCmp_key (a b : TextWord) (h : a.rot = b.rot) :
    (a.primaryCmp b > 0 ↔ b.primaryKey < a.primaryKey) ∧
      (a.primaryCmp b < 0 ↔ a.primaryKey < b.primaryKey) := by
  unfold TextWord.primaryCmp TextWord.primaryKey
  rw [← h]
  simp only
  rw [(sign_pos_neg _).1, (sign_pos_neg _).2]
  generalize a.rot = r
  match r with
  | 0 => simp only; constructor <;> constructor <;> intro h1 <;> linarith
  | 1 => simp only; constructor <;> constructor <;> intro h1 <;> linarith
  | 2 => simp only; constructor <;> constructor <;> intro h1 <;> linarith
  | 3 => simp only; constructor <;> constructor <;> intro h1 <;> linarith
  | n + 4 => simp
theorem insertPos_spec (word : TextWord) (rot : Nat) (hw : word.rot = rot) :
    ∀ (l : List TextWord) (k : Nat), (∀ v ∈ l, v.rot = rot) →
      l.Pairwise (fun a b => a.primaryKey ≤ b.primaryKey) →
      ∃ n, insertPos word l k = k + n ∧ n ≤ l.length ∧
        (∀ v ∈ l.take n, v.primaryKey < word.primaryKey) ∧
        (∀ v ∈ l.drop n, word.primaryKey ≤ v.primaryKey) := by
  intro l
  induction l with
  | nil =>
    intro k _ _
    exact ⟨0, rfl, le_rfl, by simp, by simp⟩
  | cons v rest ih =>
    intro k hrot hs
    have hv : v.rot = rot := hrot v (List.mem_cons_self _ _)
    have hkey := (TextWord.primaryCmp_key word v (by rw [hw, hv])).1
    rw [List.pairwise_cons] at hs
    unfold insertPos
    by_cases hc : word.primaryCmp v > 0
    · rw [if_pos hc]
      obtain ⟨n, e1, e2, e3, e4⟩ := ih (k + 1) (fun u hu => hrot u (List.mem_cons_of_mem _ hu)) hs.2
      refine ⟨n + 1, by rw [e1]; omega, by simp only [List.length_cons]; omega, ?_, ?_⟩
      · intro u hu
        rw [List.take_succ_cons] at hu
        rcases List.mem_cons.mp hu with rfl | hu
        · exact hkey.mp hc
        · exact e3 u hu
      · intro u hu
        rw [List.drop_succ_cons] at hu
        exact e4 u hu
    · rw [if_neg hc]
      have hle : word.primaryKey ≤ v.primaryKey := not_lt.mp (fun h => hc (hkey.mpr h))
      refine ⟨0, rfl, Nat.zero_le _, by simp, ?_⟩
      intro u hu
      rw [List.drop_zero] at hu
      rcases List.mem_cons.mp hu with rfl | hu
      · exact hle
      · exact le_trans hle (hs.1 u hu)

/-- Inserting where the scan of line 423 stops keeps a base line sorted,
when the scan starts behind words that come before the new one. -/
theorem insert_sorted (word : TextWord) (rot : Nat) (hw : word.rot = rot) (l : List TextWord)
    (hrot : ∀ v ∈ l, v.rot = rot) (hs : l.Pairwise (fun a b => a.primaryKey ≤ b.primaryKey))
    (start : Nat) (hstart : ∀ v ∈ l.take start, v.primaryKey < word.primaryKey) :
    (l.take (insertPos word (l.drop start) start) ++
      word :: l.drop (insertPos word (l.drop start) start)).Pairwise
        (fun a b => a.primaryKey ≤ b.primaryKey) := by
  obtain ⟨n, e1, _, e3, e4⟩ := insertPos_spec word rot hw (l.drop start) start
    (fun v hv => hrot v (List.mem_of_mem_drop hv)) (hs.sublist (List.drop_sublist _ _))
  rw [e1]
  have htake : ∀ v ∈ l.take (start + n), v.primaryKey < word.primaryKey := by
    intro v hv
    rw [List.take_add] at hv
    rcases List.mem_append.mp hv with h | h
    · exact hstart v h
    · exact e3 v h
  have hdrop : ∀ v ∈ l.drop (start + n), word.primaryKey ≤ v.primaryKey := by
    intro v hv
    rw [← List.drop_drop] at hv
    exact e4 v hv
  have hsplit : (l.take (start + n) ++ l.drop (start + n)).Pairwise
      (fun a b => a.primaryKey ≤ b.primaryKey) := by
    rw [List.take_append_drop]; exact hs
  rw [List.pairwise_append] at hsplit ⊢
  refine ⟨hsplit.1, List.pairwise_cons.mpr ⟨hdrop, hsplit.2.1⟩, ?_⟩
  intro a ha b hb
  rcases List.mem_cons.mp hb with rfl | hb
  · exact le_of_lt (htake a ha)
  · exact hsplit.2.2 a ha b hb

theorem getD_mem_or_nil {α : Type} (l : List (List α)) (i : Nat) :
    l.getD i [] ∈ l ∨ l.getD i [] = [] := by
  rw [List.getD_eq_getElem?_getD]
  cases h : l[i]? with
  | none => right; rfl
  | some x => left; exact List.mem_iff_getElem?.mpr ⟨i, h⟩

/-- The insertion of lines 414-431 into a pool whose array holds the base
line of the word. -/
theorem TextPool.insert_spec (rot : Nat) (w : TextWord) (hw : w.rot = rot) (p1 : TextPool)
    (hwf : p1.WF) (hin : p1.InRange (truncToInt (w.base / 4)))
    (hinv : ∀ bucket ∈ p1.pool, (∀ v ∈ bucket, v.rot = rot) ∧
      bucket.Pairwise (fun a b => a.primaryKey ≤ b.primaryKey))
    (start : Nat)
    (hstart : ∀ v ∈ (p1.getPool (truncToInt (w.base / 4))).take start,
      v.primaryKey < w.primaryKey)
    (c : Option Nat) (ci : Int) :
    let r : TextPool :=
      { p1.setPool (truncToInt (w.base / 4))
          ((p1.getPool (truncToInt (w.base / 4))).take
              (insertPos w ((p1.getPool (truncToInt (w.base / 4))).drop start) start) ++
            w :: (p1.getPool (truncToInt (w.base / 4))).drop
              (insertPos w ((p1.getPool (truncToInt (w.base / 4))).drop start) start)) with
        cursor := c, cursorBaseIdx := ci }
    r.WF ∧ r.minBaseIdx = p1.minBaseIdx ∧ r.maxBaseIdx = p1.maxBaseIdx ∧
      (∀ bucket ∈ r.pool, (∀ v ∈ bucket, v.rot = rot) ∧
        bucket.Pairwise (fun a b => a.primaryKey ≤ b.primaryKey)) ∧
      w ∈ r.getPool (truncToInt (w.base / 4)) ∧
      (∀ (j : Int) (v : TextWord), p1.InRange j → v ∈ p1.getPool j → v ∈ r.getPool j) := by
  intro r
  have hbucket : (∀ v ∈ p1.getPool (truncToInt (w.base / 4)), v.rot = rot) ∧
      (p1.getPool (truncToInt (w.base / 4))).Pairwise
        (fun a b => a.primaryKey ≤ b.primaryKey) := by
    unfold TextPool.getPool
    rcases getD_mem_or_nil p1.pool ((truncToInt (w.base / 4)) - p1.minBaseIdx).toNat with h | h
    · exact hinv _ h
    · rw [h]; exact ⟨by simp, List.Pairwise.nil⟩
  have hget : ∀ j : Int, p1.InRange j → r.getPool j =
      if j = truncToInt (w.base / 4) then
        ((p1.getPool (truncToInt (w.base / 4))).take
            (insertPos w ((p1.getPool (truncToInt (w.base / 4))).drop start) start) ++
          w :: (p1.getPool (truncToInt (w.base / 4))).drop
            (insertPos w ((p1.getPool (truncToInt (w.base / 4))).drop start) start))
      else p1.getPool j := fun j hj => p1.getPool_setPool _ j _ hwf hin hj
  refine ⟨(p1.setPool_WF _ _ hwf).1, rfl, rfl, ?_, ?_, ?_⟩
  · intro bucket hb
    rcases List.mem_or_eq_of_mem_set hb with h | h
    · exact hinv bucket h
    · rw [h]
      refine ⟨?_, insert_sorted w rot hw _ hbucket.1 hbucket.2 start hstart⟩
      intro v hv
      rcases List.mem_append.mp hv with h1 | h1
      · exact hbucket.1 v (List.mem_of_mem_take h1)
      · rcases List.mem_cons.mp h1 with rfl | h1
        · exact hw
        · exact hbucket.1 v (List.mem_of_mem_drop h1)
  · rw [hget _ hin, if_pos rfl]
    exact List.mem_append_right _ (List.mem_cons_self _ _)
  · intro j v hj hv
    rw [hget j hj]
    split
    · next h =>
      subst h
      have : v ∈ (p1.getPool (truncToInt (w.base / 4))).take
            (insertPos w ((p1.getPool (truncToInt (w.base / 4))).drop start) start) ++
          (p1.getPool (truncToInt (w.base / 4))).drop
            (insertPos w ((p1.getPool (truncToInt (w.base / 4))).drop start) start) := by
        rw [List.take_append_drop]; exact hv
      rcases List.mem_append.mp this with h1 | h1
      · exact List.mem_append_left _ h1
      · exact List.mem_append_right _ (List.mem_cons_of_mem _ h1)
    · exact hv
/-- The array after lines 382-412 holds the base line of the word and every
base line it held before, with the same words. -/
theorem TextPool.grow_spec (pool : TextPool) (idx : Int) (hwf : pool.WF) (p1 : TextPool)
    (hp1 : p1 = (if pool.minBaseIdx > pool.maxBaseIdx then
        { pool with minBaseIdx := idx - 128, maxBaseIdx := idx + 128,
                    pool := List.replicate 257 [] }
      else if idx < pool.minBaseIdx then
        { pool with minBaseIdx := idx - 128,
                    pool := List.replicate (pool.minBaseIdx - (idx - 128)).toNat [] ++
                      pool.pool }
      else if idx > pool.maxBaseIdx then
        { pool with maxBaseIdx := idx + 128,
                    pool := pool.pool ++
                      List.replicate (idx + 128 - pool.maxBaseIdx).toNat [] }
      else pool)) :
    p1.WF ∧ p1.InRange idx ∧ (∀ bucket ∈ p1.pool, bucket ∈ pool.pool ∨ bucket = []) ∧
      (∀ j : Int, pool.InRange j → p1.InRange j ∧ p1.getPool j = pool.getPool j) := by
  unfold TextPool.WF at hwf
  subst hp1
  split
  · next h =>
    refine ⟨?_, ?_, ?_, ?_⟩
    · unfold TextPool.WF; simp only [List.length_replicate]; omega
    · unfold TextPool.InRange; simp only; omega
    · intro bucket hb
      right
      exact List.eq_of_mem_replicate hb
    · intro j hj
      unfold TextPool.InRange at hj
      omega
  · split
    · next h1 h2 =>
      refine ⟨?_, ?_, ?_, ?_⟩
      · unfold TextPool.WF; simp only [List.length_append, List.length_replicate]; omega
      · unfold TextPool.InRange; simp only; omega
      · intro bucket hb
        rcases List.mem_append.mp hb with h | h
        · right; exact List.eq_of_mem_replicate h
        · left; exact h
      · intro j hj
        unfold TextPool.InRange at hj ⊢
        refine ⟨by simp only; omega, ?_⟩
        unfold TextPool.getPool
        simp only [List.getD_eq_getElem?_getD]
        rw [List.getElem?_append_right (by simp only [List.length_replicate]; omega)]
        simp only [List.length_replicate]
        congr 2
        omega
    · split
      · next h1 h2 h3 =>
        refine ⟨?_, ?_, ?_, ?_⟩
        · unfold TextPool.WF; simp only [List.length_append, List.length_replicate]; omega
        · unfold TextPool.InRange; simp only; omega
        · intro bucket hb
          rcases List.mem_append.mp hb with h | h
          · left; exact h
          · right; exact List.eq_of_mem_replicate h
        · intro j hj
          unfold TextPool.InRange at hj ⊢
          refine ⟨by simp only; omega, ?_⟩
          unfold TextPool.getPool
          simp only [List.getD_eq_getElem?_getD]
          rw [List.getElem?_append_left (by omega)]
      · next h1 h2 h3 =>
        refine ⟨hwf, by unfold TextPool.InRange; omega, fun b hb => Or.inl hb,
          fun j hj => ⟨hj, rfl⟩⟩

/-- The invariant of a pool of words of rotation `rot`: the array has one
entry for each base line and each base line is sorted by the coordinate
`primaryCmp` compares. -/
theorem TextPool.addWord_sorted (rot : Nat) (pool : TextPool) (w : TextWord) (hw : w.rot = rot)
    (hwf : pool.WF)
    (hinv : ∀ bucket ∈ pool.pool, (∀ v ∈ bucket, v.rot = rot) ∧
      bucket.Pairwise (fun a b => a.primaryKey ≤ b.primaryKey)) :
    (pool.addWord w).WF ∧
      (∀ bucket ∈ (pool.addWord w).pool, (∀ v ∈ bucket, v.rot = rot) ∧
        bucket.Pairwise (fun a b => a.primaryKey ≤ b.primaryKey)) ∧
      ((pool.addWord w).InRange (truncToInt (w.base / 4)) ∧
        w ∈ (pool.addWord w).getPool (truncToInt (w.base / 4))) ∧
      (∀ (j : Int) (v : TextWord), pool.InRange j → v ∈ pool.getPool j →
        (pool.addWord w).InRange j ∧ v ∈ (pool.addWord w).getPool j) := by
  obtain ⟨p1, hp1⟩ : ∃ p1 : TextPool, p1 =
      (if pool.minBaseIdx > pool.maxBaseIdx then
        { pool with minBaseIdx := truncToInt (w.base / 4) - 128,
                    maxBaseIdx := truncToInt (w.base / 4) + 128,
                    pool := List.replicate 257 [] }
      else if truncToInt (w.base / 4) < pool.minBaseIdx then
        { pool with minBaseIdx := truncToInt (w.base / 4) - 128,
                    pool := List.replicate
                      (pool.minBaseIdx - (truncToInt (w.base / 4) - 128)).toNat [] ++
                      pool.pool }
      else if truncToInt (w.base / 4) > pool.maxBaseIdx then
        { pool with maxBaseIdx := truncToInt (w.base / 4) + 128,
                    pool := pool.pool ++
                      List.replicate (truncToInt (w.base / 4) + 128 - pool.maxBaseIdx).toNat [] }
      else pool) := ⟨_, rfl⟩
  obtain ⟨g1, g2, g3, g4⟩ := pool.grow_spec (truncToInt (w.base / 4)) hwf p1 hp1
  have hinv1 : ∀ bucket ∈ p1.pool, (∀ v ∈ bucket, v.rot = rot) ∧
      bucket.Pairwise (fun a b => a.primaryKey ≤ b.primaryKey) := by
    intro bucket hb
    rcases g3 bucket hb with h | h
    · exact hinv bucket h
    · rw [h]; exact ⟨by simp, List.Pairwise.nil⟩
  have hbucket : (∀ v ∈ p1.getPool (truncToInt (w.base / 4)), v.rot = rot) ∧
      (p1.getPool (truncToInt (w.base / 4))).Pairwise
        (fun a b => a.primaryKey ≤ b.primaryKey) := by
    unfold TextPool.getPool
    rcases getD_mem_or_nil p1.pool ((truncToInt (w.base / 4)) - p1.minBaseIdx).toNat with h | h
    · exact hinv1 _ h
    · rw [h]; exact ⟨by simp, List.Pairwise.nil⟩
  -- where the scan starts
  obtain ⟨start, hst⟩ : ∃ start : Nat, start =
      (match pool.cursor with
       | none => 0
       | some k =>
         match (p1.getPool pool.cursorBaseIdx)[k]? with
         | none => 0
         | some cw =>
           if truncToInt (w.base / 4) = pool.cursorBaseIdx ∧ w.primaryCmp cw > 0 then k + 1
           else 0) := ⟨_, rfl⟩
  have hstart : ∀ v ∈ (p1.getPool (truncToInt (w.base / 4))).take start,
      v.primaryKey < w.primaryKey := by
    intro v hv
    rw [hst] at hv
    split at hv
    · simp at hv
    · next k _ =>
      split at hv
      · simp at hv
      · next cw hcw =>
        split at hv
        · next hc =>
          rw [← hc.1] at hcw
          have hcwm : cw ∈ p1.getPool (truncToInt (w.base / 4)) := mem_of_getElem? hcw
          have hkey := (TextWord.primaryCmp_key w cw (by rw [hw, hbucket.1 cw hcwm])).1.mp hc.2
          obtain ⟨i, hi⟩ := List.mem_iff_getElem?.mp hv
          have hik : i < k + 1 := by
            by_contra hcon
            rw [List.getElem?_take_eq_none (by omega)] at hi
            cases hi
          rw [List.getElem?_take_of_lt hik] at hi
          by_cases hik2 : i = k
          · subst hik2
            rw [hcw] at hi
            cases hi
            exact hkey
          · have hlt : k < (p1.getPool (truncToInt (w.base / 4))).length := by
              by_contra hcon
              rw [List.getElem?_eq_none (by omega)] at hcw
              cases hcw
            have hle := List.pairwise_iff_getElem.mp hbucket.2 i k (by omega) hlt (by omega)
            rw [List.getElem?_eq_getElem (by omega)] at hi hcw
            have e1 := Option.some.inj hi
            have e2 := Option.some.inj hcw
            rw [e1, e2] at hle
            exact lt_of_le_of_lt hle hkey
        · simp at hv
  have key := TextPool.insert_spec rot w hw p1 g1 g2 hinv1 start hstart
    (some (insertPos w ((p1.getPool (truncToInt (w.base / 4))).drop start) start))
    (truncToInt (w.base / 4))
  simp only at key
  have hadd : pool.addWord w =
      { p1.setPool (truncToInt (w.base / 4))
          ((p1.getPool (truncToInt (w.base / 4))).take
              (insertPos w ((p1.getPool (truncToInt (w.base / 4))).drop start) start) ++
            w :: (p1.getPool (truncToInt (w.base / 4))).drop
              (insertPos w ((p1.getPool (truncToInt (w.base / 4))).drop start) start)) with
        cursor := some (insertPos w ((p1.getPool (truncToInt (w.base / 4))).drop start) start),
        cursorBaseIdx := truncToInt (w.base / 4) } := by
    rw [hst, hp1]
    rfl
  rw [hadd]
  obtain ⟨k1, k2, k3, k4, k5, k6⟩ := key
  refine ⟨k1, k4, ⟨?_, k5⟩, ?_⟩
  · unfold TextPool.InRange at g2 ⊢
    rw [k2, k3]
    exact g2
  · intro j v hj hv
    obtain ⟨a1, a2⟩ := g4 j hj
    refine ⟨?_, k6 j v a1 (by rw [a2]; exact hv)⟩
    unfold TextPool.InRange at a1 ⊢
    rw [k2, k3]
    exact a1
theorem TextPool.foldl_addWord_sorted (rot : Nat) (ws : List TextWord) :
    ∀ pool0 : TextPool, pool0.WF →
      (∀ bucket ∈ pool0.pool, (∀ v ∈ bucket, v.rot = rot) ∧
        bucket.Pairwise (fun a b => a.primaryKey ≤ b.primaryKey)) →
      (∀ w ∈ ws, w.rot = rot) →
      (ws.foldl TextPool.addWord pool0).WF ∧
        (∀ bucket ∈ (ws.foldl TextPool.addWord pool0).pool, (∀ v ∈ bucket, v.rot = rot) ∧
          bucket.Pairwise (fun a b => a.primaryKey ≤ b.primaryKey)) ∧
        (∀ (j : Int) (v : TextWord), pool0.InRange j → v ∈ pool0.getPool j →
          (ws.foldl TextPool.addWord pool0).InRange j ∧
            v ∈ (ws.foldl TextPool.addWord pool0).getPool j) ∧
        (∀ w ∈ ws, (ws.foldl TextPool.addWord pool0).InRange (truncToInt (w.base / 4)) ∧
          w ∈ (ws.foldl TextPool.addWord pool0).getPool (truncToInt (w.base / 4))) := by
  induction ws with
  | nil =>
    intro pool0 hwf hinv _
    exact ⟨hwf, hinv, fun j v hj hv => ⟨hj, hv⟩, by simp⟩
  | cons w ws ih =>
    intro pool0 hwf hinv hrot
    obtain ⟨a1, a2, a3, a4⟩ :=
      TextPool.addWord_sorted rot pool0 w (hrot w (List.mem_cons_self _ _)) hwf hinv
    obtain ⟨b1, b2, b3, b4⟩ :=
      ih (pool0.addWord w) a1 a2 (fun u hu => hrot u (List.mem_cons_of_mem _ hu))
    simp only [List.foldl_cons]
    refine ⟨b1, b2, ?_, ?_⟩
    · intro j v hj hv
      obtain ⟨c1, c2⟩ := a4 j v hj hv
      exact b3 j v c1 c2
    · intro u hu
      rcases List.mem_cons.mp hu with rfl | hu
      · exact b3 _ _ a3.1 a3.2
      · exact b4 u hu

/-! ## Lemmas: The depth-first pass -/

theorem nodup_length_le (l : List Nat) (n : Nat) (hn : l.Nodup) (hlt : ∀ p ∈ l, p < n) :
    l.length ≤ n := by
  have hsub : l ⊆ List.range n := fun p hp => List.mem_range.mpr (hlt p hp)
  have := (List.subperm_of_subset hn hsub).length_le
  simpa using this

theorem take_set_succ {α : Type} (l : List α) (k : Nat) (a : α) (hk : k < l.length) :
    (l.set k a).take (k + 1) = l.take k ++ [a] := by
  induction l generalizing k with
  | nil => simp at hk
  | cons x xs ih =>
    cases k with
    | zero => simp
    | succ k =>
      simp only [List.set_cons_succ, List.take_succ_cons, List.cons_append]
      rw [ih k (by simpa using hk)]

theorem SortInv.length_le {R : Nat → Nat → Bool} {n : Nat} {st : SortState} {out anc : List Nat}
    (h : SortInv R n st out anc) : out.length + anc.length ≤ n := by
  have := nodup_length_le (out ++ anc) n h.2.2.2.2.1 h.2.2.2.2.2.1
  simpa using this

/-- The loop over `blk2`: every block of `todo` that is before `pos1` is
visited when the loop ends. -/
theorem visitLoop_spec (R : Nat → Nat → Bool) (n : Nat)
    (visit : Nat → SortState → Except Fault SortState) (pos1 : Nat) (anc1 : List Nat)
    (m : Nat)
    (hvisit : ∀ (pos2 : Nat) (st : SortState) (out : List Nat), SortInv R n st out anc1 →
      m ≤ out.length → pos2 < n → st.visited[pos2]? = some false → R pos2 pos1 = true →
      ∃ st1 new, visit pos2 st = .ok st1 ∧ SortInv R n st1 (out ++ new) anc1 ∧
        pos2 ∈ out ++ new ++ anc1) :
    ∀ (todo : List Nat) (st : SortState) (out : List Nat), SortInv R n st out anc1 →
      m ≤ out.length → (∀ p ∈ todo, p < n) →
      ∃ st1 new, visitLoop visit (fun pos2 => R pos2 pos1) todo st = .ok st1 ∧
        SortInv R n st1 (out ++ new) anc1 ∧
        ∀ p ∈ todo, R p pos1 = true → p ∈ out ++ new ++ anc1 := by
  intro todo
  induction todo with
  | nil =>
    intro st out hinv _ _
    exact ⟨st, [], rfl, by simpa using hinv, by simp⟩
  | cons pos2 rest ih =>
    intro st out hinv hm hlt
    have hp2 : pos2 < n := hlt pos2 (List.mem_cons_self _ _)
    have hrest : ∀ p ∈ rest, p < n := fun p hp => hlt p (List.mem_cons_of_mem _ hp)
    have hvl : pos2 < st.visited.length := by rw [hinv.1]; exact hp2
    unfold visitLoop
    rw [List.getElem?_eq_getElem hvl]
    cases hv : st.visited[pos2] with
    | true =>
      simp only
      obtain ⟨st1, new, e1, e2, e3⟩ := ih st out hinv hm hrest
      refine ⟨st1, new, e1, e2, ?_⟩
      intro p hp hR
      rcases List.mem_cons.mp hp with rfl | hp
      · have hm : p ∈ out ++ anc1 :=
          (hinv.2.2.2.2.2.2.1 p hp2).mp (by rw [List.getElem?_eq_getElem hvl, hv])
        rcases List.mem_append.mp hm with h | h
        · exact List.mem_append_left _ (List.mem_append_left _ h)
        · exact List.mem_append_right _ h
      · exact e3 p hp hR
    | false =>
      simp only
      by_cases hR : R pos2 pos1 = true
      · rw [if_pos hR]
        obtain ⟨st1, new1, f1, f2, f3⟩ := hvisit pos2 st out hinv hm hp2
          (by rw [List.getElem?_eq_getElem hvl, hv]) hR
        rw [f1]
        simp only
        obtain ⟨st2, new2, e1, e2, e3⟩ := ih st1 (out ++ new1) f2 (by rw [List.length_append]; omega) hrest
        refine ⟨st2, new1 ++ new2, e1, by rw [← List.append_assoc]; exact e2, ?_⟩
        intro p hp hR'
        rw [← List.append_assoc]
        rcases List.mem_cons.mp hp with rfl | hp
        · rcases List.mem_append.mp f3 with h | h
          · exact List.mem_append_left _ (List.mem_append_left _ h)
          · exact List.mem_append_right _ h
        · exact e3 p hp hR'
      · rw [if_neg hR]
        obtain ⟨st1, new, e1, e2, e3⟩ := ih st out hinv hm hrest
        refine ⟨st1, new, e1, e2, ?_⟩
        intro p hp hR'
        rcases List.mem_cons.mp hp with rfl | hp
        · exact absurd hR' hR
        · exact e3 p hp hR'
/-- The visit of the block at `pos1`: it returns within the fuel, the block is
visited afterwards, and the state keeps its invariant. -/
theorem visitDepthFirst_spec (R : Nat → Nat → Bool) (n : Nat) :
    ∀ (fuel pos1 : Nat) (st : SortState) (out anc : List Nat), SortInv R n st out anc →
      pos1 < n → (∀ t ∈ anc, Relation.TransGen (BeforeOn R n) pos1 t) →
      n < fuel + out.length + anc.length →
      ∃ st1 new, visitDepthFirst R n fuel pos1 st = .ok st1 ∧
        SortInv R n st1 (out ++ new) anc ∧ pos1 ∈ out ++ new ++ anc := by
  intro fuel
  induction fuel with
  | zero =>
    intro pos1 st out anc hinv _ _ hfuel
    have := hinv.length_le
    omega
  | succ fuel ih =>
    intro pos1 st out anc hinv hp1 hchain hfuel
    obtain ⟨i1, i2, i3, i4, i5, i6, i7, i8⟩ := hinv
    have hvl : pos1 < st.visited.length := by rw [i1]; exact hp1
    unfold visitDepthFirst
    rw [List.getElem?_eq_getElem hvl]
    cases hv : st.visited[pos1] with
    | true =>
      simp only
      have hm : pos1 ∈ out ++ anc :=
        (i7 pos1 hp1).mp (by rw [List.getElem?_eq_getElem hvl, hv])
      refine ⟨st, [], rfl, by simpa using ⟨i1, i2, i3, i4, i5, i6, i7, i8⟩, ?_⟩
      simpa using hm
    | false =>
      simp only
      have hnm : pos1 ∉ out ++ anc := by
        intro hm
        have := (i7 pos1 hp1).mpr hm
        rw [List.getElem?_eq_getElem hvl, hv] at this
        cases this
      have hno : pos1 ∉ out := fun h => hnm (List.mem_append_left _ h)
      have hna : pos1 ∉ anc := fun h => hnm (List.mem_append_right _ h)
      -- the state with the block marked
      have hinv1 : SortInv R n { st with visited := st.visited.set pos1 true } out
          (pos1 :: anc) := by
        refine ⟨by simpa using i1, i2, i3, i4, ?_, ?_, ?_, i8⟩
        · exact (List.nodup_middle).mpr (List.nodup_cons.mpr ⟨hnm, i5⟩)
        · intro p hp
          rcases List.mem_append.mp hp with h | h
          · exact i6 p (List.mem_append_left _ h)
          · rcases List.mem_cons.mp h with rfl | h
            · exact hp1
            · exact i6 p (List.mem_append_right _ h)
        · intro p hp
          simp only [List.mem_append, List.mem_cons]
          by_cases hpp : p = pos1
          · subst hpp
            simp [List.getElem?_set_self hvl]
          · rw [List.getElem?_set_ne (fun h => hpp h.symm)]
            rw [i7 p hp, List.mem_append]
            constructor
            · rintro (h | h)
              · exact Or.inl h
              · exact Or.inr (Or.inr h)
            · rintro (h | h | h)
              · exact Or.inl h
              · exact absurd h hpp
              · exact Or.inr h
      have hvisit : ∀ (pos2 : Nat) (s : SortState) (o : List Nat),
          SortInv R n s o (pos1 :: anc) → out.length ≤ o.length → pos2 < n →
          s.visited[pos2]? = some false → R pos2 pos1 = true →
          ∃ s1 new, visitDepthFirst R n fuel pos2 s = .ok s1 ∧
            SortInv R n s1 (o ++ new) (pos1 :: anc) ∧ pos2 ∈ o ++ new ++ (pos1 :: anc) := by
        intro pos2 s o hs hlen hp2 hvis2 hR
        have hne : pos2 ≠ pos1 := by
          intro heq
          have := (hs.2.2.2.2.2.2.1 pos1 hp1).mpr
            (List.mem_append_right _ (List.mem_cons_self _ _))
          rw [heq, this] at hvis2
          cases hvis2
        refine ih pos2 s o (pos1 :: anc) hs hp2 ?_ (by simp only [List.length_cons]; omega)
        intro t ht
        have hstep : Relation.TransGen (BeforeOn R n) pos2 pos1 :=
          Relation.TransGen.single ⟨hR, hne, hp2, hp1⟩
        rcases List.mem_cons.mp ht with rfl | ht
        · exact hstep
        · exact hstep.trans (hchain t ht)
      obtain ⟨st2, new, e1, e2, e3⟩ :=
        visitLoop_spec R n (visitDepthFirst R n fuel) pos1 (pos1 :: anc) out.length hvisit
          (List.range n) { st with visited := st.visited.set pos1 true } out hinv1 le_rfl
          (fun p hp => List.mem_range.mp hp)
      rw [e1]
      simp only
      obtain ⟨j1, j2, j3, j4, j5, j6, j7, j8⟩ := e2
      have hle2 := nodup_length_le _ n j5 j6
      simp only [List.length_append, List.length_cons] at hle2
      have hpos : st2.sortPos < st2.sorted.length := by
        rw [j3, j2, List.length_append]; omega
      rw [if_pos hpos]
      refine ⟨_, new ++ [pos1], rfl, ?_, by simp⟩
      have hassoc : out ++ (new ++ [pos1]) ++ anc = (out ++ new) ++ pos1 :: anc := by
        simp [List.append_assoc]
      refine ⟨j1, by simpa using j2, ?_, ?_, ?_, ?_, ?_, ?_⟩
      · show st2.sortPos + 1 = _
        rw [j3]
        simp only [List.length_append, List.length_singleton]
        omega
      · have hk : (out ++ new).length < st2.sorted.length := by rw [← j3]; exact hpos
        have := take_set_succ st2.sorted (out ++ new).length pos1 hk
        rw [j4] at this
        simp only
        rw [j3]
        rw [← List.append_assoc]
        simpa [List.length_append] using this
      · rw [hassoc]; exact j5
      · rw [hassoc]; exact j6
      · intro p hp
        rw [hassoc]
        exact j7 p hp
      · intro i a hia b hb hRb
        rw [← List.append_assoc] at hia
        by_cases hi : i < (out ++ new).length
        · rw [List.getElem?_append_left hi] at hia
          rcases j8 i a hia b hb hRb with ⟨j, hj, hjb⟩ | h | h
          · refine Or.inl ⟨j, hj, ?_⟩
            rw [← List.append_assoc, List.getElem?_append_left (by omega)]
            exact hjb
          · exact Or.inr (Or.inl h)
          · exact Or.inr (Or.inr h)
        · have hi2 : i = (out ++ new).length := by
            by_contra hne
            rw [List.getElem?_eq_none (by
              simp only [List.length_append, List.length_singleton] at hi hne ⊢; omega)] at hia
            cases hia
          subst hi2
          rw [List.getElem?_append_right (le_refl _)] at hia
          simp only [Nat.sub_self, List.getElem?_cons_zero, Option.some.injEq] at hia
          subst hia
          -- a block before `pos1` is visited when the loop ends
          have hm := e3 b (List.mem_range.mpr hb) hRb
          rcases List.mem_append.mp hm with h | h
          · obtain ⟨j, hj⟩ := List.mem_iff_getElem?.mp h
            have hjl : j < (out ++ new).length := by
              by_contra hcon
              rw [List.getElem?_eq_none (by omega)] at hj
              cases hj
            refine Or.inl ⟨j, hjl, ?_⟩
            rw [← List.append_assoc, List.getElem?_append_left hjl]
            exact hj
          · rcases List.mem_cons.mp h with h | h
            · exact Or.inr (Or.inl h)
            · exact Or.inr (Or.inr (hchain b h))
theorem visitRoots_spec (R : Nat → Nat → Bool) (n : Nat) :
    ∀ (todo : List Nat) (st : SortState) (out : List Nat), SortInv R n st out [] →
      (∀ p ∈ todo, p < n) →
      ∃ st1 new, visitRoots R n todo st = .ok st1 ∧ SortInv R n st1 (out ++ new) [] ∧
        ∀ p ∈ todo, p ∈ out ++ new := by
  intro todo
  induction todo with
  | nil =>
    intro st out hinv _
    exact ⟨st, [], rfl, by simpa using hinv, by simp⟩
  | cons i rest ih =>
    intro st out hinv hlt
    obtain ⟨st1, new1, e1, e2, e3⟩ := visitDepthFirst_spec R n (n + 1) i st out [] hinv
      (hlt i (List.mem_cons_self _ _)) (by simp) (by simp only [List.length_nil]; omega)
    obtain ⟨st2, new2, f1, f2, f3⟩ :=
      ih st1 (out ++ new1) e2 (fun p hp => hlt p (List.mem_cons_of_mem _ hp))
    unfold visitRoots
    rw [e1]
    simp only
    refine ⟨st2, new1 ++ new2, f1, by rw [← List.append_assoc]; exact f2, ?_⟩
    intro p hp
    rw [← List.append_assoc]
    rcases List.mem_cons.mp hp with rfl | hp
    · rw [List.append_nil] at e3
      exact List.mem_append_left _ e3
    · exact f3 p hp

/-- The depth-first pass returns, for any relation `before` and whatever
`blkarray` holds before it: the array then holds each position of the list
once, and each block comes after the blocks before it, unless the block is
before itself or leads back to one of them. -/
theorem readingOrder_spec (primaryRot : Nat) (primaryLR : Bool) (blocks : List TextBlock)
    (blkarray : List Nat) (hlen : blkarray.length = blocks.length) :
    ∃ order : List Nat, readingOrder primaryRot primaryLR blocks blkarray = .ok order ∧
      order.Perm (List.range blocks.length) ∧
      (∀ (i : Nat) (a : Nat), order[i]? = some a → ∀ b, b < blocks.length →
        isBefore primaryRot primaryLR blocks b a = true →
        (∃ j, j < i ∧ order[j]? = some b) ∨ b = a ∨
          Relation.TransGen (BeforeOn (isBefore primaryRot primaryLR blocks) blocks.length) a b) := by
  have hinv0 : SortInv (isBefore primaryRot primaryLR blocks) blocks.length
      { sorted := blkarray, sortPos := 0, visited := List.replicate blocks.length false }
      [] [] := by
    refine ⟨by simp, hlen, rfl, by simp, by simp, by simp, ?_, by simp⟩
    intro p hp
    simp only [List.append_nil, List.not_mem_nil, iff_false]
    rw [List.getElem?_replicate, if_pos hp]
    simp
  obtain ⟨st1, new, e1, e2, e3⟩ := visitRoots_spec (isBefore primaryRot primaryLR blocks)
    blocks.length (List.range blocks.length) _ [] hinv0 (fun p hp => List.mem_range.mp hp)
  simp only [List.nil_append, List.append_nil] at e2 e3
  obtain ⟨j1, j2, j3, j4, j5, j6, j7, j8⟩ := e2
  simp only [List.append_nil] at j5 j6
  have hperm : new.Perm (List.range blocks.length) := by
    apply (List.perm_ext_iff_of_nodup j5 (List.nodup_range _)).mpr
    intro a
    exact ⟨fun h => List.mem_range.mpr (j6 a h), fun h => e3 a h⟩
  have hnl : new.length = blocks.length := by
    rw [hperm.length_eq, List.length_range]
  have hsorted : st1.sorted = new := by
    rw [← j4, hnl, ← j2, List.take_length]
  refine ⟨new, ?_, hperm, j8⟩
  unfold readingOrder
  rw [e1]
  simp only
  rw [hsorted]

theorem acyclic_of_rank (R : Nat → Nat → Bool) (n : Nat) (f : Nat → Nat)
    (h : ∀ b, b < n → ∀ a, a < n → R b a = true → f b < f a) :
    ∀ x, ¬ Relation.TransGen (BeforeOn R n) x x := by
  have hlt : ∀ x y, Relation.TransGen (BeforeOn R n) x y → f x < f y := by
    intro x y hxy
    induction hxy with
    | single hs => exact h _ hs.2.2.1 _ hs.2.2.2 hs.1
    | tail _ hs ih => exact lt_trans ih (h _ hs.2.2.1 _ hs.2.2.2 hs.1)
  intro x hx
  exact absurd (hlt x x hx) (lt_irrefl _)
/-! ## Lemmas: The relinking of the blocks -/

theorem relinkLoop_spec :
    ∀ (arr : List Nat) (l : BlockLinks), arr.Nodup →
      (∀ p ∈ arr, p < l.next.length ∧ p < l.prev.length) →
      (relinkLoop arr l).blocks = l.blocks ∧ (relinkLoop arr l).lastBlk = l.lastBlk ∧
        (relinkLoop arr l).next.length = l.next.length ∧
        (relinkLoop arr l).prev.length = l.prev.length ∧
        (∀ (i a b : Nat), arr[i]? = some a → arr[i + 1]? = some b →
          (relinkLoop arr l).next[a]? = some (some b) ∧
            (relinkLoop arr l).prev[b]? = some (some a)) ∧
        (∀ p, arr.getLast? = some p ∨ p ∉ arr → (relinkLoop arr l).next[p]? = l.next[p]?) ∧
        (∀ p, arr.head? = some p ∨ p ∉ arr → (relinkLoop arr l).prev[p]? = l.prev[p]?) := by
  intro arr
  induction arr with
  | nil =>
    intro l _ _
    refine ⟨rfl, rfl, rfl, rfl, ?_, fun _ _ => rfl, fun _ _ => rfl⟩
    intro i a b h
    simp at h
  | cons a rest ih =>
    intro l hnd hlt
    cases rest with
    | nil =>
      refine ⟨rfl, rfl, rfl, rfl, ?_, fun _ _ => rfl, fun _ _ => rfl⟩
      intro i x y _ h
      simp at h
    | cons b rest =>
      have hnd' : (b :: rest).Nodup := (List.nodup_cons.mp hnd).2
      have hab : a ∉ b :: rest := (List.nodup_cons.mp hnd).1
      have ha := hlt a (List.mem_cons_self _ _)
      have hb := hlt b (List.mem_cons_of_mem _ (List.mem_cons_self _ _))
      obtain ⟨e1, e2, e3, e4, e5, e6, e7⟩ :=
        ih { l with next := l.next.set a (some b), prev := l.prev.set b (some a) } hnd'
          (by
            intro p hp
            simp only [List.length_set]
            exact hlt p (List.mem_cons_of_mem _ hp))
      have hunf : relinkLoop (a :: b :: rest) l =
          relinkLoop (b :: rest)
            { l with next := l.next.set a (some b), prev := l.prev.set b (some a) } := rfl
      rw [hunf]
      refine ⟨e1, e2, by simpa using e3, by simpa using e4, ?_, ?_, ?_⟩
      · intro i x y hx hy
        cases i with
        | zero =>
          simp only [List.getElem?_cons_zero, Option.some.injEq, zero_add,
            List.getElem?_cons_succ] at hx hy
          cases hx
          cases hy
          constructor
          · rw [e6 a (Or.inr hab)]
            exact List.getElem?_set_self ha.1
          · rw [e7 b (Or.inl rfl)]
            exact List.getElem?_set_self hb.2
        | succ i =>
          rw [List.getElem?_cons_succ] at hx hy
          exact e5 i x y hx hy
      · intro p hp
        have hpa : p ≠ a := by
          rcases hp with h | h
          · rw [List.getLast?_cons_cons] at h
            intro hpa
            subst hpa
            exact hab (List.mem_of_mem_getLast? (Option.mem_def.mpr h))
          · exact fun hpa => h (by rw [hpa]; exact List.mem_cons_self _ _)
        have hp' : (b :: rest).getLast? = some p ∨ p ∉ b :: rest := by
          rcases hp with h | h
          · left; rw [List.getLast?_cons_cons] at h; exact h
          · right; exact fun hm => h (List.mem_cons_of_mem _ hm)
        rw [e6 p hp']
        exact List.getElem?_set_ne (fun h => hpa h.symm)
      · intro p hp
        have hpb : p ≠ b := by
          rcases hp with h | h
          · simp only [List.head?_cons, Option.some.injEq] at h
            subst h
            exact fun hpb => hab (by rw [hpb]; exact List.mem_cons_self _ _)
          · exact fun hpb => h (by
              rw [hpb]; exact List.mem_cons_of_mem _ (List.mem_cons_self _ _))
        have hp' : (b :: rest).head? = some p ∨ p ∉ b :: rest := by
          rcases hp with h | h
          · right
            simp only [List.head?_cons, Option.some.injEq] at h
            subst h
            exact hab
          · right; exact fun hm => h (List.mem_cons_of_mem _ hm)
        rw [e7 p hp']
        exact List.getElem?_set_ne (fun h => hpb h.symm)

/-- Lines 2188-2201 leave a consistent doubly linked list over the blocks of
`blkarray`, when the array holds distinct blocks. -/
theorem relink_spec (order : List Nat) (l : BlockLinks) (hnd : order.Nodup)
    (hlt : ∀ p ∈ order, p < l.next.length ∧ p < l.prev.length) :
    (relink order l).blocks = order.head? ∧ (relink order l).lastBlk = order.getLast? ∧
      (∀ first, order.head? = some first → (relink order l).prev[first]? = some none) ∧
      (∀ last, order.getLast? = some last → (relink order l).next[last]? = some none) ∧
      (∀ (i a b : Nat), order[i]? = some a → order[i + 1]? = some b →
        (relink order l).next[a]? = some (some b) ∧
          (relink order l).prev[b]? = some (some a)) := by
  cases order with
  | nil =>
    refine ⟨rfl, rfl, by simp, by simp, ?_⟩
    intro i a b h
    simp at h
  | cons first rest =>
    have hf := hlt first (List.mem_cons_self _ _)
    obtain ⟨e1, e2, e3, e4, e5, e6, e7⟩ :=
      relinkLoop_spec (first :: rest)
        { l with blocks := some first, prev := l.prev.set first none } hnd
        (by
          intro p hp
          simp only [List.length_set]
          exact hlt p hp)
    have hlast : (first :: rest).getLast? =
        some ((first :: rest).getLast (List.cons_ne_nil _ _)) := List.getLast?_eq_getLast _ _
    have hlm : (first :: rest).getLast (List.cons_ne_nil _ _) ∈ first :: rest :=
      List.getLast_mem _
    unfold relink
    simp only
    refine ⟨e1, hlast.symm, ?_, ?_, ?_⟩
    · intro f hfh
      simp only [List.head?_cons, Option.some.injEq] at hfh
      cases hfh
      show (relinkLoop _ _).prev[first]? = some none
      rw [e7 first (Or.inl rfl)]
      exact List.getElem?_set_self hf.2
    · intro last hl
      rw [hlast] at hl
      simp only [Option.some.injEq] at hl
      rw [← hl]
      apply List.getElem?_set_self
      rw [e3]
      exact (hlt _ hlm).1
    · intro i a b ha hb
      obtain ⟨g1, g2⟩ := e5 i a b ha hb
      refine ⟨?_, g2⟩
      have hne : (first :: rest).getLast (List.cons_ne_nil _ _) ≠ a := by
        intro heq
        have hil : i + 1 < (first :: rest).length := by
          by_contra hcon
          rw [List.getElem?_eq_none (by omega)] at hb
          cases hb
        have h1 : (first :: rest)[(first :: rest).length - 1]? = some a := by
          rw [← heq, ← List.getLast?_eq_getElem?]
          exact hlast
        have hi : i < (first :: rest).length := by omega
        rw [List.getElem?_eq_getElem hi] at ha
        rw [List.getElem?_eq_getElem (by omega)] at h1
        have := (List.Nodup.getElem_inj_iff hnd).mp ((Option.some.inj ha).trans
          (Option.some.inj h1).symm)
        omega
      show ((relinkLoop _ _).next.set _ none)[a]? = some (some b)
      rw [List.getElem?_set_ne hne]
      exact g1

/-! ## Lemmas: Block assembly -/

theorem NewBlock.addWord_keeps (blk : NewBlock) (w : TextWord) (hwf : blk.pool.WF) :
    (blk.addWord w).pool.WF ∧ (blk.addWord w).rot = blk.rot ∧
      (blk.addWord w).pool.words.Perm (w :: blk.pool.words) := by
  obtain ⟨h1, _, h3⟩ := blk.pool.addWord_spec w hwf
  exact ⟨h1, rfl, h3⟩

theorem takeAll_spec (test : NewBlock → TextWord → Bool) :
    ∀ (ws : List TextWord) (blk : NewBlock) (last : Option ℚ), blk.pool.WF →
      (takeAll test ws blk last).2.1.pool.WF ∧ (takeAll test ws blk last).2.1.rot = blk.rot ∧
        (ws ++ blk.pool.words).Perm
          ((takeAll test ws blk last).1 ++ (takeAll test ws blk last).2.1.pool.words) ∧
        (takeAll test ws blk last).1.length ≤ ws.length ∧
        ((takeAll test ws blk last).2.2 ≠ last →
          (takeAll test ws blk last).1.length < ws.length) ∧
        ∃ moved : List TextWord,
          (takeAll test ws blk last).2.1 = moved.foldl NewBlock.addWord blk ∧
            ws.Perm ((takeAll test ws blk last).1 ++ moved) := by
  intro ws
  induction ws with
  | nil =>
    intro blk last hwf
    exact ⟨hwf, rfl, List.Perm.refl _, le_rfl, fun h => absurd rfl h, [], rfl, by simp [takeAll]⟩
  | cons word1 rest ih =>
    intro blk last hwf
    unfold takeAll
    by_cases ht : test blk word1 = true
    · rw [if_pos ht]
      obtain ⟨a1, a2, a3⟩ := blk.addWord_keeps word1 hwf
      obtain ⟨b1, b2, b3, b4, _, moved, b6, b7⟩ := ih (blk.addWord word1) (some word1.base) a1
      refine ⟨b1, by rw [b2, a2], ?_, ?_, ?_, word1 :: moved, b6, ?_⟩
      · refine List.Perm.trans ?_ b3
        have : (word1 :: (rest ++ blk.pool.words)).Perm (rest ++ word1 :: blk.pool.words) :=
          List.perm_middle.symm
        exact this.trans (List.Perm.append_left rest a3.symm)
      · simp only [List.length_cons]; omega
      · intro _
        simp only [List.length_cons]; omega
      · exact (List.Perm.cons word1 b7).trans List.perm_middle.symm
    · rw [if_neg ht]
      obtain ⟨b1, b2, b3, b4, b5, moved, b6, b7⟩ := ih blk last hwf
      refine ⟨b1, b2, ?_, ?_, ?_, moved, b6, ?_⟩
      · simp only [List.cons_append]
        exact List.Perm.cons word1 b3
      · simp only [List.length_cons]; omega
      · intro h
        simp only [List.length_cons]
        have := b5 h
        omega
      · simp only [List.cons_append]
        exact List.Perm.cons word1 b7

theorem TextPool.setPool_length (pool : TextPool) (i : Int) (ws : List TextWord) (hwf : pool.WF)
    (hi : pool.InRange i) :
    (pool.setPool i ws).words.length + (pool.getPool i).length =
      pool.words.length + ws.length := by
  obtain ⟨rest, h1, h2⟩ := pool.setPool_perm i hwf hi
  have e1 := h1.length_eq
  have e2 := (h2 ws).length_eq
  simp only [List.length_append] at e1 e2
  omega

theorem sweep_spec (test : NewBlock → TextWord → Bool) (step : Int) :
    ∀ (todo : Nat) (baseIdx : Int) (pool : TextPool) (blk : NewBlock) (last : Option ℚ),
      pool.WF → blk.pool.WF →
      (∀ k : Nat, k < todo → pool.InRange (baseIdx + k * step)) →
      (sweep test step todo baseIdx pool blk last).1.WF ∧
        (sweep test step todo baseIdx pool blk last).1.minBaseIdx = pool.minBaseIdx ∧
        (sweep test step todo baseIdx pool blk last).1.maxBaseIdx = pool.maxBaseIdx ∧
        (sweep test step todo baseIdx pool blk last).2.1.pool.WF ∧
        (sweep test step todo baseIdx pool blk last).2.1.rot = blk.rot ∧
        (pool.words ++ blk.pool.words).Perm
          ((sweep test step todo baseIdx pool blk last).1.words ++
            (sweep test step todo baseIdx pool blk last).2.1.pool.words) ∧
        (sweep test step todo baseIdx pool blk last).1.words.length ≤ pool.words.length ∧
        ((sweep test step todo baseIdx pool blk last).2.2 ≠ last →
          (sweep test step todo baseIdx pool blk last).1.words.length < pool.words.length) ∧
        (∀ j, pool.InRange j → pool.getPool j = [] →
          (sweep test step todo baseIdx pool blk last).1.getPool j = []) ∧
        ∃ moved : List TextWord,
          (sweep test step todo baseIdx pool blk last).2.1 = moved.foldl NewBlock.addWord blk ∧
            pool.words.Perm ((sweep test step todo baseIdx pool blk last).1.words ++ moved) := by
  intro todo
  induction todo with
  | zero =>
    intro baseIdx pool blk last hwf hbw _
    exact ⟨hwf, rfl, rfl, hbw, rfl, List.Perm.refl _, le_rfl, fun h => absurd rfl h,
      fun _ _ h => h, [], rfl, by simp [sweep]⟩
  | succ todo ih =>
    intro baseIdx pool blk last hwf hbw hin
    have hi0 : pool.InRange baseIdx := by simpa using hin 0 (Nat.succ_pos _)
    obtain ⟨a1, a2, a3, a4, a5, moved1, a6, a7⟩ :=
      takeAll_spec test (pool.getPool baseIdx) blk last hbw
    obtain ⟨s1, s2, s3⟩ := pool.setPool_WF baseIdx (takeAll test (pool.getPool baseIdx) blk last).1
      hwf
    obtain ⟨rest, p1, p2⟩ := pool.setPool_perm baseIdx hwf hi0
    have hlen := pool.setPool_length baseIdx (takeAll test (pool.getPool baseIdx) blk last).1
      hwf hi0
    obtain ⟨b1, b2, b3, b4, b5, b6, b7, b8, b9, moved2, b10, b11⟩ :=
      ih (baseIdx + step) (pool.setPool baseIdx (takeAll test (pool.getPool baseIdx) blk last).1)
        (takeAll test (pool.getPool baseIdx) blk last).2.1
        (takeAll test (pool.getPool baseIdx) blk last).2.2 s1 a1
        (by
          intro k hk
          have := hin (k + 1) (by omega)
          unfold TextPool.InRange at this ⊢
          rw [s2, s3]
          have e : baseIdx + step + (k : Int) * step = baseIdx + ((k + 1 : Nat) : Int) * step := by
            push_cast; ring
          rw [e]; exact this)
    have hunf : sweep test step (todo + 1) baseIdx pool blk last =
        sweep test step todo (baseIdx + step)
          (pool.setPool baseIdx (takeAll test (pool.getPool baseIdx) blk last).1)
          (takeAll test (pool.getPool baseIdx) blk last).2.1
          (takeAll test (pool.getPool baseIdx) blk last).2.2 := rfl
    rw [hunf]
    refine ⟨b1, by rw [b2, s2], by rw [b3, s3], b4, by rw [b5, a2], ?_, by omega, ?_, ?_,
      moved1 ++ moved2, by rw [b10, a6, List.foldl_append], ?_⟩
    · refine List.Perm.trans ?_ b6
      -- the base line is split between the pool and the block
      have e1 : (pool.words ++ blk.pool.words).Perm
          ((pool.getPool baseIdx ++ blk.pool.words) ++ rest) := by
        refine (List.Perm.append_right _ p1).trans ?_
        rw [List.append_assoc, List.append_assoc]
        exact List.Perm.append_left _ List.perm_append_comm
      have e2 : ((pool.getPool baseIdx ++ blk.pool.words) ++ rest).Perm
          (((takeAll test (pool.getPool baseIdx) blk last).1 ++
            (takeAll test (pool.getPool baseIdx) blk last).2.1.pool.words) ++ rest) :=
        List.Perm.append_right _ a3
      have e3 : (((takeAll test (pool.getPool baseIdx) blk last).1 ++
            (takeAll test (pool.getPool baseIdx) blk last).2.1.pool.words) ++ rest).Perm
          ((pool.setPool baseIdx (takeAll test (pool.getPool baseIdx) blk last).1).words ++
            (takeAll test (pool.getPool baseIdx) blk last).2.1.pool.words) := by
        rw [List.append_assoc]
        refine (List.Perm.append_left _ List.perm_append_comm).trans ?_
        rw [← List.append_assoc]
        exact List.Perm.append_right _ (p2 _).symm
      exact e1.trans (e2.trans e3)
    · intro hne
      by_cases h1 : (takeAll test (pool.getPool baseIdx) blk last).2.2 = last
      · have := b8 (fun h => hne (h.trans h1))
        omega
      · have := a5 h1
        omega
    · intro j hj h0
      refine b9 j ((TextPool.inRange_congr s2 s3 j).mpr hj) ?_
      rw [pool.getPool_setPool baseIdx j _ hwf hi0 hj]
      split
      · next hji =>
        rw [hji] at h0
        rw [h0]
        rfl
      · exact h0
    · -- the words of the base line that stay, the others, and the words moved
      rw [List.perm_iff_count]
      intro x
      have c1 := p1.count_eq x
      have c2 := a7.count_eq x
      have c3 := b11.count_eq x
      have c4 := (p2 (takeAll test (pool.getPool baseIdx) blk last).1).count_eq x
      simp only [List.count_append] at c1 c2 c3 c4 ⊢
      omega

theorem Grow.Moved.refl (g : Grow) (h1 : g.pool.WF) (h2 : g.blk.pool.WF) : g.Moved g :=
  ⟨h1, rfl, rfl, h2, rfl, List.Perm.refl _, le_rfl, fun h => Or.inl h, fun _ _ h => h,
    [], rfl, by simp⟩

theorem Grow.Moved.trans {g g1 g2 : Grow} (h1 : g.Moved g1) (h2 : g1.Moved g2) : g.Moved g2 := by
  obtain ⟨a1, a2, a3, a4, a5, a6, a7, a8, a9, m1, a10, a11⟩ := h1
  obtain ⟨b1, b2, b3, b4, b5, b6, b7, b8, b9, m2, b10, b11⟩ := h2
  refine ⟨b1, by rw [b2, a2], by rw [b3, a3], b4, by rw [b5, a5], a6.trans b6, by omega, ?_,
    fun j hj h0 => b9 j ((TextPool.inRange_congr a2 a3 j).mpr hj) (a9 j hj h0),
    m1 ++ m2, by rw [b10, a10, List.foldl_append], ?_⟩
  · intro hf
    rcases b8 hf with h | h
    · rcases a8 h with h' | h'
      · exact Or.inl h'
      · exact Or.inr (by omega)
    · exact Or.inr (by omega)
  · rw [List.perm_iff_count]
    intro x
    have c1 := a11.count_eq x
    have c2 := b11.count_eq x
    simp only [List.count_append] at c1 c2 ⊢
    omega

theorem findIdx?_find?_from {α : Type} (p : α → Bool) :
    ∀ (l : List α) (s k : Nat) (w : α), List.findIdx? p l s = some k → l.find? p = some w →
      s ≤ k ∧ l[k - s]? = some w := by
  intro l
  induction l with
  | nil => intro s k w h; simp at h
  | cons a l ih =>
    intro s k w h1 h2
    rw [List.findIdx?_cons] at h1
    rw [List.find?_cons] at h2
    by_cases hp : p a = true
    · simp only [hp, if_true, Option.some.injEq] at h1 h2
      subst h1
      subst h2
      simp
    · simp only [hp, Bool.false_eq_true, if_false] at h1 h2
      obtain ⟨e1, e2⟩ := ih (s + 1) k w h1 h2
      refine ⟨by omega, ?_⟩
      have : k - s = (k - (s + 1)) + 1 := by omega
      rw [this, List.getElem?_cons_succ]
      exact e2

theorem findIdx?_find?_getElem? {α : Type} (p : α → Bool) (l : List α) (k : Nat) (w : α)
    (h1 : l.findIdx? p = some k) (h2 : l.find? p = some w) : l[k]? = some w := by
  have := (findIdx?_find?_from p l 0 k w h1 h2).2
  simpa using this

theorem sweepSide_spec (test : ℚ → ℚ → NewBlock → TextWord → Bool) (fontSize : ℚ) :
    ∀ (todo : Nat) (baseIdx : Int) (g : Grow), g.pool.WF → g.blk.pool.WF →
      g.pool.minBaseIdx ≤ g.pool.maxBaseIdx → g.pool.minBaseIdx ≤ baseIdx →
      g.Moved (sweepSide test fontSize todo baseIdx g) := by
  intro todo
  induction todo with
  | zero =>
    intro baseIdx g h1 h2 _ _
    exact Grow.Moved.refl g h1 h2
  | succ todo ih =>
    intro baseIdx g h1 h2 hmm hlo
    unfold sweepSide
    split
    · next hle =>
      have hir := g.pool.getBaseIdx_inRange (g.maxBase + 1 / 2 * fontSize) hmm
      have hin : g.pool.InRange baseIdx := by
        unfold TextPool.InRange at hir ⊢
        omega
      simp only
      split
      · next k word2 hk hw =>
        have hget := findIdx?_find?_getElem? _ _ k word2 hk hw
        obtain ⟨r1, r2, r3⟩ := g.pool.removeAt_WF baseIdx k h1
        have rp := g.pool.removeAt_perm baseIdx k word2 h1 hin hget
        obtain ⟨a1, a2, a3⟩ := g.blk.addWord_keeps word2 h2
        have hstep : g.Moved
            { pool := g.pool.removeAt baseIdx k, blk := g.blk.addWord word2,
              minBase := if word2.base < g.minBase then word2.base else g.minBase,
              maxBase := if word2.base < g.minBase then g.maxBase
                         else if word2.base > g.maxBase then word2.base else g.maxBase,
              found := true } := by
          refine ⟨r1, r2, r3, a1, a2, ?_, ?_, ?_,
            fun j hj h0 => g.pool.removeAt_nil baseIdx j k h1 hin hj h0, [word2], rfl,
            rp.trans (List.perm_append_singleton word2 _).symm⟩
          · simp only
            have e1 : (g.pool.words ++ g.blk.pool.words).Perm
                (word2 :: ((g.pool.removeAt baseIdx k).words ++ g.blk.pool.words)) :=
              List.Perm.append_right _ rp
            have e2 : (word2 :: ((g.pool.removeAt baseIdx k).words ++ g.blk.pool.words)).Perm
                ((g.pool.removeAt baseIdx k).words ++ word2 :: g.blk.pool.words) :=
              List.perm_middle.symm
            exact e1.trans (e2.trans (List.Perm.append_left _ a3.symm))
          · have := rp.length_eq
            simp only [List.length_cons] at this ⊢
            omega
          · intro _
            right
            have := rp.length_eq
            simp only [List.length_cons] at this ⊢
            omega
        exact hstep.trans (ih (baseIdx + 1) _ r1 a1 (by rw [r2, r3]; exact hmm)
          (by rw [r2]; omega))
      · exact ih (baseIdx + 1) g h1 h2 hmm (by omega)
    · exact Grow.Moved.refl g h1 h2

theorem growSide_spec (test : ℚ → ℚ → NewBlock → TextWord → Bool) (fontSize : ℚ) (g : Grow)
    (h1 : g.pool.WF) (h2 : g.blk.pool.WF) (hmm : g.pool.minBaseIdx ≤ g.pool.maxBaseIdx) :
    g.Moved (growSide test fontSize g) := by
  unfold growSide
  simp only
  split
  · apply sweepSide_spec test fontSize _ _ g h1 h2 hmm
    have := g.pool.getBaseIdx_inRange (g.minBase - 1 / 2 * fontSize) hmm
    exact this.1
  · exact Grow.Moved.refl g h1 h2

theorem sweep_inRange_down (pool : TextPool) (lo hi : Int) (hlo : pool.InRange lo)
    (hhi : pool.InRange hi) :
    ∀ k : Nat, k < (hi + 1 - lo).toNat → pool.InRange (hi + k * (-1)) := by
  intro k hk
  unfold TextPool.InRange at hlo hhi ⊢
  omega

theorem sweep_inRange_up (pool : TextPool) (lo hi : Int) (hlo : pool.InRange lo)
    (hhi : pool.InRange hi) :
    ∀ k : Nat, k < (hi + 1 - lo).toNat → pool.InRange (lo + k * 1) := by
  intro k hk
  unfold TextPool.InRange at hlo hhi ⊢
  omega

theorem TextPool.getBaseIdx_congr {p q : TextPool} (h1 : q.minBaseIdx = p.minBaseIdx)
    (h2 : q.maxBaseIdx = p.maxBaseIdx) (base : ℚ) : q.getBaseIdx base = p.getBaseIdx base := by
  unfold TextPool.getBaseIdx
  rw [h1, h2]

/-- One round of the loop `do ... while (found)`: no word is lost, and when
`found` is set a word has left the page pool. -/
theorem growStep_spec (rot : Nat) (fontSize : ℚ) (g : Grow) (h1 : g.pool.WF)
    (h2 : g.blk.pool.WF) (hmm : g.pool.minBaseIdx ≤ g.pool.maxBaseIdx) (hf : g.found = false) :
    g.Moved (growStep rot fontSize g) := by
  -- the three sweeps
  obtain ⟨r1, hr1⟩ : ∃ r1, r1 = sweep (testAbove rot fontSize g.minBase) (-1)
      (g.pool.getBaseIdx g.minBase + 1 -
        g.pool.getBaseIdx (g.minBase - 15 / 10 * fontSize)).toNat
      (g.pool.getBaseIdx g.minBase) g.pool g.blk none := ⟨_, rfl⟩
  obtain ⟨a1, a2, a3, a4, a5, a6, a7, a8, a9, ma, a10, a11⟩ :=
    sweep_spec (testAbove rot fontSize g.minBase) (-1) _ _ g.pool g.blk none h1 h2
      (sweep_inRange_down g.pool _ _ (g.pool.getBaseIdx_inRange _ hmm)
        (g.pool.getBaseIdx_inRange _ hmm))
  rw [← hr1] at a1 a2 a3 a4 a5 a6 a7 a8 a9 a10 a11
  have hmm1 : r1.1.minBaseIdx ≤ r1.1.maxBaseIdx := by rw [a2, a3]; exact hmm
  obtain ⟨r2, hr2⟩ : ∃ r2, r2 = sweep (testBelow rot fontSize g.maxBase) 1
      (r1.1.getBaseIdx (g.maxBase + 15 / 10 * fontSize) + 1 -
        r1.1.getBaseIdx g.maxBase).toNat
      (r1.1.getBaseIdx g.maxBase) r1.1 r1.2.1 none := ⟨_, rfl⟩
  obtain ⟨b1, b2, b3, b4, b5, b6, b7, b8, b9, mb, b10, b11⟩ :=
    sweep_spec (testBelow rot fontSize g.maxBase) 1 _ _ r1.1 r1.2.1 none a1 a4
      (sweep_inRange_up r1.1 _ _ (r1.1.getBaseIdx_inRange _ hmm1)
        (r1.1.getBaseIdx_inRange _ hmm1))
  rw [← hr2] at b1 b2 b3 b4 b5 b6 b7 b8 b9 b10 b11
  have hmm2 : r2.1.minBaseIdx ≤ r2.1.maxBaseIdx := by rw [b2, b3]; exact hmm1
  obtain ⟨r3, hr3⟩ : ∃ r3, r3 = sweep
      (testInside rot fontSize (r1.2.2.getD g.minBase) (r2.2.2.getD g.maxBase)) 1
      (r2.1.getBaseIdx (r2.2.2.getD g.maxBase + 1 / 2 * fontSize) + 1 -
        r2.1.getBaseIdx (r1.2.2.getD g.minBase - 1 / 2 * fontSize)).toNat
      (r2.1.getBaseIdx (r1.2.2.getD g.minBase - 1 / 2 * fontSize)) r2.1 r2.2.1 none :=
    ⟨_, rfl⟩
  obtain ⟨c1, c2, c3, c4, c5, c6, c7, c8, c9, mc, c10, c11⟩ :=
    sweep_spec (testInside rot fontSize (r1.2.2.getD g.minBase) (r2.2.2.getD g.maxBase)) 1 _ _
      r2.1 r2.2.1 none b1 b4
      (sweep_inRange_up r2.1 _ _ (r2.1.getBaseIdx_inRange _ hmm2)
        (r2.1.getBaseIdx_inRange _ hmm2))
  rw [← hr3] at c1 c2 c3 c4 c5 c6 c7 c8 c9 c10 c11
  have hmm3 : r3.1.minBaseIdx ≤ r3.1.maxBaseIdx := by rw [c2, c3]; exact hmm2
  have hg3 : ∀ found : Bool,
      (found = true → r3.1.words.length < g.pool.words.length) →
      g.Moved { pool := r3.1, blk := r3.2.1, minBase := r1.2.2.getD g.minBase,
                maxBase := r2.2.2.getD g.maxBase, found := found } := by
    intro found hfound
    refine ⟨c1, by rw [c2, b2, a2], by rw [c3, b3, a3], c4, by rw [c5, b5, a5],
      a6.trans (b6.trans c6), by show r3.1.words.length ≤ _; omega,
      fun h => Or.inr (hfound h), ?_, ma ++ (mb ++ mc),
      by show r3.2.1 = _; rw [c10, b10, a10, List.foldl_append, List.foldl_append], ?_⟩
    · intro j hj h0
      have hj1 := (TextPool.inRange_congr a2 a3 j).mpr hj
      exact c9 j ((TextPool.inRange_congr b2 b3 j).mpr hj1) (b9 j hj1 (a9 j hj h0))
    · show g.pool.words.Perm (r3.1.words ++ (ma ++ (mb ++ mc)))
      rw [List.perm_iff_count]
      intro x
      have d1 := a11.count_eq x
      have d2 := b11.count_eq x
      have d3 := c11.count_eq x
      simp only [List.count_append] at d1 d2 d3 ⊢
      omega
  have hunf : growStep rot fontSize g =
      if (r1.2.2.isSome || r2.2.2.isSome || r3.2.2.isSome) = true then
        { pool := r3.1, blk := r3.2.1, minBase := r1.2.2.getD g.minBase,
          maxBase := r2.2.2.getD g.maxBase,
          found := r1.2.2.isSome || r2.2.2.isSome || r3.2.2.isSome }
      else
        growSide (testRight rot fontSize) fontSize
          (growSide (testLeft rot fontSize) fontSize
            { pool := r3.1, blk := r3.2.1, minBase := r1.2.2.getD g.minBase,
              maxBase := r2.2.2.getD g.maxBase,
              found := r1.2.2.isSome || r2.2.2.isSome || r3.2.2.isSome }) := by
    rw [hr3, hr2, hr1]
    rfl
  rw [hunf]
  split
  · next hfound =>
    apply hg3
    intro _
    simp only [Bool.or_eq_true, Option.isSome_iff_ne_none] at hfound
    rcases hfound with (h | h) | h
    · have := a8 h; omega
    · have := b8 h; omega
    · have := c8 h; omega
  · next hfound =>
    have hfalse : (r1.2.2.isSome || r2.2.2.isSome || r3.2.2.isSome) = false := by
      simpa using hfound
    rw [hfalse]
    have m0 := hg3 false (fun h => absurd h (by decide))
    have m1 := growSide_spec (testLeft rot fontSize) fontSize
      { pool := r3.1, blk := r3.2.1, minBase := r1.2.2.getD g.minBase,
        maxBase := r2.2.2.getD g.maxBase, found := false } c1 c4 hmm3
    obtain ⟨d1, d2, d3, d4, _⟩ := id m1
    have m2 := growSide_spec (testRight rot fontSize) fontSize _ d1 d4
      (by rw [d2, d3]; exact hmm3)
    have m := (m0.trans m1).trans m2
    obtain ⟨e1, e2, e3, e4, e5, e6, e7, e8, e9, e10⟩ := m
    refine ⟨e1, e2, e3, e4, e5, e6, e7, ?_, e9, e10⟩
    intro h
    rcases e8 h with h' | h'
    · exact Bool.noConfusion (hf.symm.trans h')
    · exact Or.inr h'

/-- The loop `do ... while (found)` ends within the fuel: each round that
sets `found` takes a word out of the page pool. -/
theorem growBlock_spec (rot : Nat) (fontSize : ℚ) :
    ∀ (fuel : Nat) (g : Grow), g.pool.WF → g.blk.pool.WF →
      g.pool.minBaseIdx ≤ g.pool.maxBaseIdx → g.pool.words.length < fuel →
      ∃ g1, growBlock rot fontSize fuel g = .ok g1 ∧ g1.pool.WF ∧
        g1.pool.minBaseIdx = g.pool.minBaseIdx ∧ g1.pool.maxBaseIdx = g.pool.maxBaseIdx ∧
        g1.blk.pool.WF ∧ g1.blk.rot = g.blk.rot ∧
        (g.pool.words ++ g.blk.pool.words).Perm (g1.pool.words ++ g1.blk.pool.words) ∧
        g1.pool.words.length ≤ g.pool.words.length ∧
        (∀ j, g.pool.InRange j → g.pool.getPool j = [] → g1.pool.getPool j = []) ∧
        ∃ moved : List TextWord, g1.blk = moved.foldl NewBlock.addWord g.blk ∧
          g.pool.words.Perm (g1.pool.words ++ moved) := by
  intro fuel
  induction fuel with
  | zero => intro g _ _ _ h; omega
  | succ fuel ih =>
    intro g h1 h2 hmm hlen
    obtain ⟨a1, a2, a3, a4, a5, a6, a7, a8, a9, m1, a10, a11⟩ :=
      growStep_spec rot fontSize { g with found := false } h1 h2 hmm rfl
    unfold growBlock
    simp only
    split
    · next hfound =>
      have hlt : (growStep rot fontSize { g with found := false }).pool.words.length <
          g.pool.words.length := by
        rcases a8 hfound with h | h
        · exact Bool.noConfusion h
        · exact h
      obtain ⟨g1, e1, e2, e3, e4, e5, e6, e7, e8, e9, m2, e10, e11⟩ :=
        ih _ a1 a4 (by rw [a2, a3]; exact hmm) (by omega)
      refine ⟨g1, e1, e2, by rw [e3, a2], by rw [e4, a3], e5, by rw [e6, a5], a6.trans e7,
        by omega, fun j hj h0 => e9 j ((TextPool.inRange_congr a2 a3 j).mpr hj) (a9 j hj h0),
        m1 ++ m2, by rw [e10, a10, List.foldl_append], ?_⟩
      rw [List.perm_iff_count]
      intro x
      have c1 := a11.count_eq x
      have c2 := e11.count_eq x
      simp only [List.count_append] at c1 c2 ⊢
      omega
    · exact ⟨_, rfl, a1, a2, a3, a4, a5, a6, a7, a9, m1, a10, a11⟩

theorem perm_four {α : Type} [DecidableEq α] (a b c d : List α) :
    (a ++ b ++ (c ++ d)).Perm (c ++ a ++ (d ++ b)) := by
  rw [List.perm_iff_count]
  intro x
  simp only [List.count_append]
  omega

theorem perm_inner {α : Type} [DecidableEq α] (a b c d : List α) :
    (a ++ b ++ (c ++ d)).Perm (a ++ c ++ (b ++ d)) := by
  rw [List.perm_iff_count]
  intro x
  simp only [List.count_append]
  omega

/-- Lines 1602-1879 make a block whenever the base line `i` has a word: the
growth loop ends within its fuel, `blk->coalesce()` returns, and the pool has
lost at least the seed word. -/
theorem buildBlock_spec (rot r : Nat) (pool : TextPool) (i : Int) (hwf : pool.WF)
    (hi : pool.InRange i) (hne : pool.getPool i ≠ []) (hrot : ∀ w ∈ pool.words, w.rot = r) :
    ∃ (b : TextBlock) (del : List TextWord) (pool1 : TextPool),
      buildBlock rot pool i = .ok (b, del, pool1) ∧ pool1.WF ∧
      pool1.minBaseIdx = pool.minBaseIdx ∧ pool1.maxBaseIdx = pool.maxBaseIdx ∧
      pool1.words.length < pool.words.length ∧ (∀ w ∈ pool1.words, w ∈ pool.words) ∧
      (∀ j, pool.InRange j → pool.getPool j = [] → pool1.getPool j = []) ∧
      ∃ raws : List TextLine,
        pool.words.Perm (pool1.words ++ (del ++ raws.flatMap (fun l => l.words))) ∧
        (b.lines.map (fun l => l.words)).Perm (raws.map (fun l => l.coalesce.words)) := by
  obtain ⟨hs, hsne⟩ := startBaseIdx_spec pool i hi hne
  have hmm : pool.minBaseIdx ≤ pool.maxBaseIdx := le_trans hi.1 hi.2
  unfold buildBlock
  simp only
  split
  · next h0 => exact absurd h0 hsne
  · next word0 rest hget =>
    obtain ⟨s1, s2, s3⟩ := pool.setPool_WF (startBaseIdx pool i) rest hwf
    obtain ⟨others, p1, p2⟩ := pool.setPool_perm (startBaseIdx pool i) hwf hs
    rw [hget] at p1
    have hlen := pool.setPool_length (startBaseIdx pool i) rest hwf hs
    rw [hget] at hlen
    simp only [List.length_cons] at hlen
    obtain ⟨a1, a2, a3⟩ := NewBlock.addWord_keeps { rot := rot } word0 TextPool.empty_WF
    have a3 : (NewBlock.addWord { rot := rot } word0).pool.words.Perm [word0] := by
      simpa [TextPool.words, TextPool.empty] using a3
    obtain ⟨g, e1, e2, e3, e4, e5, e6, e7, e8, e9, _⟩ :=
      growBlock_spec rot word0.fontSize (pool.words.length + 1)
        { pool := pool.setPool (startBaseIdx pool i) rest,
          blk := NewBlock.addWord { rot := rot } word0,
          minBase := word0.base, maxBase := word0.base, found := false }
        s1 a1 (by rw [s2, s3]; exact hmm)
        (by show (pool.setPool (startBaseIdx pool i) rest).words.length < _; omega)
    simp only at e3 e4 e6 e7 e8 e9
    rw [e1]
    simp only
    -- the pool and the block hold the words of the pool before
    have hall : pool.words.Perm (g.pool.words ++ g.blk.pool.words) := by
      refine List.Perm.trans ?_ e7
      refine p1.trans ?_
      have : (word0 :: rest ++ others).Perm (rest ++ others ++ [word0]) := by
        simp only [List.cons_append]
        exact (List.perm_append_singleton word0 (rest ++ others)).symm
      exact this.trans (List.Perm.append (p2 rest).symm a3.symm)
    have hlen2 := hall.length_eq
    simp only [List.length_append] at hlen2
    have hbne : g.blk.pool.words ≠ [] := by
      intro h0
      rw [h0] at hlen2
      simp only [List.length_nil] at hlen2
      omega
    have hbrot : ∀ w ∈ g.blk.pool.words, w.rot = r :=
      fun w hw => hrot w (hall.symm.subset (List.mem_append_right _ hw))
    obtain ⟨b, lines, raws, del, c1, c2, _, _, _, _, _, c8, c9, _⟩ :=
      g.blk.coalesce_spec r e5 hbne hbrot
    rw [c1]
    refine ⟨b, del, g.pool, rfl, e2, by rw [e3, s2], by rw [e4, s3], by omega,
      fun w hw => hall.symm.subset (List.mem_append_left _ hw), ?_, raws,
      hall.trans (List.Perm.append_left _ c9), ?_⟩
    · intro j hj h0
      refine e9 j ((TextPool.inRange_congr s2 s3 j).mpr hj) ?_
      rw [pool.getPool_setPool _ j _ hwf hs hj]
      split
      · next hjs =>
        rw [hjs, hget] at h0
        cases h0
      · exact h0
    · have hk : b.lines.map (fun l => l.words) = lines.map (fun l => l.words) := by
        have := congrArg (List.map Prod.fst) (lines_keep lines)
        simp only [List.map_map] at this
        rw [c2]
        exact this
      rw [hk]
      have := c8.map (fun l => l.words)
      simpa only [List.map_map] using this

/-- The loop `while (1)` for one rotation ends within its fuel and leaves the
pool without a word. -/
theorem blocksOfPool_spec (rot r : Nat) :
    ∀ (fuel : Nat) (pool : TextPool) (i : Int) (blocks : List TextBlock)
      (deleted : List TextWord), pool.WF → pool.minBaseIdx ≤ i →
      (∀ j, pool.InRange j → j < i → pool.getPool j = []) →
      (∀ w ∈ pool.words, w.rot = r) → pool.words.length < fuel →
      ∃ (made : List TextBlock) (del : List TextWord) (pool1 : TextPool) (raws : List TextLine),
        blocksOfPool rot fuel pool i blocks deleted = .ok (blocks ++ made, deleted ++ del, pool1) ∧
        pool1.WF ∧ pool1.words = [] ∧
        pool.words.Perm (del ++ raws.flatMap (fun l => l.words)) ∧
        ((made.flatMap (fun b => b.lines)).map (fun l => l.words)).Perm
          (raws.map (fun l => l.coalesce.words)) := by
  intro fuel
  induction fuel with
  | zero => intro pool i blocks deleted _ _ _ _ h; omega
  | succ fuel ih =>
    intro pool i blocks deleted hwf hlo hemp hrot hlen
    obtain ⟨k1, k2, k3⟩ := skipEmptyLines_spec pool (pool.maxBaseIdx + 1 - i).toNat i le_rfl
    unfold blocksOfPool
    simp only
    split
    · next hgt =>
      have hnil : pool.words = [] := by
        apply pool.words_nil_of_buckets hwf
        intro j hj
        by_cases hji : j < i
        · exact hemp j hj hji
        · exact k2 j (by omega) (by unfold TextPool.InRange at hj; omega)
      refine ⟨[], [], pool, [], by simp, hwf, hnil, by simp [hnil], by simp⟩
    · next hle =>
      have hle : skipEmptyLines pool (pool.maxBaseIdx + 1 - i).toNat i ≤ pool.maxBaseIdx := by
        omega
      obtain ⟨b, del, pool1, c1, c2, c3, c4, c5, c6, c7, raws1, c8, c9⟩ :=
        buildBlock_spec rot r pool _ hwf ⟨by omega, hle⟩ (k3 hle) hrot
      rw [c1]
      simp only
      obtain ⟨made, del2, pool2, raws2, d1, d2, d3, d4, d5⟩ :=
        ih pool1 (skipEmptyLines pool (pool.maxBaseIdx + 1 - i).toNat i) (blocks ++ [b])
          (deleted ++ del) c2 (by rw [c3]; omega)
          (by
            intro j hj hlt
            have hj0 := (TextPool.inRange_congr c3 c4 j).mp hj
            apply c7 j hj0
            by_cases hji : j < i
            · exact hemp j hj0 hji
            · exact k2 j (by omega) hlt)
          (fun w hw => hrot w (c6 w hw)) (by omega)
      refine ⟨b :: made, del ++ del2, pool2, raws1 ++ raws2, ?_, d2, d3, ?_, ?_⟩
      · rw [d1]
        simp
      · refine c8.trans ((List.Perm.append_right _ d4).trans ?_)
        rw [List.flatMap_append]
        exact perm_four _ _ _ _
      · simp only [List.flatMap_cons, List.map_append]
        exact List.Perm.append c9 d5

/-- The loop over the rotations returns, and leaves every pool without a
word. -/
theorem blocksOfPools_spec :
    ∀ (pools : List TextPool) (rot : Nat) (blocks : List TextBlock) (deleted : List TextWord),
      (∀ p ∈ pools, p.WF) →
      (∀ (k : Nat) (p : TextPool), pools[k]? = some p → ∀ w ∈ p.words, w.rot = rot + k) →
      ∃ (made : List TextBlock) (del : List TextWord) (pools1 : List TextPool)
          (raws : List TextLine),
        blocksOfPools rot pools blocks deleted = .ok (blocks ++ made, deleted ++ del, pools1) ∧
        pools1.length = pools.length ∧ (∀ p ∈ pools1, p.WF ∧ p.words = []) ∧
        (pools.flatMap (fun p => p.words)).Perm (del ++ raws.flatMap (fun l => l.words)) ∧
        ((made.flatMap (fun b => b.lines)).map (fun l => l.words)).Perm
          (raws.map (fun l => l.coalesce.words)) := by
  intro pools
  induction pools with
  | nil =>
    intro rot blocks deleted _ _
    exact ⟨[], [], [], [], by simp [blocksOfPools], rfl, by simp, by simp, by simp⟩
  | cons pool pools ih =>
    intro rot blocks deleted hwf hrot
    obtain ⟨made1, del1, pool1, raws1, a1, a2, a3, a4, a5⟩ :=
      blocksOfPool_spec rot rot (pool.words.length + 1) pool pool.minBaseIdx blocks deleted
        (hwf pool (List.mem_cons_self _ _)) le_rfl
        (fun j hj hlt => by unfold TextPool.InRange at hj; omega)
        (fun w hw => by simpa using hrot 0 pool (by simp) w hw) (Nat.lt_succ_self _)
    obtain ⟨made2, del2, pools2, raws2, b1, b2, b3, b4, b5⟩ :=
      ih (rot + 1) (blocks ++ made1) (deleted ++ del1) (fun p hp => hwf p (List.mem_cons_of_mem _ hp))
        (fun k p hk w hw => by
          have := hrot (k + 1) p (by simpa using hk) w hw
          omega)
    unfold blocksOfPools
    rw [a1]
    simp only
    rw [b1]
    refine ⟨made1 ++ made2, del1 ++ del2, pool1 :: pools2, raws1 ++ raws2, by simp,
      by simp [b2], ?_, ?_, ?_⟩
    · intro p hp
      rcases List.mem_cons.mp hp with h | h
      · rw [h]; exact ⟨a2, a3⟩
      · exact b3 p h
    · simp only [List.flatMap_cons, List.flatMap_append]
      refine (List.Perm.append a4 b4).trans ?_
      exact perm_inner _ _ _ _
    · simp only [List.flatMap_append, List.map_append]
      exact List.Perm.append a5 b5

/-- The pools `TextPage::addWord` fills: four arrays of the shape
`TextPool::addWord` gives them, the pool `r` with words of rotation `r`. -/
theorem PageBuilder.foldl_addWord_pools (ws : List TextWord) :
    ∀ b : PageBuilder, b.pools.length = 4 → (∀ p ∈ b.pools, p.WF) →
      (∀ (k : Nat) (p : TextPool), b.pools[k]? = some p → ∀ w ∈ p.words, w.rot = k) →
      (ws.foldl PageBuilder.addWord b).pools.length = 4 ∧
        (∀ p ∈ (ws.foldl PageBuilder.addWord b).pools, p.WF) ∧
        ∀ (k : Nat) (p : TextPool), (ws.foldl PageBuilder.addWord b).pools[k]? = some p →
          ∀ w ∈ p.words, w.rot = k := by
  induction ws with
  | nil => intro b h1 h2 h3; exact ⟨h1, h2, h3⟩
  | cons word ws ih =>
    intro b h1 h2 h3
    simp only [List.foldl_cons]
    apply ih
    · unfold PageBuilder.addWord
      split
      · exact h1
      · split
        · exact h1
        · simpa using h1
    · unfold PageBuilder.addWord
      split
      · exact h2
      · split
        · exact h2
        · next pool hp =>
          intro p hmem
          simp only at hmem
          rcases List.mem_or_eq_of_mem_set hmem with h | h
          · exact h2 p h
          · rw [h]
            exact (pool.addWord_spec word (h2 pool ((List.mem_iff_getElem?.mpr ⟨_, hp⟩)))).1
    · unfold PageBuilder.addWord
      split
      · exact h3
      · split
        · exact h3
        · next pool hp =>
          intro k p hk w hw
          simp only at hk
          by_cases hkr : word.rot = k
          · have hlt : word.rot < b.pools.length := by
              by_contra hc
              rw [List.getElem?_eq_none (by omega)] at hp
              cases hp
            rw [← hkr, List.getElem?_set_self hlt] at hk
            cases hk
            have hperm := (pool.addWord_spec word (h2 pool ((List.mem_iff_getElem?.mpr ⟨_, hp⟩)))).2.2
            rcases List.mem_cons.mp (hperm.subset hw) with h | h
            · rw [h]; exact hkr
            · rw [← hkr]; exact h3 word.rot pool hp w h
          · rw [List.getElem?_set_ne hkr] at hk
            exact h3 k p hk w hw

theorem PageBuilder.init_pools_WF {pageWidth pageHeight : ℚ} :
    ∀ p ∈ (PageBuilder.init pageWidth pageHeight).pools, p.WF := by
  intro p hp
  simp only [PageBuilder.init, List.mem_cons, List.mem_singleton, List.mem_nil_iff,
    or_false, or_self] at hp
  rw [hp]
  exact TextPool.empty_WF

theorem PageBuilder.init_pools_rot {pageWidth pageHeight : ℚ} :
    ∀ (k : Nat) (p : TextPool), (PageBuilder.init pageWidth pageHeight).pools[k]? = some p →
      ∀ w ∈ p.words, w.rot = k := by
  intro k p hk w hw
  have hp : p = TextPool.empty := by
    have hmem := List.mem_iff_getElem?.mpr ⟨k, hk⟩
    simpa [PageBuilder.init] using hmem
  rw [hp] at hw
  simp [TextPool.words, TextPool.empty] at hw

/-! ## Lemmas: What the assembly does with the words -/

theorem PageBuilder.addWord_words (b : PageBuilder) (word : TextWord)
    (hlen : b.pools.length = 4) (hwf : ∀ p ∈ b.pools, p.WF) (hrot : word.rot < 4) :
    ((b.addWord word).pools.flatMap (fun p => p.words)).Perm
      (b.pools.flatMap (fun p => p.words) ++ [word].filter (fun w => decide (w.len ≠ 0))) := by
  unfold PageBuilder.addWord
  split
  · next h0 => simp [h0]
  · next h0 =>
    split
    · next hnone =>
      rw [List.getElem?_eq_none_iff] at hnone
      omega
    · next pool hp =>
      have hk : word.rot < (b.pools.map (fun p => p.words)).length := by
        rw [List.length_map]; omega
      obtain ⟨rest, p1, p2⟩ := flatten_set_perm (b.pools.map (fun p => p.words)) word.rot hk
      have hget : (b.pools.map (fun p => p.words)).getD word.rot [] = pool.words := by
        rw [List.getD_eq_getElem?_getD, List.getElem?_map, hp]
        rfl
      rw [hget] at p1
      have hperm := (pool.addWord_spec word (hwf pool (List.mem_iff_getElem?.mpr ⟨_, hp⟩))).2.2
      have e1 : ((b.pools.set word.rot (pool.addWord word)).flatMap (fun p => p.words)).Perm
          ((pool.addWord word).words ++ rest) := by
        have := p2 (pool.addWord word).words
        rw [← List.map_set] at this
        simpa only [List.flatMap] using this
      have e2 : (b.pools.flatMap (fun p => p.words)).Perm (pool.words ++ rest) := by
        simpa only [List.flatMap] using p1
      simp only [List.filter_cons, List.filter_nil, h0, ne_eq, not_false_eq_true, decide_True,
        if_true]
      refine e1.trans ((List.Perm.append_right _ hperm).trans ?_)
      refine List.Perm.trans ?_ (List.Perm.append_right _ e2.symm)
      simp only [List.cons_append]
      exact (List.perm_append_singleton word (pool.words ++ rest)).symm

/-- The words in the four pools are the words handed to `TextPage::addWord`
that have a glyph. -/
theorem PageBuilder.foldl_addWord_words (ws : List TextWord) :
    ∀ b : PageBuilder, b.pools.length = 4 → (∀ p ∈ b.pools, p.WF) →
      (∀ (k : Nat) (p : TextPool), b.pools[k]? = some p → ∀ w ∈ p.words, w.rot = k) →
      (∀ w ∈ ws, w.rot < 4) →
      ((ws.foldl PageBuilder.addWord b).pools.flatMap (fun p => p.words)).Perm
        (b.pools.flatMap (fun p => p.words) ++ ws.filter (fun w => decide (w.len ≠ 0))) := by
  induction ws with
  | nil => intro b _ _ _ _; simp
  | cons word ws ih =>
    intro b h1 h2 h3 hrot
    obtain ⟨a1, a2, a3⟩ := PageBuilder.foldl_addWord_pools [word] b h1 h2 h3
    simp only [List.foldl_cons, List.foldl_nil] at a1 a2 a3
    have hstep := PageBuilder.addWord_words b word h1 h2 (hrot word (List.mem_cons_self _ _))
    have hrest := ih (b.addWord word) a1 a2 a3 (fun w hw => hrot w (List.mem_cons_of_mem _ hw))
    simp only [List.foldl_cons]
    refine hrest.trans ((List.Perm.append_right _ hstep).trans ?_)
    rw [List.append_assoc]
    refine List.Perm.append_left _ ?_
    rw [← List.filter_append]
    rfl

theorem mergeLoop_glyphs (space fontSize : ℚ) :
    ∀ (rest : List TextWord) (word0 : TextWord), word0.Shaped → (∀ w ∈ rest, w.Shaped) →
      (∀ w ∈ mergeLoop space fontSize word0 rest, w.Shaped) ∧
      (mergeLoop space fontSize word0 rest).flatMap (fun w => w.text) =
        (word0 :: rest).flatMap (fun w => w.text) := by
  intro rest
  induction rest with
  | nil =>
    intro word0 h0 _
    refine ⟨?_, by simp [mergeLoop]⟩
    intro w hw
    simp only [mergeLoop, List.mem_singleton] at hw
    rw [hw]
    exact h0
  | cons word1 rest ih =>
    intro word0 h0 hr
    have h1 := hr word1 (List.mem_cons_self _ _)
    have hr1 : ∀ w ∈ rest, w.Shaped := fun w hw => hr w (List.mem_cons_of_mem _ hw)
    unfold mergeLoop
    split
    · obtain ⟨a1, a2⟩ := ih word1 h1 hr1
      refine ⟨?_, ?_⟩
      · intro w hw
        rcases List.mem_cons.mp hw with h | h
        · rw [h]; exact h0
        · exact a1 w h
      · simp only [List.flatMap_cons] at a2 ⊢
        rw [a2]
    · split
      · obtain ⟨a1, a2⟩ := ih (word0.merge word1) (word0.merge_shaped word1 h0 h1).1 hr1
        refine ⟨a1, ?_⟩
        rw [a2]
        simp [List.flatMap_cons, TextWord.merge]
      · obtain ⟨a1, a2⟩ := ih word1 h1 hr1
        refine ⟨?_, ?_⟩
        · intro w hw
          rcases List.mem_cons.mp hw with h | h
          · rw [h]; exact h0
          · exact a1 w h
        · simp only [List.flatMap_cons] at a2 ⊢
          rw [a2]

/-- The words of a line after `TextLine::coalesce`: each has a glyph and one
edge more than glyphs, and their code points are those of the words before,
in the same order. -/
theorem TextLine.coalesce_glyphs (raw : TextLine) (hs : ∀ w ∈ raw.words, w.Shaped) :
    (∀ w ∈ raw.coalesce.words, w.Shaped) ∧
      raw.coalesce.words.flatMap (fun w => w.text) = raw.words.flatMap (fun w => w.text) := by
  have hc : (∀ w ∈ coalesceWords raw.words, w.Shaped) ∧
      (coalesceWords raw.words).flatMap (fun w => w.text) =
        raw.words.flatMap (fun w => w.text) := by
    match hw : raw.words with
    | [] => simp [coalesceWords]
    | [w0] =>
      rw [hw] at hs
      exact ⟨by simpa [coalesceWords] using hs, by simp [coalesceWords]⟩
    | w0 :: w1 :: rest =>
      rw [hw] at hs
      exact mergeLoop_glyphs _ _ (w1 :: rest) w0 (hs w0 (List.mem_cons_self _ _))
        (fun w hw1 => hs w (List.mem_cons_of_mem _ hw1))
  have hk := words_keep (coalesceWords raw.words)
  have ht : (wordsPost (wordsPre (coalesceWords raw.words))).map (fun w => w.text) =
      (coalesceWords raw.words).map (fun w => w.text) := by
    have := congrArg (List.map (fun (t : List Unicode × List ℚ × ℚ) => t.1)) hk
    simpa only [List.map_map] using this
  have he : (wordsPost (wordsPre (coalesceWords raw.words))).map (fun w => (w.text, w.edge)) =
      (coalesceWords raw.words).map (fun w => (w.text, w.edge)) := by
    have := congrArg (List.map (fun (t : List Unicode × List ℚ × ℚ) => (t.1, t.2.1))) hk
    simpa only [List.map_map] using this
  refine ⟨?_, ?_⟩
  · intro w hw
    have hmem : (w.text, w.edge) ∈
        (wordsPost (wordsPre (coalesceWords raw.words))).map (fun w => (w.text, w.edge)) :=
      List.mem_map.mpr ⟨w, hw, rfl⟩
    rw [he] at hmem
    obtain ⟨v, hv, hve⟩ := List.mem_map.mp hmem
    have hvs := hc.1 v hv
    simp only [Prod.mk.injEq] at hve
    unfold TextWord.Shaped TextWord.len at hvs ⊢
    rw [← hve.1, ← hve.2]
    exact hvs
  · show (wordsPost (wordsPre (coalesceWords raw.words))).flatMap (fun w => w.text) = _
    rw [← hc.2]
    simp only [List.flatMap]
    rw [ht]

theorem sum_len_eq (ws : List TextWord) :
    (ws.map (fun w => w.len)).sum = (ws.flatMap (fun w => w.text)).length := by
  induction ws with
  | nil => rfl
  | cons w ws ih =>
    simp only [List.map_cons, List.sum_cons, List.flatMap_cons, List.length_append, ih]
    rfl

theorem sum_len_filter (ws : List TextWord) :
    ((ws.filter (fun w => decide (w.len ≠ 0))).map (fun w => w.len)).sum =
      (ws.map (fun w => w.len)).sum := by
  induction ws with
  | nil => rfl
  | cons w ws ih =>
    simp only [List.filter_cons]
    split
    · simp only [List.map_cons, List.sum_cons, ih]
    · next hd =>
      have h0 : w.len = 0 := by simpa using hd
      simp only [List.map_cons, List.sum_cons, ih, h0, Nat.zero_add]

theorem blockWords_eq (blocks : List TextBlock) :
    blockWords blocks = ((blocks.flatMap (fun b => b.lines)).map (fun l => l.words)).flatten := by
  unfold blockWords
  induction blocks with
  | nil => rfl
  | cons b bs ih =>
    simp only [List.flatMap_cons, List.map_append, List.flatten_append, ih]
    rfl

theorem coalesced_lines_glyphs (raws : List TextLine)
    (hs : ∀ raw ∈ raws, ∀ w ∈ raw.words, w.Shaped) :
    (((raws.map (fun l => l.coalesce.words)).flatten).map (fun w => w.len)).sum =
      ((raws.flatMap (fun l => l.words)).map (fun w => w.len)).sum := by
  induction raws with
  | nil => rfl
  | cons raw raws ih =>
    have h1 := (TextLine.coalesce_glyphs raw (hs raw (List.mem_cons_self _ _))).2
    have h2 := ih (fun r hr => hs r (List.mem_cons_of_mem _ hr))
    simp only [List.map_cons, List.flatten_cons, List.map_append, List.sum_append,
      List.flatMap_cons, h2]
    rw [sum_len_eq raw.coalesce.words, sum_len_eq raw.words, h1]

/-! ## Lemmas: Pools with one base line in use -/

theorem TextPool.OnlyLine.words_perm {pool : TextPool} {i : Int} {ws : List TextWord}
    (h : pool.OnlyLine i ws) : pool.words.Perm ws := by
  obtain ⟨hwf, hi, hget, hoth⟩ := h
  obtain ⟨rest, p1, p2⟩ := pool.setPool_perm i hwf hi
  obtain ⟨s1, s2, s3⟩ := pool.setPool_WF i [] hwf
  have hnil : (pool.setPool i []).words = [] := by
    apply TextPool.words_nil_of_buckets _ s1
    intro j hj
    have hj0 := (TextPool.inRange_congr s2 s3 j).mp hj
    rw [pool.getPool_setPool i j [] hwf hi hj0]
    split
    · rfl
    · next hne => exact hoth j hj0 hne
  have hrest : rest = [] := by
    have := (p2 []).length_eq
    rw [hnil] at this
    simpa using this.symm
  rw [hrest, List.append_nil, hget] at p1
  exact p1

theorem TextPool.OnlyLine.setPool {pool : TextPool} {i : Int} {ws : List TextWord}
    (h : pool.OnlyLine i ws) (ws1 : List TextWord) : (pool.setPool i ws1).OnlyLine i ws1 := by
  obtain ⟨hwf, hi, hget, hoth⟩ := h
  obtain ⟨s1, s2, s3⟩ := pool.setPool_WF i ws1 hwf
  refine ⟨s1, (TextPool.inRange_congr s2 s3 i).mpr hi, ?_, ?_⟩
  · rw [pool.getPool_setPool i i ws1 hwf hi hi]
    simp
  · intro j hj hne
    have hj0 := (TextPool.inRange_congr s2 s3 j).mp hj
    rw [pool.getPool_setPool i j ws1 hwf hi hj0, if_neg hne]
    exact hoth j hj0 hne

theorem TextPool.OnlyLine.removeAt {pool : TextPool} {i : Int} {ws : List TextWord}
    (h : pool.OnlyLine i ws) (k : Nat) : (pool.removeAt i k).OnlyLine i (ws.eraseIdx k) := by
  have := h.setPool (ws.eraseIdx k)
  unfold TextPool.removeAt
  rw [h.2.2.1]
  exact this

theorem TextPool.OnlyLine.words_nil {pool : TextPool} {i : Int} (h : pool.OnlyLine i []) :
    pool.words = [] := List.Perm.eq_nil h.words_perm

theorem TextPool.OnlyLine.getPool_eq {pool : TextPool} {i : Int} {ws : List TextWord}
    (h : pool.OnlyLine i ws) (j : Int) (hj : pool.InRange j) :
    pool.getPool j = if j = i then ws else [] := by
  split
  · next e => rw [e]; exact h.2.2.1
  · next e => exact h.2.2.2 j hj e

/-- A pool whose words all lie in the base line `i`. -/
theorem TextPool.onlyLine_of_mem (pool : TextPool) (i : Int) (ws : List TextWord)
    (hwf : pool.WF) (hi : pool.InRange i) (hperm : pool.words.Perm ws) (hnd : ws.Nodup)
    (hmem : ∀ w ∈ ws, w ∈ pool.getPool i) :
    (pool.getPool i).Perm ws ∧ ∀ j, pool.InRange j → j ≠ i → pool.getPool j = [] := by
  obtain ⟨rest, p1, p2⟩ := pool.setPool_perm i hwf hi
  obtain ⟨s1, s2, s3⟩ := pool.setPool_WF i [] hwf
  have hsub : ws.Subperm (pool.getPool i) := List.subperm_of_subset hnd hmem
  have hlen := hsub.length_le
  have hl1 := p1.length_eq
  have hl2 := hperm.length_eq
  simp only [List.length_append] at hl1
  have hrest : rest = [] := List.length_eq_zero.mp (by omega)
  rw [hrest, List.append_nil] at p1
  refine ⟨p1.symm.trans hperm, ?_⟩
  intro j hj hne
  have hnil : (pool.setPool i []).words = [] := by
    have := p2 []
    rw [hrest] at this
    exact List.Perm.eq_nil this
  have hj1 := (TextPool.inRange_congr s2 s3 j).mpr hj
  have hg := pool.getPool_setPool i j [] hwf hi hj
  rw [if_neg hne] at hg
  rw [← hg]
  apply List.eq_nil_iff_forall_not_mem.mpr
  intro v hv
  have := (pool.setPool i []).getPool_subset j v hv
  rw [hnil] at this
  cases this

/-- The pool after `addWord` of two words of one base line, the second
after the first along the primary axis. -/
theorem TextPool.onlyLine_pair (r : Nat) (a b : TextWord) (ha : a.rot = r) (hb : b.rot = r)
    (hidx : b.baseIdx = a.baseIdx) (hkey : a.primaryKey < b.primaryKey) :
    ((TextPool.empty.addWord a).addWord b).OnlyLine a.baseIdx [a, b] := by
  obtain ⟨h1, h2, _, h4⟩ := TextPool.foldl_addWord_sorted r [a, b] TextPool.empty
    TextPool.empty_WF (by simp [TextPool.empty]) (by simp [ha, hb])
  simp only [List.foldl_cons, List.foldl_nil] at h1 h2 h4
  have hA := h4 a (by simp)
  have hB := h4 b (by simp)
  have hB2 : b ∈ ((TextPool.empty.addWord a).addWord b).getPool a.baseIdx := by
    have := hB.2
    unfold TextWord.baseIdx at hidx ⊢
    rw [hidx] at this
    exact this
  have hperm : ((TextPool.empty.addWord a).addWord b).words.Perm [a, b] := by
    obtain ⟨w1, _, p1⟩ := TextPool.empty.addWord_spec a TextPool.empty_WF
    obtain ⟨_, _, p2⟩ := (TextPool.empty.addWord a).addWord_spec b w1
    have p1 : (TextPool.empty.addWord a).words.Perm [a] := by
      simpa [TextPool.words, TextPool.empty] using p1
    exact (p2.trans (List.Perm.cons b p1)).trans (List.Perm.swap a b [])
  have hne : a ≠ b := by
    intro e
    rw [e] at hkey
    exact lt_irrefl _ hkey
  obtain ⟨q1, q2⟩ := TextPool.onlyLine_of_mem _ a.baseIdx [a, b] h1 hA.1 hperm
    (by simp [hne])
    (by
      intro w hw
      simp only [List.mem_cons, List.mem_singleton, List.mem_nil_iff, or_false] at hw
      rcases hw with e | e
      · rw [e]; exact hA.2
      · rw [e]; exact hB2)
  refine ⟨h1, hA.1, ?_, q2⟩
  -- the base line is sorted
  have hsorted : (((TextPool.empty.addWord a).addWord b).getPool a.baseIdx).Pairwise
      (fun x y => x.primaryKey ≤ y.primaryKey) := by
    rcases getD_mem_or_nil ((TextPool.empty.addWord a).addWord b).pool
      (a.baseIdx - ((TextPool.empty.addWord a).addWord b).minBaseIdx).toNat with h | h
    · exact (h2 _ h).2
    · have : ((TextPool.empty.addWord a).addWord b).getPool a.baseIdx = [] := h
      rw [this]
      exact List.Pairwise.nil
  have hlen := q1.length_eq
  match hg : ((TextPool.empty.addWord a).addWord b).getPool a.baseIdx with
  | [] => rw [hg] at hlen; simp at hlen
  | [x] => rw [hg] at hlen; simp at hlen
  | x :: y :: z :: t => rw [hg] at hlen; simp at hlen
  | [x, y] =>
    rw [hg] at q1 hsorted
    have hxy : x.primaryKey ≤ y.primaryKey := by
      simpa using hsorted
    have hx : x = a ∨ x = b := by simpa using q1.subset (List.mem_cons_self _ _)
    have hy : y = a ∨ y = b := by
      simpa using q1.subset (List.mem_cons_of_mem _ (List.mem_cons_self _ _))
    have hamem : a = x ∨ a = y := by simpa using q1.symm.subset (List.mem_cons_self _ _)
    have hbmem : b = x ∨ b = y := by
      simpa using q1.symm.subset (List.mem_cons_of_mem _ (List.mem_cons_self _ _))
    rcases hx with ex | ex <;> rcases hy with ey | ey
    · subst ex; subst ey
      rcases hbmem with e | e <;> exact absurd e.symm hne
    · subst ex; subst ey; rfl
    · subst ex; subst ey
      exact absurd hxy (not_le.mpr hkey)
    · subst ex; subst ey
      rcases hamem with e | e <;> exact absurd e hne

/-! ## Lemmas: A round of the growth loop that finds nothing -/

theorem set_getD_self {α : Type} (d : α) : ∀ (l : List α) (k : Nat), l.set k (l.getD k d) = l := by
  intro l
  induction l with
  | nil => intro k; rfl
  | cons a l ih =>
    intro k
    cases k with
    | zero => rfl
    | succ k =>
      simp only [List.set_cons_succ, List.getD_cons_succ]
      rw [ih k]

theorem TextPool.setPool_getPool (pool : TextPool) (i : Int) :
    pool.setPool i (pool.getPool i) = pool := by
  unfold TextPool.setPool TextPool.getPool
  rw [set_getD_self]

theorem takeAll_none (test : NewBlock → TextWord → Bool) :
    ∀ (ws : List TextWord) (blk : NewBlock) (last : Option ℚ),
      (takeAll test ws blk last).2.2 = none →
        last = none ∧ takeAll test ws blk last = (ws, blk, none) := by
  intro ws
  induction ws with
  | nil =>
    intro blk last h
    simp only [takeAll] at h ⊢
    exact ⟨h, by rw [h]⟩
  | cons word1 rest ih =>
    intro blk last h
    unfold takeAll at h ⊢
    by_cases ht : test blk word1 = true
    · rw [if_pos ht] at h
      exact absurd (ih _ _ h).1 (by simp)
    · rw [if_neg ht] at h ⊢
      obtain ⟨e1, e2⟩ := ih blk last h
      refine ⟨e1, ?_⟩
      simp only [e2]

theorem sweep_none (test : NewBlock → TextWord → Bool) (step : Int) :
    ∀ (todo : Nat) (baseIdx : Int) (pool : TextPool) (blk : NewBlock) (last : Option ℚ),
      (sweep test step todo baseIdx pool blk last).2.2 = none →
        last = none ∧ sweep test step todo baseIdx pool blk last = (pool, blk, none) := by
  intro todo
  induction todo with
  | zero =>
    intro baseIdx pool blk last h
    simp only [sweep] at h ⊢
    exact ⟨h, by rw [h]⟩
  | succ todo ih =>
    intro baseIdx pool blk last h
    have hunf : sweep test step (todo + 1) baseIdx pool blk last =
        sweep test step todo (baseIdx + step)
          (pool.setPool baseIdx (takeAll test (pool.getPool baseIdx) blk last).1)
          (takeAll test (pool.getPool baseIdx) blk last).2.1
          (takeAll test (pool.getPool baseIdx) blk last).2.2 := rfl
    rw [hunf] at h ⊢
    obtain ⟨e1, e2⟩ := ih _ _ _ _ h
    obtain ⟨e3, e4⟩ := takeAll_none test _ _ _ e1
    refine ⟨e3, ?_⟩
    rw [e2, e4]
    simp only [TextPool.setPool_getPool]

theorem sweepSide_mono (test : ℚ → ℚ → NewBlock → TextWord → Bool) (fontSize : ℚ) :
    ∀ (todo : Nat) (baseIdx : Int) (g : Grow), g.found = true →
      (sweepSide test fontSize todo baseIdx g).found = true := by
  intro todo
  induction todo with
  | zero => intro baseIdx g h; exact h
  | succ todo ih =>
    intro baseIdx g h
    unfold sweepSide
    split
    · simp only
      split
      · exact ih _ _ rfl
      · exact ih _ _ h
    · exact h

theorem sweepSide_idle (test : ℚ → ℚ → NewBlock → TextWord → Bool) (fontSize : ℚ) :
    ∀ (todo : Nat) (baseIdx : Int) (g : Grow),
      (sweepSide test fontSize todo baseIdx g).found = false →
        sweepSide test fontSize todo baseIdx g = g := by
  intro todo
  induction todo with
  | zero => intro baseIdx g _; rfl
  | succ todo ih =>
    intro baseIdx g h
    unfold sweepSide at h ⊢
    split
    · next hle =>
      rw [if_pos hle] at h
      simp only at h ⊢
      split
      · next k word2 hk hw =>
        rw [hk, hw] at h
        simp only at h
        have := sweepSide_mono test fontSize todo (baseIdx + 1)
          { pool := g.pool.removeAt baseIdx k, blk := g.blk.addWord word2,
            minBase := if word2.base < g.minBase then word2.base else g.minBase,
            maxBase := if word2.base < g.minBase then g.maxBase
                       else if word2.base > g.maxBase then word2.base else g.maxBase,
            found := true } rfl
        rw [this] at h
        cases h
      · next hno =>
        apply ih
        split at h
        · next k word2 hk hw => exact absurd hw (hno k word2 hk)
        · exact h
    · rfl

theorem growSide_mono (test : ℚ → ℚ → NewBlock → TextWord → Bool) (fontSize : ℚ) (g : Grow)
    (h : g.found = true) : (growSide test fontSize g).found = true := by
  unfold growSide
  simp only
  split
  · exact sweepSide_mono test fontSize _ _ g h
  · exact h

theorem growSide_idle (test : ℚ → ℚ → NewBlock → TextWord → Bool) (fontSize : ℚ) (g : Grow)
    (h : (growSide test fontSize g).found = false) : growSide test fontSize g = g := by
  unfold growSide at h ⊢
  simp only at h ⊢
  split
  · next hn =>
    rw [if_pos hn] at h
    exact sweepSide_idle test fontSize _ _ g h
  · rfl

/-! ## Lemmas: The side scan on a pool with one base line in use -/

theorem findIdx?_of_find? {α : Type} (p : α → Bool) :
    ∀ (l : List α) (s : Nat) (w : α), l.find? p = some w → ∃ k, List.findIdx? p l s = some k := by
  intro l
  induction l with
  | nil => intro s w h; simp at h
  | cons a l ih =>
    intro s w h
    rw [List.findIdx?_cons]
    rw [List.find?_cons] at h
    by_cases hp : p a = true
    · exact ⟨s, by simp [hp]⟩
    · simp only [hp, Bool.false_eq_true, if_false] at h ⊢
      exact ih (s + 1) w h

theorem countSide_one (test : TextWord → Bool) (pool : TextPool) (i : Int) (ws : List TextWord)
    (h : pool.OnlyLine i ws) (hany : ws.any test = true) :
    ∀ (todo : Nat) (lo : Int), pool.minBaseIdx ≤ lo → lo + todo ≤ pool.maxBaseIdx + 1 →
      countSide test pool todo lo = if lo ≤ i ∧ i < lo + todo then 1 else 0 := by
  intro todo
  induction todo with
  | zero =>
    intro lo _ _
    simp only [countSide]
    rw [if_neg]
    push_cast
    omega
  | succ todo ih =>
    intro lo h1 h2
    push_cast at h2
    unfold countSide
    rw [ih (lo + 1) (by omega) (by omega)]
    rw [h.getPool_eq lo ⟨h1, by omega⟩]
    by_cases e : lo = i
    · rw [if_pos e, hany, if_pos rfl, if_neg (by omega), if_pos (by push_cast; omega)]
    · rw [if_neg e]
      simp only [List.any_nil, Bool.false_eq_true, if_false, Nat.zero_add]
      by_cases c : lo + 1 ≤ i ∧ i < lo + 1 + todo
      · rw [if_pos c, if_pos (by push_cast; omega)]
      · rw [if_neg c, if_neg (by push_cast; omega)]

theorem sweepSide_finds (test : ℚ → ℚ → NewBlock → TextWord → Bool) (fontSize : ℚ) (i : Int) :
    ∀ (todo : Nat) (baseIdx : Int) (g : Grow) (ws : List TextWord) (w : TextWord),
      g.pool.OnlyLine i ws → ws.find? (test g.minBase g.maxBase g.blk) = some w →
      g.pool.minBaseIdx ≤ baseIdx → baseIdx ≤ i → i < baseIdx + todo →
      i ≤ g.pool.getBaseIdx (g.maxBase + 1 / 2 * fontSize) →
      (sweepSide test fontSize todo baseIdx g).found = true := by
  intro todo
  induction todo with
  | zero =>
    intro baseIdx g ws w _ _ _ h1 h2 _
    push_cast at h2
    omega
  | succ todo ih =>
    intro baseIdx g ws w hp hw hmin h1 h2 h3
    push_cast at h2
    unfold sweepSide
    rw [if_pos (by omega)]
    simp only
    rw [hp.getPool_eq baseIdx ⟨hmin, by have := hp.2.1.2; omega⟩]
    by_cases e : baseIdx = i
    · rw [if_pos e]
      obtain ⟨k, hk⟩ := findIdx?_of_find? (test g.minBase g.maxBase g.blk) ws 0 w hw
      rw [hk, hw]
      exact sweepSide_mono test fontSize _ _ _ rfl
    · rw [if_neg e]
      simp only [List.findIdx?_nil, List.find?_nil]
      exact ih (baseIdx + 1) g ws w hp hw (by omega) (by omega) (by omega) h3

theorem growSide_finds (test : ℚ → ℚ → NewBlock → TextWord → Bool) (fontSize : ℚ) (i : Int)
    (g : Grow) (ws : List TextWord) (w : TextWord) (hp : g.pool.OnlyLine i ws)
    (hw : ws.find? (test g.minBase g.maxBase g.blk) = some w)
    (hlo : g.pool.getBaseIdx (g.minBase - 1 / 2 * fontSize) ≤ i)
    (hhi : i ≤ g.pool.getBaseIdx (g.maxBase + 1 / 2 * fontSize)) :
    (growSide test fontSize g).found = true := by
  have hmm : g.pool.minBaseIdx ≤ g.pool.maxBaseIdx := le_trans hp.2.1.1 hp.2.1.2
  have r1 := g.pool.getBaseIdx_inRange (g.minBase - 1 / 2 * fontSize) hmm
  have r2 := g.pool.getBaseIdx_inRange (g.maxBase + 1 / 2 * fontSize) hmm
  have hany : ws.any (test g.minBase g.maxBase g.blk) = true := by
    rw [List.any_eq_true]
    exact ⟨w, List.mem_of_find?_eq_some hw, List.find?_some hw⟩
  unfold growSide
  simp only
  rw [countSide_one _ g.pool i ws hp hany _ _ r1.1 (by have := r2.2; omega)]
  have hc : g.pool.getBaseIdx (g.minBase - 1 / 2 * fontSize) ≤ i ∧
      i < g.pool.getBaseIdx (g.minBase - 1 / 2 * fontSize) +
        ((g.pool.getBaseIdx (g.maxBase + 1 / 2 * fontSize) + 1 -
          g.pool.getBaseIdx (g.minBase - 1 / 2 * fontSize)).toNat : Int) :=
    ⟨hlo, by omega⟩
  rw [if_pos hc, if_pos (by decide)]
  exact sweepSide_finds test fontSize i _ _ g ws w hp hw r1.1 hlo (by have := hp.2.1.2; omega) hhi

/-- A round of the growth loop on a pool whose only base line in use has a word
that passes the test of the right side scan: the round sets `found`. -/
theorem growStep_finds (rot : Nat) (fontSize : ℚ) (i : Int) (g : Grow) (ws : List TextWord)
    (w : TextWord) (hp : g.pool.OnlyLine i ws) (hf : g.found = false)
    (hw : ws.find? (testRight rot fontSize g.minBase g.maxBase g.blk) = some w)
    (hlo : g.pool.getBaseIdx (g.minBase - 1 / 2 * fontSize) ≤ i)
    (hhi : i ≤ g.pool.getBaseIdx (g.maxBase + 1 / 2 * fontSize)) :
    (growStep rot fontSize g).found = true := by
  obtain ⟨r1, hr1⟩ : ∃ r1, r1 = sweep (testAbove rot fontSize g.minBase) (-1)
      (g.pool.getBaseIdx g.minBase + 1 -
        g.pool.getBaseIdx (g.minBase - 15 / 10 * fontSize)).toNat
      (g.pool.getBaseIdx g.minBase) g.pool g.blk none := ⟨_, rfl⟩
  obtain ⟨r2, hr2⟩ : ∃ r2, r2 = sweep (testBelow rot fontSize g.maxBase) 1
      (r1.1.getBaseIdx (g.maxBase + 15 / 10 * fontSize) + 1 -
        r1.1.getBaseIdx g.maxBase).toNat
      (r1.1.getBaseIdx g.maxBase) r1.1 r1.2.1 none := ⟨_, rfl⟩
  obtain ⟨r3, hr3⟩ : ∃ r3, r3 = sweep
      (testInside rot fontSize (r1.2.2.getD g.minBase) (r2.2.2.getD g.maxBase)) 1
      (r2.1.getBaseIdx (r2.2.2.getD g.maxBase + 1 / 2 * fontSize) + 1 -
        r2.1.getBaseIdx (r1.2.2.getD g.minBase - 1 / 2 * fontSize)).toNat
      (r2.1.getBaseIdx (r1.2.2.getD g.minBase - 1 / 2 * fontSize)) r2.1 r2.2.1 none :=
    ⟨_, rfl⟩
  have hunf : growStep rot fontSize g =
      if (r1.2.2.isSome || r2.2.2.isSome || r3.2.2.isSome) = true then
        { pool := r3.1, blk := r3.2.1, minBase := r1.2.2.getD g.minBase,
          maxBase := r2.2.2.getD g.maxBase,
          found := r1.2.2.isSome || r2.2.2.isSome || r3.2.2.isSome }
      else
        growSide (testRight rot fontSize) fontSize
          (growSide (testLeft rot fontSize) fontSize
            { pool := r3.1, blk := r3.2.1, minBase := r1.2.2.getD g.minBase,
              maxBase := r2.2.2.getD g.maxBase,
              found := r1.2.2.isSome || r2.2.2.isSome || r3.2.2.isSome }) := by
    rw [hr3, hr2, hr1]
    rfl
  rw [hunf]
  by_cases hs : (r1.2.2.isSome || r2.2.2.isSome || r3.2.2.isSome) = true
  · rw [if_pos hs]
    exact hs
  · rw [if_neg hs]
    simp only [Bool.or_eq_true, Option.isSome_iff_ne_none, not_or, not_not] at hs
    obtain ⟨⟨n1, n2⟩, n3⟩ := hs
    -- nothing has moved
    have e1 : r1 = (g.pool, g.blk, none) := by
      rw [hr1] at n1 ⊢
      exact (sweep_none _ _ _ _ _ _ _ n1).2
    subst e1
    have e2 : r2 = (g.pool, g.blk, none) := by
      rw [hr2] at n2 ⊢
      exact (sweep_none _ _ _ _ _ _ _ n2).2
    subst e2
    have e3 : r3 = (g.pool, g.blk, none) := by
      rw [hr3] at n3 ⊢
      exact (sweep_none _ _ _ _ _ _ _ n3).2
    subst e3
    have hg : ({ pool := g.pool, blk := g.blk, minBase := (none : Option ℚ).getD g.minBase,
                 maxBase := (none : Option ℚ).getD g.maxBase,
                 found := (none : Option ℚ).isSome || (none : Option ℚ).isSome ||
                   (none : Option ℚ).isSome } : Grow) = g := by
      cases g
      simp only [Option.getD_none, Option.isSome_none, Bool.or_self] at hf ⊢
      rw [hf]
    simp only at hg ⊢
    rw [hg]
    by_cases hL : (growSide (testLeft rot fontSize) fontSize g).found = true
    · exact growSide_mono _ _ _ hL
    · have hL0 : (growSide (testLeft rot fontSize) fontSize g).found = false := by
        simpa using hL
      rw [growSide_idle _ _ g hL0]
      exact growSide_finds (testRight rot fontSize) fontSize i g ws w hp hw hlo hhi

/-- The growth loop on a pool that holds one word, right of the block and
within `colSpace2`: the word is moved to the block and the pool is left
without a word. -/
theorem growBlock_takes (rot : Nat) (fontSize : ℚ) (i : Int) (g : Grow) (w : TextWord)
    (fuel : Nat) (hfuel : 2 ≤ fuel) (hp : g.pool.OnlyLine i [w]) (hb : g.blk.pool.WF)
    (hw : testRight rot fontSize g.minBase g.maxBase g.blk w = true)
    (hlo : g.pool.getBaseIdx (g.minBase - 1 / 2 * fontSize) ≤ i)
    (hhi : i ≤ g.pool.getBaseIdx (g.maxBase + 1 / 2 * fontSize)) :
    ∃ g1, growBlock rot fontSize fuel g = .ok g1 ∧ g1.pool.WF ∧ g1.pool.words = [] ∧
      g1.pool.minBaseIdx = g.pool.minBaseIdx ∧ g1.pool.maxBaseIdx = g.pool.maxBaseIdx ∧
      g1.blk = g.blk.addWord w := by
  have hmm : g.pool.minBaseIdx ≤ g.pool.maxBaseIdx := le_trans hp.2.1.1 hp.2.1.2
  have hlen : g.pool.words.length = 1 := by
    have := hp.words_perm.length_eq
    simpa using this
  obtain ⟨g1, e1, e2, e3, e4, e5, e6, e7, e8, e9, moved, e10, e11⟩ :=
    growBlock_spec rot fontSize fuel g hp.1 hb hmm (by omega)
  -- the first round sets `found`
  have hfound : (growStep rot fontSize { g with found := false }).found = true :=
    growStep_finds rot fontSize i { g with found := false } [w] w hp rfl
      (by simp only [List.find?_cons, hw]) hlo hhi
  obtain ⟨a1, a2, a3, a4, a5, a6, a7, a8, a9, _⟩ :=
    growStep_spec rot fontSize { g with found := false } hp.1 hb hmm rfl
  have hlt : (growStep rot fontSize { g with found := false }).pool.words.length = 0 := by
    rcases a8 hfound with h | h
    · exact Bool.noConfusion h
    · have : (growStep rot fontSize { g with found := false }).pool.words.length <
          g.pool.words.length := h
      omega
  have hnil : g1.pool.words = [] := by
    obtain ⟨n, hn⟩ : ∃ n, fuel = n + 1 := ⟨fuel - 1, by omega⟩
    subst hn
    unfold growBlock at e1
    simp only at e1
    rw [if_pos hfound] at e1
    obtain ⟨g2, c1, _, _, _, _, _, _, c8, _⟩ := growBlock_spec rot fontSize n _ a1 a4
      (by rw [a2, a3]; exact hmm) (by omega)
    rw [c1] at e1
    cases e1
    exact List.length_eq_zero.mp (by omega)
  refine ⟨g1, e1, e2, hnil, e3, e4, ?_⟩
  rw [hnil, List.nil_append] at e11
  have hm : moved = [w] := by
    have := hp.words_perm.symm.trans e11
    exact (List.singleton_perm.mp this).symm
  rw [e10, hm]
  rfl

/-! ## Lemmas: `TextBlock::coalesce` on a pool with one base line in use -/

theorem findDupFrom_none (rot : Nat) (word0 : TextWord) :
    ∀ (l : List TextWord) (k : Nat), (∀ w2 ∈ l, isDup rot word0 w2 = false) →
      findDupFrom rot word0 l k = none := by
  intro l
  induction l with
  | nil => intro k _; rfl
  | cons w2 rest ih =>
    intro k h
    unfold findDupFrom
    rw [h w2 (List.mem_cons_self _ _)]
    simp only [Bool.false_eq_true, if_false]
    exact ih (k + 1) (fun v hv => h v (List.mem_cons_of_mem _ hv))

theorem findDup_none (rot : Nat) (pool : TextPool) (i : Int) (ws : List TextWord)
    (hp : pool.OnlyLine i ws) (word0 : TextWord) (k0 : Nat)
    (h : ∀ w2 ∈ ws.drop (k0 + 1), isDup rot word0 w2 = false) :
    ∀ (todo : Nat) (idx1 : Int), pool.minBaseIdx ≤ idx1 → idx1 + todo ≤ pool.maxBaseIdx + 1 →
      findDup rot pool word0 i k0 todo idx1 = none := by
  intro todo
  induction todo with
  | zero => intro idx1 _ _; rfl
  | succ todo ih =>
    intro idx1 h1 h2
    push_cast at h2
    unfold findDup
    simp only
    have hr : (if idx1 = i then
          findDupFrom rot word0 ((pool.getPool i).drop (k0 + 1)) (k0 + 1)
        else findDupFrom rot word0 (pool.getPool idx1) 0) = none := by
      split
      · rw [hp.2.2.1]
        exact findDupFrom_none rot word0 _ _ h
      · next hne =>
        rw [hp.2.2.2 idx1 ⟨h1, by omega⟩ hne]
        rfl
    rw [hr]
    exact ih (idx1 + 1) (by omega) (by omega)

theorem dedupeLine_idle (rot : Nat) (pool : TextPool) (i : Int) (ws : List TextWord)
    (hp : pool.OnlyLine i ws)
    (h : ∀ (k0 : Nat) (word0 : TextWord), ws[k0]? = some word0 →
      ∀ w2 ∈ ws.drop (k0 + 1), isDup rot word0 w2 = false)
    (deleted : List TextWord) :
    ∀ (fuel k0 : Nat), ws.length - k0 < fuel →
      dedupeLine rot i fuel pool k0 deleted = .ok (pool, deleted) := by
  have hmm : pool.minBaseIdx ≤ pool.maxBaseIdx := le_trans hp.2.1.1 hp.2.1.2
  intro fuel
  induction fuel with
  | zero =>
    intro k0 hlt
    omega
  | succ fuel ih =>
    intro k0 hlt
    unfold dedupeLine
    rw [hp.2.2.1]
    cases hk : ws[k0]? with
    | none => rfl
    | some word0 =>
      simp only
      have hklt : k0 < ws.length := by
        by_contra hc
        rw [List.getElem?_eq_none (by omega)] at hk
        cases hk
      have hnone : ∀ m : Int, pool.InRange m →
          findDup rot pool word0 i k0 (m + 1 - i).toNat i = none := by
        intro m hm
        apply findDup_none rot pool i ws hp word0 k0 (h k0 word0 hk) _ _ hp.2.1.1
        have := hm.2
        have := hp.2.1.2
        omega
      have hfd : findDup rot pool word0 i k0
          ((if rot = 0 ∨ rot = 3 then pool.getBaseIdx (word0.base + 2 / 10 * word0.fontSize)
            else pool.getBaseIdx (word0.base - 2 / 10 * word0.fontSize)) + 1 - i).toNat i
          = none := by
        apply hnone
        split
        · exact pool.getBaseIdx_inRange _ hmm
        · exact pool.getBaseIdx_inRange _ hmm
      rw [hfd]
      exact ih (k0 + 1) (by omega)

theorem dedupeFrom_idle (rot : Nat) (pool : TextPool) (i : Int) (ws : List TextWord)
    (hp : pool.OnlyLine i ws)
    (h : ∀ (k0 : Nat) (word0 : TextWord), ws[k0]? = some word0 →
      ∀ w2 ∈ ws.drop (k0 + 1), isDup rot word0 w2 = false)
    (fuel : Nat) (hfuel : ws.length < fuel) (deleted : List TextWord) :
    ∀ (todo : Nat) (idx0 : Int), pool.minBaseIdx ≤ idx0 → idx0 + todo ≤ pool.maxBaseIdx + 1 →
      dedupeFrom rot fuel todo idx0 pool deleted = .ok (pool, deleted) := by
  intro todo
  induction todo with
  | zero => intro idx0 _ _; rfl
  | succ todo ih =>
    intro idx0 h1 h2
    push_cast at h2
    unfold dedupeFrom
    have hline : dedupeLine rot idx0 fuel pool 0 deleted = .ok (pool, deleted) := by
      by_cases e : idx0 = i
      · rw [e]
        exact dedupeLine_idle rot pool i ws hp h deleted fuel 0 (by omega)
      · obtain ⟨n, hn⟩ : ∃ n, fuel = n + 1 := ⟨fuel - 1, by omega⟩
        rw [hn]
        unfold dedupeLine
        rw [hp.2.2.2 idx0 ⟨h1, by omega⟩ e]
        rfl
    rw [hline]
    exact ih (idx0 + 1) (by omega) (by omega)

/-- The duplicate removal on a base line without duplicates deletes
nothing. -/
theorem dedupe_idle (rot : Nat) (pool : TextPool) (i : Int) (ws : List TextWord)
    (hp : pool.OnlyLine i ws)
    (h : ∀ (k0 : Nat) (word0 : TextWord), ws[k0]? = some word0 →
      ∀ w2 ∈ ws.drop (k0 + 1), isDup rot word0 w2 = false) :
    dedupe rot pool = .ok (pool, []) := by
  unfold dedupe
  have hlen := hp.words_perm.length_eq
  apply dedupeFrom_idle rot pool i ws hp h _ (by omega) [] _ _ le_rfl
  have := hp.2.1.1
  have := hp.2.1.2
  omega

theorem skipEmptyLines_onlyLine (pool : TextPool) (i : Int) (ws : List TextWord)
    (hp : pool.OnlyLine i ws) (hne : ws ≠ []) (start : Int) (h1 : pool.minBaseIdx ≤ start)
    (h2 : start ≤ i) :
    skipEmptyLines pool (pool.maxBaseIdx + 1 - start).toNat start = i := by
  obtain ⟨k1, k2, k3⟩ := skipEmptyLines_spec pool (pool.maxBaseIdx + 1 - start).toNat start le_rfl
  have hle : skipEmptyLines pool (pool.maxBaseIdx + 1 - start).toNat start ≤ i := by
    by_contra hc
    have := k2 i h2 (by omega)
    rw [hp.2.2.1] at this
    exact hne this
  by_contra hc
  have hmax := hp.2.1.2
  exact k3 (by omega) (hp.2.2.2 _ ⟨by omega, by omega⟩ hc)

theorem skipEmptyLines_none (pool : TextPool) (hnil : pool.words = []) (start : Int) :
    skipEmptyLines pool (pool.maxBaseIdx + 1 - start).toNat start > pool.maxBaseIdx := by
  obtain ⟨k1, _, k3⟩ := skipEmptyLines_spec pool (pool.maxBaseIdx + 1 - start).toNat start le_rfl
  by_contra hc
  apply k3 (by omega)
  apply List.eq_nil_iff_forall_not_mem.mpr
  intro v hv
  have := pool.getPool_subset _ v hv
  rw [hnil] at this
  cases this

theorem startBaseIdx_onlyLine (pool : TextPool) (i : Int) (ws : List TextWord)
    (hp : pool.OnlyLine i ws) (hne : ws ≠ []) : startBaseIdx pool i = i := by
  obtain ⟨a1, a2⟩ := startBaseIdx_spec pool i hp.2.1 (by rw [hp.2.2.1]; exact hne)
  by_contra hc
  exact a2 (hp.2.2.2 _ a1 hc)

theorem bestWord_skip (pool : TextPool) (lastWord : TextWord) (minBase maxBase fontSize : ℚ) :
    ∀ (todo : Nat) (baseIdx : Int) (best : Option (Int × Nat × TextWord)),
      (∀ j : Int, baseIdx ≤ j → j < baseIdx + todo → pool.getPool j = []) →
      bestWord pool lastWord minBase maxBase fontSize todo baseIdx best = best := by
  intro todo
  induction todo with
  | zero => intro baseIdx best _; rfl
  | succ todo ih =>
    intro baseIdx best h
    unfold bestWord
    rw [h baseIdx le_rfl (by push_cast; omega)]
    simp only [firstFit]
    exact ih (baseIdx + 1) best (fun j h1 h2 => h j (by omega) (by push_cast; omega))

theorem bestWord_single (pool : TextPool) (i : Int) (w : TextWord) (hp : pool.OnlyLine i [w])
    (lastWord : TextWord) (minBase maxBase fontSize : ℚ)
    (hfit : w.base ≥ minBase ∧ w.base ≤ maxBase ∧
      lastWord.primaryDelta w ≥ -(2 / 10) * fontSize)
    (hnear : lastWord.primaryDelta w < 15 / 10 * fontSize) :
    ∀ (todo : Nat) (baseIdx : Int), pool.minBaseIdx ≤ baseIdx →
      baseIdx + todo ≤ pool.maxBaseIdx + 1 → baseIdx ≤ i → i < baseIdx + todo →
      bestWord pool lastWord minBase maxBase fontSize todo baseIdx none = some (i, 0, w) := by
  intro todo
  induction todo with
  | zero => intro baseIdx _ _ h1 h2; push_cast at h2; omega
  | succ todo ih =>
    intro baseIdx hmin hmax h1 h2
    push_cast at h2 hmax
    unfold bestWord
    by_cases e : baseIdx = i
    · rw [e, hp.2.2.1]
      simp only [firstFit, hfit, and_self, if_true, hnear, decide_True, Bool.and_self]
      apply bestWord_skip
      intro j hj1 hj2
      exact hp.2.2.2 j ⟨by have := hp.2.1.1; omega, by omega⟩ (by omega)
    · rw [hp.2.2.2 baseIdx ⟨hmin, by omega⟩ e]
      simp only [firstFit]
      exact ih (baseIdx + 1) (by omega) (by omega) (by omega) (by omega)

/-- The line loop on a pool that holds one word, which fits after the seed:
the line takes the word. -/
theorem lineLoop_single (pool : TextPool) (i : Int) (w : TextWord) (hp : pool.OnlyLine i [w])
    (word0 : TextWord) (minBase maxBase fontSize : ℚ) (lo hi : Int)
    (hlo : pool.minBaseIdx ≤ lo) (hhi : hi ≤ pool.maxBaseIdx) (h1 : lo ≤ i) (h2 : i ≤ hi)
    (hfit : w.base ≥ minBase ∧ w.base ≤ maxBase ∧ word0.primaryDelta w ≥ -(2 / 10) * fontSize)
    (hnear : word0.primaryDelta w < 15 / 10 * fontSize) (fuel : Nat) (hfuel : 2 ≤ fuel) :
    lineLoop minBase maxBase fontSize lo hi fuel pool word0 [word0] =
      .ok ([word0, w], pool.removeAt i 0) := by
  obtain ⟨n, hn⟩ : ∃ n, fuel = n + 2 := ⟨fuel - 2, by omega⟩
  subst hn
  unfold lineLoop
  rw [bestWord_single pool i w hp word0 minBase maxBase fontSize hfit hnear _ _ hlo (by omega) h1
    (by omega)]
  simp only
  unfold lineLoop
  have hp2 := hp.removeAt 0
  obtain ⟨r1, r2, r3⟩ := pool.removeAt_WF i 0 hp.1
  rw [bestWord_skip]
  · rfl
  · intro j hj1 hj2
    by_cases e : j = i
    · rw [e]; exact hp2.2.2.1
    · exact hp2.2.2.2 j ⟨by rw [r2]; omega, by rw [r3]; omega⟩ e

theorem truncToInt_mono {p q : ℚ} (h : p ≤ q) : truncToInt p ≤ truncToInt q := by
  unfold truncToInt
  split
  · next hp =>
    rw [if_pos (le_trans hp h)]
    exact Int.floor_le_floor h
  · next hp =>
    split
    · next hq =>
      have h1 : Int.ceil p ≤ 0 := Int.ceil_le.mpr (by push_cast; exact le_of_lt (not_le.mp hp))
      have h2 : (0 : Int) ≤ Int.floor q := Int.le_floor.mpr (by push_cast; exact hq)
      omega
    · exact Int.ceil_le_ceil h

theorem TextPool.getBaseIdx_mono (pool : TextPool) {p q : ℚ} (h : p ≤ q)
    (hmm : pool.minBaseIdx ≤ pool.maxBaseIdx) : pool.getBaseIdx p ≤ pool.getBaseIdx q := by
  have := truncToInt_mono (div_le_div_of_nonneg_right h (by norm_num : (0 : ℚ) ≤ 4))
  unfold TextPool.getBaseIdx
  simp only
  split <;> split <;> (try split) <;> (try split) <;> omega

theorem TextPool.getBaseIdx_of_inRange (pool : TextPool) (base : ℚ)
    (h : pool.InRange (truncToInt (base / 4))) : pool.getBaseIdx base = truncToInt (base / 4) := by
  unfold TextPool.InRange at h
  unfold TextPool.getBaseIdx
  simp only
  rw [if_neg (by omega), if_neg (by omega)]

/-- Lines 757-825 on a pool whose only base line in use holds two words, the
second one fitting after the first: one line of both. -/
theorem buildLine_pair (pool : TextPool) (a b : TextWord)
    (hp : pool.OnlyLine a.baseIdx [a, b])
    (hfit : b.base ≥ a.base - 1 / 2 * a.fontSize ∧ b.base ≤ a.base + 1 / 2 * a.fontSize ∧
      a.primaryDelta b ≥ -(2 / 10) * a.fontSize)
    (hnear : a.primaryDelta b < 15 / 10 * a.fontSize) :
    buildLine pool a.baseIdx =
      .ok (newTextLine a.rot a.base [a, b], (pool.setPool a.baseIdx [b]).removeAt a.baseIdx 0) := by
  have hmm : pool.minBaseIdx ≤ pool.maxBaseIdx := le_trans hp.2.1.1 hp.2.1.2
  have hp1 := hp.setPool [b]
  obtain ⟨s1, s2, s3⟩ := pool.setPool_WF a.baseIdx [b] hp.1
  have hmm1 : (pool.setPool a.baseIdx [b]).minBaseIdx ≤ (pool.setPool a.baseIdx [b]).maxBaseIdx := by
    rw [s2, s3]; exact hmm
  have hlen : (pool.setPool a.baseIdx [b]).words.length = 1 := by
    simpa using hp1.words_perm.length_eq
  have hidx : (pool.setPool a.baseIdx [b]).getBaseIdx a.base = a.baseIdx :=
    TextPool.getBaseIdx_of_inRange _ _ hp1.2.1
  unfold buildLine
  simp only
  rw [startBaseIdx_onlyLine pool a.baseIdx [a, b] hp (by simp), hp.2.2.1]
  simp only
  rw [lineLoop_single (pool.setPool a.baseIdx [b]) a.baseIdx b hp1 a _ _ a.fontSize _ _
    ((pool.setPool a.baseIdx [b]).getBaseIdx_inRange _ hmm1).1
    ((pool.setPool a.baseIdx [b]).getBaseIdx_inRange _ hmm1).2
    (by rw [← hidx]; exact TextPool.getBaseIdx_mono _ (by linarith) hmm1)
    (by rw [← hidx]; exact TextPool.getBaseIdx_mono _ (by linarith) hmm1)
    hfit hnear _ (by omega)]

/-- The loop `while (1)` of lines 747-847 on such a pool: the one line, after
`TextLine::coalesce`. -/
theorem buildLines_pair (pool : TextPool) (a b : TextWord)
    (hp : pool.OnlyLine a.baseIdx [a, b])
    (hfit : b.base ≥ a.base - 1 / 2 * a.fontSize ∧ b.base ≤ a.base + 1 / 2 * a.fontSize ∧
      a.primaryDelta b ≥ -(2 / 10) * a.fontSize)
    (hnear : a.primaryDelta b < 15 / 10 * a.fontSize) (fuel : Nat) (hfuel : 2 ≤ fuel) :
    buildLines fuel pool pool.minBaseIdx [] none =
      .ok [(newTextLine a.rot a.base [a, b]).coalesce] := by
  obtain ⟨n, hn⟩ : ∃ n, fuel = n + 2 := ⟨fuel - 2, by omega⟩
  subst hn
  have hp2 := (hp.setPool [b]).removeAt 0
  obtain ⟨s1, s2, s3⟩ := pool.setPool_WF a.baseIdx [b] hp.1
  obtain ⟨r1, r2, r3⟩ := (pool.setPool a.baseIdx [b]).removeAt_WF a.baseIdx 0 s1
  unfold buildLines
  simp only
  rw [skipEmptyLines_onlyLine pool a.baseIdx [a, b] hp (by simp) _ le_rfl hp.2.1.1]
  rw [if_neg (by have := hp.2.1.2; omega), buildLine_pair pool a b hp hfit hnear]
  simp only
  unfold buildLines
  simp only
  rw [if_pos (skipEmptyLines_none _ hp2.words_nil _)]
  simp [insertLine, lineStart, linePos]

/-- Method `TextBlock::coalesce` on a block whose pool holds two words on one
base line, not duplicates of each other, the second fitting after the first:
one line of both. -/
theorem NewBlock.coalesce_pair (blk : NewBlock) (a b : TextWord)
    (hp : blk.pool.OnlyLine a.baseIdx [a, b]) (hdup : isDup blk.rot a b = false)
    (hfit : b.base ≥ a.base - 1 / 2 * a.fontSize ∧ b.base ≤ a.base + 1 / 2 * a.fontSize ∧
      a.primaryDelta b ≥ -(2 / 10) * a.fontSize)
    (hnear : a.primaryDelta b < 15 / 10 * a.fontSize) :
    blk.coalesce =
      .ok ({ lines := linesPost (linesPre [(newTextLine a.rot a.base [a, b]).coalesce]),
             box := blk.box, pre := ⟨0, 0, 0, 0⟩, post := ⟨0, 0, 0, 0⟩, rot := blk.rot }, []) := by
  have hd : dedupe blk.rot blk.pool = .ok (blk.pool, []) := by
    apply dedupe_idle blk.rot blk.pool a.baseIdx [a, b] hp
    intro k0 word0 hk w2 hw2
    match k0, hk, hw2 with
    | 0, hk, hw2 =>
      simp only [List.getElem?_cons_zero, Option.some.injEq] at hk
      simp only [Nat.zero_add, List.drop_succ_cons, List.drop_zero, List.mem_singleton] at hw2
      rw [← hk, hw2]
      exact hdup
    | k + 1, hk, hw2 =>
      simp at hw2
  have hlen : blk.pool.words.length = 2 := by simpa using hp.words_perm.length_eq
  unfold NewBlock.coalesce
  rw [hd]
  simp only
  rw [buildLines_pair blk.pool a b hp hfit hnear _ (by omega)]

/-! ## Lemmas: The assembly of two words on one base line -/

/-- Lines 1602-1879 on a pool whose only base line in use holds two words of
the rotation, the second right of the first within `colSpace2`: one block of
one line, and the pool is left without a word. -/
theorem buildBlock_pair (rot : Nat) (pool : TextPool) (a b : TextWord)
    (hp : pool.OnlyLine a.baseIdx [a, b]) (ha : a.rot = rot) (hb : b.rot = rot)
    (hidx : b.baseIdx = a.baseIdx) (hkey : a.primaryKey < b.primaryKey)
    (hright : testRight rot a.fontSize a.base a.base (NewBlock.addWord { rot := rot } a) b = true)
    (hdup : isDup rot a b = false)
    (hfit : b.base ≥ a.base - 1 / 2 * a.fontSize ∧ b.base ≤ a.base + 1 / 2 * a.fontSize ∧
      a.primaryDelta b ≥ -(2 / 10) * a.fontSize)
    (hnear : a.primaryDelta b < 15 / 10 * a.fontSize) :
    ∃ pool1 : TextPool,
      buildBlock rot pool a.baseIdx =
        .ok ({ lines := linesPost (linesPre [(newTextLine a.rot a.base [a, b]).coalesce]),
               box := (blockOf rot [a, b]).box, pre := ⟨0, 0, 0, 0⟩, post := ⟨0, 0, 0, 0⟩,
               rot := rot }, [], pool1) ∧
      pool1.WF ∧ pool1.words = [] ∧ pool1.minBaseIdx = pool.minBaseIdx ∧
      pool1.maxBaseIdx = pool.maxBaseIdx := by
  have hmm : pool.minBaseIdx ≤ pool.maxBaseIdx := le_trans hp.2.1.1 hp.2.1.2
  have hp1 := hp.setPool [b]
  obtain ⟨s1, s2, s3⟩ := pool.setPool_WF a.baseIdx [b] hp.1
  have hmm1 : (pool.setPool a.baseIdx [b]).minBaseIdx ≤ (pool.setPool a.baseIdx [b]).maxBaseIdx := by
    rw [s2, s3]; exact hmm
  have hidx1 : (pool.setPool a.baseIdx [b]).getBaseIdx a.base = a.baseIdx :=
    TextPool.getBaseIdx_of_inRange _ _ hp1.2.1
  have hlen : pool.words.length = 2 := by simpa using hp.words_perm.length_eq
  obtain ⟨k1, _, _⟩ := NewBlock.addWord_keeps { rot := rot } a TextPool.empty_WF
  obtain ⟨g1, e1, e2, e3, e4, e5, e6⟩ := growBlock_takes rot a.fontSize a.baseIdx
    { pool := pool.setPool a.baseIdx [b], blk := NewBlock.addWord { rot := rot } a,
      minBase := a.base, maxBase := a.base, found := false } b (pool.words.length + 1)
    (by omega) hp1 k1 hright
    (by rw [← hidx1]; exact TextPool.getBaseIdx_mono _ (by linarith) hmm1)
    (by rw [← hidx1]; exact TextPool.getBaseIdx_mono _ (by linarith) hmm1)
  simp only at e4 e5 e6
  have hblk : g1.blk.pool.OnlyLine a.baseIdx [a, b] := by
    rw [e6]
    exact TextPool.onlyLine_pair rot a b ha hb hidx hkey
  have hrot : g1.blk.rot = rot := by rw [e6]; rfl
  have hbox : g1.blk.box = (blockOf rot [a, b]).box := by rw [e6]; rfl
  unfold buildBlock
  simp only
  rw [startBaseIdx_onlyLine pool a.baseIdx [a, b] hp (by simp), hp.2.2.1]
  simp only
  rw [e1]
  simp only
  rw [NewBlock.coalesce_pair g1.blk a b hblk (by rw [hrot]; exact hdup) hfit hnear]
  simp only
  exact ⟨g1.pool, by rw [hrot, hbox], e2, e3, by rw [e4, s2], by rw [e5, s3]⟩

/-- The loop `while (1)` of lines 1591-1891 on such a pool: the one block. -/
theorem blocksOfPool_pair (rot : Nat) (pool : TextPool) (a b : TextWord)
    (hp : pool.OnlyLine a.baseIdx [a, b]) (ha : a.rot = rot) (hb : b.rot = rot)
    (hidx : b.baseIdx = a.baseIdx) (hkey : a.primaryKey < b.primaryKey)
    (hright : testRight rot a.fontSize a.base a.base (NewBlock.addWord { rot := rot } a) b = true)
    (hdup : isDup rot a b = false)
    (hfit : b.base ≥ a.base - 1 / 2 * a.fontSize ∧ b.base ≤ a.base + 1 / 2 * a.fontSize ∧
      a.primaryDelta b ≥ -(2 / 10) * a.fontSize)
    (hnear : a.primaryDelta b < 15 / 10 * a.fontSize)
    (blocks : List TextBlock) (deleted : List TextWord) :
    ∃ pool1 : TextPool,
      blocksOfPool rot (pool.words.length + 1) pool pool.minBaseIdx blocks deleted =
        .ok (blocks ++
            [{ lines := linesPost (linesPre [(newTextLine a.rot a.base [a, b]).coalesce]),
               box := (blockOf rot [a, b]).box, pre := ⟨0, 0, 0, 0⟩, post := ⟨0, 0, 0, 0⟩,
               rot := rot }], deleted, pool1) := by
  have hlen : pool.words.length = 2 := by simpa using hp.words_perm.length_eq
  obtain ⟨pool1, c1, c2, c3, c4, c5⟩ :=
    buildBlock_pair rot pool a b hp ha hb hidx hkey hright hdup hfit hnear
  refine ⟨pool1, ?_⟩
  rw [hlen]
  unfold blocksOfPool
  simp only
  rw [skipEmptyLines_onlyLine pool a.baseIdx [a, b] hp (by simp) _ le_rfl hp.2.1.1]
  rw [if_neg (by have := hp.2.1.2; omega), c1]
  simp only
  unfold blocksOfPool
  simp only
  rw [if_pos (skipEmptyLines_none _ c3 _)]
  simp

theorem blocksOfPool_empty (rot : Nat) (blocks : List TextBlock) (deleted : List TextWord) :
    blocksOfPool rot (TextPool.empty.words.length + 1) TextPool.empty TextPool.empty.minBaseIdx
      blocks deleted = .ok (blocks, deleted, TextPool.empty) := by
  simp [blocksOfPool, skipEmptyLines, TextPool.empty, TextPool.words]

theorem addChar_first_glyph (x y dx fs : ℚ) (u : Unicode) (pools : List TextPool)
    (hx : 0 ≤ x) (hy : 0 ≤ y) (hy2 : y ≤ 800) (hd : 0 < dx) (hw : x + dx ≤ 600)
    (hu : u ≠ 0x20) (hs : ¬ (0xd800 ≤ u ∧ u < 0xe000)) :
    ∃ n : Nat, n ≤ 1 ∧
    PageBuilder.addChar false
        { pageWidth := 600, pageHeight := 800, curWord := none, charPos := 0, nest := 0,
          nTinyChars := 0, lastCharOverlap := false, pools := pools }
        (glyph x y dx [u] fs) =
      { pageWidth := 600, pageHeight := 800, curWord := some (glyphWord x y dx u fs 0),
        charPos := 1, nest := 0, nTinyChars := n, lastCharOverlap := false, pools := pools } := by
  have hs1 : ¬ (0xd800 ≤ u ∧ u < 0xdc00) := fun h => hs ⟨h.1, lt_trans h.2 (by norm_num)⟩
  have hs2 : ¬ (0xdc00 ≤ u ∧ u < 0xe000) := fun h => hs ⟨le_trans (by norm_num) h.1, h.2⟩
  have h80 : ¬ (800 : ℚ) < 0 := by norm_num
  have hd0 : ¬ dx < 0 := not_lt.mpr (le_of_lt hd)
  have h600 : ¬ (600 : ℚ) < x := by linarith
  have h600b : ¬ (600 : ℚ) < dx := by linarith
  have h800 : ¬ (800 : ℚ) < y := by linarith
  have hxd : ¬ x + dx < 0 := by linarith
  have hy0 : ¬ y < 0 := by linarith
  by_cases c : |dx| < 3
  · refine ⟨1, le_rfl, ?_⟩
    simp [PageBuilder.addChar, PageBuilder.offPage, PageBuilder.tinyDropped,
      PageBuilder.countTiny, PageBuilder.breakWord, PageBuilder.addGlyphs,
      PageBuilder.beginWord, addCharLoop, reversed, glyph, GlyphEvent.rot, glyphWord,
      newTextWord, TextWord.addChar, hu, hs1, hs2, hd0, h600, h600b, h800, hxd, hy0, h80, c]
  · refine ⟨0, Nat.zero_le _, ?_⟩
    simp [PageBuilder.addChar, PageBuilder.offPage, PageBuilder.tinyDropped,
      PageBuilder.countTiny, PageBuilder.breakWord, PageBuilder.addGlyphs,
      PageBuilder.beginWord, addCharLoop, reversed, glyph, GlyphEvent.rot, glyphWord,
      newTextWord, TextWord.addChar, hu, hs1, hs2, hd0, h600, h600b, h800, hxd, hy0, h80, c]

theorem addChar_second_glyph (x y dx fs : ℚ) (u : Unicode) (x2 dx2 : ℚ) (u2 : Unicode) (n : Nat)
    (hn : n ≤ 1) (hfs : 0 < fs) (hd : 0 < dx)
    (hx : 0 ≤ x2) (hy : 0 ≤ y) (hy2 : y ≤ 800) (hd2 : 0 < dx2) (hw : x2 + dx2 ≤ 600)
    (hgap : x2 - (x + dx) > 1 / 10 * fs)
    (hu : u2 ≠ 0x20) (hs : ¬ (0xd800 ≤ u2 ∧ u2 < 0xe000)) :
    ∃ n2 : Nat,
    PageBuilder.addChar false
        { pageWidth := 600, pageHeight := 800, curWord := some (glyphWord x y dx u fs 0),
          charPos := 1, nest := 0, nTinyChars := n, lastCharOverlap := false,
          pools := [TextPool.empty, TextPool.empty, TextPool.empty, TextPool.empty] }
        (glyph x2 y dx2 [u2] fs) =
      { pageWidth := 600, pageHeight := 800, curWord := some (glyphWord x2 y dx2 u2 fs 1),
        charPos := 2, nest := 0, nTinyChars := n2, lastCharOverlap := false,
        pools := [TextPool.empty.addWord (glyphWord x y dx u fs 0), TextPool.empty,
          TextPool.empty, TextPool.empty] } := by
  have hs1 : ¬ (0xd800 ≤ u2 ∧ u2 < 0xdc00) := fun h => hs ⟨h.1, lt_trans h.2 (by norm_num)⟩
  have hs2 : ¬ (0xdc00 ≤ u2 ∧ u2 < 0xe000) := fun h => hs ⟨le_trans (by norm_num) h.1, h.2⟩
  have h80 : ¬ (800 : ℚ) < 0 := by norm_num
  have hd0 : ¬ dx2 < 0 := not_lt.mpr (le_of_lt hd2)
  have h600 : ¬ (600 : ℚ) < x2 := by linarith
  have h600b : ¬ (600 : ℚ) < dx2 := by linarith
  have h800 : ¬ (800 : ℚ) < y := by linarith
  have hxd : ¬ x2 + dx2 < 0 := by linarith
  have hy0 : ¬ y < 0 := by linarith
  have hn5 : ¬ 50000 < n + 1 := by omega
  have hdel : ¬ |x2 - x| < 1 / 10 * fs := by
    rw [abs_of_nonneg (by linarith)]
    linarith
  have hgap1 : (10 : ℚ)⁻¹ * fs < x2 - (x + dx) := by
    have : (10 : ℚ)⁻¹ = 1 / 10 := by norm_num
    rw [this]; exact hgap
  have hdel1 : ¬ |x2 - x| < (10 : ℚ)⁻¹ * fs := by
    have : (10 : ℚ)⁻¹ = 1 / 10 := by norm_num
    rw [this]; exact hdel
  by_cases c : |dx2| < 3
  · refine ⟨n + 1, ?_⟩
    simp [PageBuilder.addChar, PageBuilder.offPage, PageBuilder.tinyDropped,
      PageBuilder.countTiny, PageBuilder.breakWord, PageBuilder.addGlyphs,
      PageBuilder.beginWord, PageBuilder.endWord, PageBuilder.addWord, breakTest,
      addCharLoop, reversed, glyph, GlyphEvent.rot, glyphWord, TextWord.len,
      newTextWord, TextWord.addChar, hu, hs1, hs2, hd0, h600, h600b, h800, hxd, hy0, h80, c,
      hn5, hdel1, hgap1]
  · refine ⟨n, ?_⟩
    simp [PageBuilder.addChar, PageBuilder.offPage, PageBuilder.tinyDropped,
      PageBuilder.countTiny, PageBuilder.breakWord, PageBuilder.addGlyphs,
      PageBuilder.beginWord, PageBuilder.endWord, PageBuilder.addWord, breakTest,
      addCharLoop, reversed, glyph, GlyphEvent.rot, glyphWord, TextWord.len,
      newTextWord, TextWord.addChar, hu, hs1, hs2, hd0, h600, h600b, h800, hxd, hy0, h80, c,
      hn5, hdel1, hgap1]

/-- The pools after two glyphs on one base line, the second more than
`minWordBreakSpace * fontSize` after the first: the pool of rotation 0 has
received the two words. -/
theorem buildWords_pair (x y dx fs : ℚ) (u : Unicode) (x2 dx2 : ℚ) (u2 : Unicode)
    (hfs : 0 < fs) (hx : 0 ≤ x) (hd : 0 < dx) (hy : 0 ≤ y) (hy2 : y ≤ 800) (hd2 : 0 < dx2)
    (hw : x2 + dx2 ≤ 600) (hgap : x2 - (x + dx) > 1 / 10 * fs)
    (hu : u ≠ 0x20) (hs : ¬ (0xd800 ≤ u ∧ u < 0xe000))
    (hu2 : u2 ≠ 0x20) (hs2 : ¬ (0xd800 ≤ u2 ∧ u2 < 0xe000)) :
    (buildWords false 600 800 [glyph x y dx [u] fs, glyph x2 y dx2 [u2] fs]).pools =
      [(TextPool.empty.addWord (glyphWord x y dx u fs 0)).addWord (glyphWord x2 y dx2 u2 fs 1),
        TextPool.empty, TextPool.empty, TextPool.empty] := by
  have hx2 : 0 ≤ x2 := by linarith
  obtain ⟨n, hn, e1⟩ := addChar_first_glyph x y dx fs u
    [TextPool.empty, TextPool.empty, TextPool.empty, TextPool.empty] hx hy hy2 hd
    (by linarith) hu hs
  obtain ⟨n2, e2⟩ := addChar_second_glyph x y dx fs u x2 dx2 u2 n hn hfs hd hx2 hy hy2 hd2 hw hgap
    hu2 hs2
  have hinit : PageBuilder.init 600 800 =
      { pageWidth := 600, pageHeight := 800, curWord := none, charPos := 0, nest := 0,
        nTinyChars := 0, lastCharOverlap := false,
        pools := [TextPool.empty, TextPool.empty, TextPool.empty, TextPool.empty] } := rfl
  unfold buildWords
  simp only [List.foldl_cons, List.foldl_nil]
  rw [hinit, e1, e2]
  simp [PageBuilder.endPage, PageBuilder.endWord, PageBuilder.addWord, glyphWord, TextWord.len,
    TextWord.addChar, newTextWord]

theorem words_keep_marks (ws : List TextWord) :
    (wordsPost (wordsPre ws)).map (fun w => (w.text, w.spaceAfter)) =
      ws.map (fun w => (w.text, w.spaceAfter)) := by
  unfold wordsPost wordsPre
  rw [fillPost_map (fun w => w.box) (fun w => w.post)
    (fun (w : TextWord) e => { w with post := e }) (fun w => (w.text, w.spaceAfter))
    (fun _ _ => rfl)]
  exact fillPre_keeps (fun w => w.box) (fun (w : TextWord) e => { w with pre := e })
    (fun w => (w.text, w.spaceAfter)) (fun _ _ => rfl) ws

theorem lines_keep_marks (ls : List TextLine) :
    (linesPost (linesPre ls)).map (fun l => l.words.map (fun w => (w.text, w.spaceAfter))) =
      ls.map (fun l => l.words.map (fun w => (w.text, w.spaceAfter))) := by
  have := congrArg
    (List.map (fun (t : List TextWord × Box × Nat × ℚ) =>
      t.1.map (fun w => (w.text, w.spaceAfter)))) (lines_keep ls)
  simpa only [List.map_map] using this

/-- The facts on two one-glyph words of one base line, the second at a gap
`g` of at least 0.4 and less than 1.0 font sizes after the first, that the
assembly asks for. -/
theorem glyphWord_pair (x y dx fs : ℚ) (u : Unicode) (g dx2 : ℚ) (u2 : Unicode) (c c2 : Int)
    (hd : 0 < dx) (hg1 : 4 / 10 * fs ≤ g) (hg2 : g < 1 * fs) :
    (glyphWord x y dx u fs c).rot = 0 ∧ (glyphWord (x + dx + g) y dx2 u2 fs c2).rot = 0 ∧
    (glyphWord (x + dx + g) y dx2 u2 fs c2).baseIdx = (glyphWord x y dx u fs c).baseIdx ∧
    (glyphWord x y dx u fs c).primaryKey < (glyphWord (x + dx + g) y dx2 u2 fs c2).primaryKey ∧
    testRight 0 (glyphWord x y dx u fs c).fontSize (glyphWord x y dx u fs c).base
      (glyphWord x y dx u fs c).base (NewBlock.addWord { rot := 0 } (glyphWord x y dx u fs c))
      (glyphWord (x + dx + g) y dx2 u2 fs c2) = true ∧
    isDup 0 (glyphWord x y dx u fs c) (glyphWord (x + dx + g) y dx2 u2 fs c2) = false ∧
    ((glyphWord (x + dx + g) y dx2 u2 fs c2).base ≥
        (glyphWord x y dx u fs c).base - 1 / 2 * (glyphWord x y dx u fs c).fontSize ∧
      (glyphWord (x + dx + g) y dx2 u2 fs c2).base ≤
        (glyphWord x y dx u fs c).base + 1 / 2 * (glyphWord x y dx u fs c).fontSize ∧
      (glyphWord x y dx u fs c).primaryDelta (glyphWord (x + dx + g) y dx2 u2 fs c2) ≥
        -(2 / 10) * (glyphWord x y dx u fs c).fontSize) ∧
    (glyphWord x y dx u fs c).primaryDelta (glyphWord (x + dx + g) y dx2 u2 fs c2) <
      15 / 10 * (glyphWord x y dx u fs c).fontSize := by
  have hg0 : 0 < g := by linarith
  refine ⟨rfl, rfl, rfl, ?_, ?_, ?_, ⟨?_, ?_, ?_⟩, ?_⟩
  · simp only [TextWord.primaryKey, glyphWord, newTextWord, TextWord.addChar, TextWord.len,
      List.length_nil, if_true]
    linarith
  · have h1 : x + dx ≤ x + dx + g := by linarith
    have h2 : x + dx + g < x + dx + 1 * fs := by linarith
    have h3 : |fs - fs| < 2 / 10 * fs := by
      rw [sub_self, abs_zero]; linarith
    have h4 : y - 1 / 2 * fs ≤ y := by linarith
    have h5 : y ≤ y + 1 / 2 * fs := by linarith
    simp only [testRight, NewBlock.addWord, addWordBox, glyphWord, newTextWord, TextWord.addChar,
      TextWord.len, List.length_nil, if_true, ge_iff_le, h1, h2, h3, h4, h5, and_self,
      decide_True, Bool.and_self, true_or]
    norm_num
    exact ⟨le_of_lt hg0, by linarith⟩
  · have h1 : ¬ |x - (x + dx + g)| < 1 / 10 * fs := by
      rw [abs_sub_comm, abs_of_nonneg (by linarith)]
      linarith
    simp only [isDup, glyphWord, newTextWord, TextWord.addChar, TextWord.len, List.length_nil,
      if_true, h1, false_and, decide_False, Bool.and_false]
  · show y ≥ y - 1 / 2 * fs
    linarith
  · show y ≤ y + 1 / 2 * fs
    linarith
  · simp only [TextWord.primaryDelta, glyphWord, newTextWord, TextWord.addChar, TextWord.len,
      List.length_nil, if_true]
    linarith
  · simp only [TextWord.primaryDelta, glyphWord, newTextWord, TextWord.addChar, TextWord.len,
      List.length_nil, if_true]
    linarith

/-- `TextLine::coalesce` on the two words: the gap is at least the space
threshold `0.4 * fontSize`, so the first word is marked and nothing is
merged. -/
theorem coalesceWords_pair (x y dx fs : ℚ) (u : Unicode) (g dx2 : ℚ) (u2 : Unicode) (c c2 : Int)
    (hfs : 0 < fs) (hg1 : 4 / 10 * fs ≤ g) :
    (coalesceWords [glyphWord x y dx u fs c, glyphWord (x + dx + g) y dx2 u2 fs c2]).map
        (fun w => (w.text, w.spaceAfter)) = [([u], true), ([u2], false)] := by
  have hdelta : (glyphWord x y dx u fs c).primaryDelta (glyphWord (x + dx + g) y dx2 u2 fs c2)
      = g := by
    simp only [TextWord.primaryDelta, glyphWord, newTextWord, TextWord.addChar, TextWord.len,
      List.length_nil, if_true]
    ring
  have hlen1 : ¬ ((glyphWord x y dx u fs c).len > 1 ∨
      (glyphWord (x + dx + g) y dx2 u2 fs c2).len > 1) := by
    simp [glyphWord, TextWord.len, TextWord.addChar, newTextWord]
  have hsize : (glyphWord x y dx u fs c).fontSize = fs := rfl
  have hg0 : 0 < g := by linarith
  have hthr : spaceThreshold (glyphWord x y dx u fs c)
      (glyphWord (x + dx + g) y dx2 u2 fs c2) [] = 4 / 10 * fs := by
    unfold spaceThreshold
    simp only [if_neg hlen1, minSpaceLoop, hdelta, hsize]
    rw [if_neg (not_le.mpr hg0), if_pos (by linarith)]
  have hc : coalesceWords [glyphWord x y dx u fs c, glyphWord (x + dx + g) y dx2 u2 fs c2] =
      mergeLoop (spaceThreshold (glyphWord x y dx u fs c)
          (glyphWord (x + dx + g) y dx2 u2 fs c2) []) (glyphWord x y dx u fs c).fontSize
        (glyphWord x y dx u fs c) [glyphWord (x + dx + g) y dx2 u2 fs c2] := rfl
  rw [hc, hthr]
  unfold mergeLoop
  rw [hdelta, if_pos hg1]
  simp [mergeLoop, glyphWord, TextWord.addChar, newTextWord]

/-! ## The claims -/

/-- C1: on the line "a a a b" the query "a a" has two runs in reading
order, (word 0, word 1) and (word 1, word 2): word 1 ends with "a" and its
successor word 2 starts with "a". `searchText` reports the first run only
(one rectangle, the union of words 0 and 1): after the match the loop
variable is the last matched word, so word 1 is never tried as a first
word. Neither the union of words 1 and 2 nor the box of word 2 is in the
result. -/
theorem searchText_skips_run_starting_in_previous_match :
    searchText asciiOps pageAAAB (ofString "a a") true
        = .ok [⟨60 / 600, 40 / 800, 90 / 600, 52 / 800⟩]
      ∧ (pageAAAB.wordAt ⟨0, 0, 1⟩).map (fun w => endWith asciiOps w (ofString "a") true)
        = some true
      ∧ nextWord pageAAAB ⟨0, 0, 1⟩ = some ⟨0, 0, 2⟩
      ∧ (pageAAAB.wordAt ⟨0, 0, 2⟩).map (fun w => startWith asciiOps w (ofString "a") true)
        = some true
      ∧ (pageAAAB.wordAt ⟨0, 0, 2⟩).map (fun w => w.box) = some ⟨108, 114, 40, 52⟩
      ∧ (⟨84 / 600, 40 / 800, 114 / 600, 52 / 800⟩ : PDFRectangle)
          ∉ [(⟨60 / 600, 40 / 800, 90 / 600, 52 / 800⟩ : PDFRectangle)]
      ∧ (⟨108 / 600, 40 / 800, 114 / 600, 52 / 800⟩ : PDFRectangle)
          ∉ [(⟨60 / 600, 40 / 800, 90 / 600, 52 / 800⟩ : PDFRectangle)] := by
  decide!

/-- C2: for the one-word query "ell" (case sensitive) on "Hello world",
`searchText` returns one rectangle for "Hello" whose fourth coordinate is
`xMax / pageHeight` = 120 / 800, not `yMax / pageHeight` = 20 / 800: the
rectangle is built as `PDFRectangle(xMin, yMin, xMax, xMax)`. -/
theorem searchText_single_word_rect_uses_xMax_for_y2 :
    searchText asciiOps pageHelloWorld (ofString "ell") true
        = .ok [⟨100 / 600, 10 / 800, 120 / 600, 120 / 800⟩]
      ∧ (pageHelloWorld.wordAt ⟨0, 0, 0⟩).map (fun w => w.box) = some ⟨100, 120, 10, 20⟩
      ∧ (⟨100 / 600, 10 / 800, 120 / 600, 120 / 800⟩ : PDFRectangle)
          ≠ ⟨100 / 600, 10 / 800, 120 / 600, 20 / 800⟩ := by
  decide!

/-- C3: with `caseSen = false` the one-word query "hello" finds nothing on
"Hello world" although the upper-cased word "HELLO" contains the upper-cased
query, while the query "HELLO" finds the word: the one-word branch hands
the caller's `str` to `contain`, not the upper-cased `strNorm`. -/
theorem searchText_case_insensitive_depends_on_query_case :
    searchText asciiOps pageHelloWorld (ofString "hello") false = .ok []
      ∧ searchText asciiOps pageHelloWorld (ofString "HELLO") false
        = .ok [⟨100 / 600, 10 / 800, 120 / 600, 120 / 800⟩]
      ∧ (ofString "Hello").map asciiOps.toUpper = (ofString "hello").map asciiOps.toUpper := by
  decide!

/-- C4: on the page whose only word is "a", the two-word query "a b" makes
`searchText` call `startWith` on a null word: the last word of the page
ends with the first query word, `word0->nextWord()` is `NULL`, the `strEq`
loop does not run (`i = 1 = nWords - 1`) and `word->startWith` follows. -/
theorem searchText_null_word_after_last_word :
    searchText asciiOps pageA (ofString "a b") true = .error .nullDeref
      ∧ pageA.blocks ≠ [] ∧ nextWord pageA ⟨0, 0, 0⟩ = none := by
  decide!

/-- C5: for the query "lo wor" on the line "Hello world" (both words on one
line, "world" reaching higher: yMin 8 against 10) `searchText` emits one
rectangle whose `y1` is 10 / 800, not min yMin / pageHeight = 8 / 800: the
update of `y1` is guarded by `lastRect->y1 > word->xMin` (10 > 125 is
false). The other three coordinates are the union's. -/
theorem searchText_merged_rect_y1_not_min :
    searchText asciiOps pageHelloWorld (ofString "lo wor") true
        = .ok [⟨100 / 600, 10 / 800, 145 / 600, 20 / 800⟩]
      ∧ (pageHelloWorld.wordAt ⟨0, 0, 1⟩).map (fun w => w.box) = some ⟨125, 145, 8, 20⟩
      ∧ sameLine ⟨0, 0, 0⟩ ⟨0, 0, 1⟩ = true
      ∧ min (10 : ℚ) 8 / 800 ≠ 10 / 800 := by
  decide!

/-- C6: the page "a b" has two words, hence no run of three consecutive
words, yet for the query "a b c" `searchText` does not return the empty
list: "a" ends with "a", "b" equals "b", the next word is `NULL` and
`word->startWith` is called on it. -/
theorem searchText_no_run_but_null_word :
    searchText asciiOps pageAB (ofString "a b c") true = .error .nullDeref
      ∧ pageAB.numWords = 2 ∧ (queryWords (ofString "a b c")).length = 3 := by
  decide!

/-- C7: on a page with at least one word, after `startSelection(x, y)` for
any `(x, y)`: `selEnd = selStart`, `selIdx1 = selIdx2 = selIdxSave`,
`getSelStartIdx() = getSelEndIdx()`, the index lies in `0..len` of the
selected word, and `getSelectedText(false)` returns exactly one code point:
the glyph at `selIdx1` of the selected word, or U+0020 when
`selIdx1 = word.len`. -/
theorem startSelection_selects_one_character (ops : UnicodeOps) (p : TextPage)
    (hq : p.Queryable) (x y : ℚ) :
    ∃ q r w c, startSelection p x y = .ok q ∧ q.blocks = p.blocks ∧
      q.selStart = some r ∧ q.selEnd = q.selStart ∧
      q.selIdx1 = q.selIdx2 ∧ q.selIdx2 = q.selIdxSave ∧
      getSelStartIdx q = getSelEndIdx q ∧
      q.wordAt r = some w ∧ 0 ≤ q.selIdx1 ∧ q.selIdx1 ≤ w.len ∧
      getSelectedText ops q false = .ok (some [c]) ∧
      (q.selIdx1 = w.len → c = 32) ∧
      (q.selIdx1 < w.len → w.text[q.selIdx1.toNat]? = some c) := by
  obtain ⟨q, r, w, idx, hres, hb, _, _, hs, he, h1, h2, h3, hw, h0, hle, hsp⟩ :=
    startSelection_spec p hq x y
  have hwq : q.wordAt r = some w := by rw [wordAt_congr hb]; exact hw
  have htext := getSelectedText_single ops q r w idx hs he h1 h2 hwq
  have hidx : getSelStartIdx q = getSelEndIdx q := by
    simp only [getSelStartIdx, getSelEndIdx, hs, he, hwq, h1, h2]
  by_cases hlen : idx = w.len
  · rw [if_pos hlen] at htext
    refine ⟨q, r, w, 32, hres, hb, hs, by rw [he, hs], by rw [h1, h2], by rw [h2, h3], hidx,
      hwq, by rw [h1]; exact h0, by rw [h1]; exact hle, htext, fun _ => rfl, ?_⟩
    intro h; rw [h1] at h; omega
  · rw [if_neg hlen] at htext
    have hlt : idx < w.len := lt_of_le_of_ne hle hlen
    have hnat : idx.toNat < w.text.length := by
      have : (idx.toNat : Int) = idx := Int.toNat_of_nonneg h0
      unfold TextWord.len at hlt
      omega
    have hget : w.text[idx.toNat]? = some (w.text[idx.toNat]) :=
      List.getElem?_eq_some.mpr ⟨hnat, rfl⟩
    rw [drop_take_one hget] at htext
    refine ⟨q, r, w, w.text[idx.toNat], hres, hb, hs, by rw [he, hs], by rw [h1, h2],
      by rw [h2, h3], hidx, hwq, by rw [h1]; exact h0, by rw [h1]; exact hle, htext, ?_, ?_⟩
    · intro h; rw [h1] at h; exact absurd h hlen
    · intro _; rw [h1]; exact hget

/-- Witness for C7: `startSelection(1/5, 1/80)` on the line "Hello world"
(the point (120, 10), the trailing edge of "Hello"). -/
theorem startSelection_selects_one_character_witness :
    pageHelloWorld.Queryable ∧
      ∃ q r w c, startSelection pageHelloWorld (1 / 5) (1 / 80) = .ok q ∧
        q.blocks = pageHelloWorld.blocks ∧
        q.selStart = some r ∧ q.selEnd = q.selStart ∧
        q.selIdx1 = q.selIdx2 ∧ q.selIdx2 = q.selIdxSave ∧
        getSelStartIdx q = getSelEndIdx q ∧
        q.wordAt r = some w ∧ 0 ≤ q.selIdx1 ∧ q.selIdx1 ≤ w.len ∧
        getSelectedText asciiOps q false = .ok (some [c]) ∧
        (q.selIdx1 = w.len → c = 32) ∧
        (q.selIdx1 < w.len → w.text[q.selIdx1.toNat]? = some c) :=
  ⟨by decide!, startSelection_selects_one_character asciiOps pageHelloWorld (by decide!)
    (1 / 5) (1 / 80)⟩

/-- C8: on a coalesced page, in every selection state reached by a
`startSelection` followed by any number of `moveSelEndTo`, a further
`moveSelEndTo(x, y)` returns, and it returns true if and only if the pair
`(selEnd, selIdx2)` after the call differs from the pair before it. -/
theorem moveSelEndTo_true_iff_end_changed (p0 : TextPage) (hc : p0.Coalesced) (q : TextPage)
    (hr : Reachable p0 q) (x y : ℚ) :
    ∃ q' changed, moveSelEndTo q x y = .ok (q', changed) ∧
      (changed = true ↔ (q'.selEnd, q'.selIdx2) ≠ (q.selEnd, q.selIdx2)) := by
  obtain ⟨q', changed, hres, _, hiff⟩ := moveSelEndTo_spec p0 hc q (hr.inv hc) x y
  exact ⟨q', changed, hres, hiff⟩

/-- Witness for C8: after `startSelection(1/5, 1/80)` on "Hello world",
`moveSelEndTo(1/4, 1/80)` (the point (150, 10), right of "world"). -/
theorem moveSelEndTo_true_iff_end_changed_witness :
    pageHelloWorld.Coalesced ∧ Reachable pageHelloWorld pageHelloWorldSelected ∧
      ∃ q' changed, moveSelEndTo pageHelloWorldSelected (1 / 4) (1 / 80) = .ok (q', changed) ∧
        (changed = true ↔
          (q'.selEnd, q'.selIdx2)
            ≠ (pageHelloWorldSelected.selEnd, pageHelloWorldSelected.selIdx2)) :=
  ⟨by decide!, Reachable.start (1 / 5) (1 / 80) _ (by decide!),
    moveSelEndTo_true_iff_end_changed pageHelloWorld (by decide!) pageHelloWorldSelected
      (Reachable.start (1 / 5) (1 / 80) _ (by decide!)) (1 / 4) (1 / 80)⟩

/-- C9: while `selStart` is `NULL` (no `startSelection` yet),
`moveSelEndTo` returns false for every `(x, y)` and leaves the page as it
is, `getSelectedRegion` returns the empty list and `getSelectedText`
returns no text (`NULL`), with or without normalization. -/
theorem queries_without_selection (ops : UnicodeOps) (p : TextPage)
    (h : p.selStart = none) (x y : ℚ) (normalize : Bool) :
    moveSelEndTo p x y = .ok (p, false) ∧ getSelectedRegion p = .ok [] ∧
      getSelectedText ops p normalize = .ok none := by
  refine ⟨?_, ?_, ?_⟩
  · unfold moveSelEndTo; rw [h]
  · unfold getSelectedRegion; rw [h]
  · unfold getSelectedText; rw [h]

/-- Witness for C9: the page "Hello world" as `coalesce` leaves it. -/
theorem queries_without_selection_witness :
    pageHelloWorld.selStart = none ∧
      moveSelEndTo pageHelloWorld (1 / 4) (1 / 80) = .ok (pageHelloWorld, false) ∧
      getSelectedRegion pageHelloWorld = .ok [] ∧
      getSelectedText asciiOps pageHelloWorld true = .ok none :=
  ⟨by decide!, queries_without_selection asciiOps pageHelloWorld (by decide!) (1 / 4) (1 / 80)
    true⟩

/-- C11: for every word with at least one glyph and a non-zero primary-axis
extent and every point `(x, y)`, `calIdx` returns a pair `(idx, word')`
where `word'` is the given word or its `prev` in the line, `0 <= idx <=
word'.len`, and `idx = word'.len` only when `word'.spaceAfter` is set; every
index at which the refinement loops read `edge[]` lies in `0..len`. -/
theorem calIdx_result_and_edge_reads_in_range (p : TextPage) (px py : ℚ) (r : WordRef)
    (w : TextWord) (hw : p.wordAt r = some w) (hlen : 1 ≤ w.len)
    (_hext : w.extentMax - w.extentMin ≠ 0) :
    ∃ idx r1 w1, calIdx p px py r = .ok (idx, r1) ∧ (r1 = r ∨ p.prev r = some r1) ∧
      p.wordAt r1 = some w1 ∧ 0 ≤ idx ∧ idx ≤ w1.len ∧ (idx = w1.len → w1.spaceAfter = true) ∧
      ∀ i ∈ calIdxReads p px py r, 0 ≤ i ∧ i ≤ (w.len : Int) := by
  obtain ⟨idx, r1, w1, hres, hr1, hw1, h0, hle, hsp⟩ := calIdx_returns p px py r w hw hlen
  exact ⟨idx, r1, w1, hres, hr1, hw1, h0, hle, hsp, calIdxReads_bound p px py r w hw⟩

/-- Witness for C11: the word "world" of "Hello world" and the point
(137, 15) inside its fourth glyph: the loops read `edge[4]` and `edge[3]`. -/
theorem calIdx_result_and_edge_reads_in_range_witness :
    ∃ w, pageHelloWorld.wordAt ⟨0, 0, 1⟩ = some w ∧ 1 ≤ w.len ∧
      w.extentMax - w.extentMin ≠ 0 ∧
      ∃ idx r1 w1, calIdx pageHelloWorld 137 15 ⟨0, 0, 1⟩ = .ok (idx, r1) ∧
        (r1 = ⟨0, 0, 1⟩ ∨ pageHelloWorld.prev ⟨0, 0, 1⟩ = some r1) ∧
        pageHelloWorld.wordAt r1 = some w1 ∧ 0 ≤ idx ∧ idx ≤ w1.len ∧
        (idx = w1.len → w1.spaceAfter = true) ∧
        ∀ i ∈ calIdxReads pageHelloWorld 137 15 ⟨0, 0, 1⟩, 0 ≤ i ∧ i ≤ (w.len : Int) :=
  ⟨(pageHelloWorld.wordAt ⟨0, 0, 1⟩).get (by decide!), by decide!, by decide!, by decide!,
    calIdx_result_and_edge_reads_in_range pageHelloWorld 137 15 ⟨0, 0, 1⟩ _ (by decide!)
      (by decide!) (by decide!)⟩

/-- C12, counterexample: on the page whose only word is the glyph "a"
(x from 60 to 66), the point (65, 45) lies in the trailing half of the
glyph, and `calIdx` returns 0, not 1. -/
theorem calIdx_trailing_half_returns_zero :
    (pageA.blocks.map (fun b => b.lines.map (fun l => l.words.map (fun w => w.text))))
        = [[[ofString "a"]]]
      ∧ (pageA.wordAt ⟨0, 0, 0⟩).map (fun w => (w.box.xMin, w.box.xMax)) = some (60, 66)
      ∧ ((60 : ℚ) + 66) / 2 < 65 ∧ (65 : ℚ) < 66
      ∧ calIdx pageA 65 45 ⟨0, 0, 0⟩ = .ok (0, ⟨0, 0, 0⟩)
      ∧ calIdx pageA 65 45 ⟨0, 0, 0⟩ ≠ .ok (1, ⟨0, 0, 0⟩) := by
  decide!

/-- C12, amended: on a page that consists of one word of one glyph (one
block, one line, one word of `len` 1; the word has no successor, so its
`spaceAfter` is unset), `calIdx` returns 0 for every point `(x, y)`, in the
leading half of the glyph as in the trailing half, and hands back the same
word. -/
theorem calIdx_single_glyph_page (p : TextPage)
    (hone : p.blocks.map (fun b => b.lines.map (fun l => l.words.map
      (fun w => (w.len, w.spaceAfter)))) = [[[(1, false)]]]) (px py : ℚ) :
    calIdx p px py ⟨0, 0, 0⟩ = .ok (0, ⟨0, 0, 0⟩) := by
  obtain ⟨blk, hb, hone⟩ := map_eq_singleton hone
  obtain ⟨ln, hl, hone⟩ := map_eq_singleton hone
  obtain ⟨w, hws, hone⟩ := map_eq_singleton hone
  simp only [Prod.mk.injEq] at hone
  obtain ⟨hlen, hsp⟩ := hone
  have hw : p.wordAt ⟨0, 0, 0⟩ = some w := by
    simp [TextPage.wordAt, TextPage.lineAt, hb, hl, hws]
  obtain ⟨idx, r1, w1, hres, hr1, hw1, h0, hle, hspace⟩ :=
    calIdx_returns p px py ⟨0, 0, 0⟩ w hw (by omega)
  have hr : r1 = ⟨0, 0, 0⟩ := by
    rcases hr1 with h | h
    · exact h
    · simp [TextPage.prev] at h
  subst hr
  rw [hw] at hw1; cases hw1
  have hne : idx ≠ (w.len : Int) := by
    intro h
    have := hspace h
    rw [hsp] at this; cases this
  have : idx = 0 := by omega
  rw [hres, this]

/-- Witness for C12 (amended): the page whose only word is "a", at the
point (65, 45) in the trailing half of the glyph. -/
theorem calIdx_single_glyph_page_witness :
    pageA.blocks.map (fun b => b.lines.map (fun l => l.words.map
        (fun w => (w.len, w.spaceAfter)))) = [[[(1, false)]]] ∧
      calIdx pageA 65 45 ⟨0, 0, 0⟩ = .ok (0, ⟨0, 0, 0⟩) :=
  ⟨by decide!, calIdx_single_glyph_page pageA (by decide!) 65 45⟩

/-- C14: when the selection, ordered by `index + idx`, begins at
`(begin, bIdx)` and ends at `(end, eIdx)` in the same line of rotation 0
with `eIdx < end.len`, `getSelectedRegion` returns exactly one rectangle,
`(begin.edge[bIdx] / pageWidth, line.yMin / pageHeight,
end.edge[eIdx + 1] / pageWidth, line.yMax / pageHeight)`. -/
theorem getSelectedRegion_same_line (p : TextPage) (bg en : WordRef) (bIdx eIdx : Int)
    (bgW enW : TextWord) (ln : TextLine) (e1 e2 : ℚ)
    (hord : orderedSelection p = some (bg, bIdx, en, eIdx))
    (hbw : p.wordAt bg = some bgW) (hew : p.wordAt en = some enW)
    (hsame : sameLine bg en = true) (hln : p.lineAt bg.blk bg.line = some ln)
    (hrot : ln.rot = 0) (he : eIdx < enW.len)
    (h1 : bgW.edgeAt bIdx = some e1) (h2 : enW.edgeAt (eIdx + 1) = some e2) :
    getSelectedRegion p =
      .ok [⟨e1 / p.pageWidth, ln.box.yMin / p.pageHeight, e2 / p.pageWidth,
        ln.box.yMax / p.pageHeight⟩] := by
  rw [getSelectedRegion_ordered p bg en bIdx eIdx bgW enW hord hbw hew (ne_of_lt he)]
  simp only [sameLine, Bool.and_eq_true, beq_iff_eq] at hsame
  obtain ⟨hblk, hline⟩ := hsame
  rw [← hblk, ← hline, hln, h1]
  obtain ⟨f, hf⟩ := walkFuel_pos p
  simp only [hf, regionLoop, if_true, beginRect, hrot, List.getLast?_singleton, h2,
    List.dropLast_single, List.nil_append, clipLast, List.map_cons, List.map_nil, scaleRect]

/-- Witness for C14: on "Hello world" the selection from glyph 1 of
"Hello" to glyph 2 of "world": one rectangle from x = 104 to x = 137
(edge 3 of "world"), between the line's yMin = 8 and yMax = 20. -/
theorem getSelectedRegion_same_line_witness :
    ∃ bgW enW ln,
      orderedSelection (pageHelloWorld.select ⟨0, 0, 0⟩ 1 ⟨0, 0, 1⟩ 2)
        = some (⟨0, 0, 0⟩, 1, ⟨0, 0, 1⟩, 2) ∧
      pageHelloWorld.wordAt ⟨0, 0, 0⟩ = some bgW ∧ pageHelloWorld.wordAt ⟨0, 0, 1⟩ = some enW ∧
      sameLine ⟨0, 0, 0⟩ ⟨0, 0, 1⟩ = true ∧ pageHelloWorld.lineAt 0 0 = some ln ∧
      ln.rot = 0 ∧ (2 : Int) < enW.len ∧ bgW.edgeAt 1 = some 104 ∧
      enW.edgeAt (2 + 1) = some 137 ∧
      getSelectedRegion (pageHelloWorld.select ⟨0, 0, 0⟩ 1 ⟨0, 0, 1⟩ 2) =
        .ok [⟨104 / 600, 8 / 800, 137 / 600, 20 / 800⟩] :=
  ⟨(pageHelloWorld.wordAt ⟨0, 0, 0⟩).get (by decide!),
    (pageHelloWorld.wordAt ⟨0, 0, 1⟩).get (by decide!),
    (pageHelloWorld.lineAt 0 0).get (by decide!),
    by decide!, by decide!, by decide!, by decide!, by decide!, by decide!, by decide!,
    by decide!, by decide!,
    getSelectedRegion_same_line (pageHelloWorld.select ⟨0, 0, 0⟩ 1 ⟨0, 0, 1⟩ 2)
      ⟨0, 0, 0⟩ ⟨0, 0, 1⟩ 1 2 ((pageHelloWorld.wordAt ⟨0, 0, 0⟩).get (by decide!))
      ((pageHelloWorld.wordAt ⟨0, 0, 1⟩).get (by decide!))
      ((pageHelloWorld.lineAt 0 0).get (by decide!)) 104 137
      (by decide!) (by decide!) (by decide!) (by decide!) (by decide!) (by decide!) (by decide!)
      (by decide!) (by decide!)⟩

/-- C15: on `pageTwoBlocks`, `startSelection` on "ab" (block 0, line 0) and
`moveSelEndTo` on "gh" (block 1, line 0) select from ("ab", 0) to ("gh", 1).
`getSelectedText` walks into the second block, but `getSelectedRegion`
follows `line->next` only: after the last line of block 0 the cursor is
`NULL`, which is not `stop`, and the loop reads `line->xMin` of it. With the
end in the last line of block 1 (`stop` is `NULL`) the loop ends after
block 0 and two rectangles are returned for four lines. -/
theorem getSelectedRegion_null_line_across_blocks :
    startSelection pageTwoBlocks (51 / 600) (105 / 800)
        = .ok (pageTwoBlocks.select ⟨0, 0, 0⟩ 0 ⟨0, 0, 0⟩ 0)
      ∧ moveSelEndTo (pageTwoBlocks.select ⟨0, 0, 0⟩ 0 ⟨0, 0, 0⟩ 0) (310 / 600) (105 / 800)
        = .ok (pageTwoBlocks.select ⟨0, 0, 0⟩ 0 ⟨1, 0, 0⟩ 1, true)
      ∧ getSelectedRegion (pageTwoBlocks.select ⟨0, 0, 0⟩ 0 ⟨1, 0, 0⟩ 1) = .error .nullDeref
      ∧ getSelectedText asciiOps (pageTwoBlocks.select ⟨0, 0, 0⟩ 0 ⟨1, 0, 0⟩ 1) true
        = .ok (some (ofString "ab cd\nef\ngh"))
      ∧ moveSelEndTo (pageTwoBlocks.select ⟨0, 0, 0⟩ 0 ⟨0, 0, 0⟩ 0) (350 / 600) (125 / 800)
        = .ok (pageTwoBlocks.select ⟨0, 0, 0⟩ 0 ⟨1, 1, 1⟩ 1, true)
      ∧ getSelectedRegion (pageTwoBlocks.select ⟨0, 0, 0⟩ 0 ⟨1, 1, 1⟩ 1)
        = .ok [⟨50 / 600, 100 / 800, 110 / 600, 112 / 800⟩,
               ⟨50 / 600, 118 / 800, 380 / 600, 130 / 800⟩]
      ∧ pageTwoBlocks.allLines.length = 4 := by
  decide!

/-- C16: for every word `w` of a coalesced page, when the selection covers
exactly `w` (`selStart = selEnd = w`, from glyph 0 to the last selectable
index of `w`: `len - 1`, or `len` when `spaceAfter` is set),
`getSelectedText(false)` returns `w.text`, followed by one U+0020 exactly
when `w.spaceAfter` is set and index `w.len` is selected, and nothing
else. -/
theorem getSelectedText_whole_word (ops : UnicodeOps) (p : TextPage) (hc : p.Coalesced)
    (r : WordRef) (w : TextWord) (hw : p.wordAt r = some w) (e : Int)
    (hs : p.selStart = some r) (he : p.selEnd = some r) (h1 : p.selIdx1 = 0)
    (h2 : p.selIdx2 = e) (hlast : e = (w.len : Int) - 1 ∨ (e = w.len ∧ w.spaceAfter = true)) :
    getSelectedText ops p false =
      .ok (some (w.text ++ (if w.spaceAfter = true ∧ e = w.len then [32] else []))) := by
  have hlen : 1 ≤ w.len := hc.1.len_pos hw
  have hord : orderedSelection p = some (r, 0, r, e) := by
    unfold orderedSelection
    rw [hs, he]
    simp only [hw, h1, h2]
    by_cases hlt : w.index + 0 < w.index + e
    · rw [if_pos hlt]
    · rw [if_neg hlt]
      have : e = 0 := by omega
      subst this; rfl
  rw [getSelectedText_ordered ops p false r r 0 e w w hord hw hw (by omega)]
  rcases hlast with h | ⟨h, hsp⟩
  · have hne : e ≠ (w.len : Int) := by omega
    simp only [if_true, if_neg hne, hne, decide_False, Bool.false_eq_true, if_false, and_false,
      List.append_nil]
    rw [sliceText_all ops w _ (by omega)]
  · simp only [if_true, if_pos h, h, decide_True, hsp, and_self]
    rw [sliceText_all ops w _ (by omega)]

/-- Witness for C16: the word "Hello" of "Hello world" selected from glyph 0
to index 5 (the space after it): the text is "Hello" and one U+0020. -/
theorem getSelectedText_whole_word_witness :
    ∃ w, pageHelloWorld.Coalesced ∧ pageHelloWorld.wordAt ⟨0, 0, 0⟩ = some w ∧
      ((5 : Int) = (w.len : Int) - 1 ∨ ((5 : Int) = w.len ∧ w.spaceAfter = true)) ∧
      w.text = ofString "Hello" ∧
      getSelectedText asciiOps (pageHelloWorld.select ⟨0, 0, 0⟩ 0 ⟨0, 0, 0⟩ 5) false =
        .ok (some (w.text ++ (if w.spaceAfter = true ∧ (5 : Int) = w.len then [32] else []))) :=
  ⟨(pageHelloWorld.wordAt ⟨0, 0, 0⟩).get (by decide!), by decide!, by decide!, by decide!,
    by decide!,
    getSelectedText_whole_word asciiOps (pageHelloWorld.select ⟨0, 0, 0⟩ 0 ⟨0, 0, 0⟩ 5)
      (by decide!) ⟨0, 0, 0⟩ ((pageHelloWorld.wordAt ⟨0, 0, 0⟩).get (by decide!)) (by decide!) 5
      rfl rfl rfl rfl (by decide!)⟩

/-- C18: on "Hello world", `startSelection` on glyph 0 of "Hello" and
`moveSelEndTo` on "world" select from ("Hello", 0) to ("world", 4), with
4 < len = 5. `getSelectedRegion` ends at edge 5 of "world", so glyph 4 is
selected; `getSelectedText(true)` (NFKC is the identity here) returns
"Hello world", `getSelectedText(false)` returns "Hello worl": the last
`appendUni` copies `eIdx` code points of `end->text`, not `eIdx + 1`. -/
theorem getSelectedText_drops_end_glyph :
    startSelection pageHelloWorld (101 / 600) (15 / 800)
        = .ok (pageHelloWorld.select ⟨0, 0, 0⟩ 0 ⟨0, 0, 0⟩ 0)
      ∧ moveSelEndTo (pageHelloWorld.select ⟨0, 0, 0⟩ 0 ⟨0, 0, 0⟩ 0) (130 / 600) (15 / 800)
        = .ok (pageHelloWorld.select ⟨0, 0, 0⟩ 0 ⟨0, 0, 1⟩ 4, true)
      ∧ (pageHelloWorld.wordAt ⟨0, 0, 1⟩).map (fun w => (w.text, w.edgeAt 5))
        = some (ofString "world", some 145)
      ∧ getSelectedRegion (pageHelloWorld.select ⟨0, 0, 0⟩ 0 ⟨0, 0, 1⟩ 4)
        = .ok [⟨100 / 600, 8 / 800, 145 / 600, 20 / 800⟩]
      ∧ asciiOps.normalizeNFKC (ofString "Hello world") = ofString "Hello world"
      ∧ getSelectedText asciiOps (pageHelloWorld.select ⟨0, 0, 0⟩ 0 ⟨0, 0, 1⟩ 4) true
        = .ok (some (ofString "Hello world"))
      ∧ getSelectedText asciiOps (pageHelloWorld.select ⟨0, 0, 0⟩ 0 ⟨0, 0, 1⟩ 4) false
        = .ok (some (ofString "Hello worl")) := by
  decide!

/-- C19: on a page that received no word the four pools are as their
constructor left them, the assembly loops create no block (`nBlocks = 0`),
lines 2198-2201 set `blocks = NULL`, and line 2205 writes
`blk1->xMinPre` through `blk1 = blocks`: `coalesce` does not terminate
normally, whatever the block builder and the sort are. -/
theorem coalesce_no_word_null_block (build : Nat → TextPool → Int → TextBlock × TextPool)
    (sort : List TextBlock → List TextBlock) (fuel : Nat) :
    assemble build (fuel + 1) 0 [TextPool.empty, TextPool.empty, TextPool.empty, TextPool.empty] []
        = .ok []
      ∧ coalesceFinish 0 (sort []) = .error .nullDeref
      ∧ coalesce build sort (fuel + 1)
          [TextPool.empty, TextPool.empty, TextPool.empty, TextPool.empty]
        = .error .nullDeref := by
  have h : assemble build (fuel + 1) 0
      [TextPool.empty, TextPool.empty, TextPool.empty, TextPool.empty] [] = .ok [] := by
    simp [assemble, assembleRot, skipEmptyLines, TextPool.empty]
  refine ⟨h, ?_, ?_⟩
  · simp [coalesceFinish]
  · unfold coalesce
    rw [h]
    simp [coalesceFinish]

/-- C21: after `TextPage::coalesce` (its relinking, envelope and index
passes returned the block list of the page), the first word in reading order
has index 0, every word that `nextWord` reaches has the index of the word
before it plus that word's `len` plus 1 when its `spaceAfter` is set,
indices are strictly increasing in reading order, and two different
selectable positions never have the same value `word.index + idx`. -/
theorem index_pass_numbers_positions (p : TextPage) (n : Nat) (arr : List TextBlock)
    (h : coalesceFinish n arr = .ok p.blocks) (hq : p.Queryable) :
    (∀ w, p.wordAt ⟨0, 0, 0⟩ = some w → w.index = 0) ∧
      (∀ r r' w w', nextWord p r = some r' → p.wordAt r = some w → p.wordAt r' = some w' →
        w'.index = w.index + w.len + (if w.spaceAfter then 1 else 0)) ∧
      (∀ r r' w w', r.lt r' → p.wordAt r = some w → p.wordAt r' = some w' →
        w.index < w'.index) ∧
      (∀ r r' w w' i i', p.wordAt r = some w → p.wordAt r' = some w' → Selectable w i →
        Selectable w' i' → (r, i) ≠ (r', i') → w.index + i ≠ w'.index + i') := by
  obtain ⟨j, hc⟩ := coalesceFinish_consec h
  refine ⟨fun w hw => first_index hc hw, ?_, ?_, ?_⟩
  · intro r r' w w' hn hw hw'
    have := nextWord_index hc hn hw hw'
    rw [this]; unfold TextWord.span; omega
  · intro r r' w w' hlt hw hw'
    have hgap := index_gap_consec hc hw hw' hlt
    have hlen : 1 ≤ w.len := hq.len_pos hw
    have hsp : (w.len : Int) ≤ w.span := by unfold TextWord.span; split <;> omega
    omega
  · intro r r' w w' i i' hw hw' hi hi' hne heq
    obtain ⟨h1, h2⟩ := index_injective_consec hc hw hw' hi hi' heq
    exact hne (by rw [h1, h2])

/-- Witness for C21: the blocks of `pageTwoBlocks` run through the passes
again: "ab" has index 0, "cd" 3, "ef" 5, "gh" 7, "ij" 9, "kl" 12. -/
theorem index_pass_numbers_positions_witness :
    coalesceFinish 2 pageTwoBlocks.blocks = .ok pageTwoBlocks.blocks ∧
      pageTwoBlocks.Queryable ∧
      pageTwoBlocks.allWords.map (fun w => w.index) = [0, 3, 5, 7, 9, 12] ∧
      ((∀ w, pageTwoBlocks.wordAt ⟨0, 0, 0⟩ = some w → w.index = 0) ∧
      (∀ r r' w w', nextWord pageTwoBlocks r = some r' → pageTwoBlocks.wordAt r = some w →
        pageTwoBlocks.wordAt r' = some w' →
        w'.index = w.index + w.len + (if w.spaceAfter then 1 else 0)) ∧
      (∀ r r' w w', r.lt r' → pageTwoBlocks.wordAt r = some w →
        pageTwoBlocks.wordAt r' = some w' → w.index < w'.index) ∧
      (∀ r r' w w' i i', pageTwoBlocks.wordAt r = some w → pageTwoBlocks.wordAt r' = some w' →
        Selectable w i → Selectable w' i' → (r, i) ≠ (r', i') →
        w.index + i ≠ w'.index + i')) :=
  ⟨by decide!, by decide!, by decide!,
    index_pass_numbers_positions pageTwoBlocks 2 pageTwoBlocks.blocks (by decide!) (by decide!)⟩

/-- C30: for an accepted glyph event, the current word after
`TextPage::addChar` is the word the code points went to (the word there was,
or a new one), with the UTF-16 decoding of the event's buffer appended to its
text: a high surrogate followed by a low one becomes
`0x10000 + (hi - 0xD800) * 0x400 + (lo - 0xDC00)`, an unpaired surrogate
becomes U+FFFD, any other unit is copied. When there was no current word, the
text of the new word is that decoding, and for a buffer of exactly one
surrogate pair the new word has `len = 1` and 2 edges. -/
theorem addChar_appends_utf16_decoding (keepTiny : Bool) (b : PageBuilder) (e : GlyphEvent)
    (h : b.accepts keepTiny e) :
    ∃ w, (b.addChar keepTiny e).curWord = some w ∧
      (w.text = decodeUTF16 e.u ∨
        ∃ w0, b.curWord = some w0 ∧ w.text = w0.text ++ decodeUTF16 e.u) ∧
      (b.curWord = none → w.text = decodeUTF16 e.u ∧
        ∀ hi lo, e.u = [hi, lo] → isHighSurrogate hi → isLowSurrogate lo →
          w.text = [0x10000 + (hi - 0xD800) * 0x400 + (lo - 0xDC00)] ∧ w.len = 1 ∧
            w.edge.length = 2) := by
  obtain ⟨hoff, htiny, hsp, hu⟩ := h
  have heq : b.addChar keepTiny e =
      { ((b.countTiny keepTiny e).breakWord e).addGlyphs e with
        curWord := (((b.countTiny keepTiny e).breakWord e).addGlyphs e).curWord.map
          (fun w => { w with charLen := w.charLen + e.nBytes }),
        charPos := (((b.countTiny keepTiny e).breakWord e).addGlyphs e).charPos + e.nBytes } := by
    unfold PageBuilder.addChar
    rw [if_neg hoff]
    simp only
    rw [if_neg htiny, if_neg hsp]
  have hb1 := PageBuilder.breakWord_curWord (b.countTiny keepTiny e) e
  rw [PageBuilder.countTiny_curWord] at hb1
  generalize (b.countTiny keepTiny e).breakWord e = b1 at heq hb1
  obtain ⟨w0, x1, y1, w1, h1, hcur, hw0, hnew⟩ := PageBuilder.addGlyphs_curWord b1 e hu
  refine ⟨{ addCharLoop x1 y1 w1 h1 0 e.u w0 with
    charLen := (addCharLoop x1 y1 w1 h1 0 e.u w0).charLen + e.nBytes }, ?_, ?_, ?_⟩
  · rw [heq]
    simp only [hcur, Option.map_some']
  · show (addCharLoop x1 y1 w1 h1 0 e.u w0).text = _ ∨ _
    rw [addCharLoop_text]
    rcases hw0 with hw0 | hw0
    · rcases hb1 with hb1 | hb1
      · exact Or.inr ⟨w0, by rw [← hb1]; exact hw0, rfl⟩
      · rw [hb1] at hw0; cases hw0
    · exact Or.inl (by rw [hw0.1]; rfl)
  · intro hnone
    have hb1n : b1.curWord = none := by
      rcases hb1 with hb1 | hb1
      · rw [hb1]; exact hnone
      · exact hb1
    have hf := hnew hb1n
    have htext : (addCharLoop x1 y1 w1 h1 0 e.u w0).text = decodeUTF16 e.u := by
      rw [addCharLoop_text, hf.1]; rfl
    refine ⟨htext, ?_⟩
    intro hi lo hpair hhi hlo
    have hd : decodeUTF16 [hi, lo] = [0x10000 + (hi - 0xD800) * 0x400 + (lo - 0xDC00)] := by
      simp [decodeUTF16, hhi, hlo]
    refine ⟨by rw [htext, hpair, hd], ?_, ?_⟩
    · show (addCharLoop x1 y1 w1 h1 0 e.u w0).text.length = 1
      rw [htext, hpair, hd]; rfl
    · show (addCharLoop x1 y1 w1 h1 0 e.u w0).edge.length = 2
      have hrot : w0.rot < 4 := by rw [hf.2.2.1]; exact e.rot_lt
      unfold isHighSurrogate at hhi
      unfold isLowSurrogate at hlo
      rw [hpair, addCharLoop, if_pos hhi, if_pos hlo, addCharLoop, TextWord.addChar_edge _ _ _ _ _ _ hrot,
        hf.2.1]
      simp

/-- Witness for C30: the first glyph of a page, one surrogate pair
(U+1F600), gives a word of one code point with two edges. -/
theorem addChar_appends_utf16_decoding_witness :
    (PageBuilder.init 600 800).accepts false (glyph 0 100 6 [0xD83D, 0xDE00] 10) ∧
      ∃ w, ((PageBuilder.init 600 800).addChar false (glyph 0 100 6 [0xD83D, 0xDE00] 10)).curWord =
          some w ∧
        (w.text = decodeUTF16 [0xD83D, 0xDE00] ∨
          ∃ w0, (PageBuilder.init 600 800).curWord = some w0 ∧
            w.text = w0.text ++ decodeUTF16 [0xD83D, 0xDE00]) ∧
        ((PageBuilder.init 600 800).curWord = none → w.text = decodeUTF16 [0xD83D, 0xDE00] ∧
          ∀ hi lo, [0xD83D, 0xDE00] = [hi, lo] → isHighSurrogate hi → isLowSurrogate lo →
            w.text = [0x10000 + (hi - 0xD800) * 0x400 + (lo - 0xDC00)] ∧ w.len = 1 ∧
              w.edge.length = 2) :=
  ⟨by decide!, addChar_appends_utf16_decoding false (PageBuilder.init 600 800)
    (glyph 0 100 6 [0xD83D, 0xDE00] 10) (by decide!)⟩

/-- C26: `n >= 1` calls of `TextWord::addChar` on a new word of rotation 0,
with positions `x_1..x_n` and advances `dx_1..dx_n`, give `len = n`,
`edge = [x_1, ..., x_n, x_n + dx_n]`, `xMin = x_1` and `xMax = x_n + dx_n`;
and from the glyphs H(0,6) e(6,4) l(10,2) l(12,2) o(14,6) at font size 10 on
one base line the word builder makes the single word "Hello" with `xMin = 0`,
`xMax = 20` and edges `[0, 6, 10, 12, 14, 20]`. -/
theorem addChar_edges_of_new_word (x y : ℚ) (charPos : Int) (font : TextFontInfo) (fontSize : ℚ)
    (g : GlyphCall) (gs : List GlyphCall) :
    (((newTextWord 0 x y charPos font fontSize).addChars (g :: gs)).len = (g :: gs).length ∧
      ((newTextWord 0 x y charPos font fontSize).addChars (g :: gs)).edge =
        (g :: gs).map (fun g => g.x) ++
          [((g :: gs).getLast (List.cons_ne_nil g gs)).x +
            ((g :: gs).getLast (List.cons_ne_nil g gs)).dx] ∧
      ((newTextWord 0 x y charPos font fontSize).addChars (g :: gs)).edge.length =
        (g :: gs).length + 1 ∧
      ((newTextWord 0 x y charPos font fontSize).addChars (g :: gs)).box.xMin = g.x ∧
      ((newTextWord 0 x y charPos font fontSize).addChars (g :: gs)).box.xMax =
        ((g :: gs).getLast (List.cons_ne_nil g gs)).x +
          ((g :: gs).getLast (List.cons_ne_nil g gs)).dx) ∧
    ∀ keepTiny : Bool,
      (buildWords keepTiny 600 800 helloEvents).words.map
          (fun w => (w.text, w.box.xMin, w.box.xMax, w.edge)) =
        [([72, 101, 108, 108, 111], 0, 20, [0, 6, 10, 12, 14, 20])] := by
  constructor
  · obtain ⟨h1, h2, h3, h4⟩ := TextWord.addChars_rot0 gs (newTextWord 0 x y charPos font fontSize) g
      rfl (Nat.zero_le _)
    have hlen0 : (newTextWord 0 x y charPos font fontSize).len = 0 := rfl
    rw [hlen0] at h1 h2 h3
    simp only [List.take_zero, List.nil_append, if_true, Nat.zero_add] at h1 h2 h3
    refine ⟨h1, h2, ?_, h3, h4⟩
    rw [h2]
    simp
  · decide!

/-- C27, as the code has it: in every word the word builder
(`TextPage::addChar`, `endWord`, `endPage`) makes from a stream of glyph
events of one rotation `r`, the word has rotation `r` and `len + 1` edges, and
the edge array is monotone in the direction of the rotation up to
`minDupBreakOverlap * |fontSize|`: `edge[i] - 0.2 * |fontSize| <= edge[i+1]`
for `r` 0 or 1, `edge[i+1] <= edge[i] + 0.2 * |fontSize|` for `r` 2 or 3. -/
theorem builder_edges_monotone_within_overlap (keepTiny : Bool) (pageWidth pageHeight : ℚ)
    (events : List GlyphEvent) (r : Nat) (h : ∀ e ∈ events, e.rot = r) :
    ∀ w ∈ (buildWords keepTiny pageWidth pageHeight events).words,
      w.rot = r ∧ w.EdgesMonotoneWithin (2 / 10 * |w.fontSize|) := by
  intro w hw
  have hg := (BuilderInv.buildWords r keepTiny pageWidth pageHeight events h).2.2 w hw
  exact ⟨hg.1, hg.monotone⟩

/-- Witness for C27 as amended: the accent and the letter of `accentEvents`
make one word, which is within the tolerance. -/
theorem builder_edges_monotone_within_overlap_witness :
    (∀ e ∈ accentEvents, e.rot = 0) ∧ (buildWords false 600 800 accentEvents).words ≠ [] ∧
      ∀ w ∈ (buildWords false 600 800 accentEvents).words,
        w.rot = 0 ∧ w.EdgesMonotoneWithin (2 / 10 * |w.fontSize|) :=
  ⟨by decide!, by decide!,
    builder_edges_monotone_within_overlap false 600 800 accentEvents 0 (by decide!)⟩

/-- Counterexample to C27 as stated: a combining accent without advance at
`x = 100` followed by a letter at `x = 98.5` (font size 10, one base line,
rotation 0) is one word with edges `[100, 98.5, 103.5]`, which is not
ascending. -/
theorem accent_word_edges_not_monotone :
    (buildWords false 600 800 accentEvents).words.map (fun w => (w.text, w.rot, w.edge)) =
        [([0x301, 101], 0, [100, 197 / 2, 207 / 2])] ∧
      ¬ ∀ w ∈ (buildWords false 600 800 accentEvents).words, w.EdgesMonotoneWithin 0 := by
  decide!

/-- C29 fails for rotation 1: of the two words X at `y = 0..6` and X at
`y = 0.05..6.05` on the base line `x = 100.5` (font size 10), which the test
of lines 702-720 takes for duplicates of each other, none is deleted: the
page has both, in two lines of one block. For rotation 0 the same pair on the
base line 100 leaves one word. -/
theorem duplicate_kept_at_rotation_one :
    (buildWords false 600 800 dupEventsDown).words.map (fun w => (w.text, w.rot, w.base, w.box)) =
        [([88], 1, 201 / 2, ⟨97, 110, 0, 6⟩), ([88], 1, 201 / 2, ⟨97, 110, 1 / 20, 121 / 20⟩)] ∧
      ((buildWords false 600 800 dupEventsDown).words.zip
          ((buildWords false 600 800 dupEventsDown).words.drop 1)).map
        (fun p => (isDup 1 p.1 p.2, isDup 1 p.2 p.1)) = [(true, true)] ∧
      pageLines dupEventsDown = .ok ([[[[88]], [[88]]]], 0) ∧
      pageLines dupEvents = .ok ([[[[88]]]], 1) := by
  constructor
  · decide!
  constructor
  · decide!
  constructor
  · decide!
  · decide!

/-- C24 fails on a table followed by a wider paragraph, the five blocks of
`tableEvents`: the four cells get `tableId = 0` and the envelope of the table
is `(0, 26, 90.5, 123.5)`, but the cells B and D of the right column end with
`ExMax = 50`, the `xMax` of the paragraph below, because the loop of lines
2143-2177 runs for them too. -/
theorem table_member_extended_past_envelope :
    (extendedBoxes true dblMaxIEEE dblMinIEEE tableBlocks).map
        (fun bs => bs.map (fun b => (b.tableId, b.ex, tableEnvelope bs b.tableId))) =
      .ok [(0, ⟨0, 26, 181 / 2, 247 / 2⟩, some ⟨0, 26, 181 / 2, 247 / 2⟩),
           (0, ⟨0, 50, 181 / 2, 247 / 2⟩, some ⟨0, 26, 181 / 2, 247 / 2⟩),
           (0, ⟨0, 26, 181 / 2, 247 / 2⟩, some ⟨0, 26, 181 / 2, 247 / 2⟩),
           (0, ⟨0, 50, 181 / 2, 247 / 2⟩, some ⟨0, 26, 181 / 2, 247 / 2⟩),
           (-1, ⟨0, 50, 261 / 2, 287 / 2⟩, some ⟨0, 50, 261 / 2, 287 / 2⟩)] := by
  decide!

/-- C23: `TextBlock::coalesce` on a block filled by `TextBlock::addWord` with
words of the rotation of the block (at least one, in any order) returns, and
every two consecutive lines `L`, `L'` of the block satisfy
`L.cmpYX(L') <= 0`. -/
theorem lines_of_block_sorted_by_cmpYX (rot : Nat) (ws : List TextWord) (hne : ws ≠ [])
    (hrot : ∀ w ∈ ws, w.rot = rot) :
    ∃ (b : TextBlock) (deleted : List TextWord),
      (blockOf rot ws).coalesce = .ok (b, deleted) ∧
      ∀ (i : Nat) (l l1 : TextLine), b.lines[i]? = some l → b.lines[i + 1]? = some l1 →
        l.cmpYX l1 ≤ 0 := by
  obtain ⟨h1, h2, h3, h4⟩ := blockOf_spec rot ws
  have hne2 : (blockOf rot ws).pool.words ≠ [] := by
    intro h0
    rw [h0] at h2
    exact hne (List.Perm.nil_eq h2).symm
  obtain ⟨b, lines, raws, del, e1, e2, e3, e4, e5, e6, e7, e8, e9, e10⟩ :=
    NewBlock.coalesce_spec (blockOf rot ws) rot h1 hne2 (fun w hw => hrot w (h2.subset hw))
  refine ⟨b, del, e1, ?_⟩
  intro i l l1 hl hl1
  rw [e2] at hl hl1
  obtain ⟨a, ha, hka⟩ := getElem?_map_eq _ (lines_keep lines) hl
  obtain ⟨c, hc, hkc⟩ := getElem?_map_eq _ (lines_keep lines) hl1
  rw [TextLine.cmpYX_congr l a l1 c hka.symm hkc.symm]
  have hlt : i + 1 < lines.length := by
    by_contra hcon
    rw [List.getElem?_eq_none (by omega)] at hc
    cases hc
  have := List.chain'_iff_get.mp e6 i (by omega)
  rw [List.getElem?_eq_getElem (by omega)] at ha hc
  cases ha
  cases hc
  exact this

/-- Witness for C23: a block of three one-glyph words on the base lines 112,
100 and 100. -/
theorem lines_of_block_sorted_by_cmpYX_witness :
    [oneGlyphWord 0 112 67, oneGlyphWord 0 100 65, oneGlyphWord 8 100 66] ≠ [] ∧
      (∀ w ∈ [oneGlyphWord 0 112 67, oneGlyphWord 0 100 65, oneGlyphWord 8 100 66], w.rot = 0) ∧
      ∃ (b : TextBlock) (deleted : List TextWord),
        (blockOf 0 [oneGlyphWord 0 112 67, oneGlyphWord 0 100 65, oneGlyphWord 8 100 66]).coalesce =
            .ok (b, deleted) ∧
          ∀ (i : Nat) (l l1 : TextLine), b.lines[i]? = some l → b.lines[i + 1]? = some l1 →
            l.cmpYX l1 ≤ 0 :=
  ⟨by simp, by decide!,
    lines_of_block_sorted_by_cmpYX 0
      [oneGlyphWord 0 112 67, oneGlyphWord 0 100 65, oneGlyphWord 8 100 66] (by simp)
      (by decide!)⟩

/-- C22, as the code has it: `TextBlock::coalesce` on a block filled by
`TextBlock::addWord` with words of the rotation of the block, as
`TextWord::addChar` leaves them, returns, and in every line each word begins
at most `-minCharSpacing * fontSize = 0.2 * fontSize` before the end of the
word before it: for consecutive words `w`, `w1`,
`w.edge[w.len] - 0.2 * fontSize <= w1.edge[0]` for rotations 0 and 1 and
`w1.edge[0] <= w.edge[w.len] + 0.2 * fontSize` for 2 and 3, with `fontSize`
that of the first word of the line. -/
theorem words_of_line_follow_within_overlap (rot : Nat) (hr : rot < 4) (ws : List TextWord)
    (hne : ws ≠ []) (hrot : ∀ w ∈ ws, w.rot = rot) (hb : ∀ w ∈ ws, w.Built) :
    ∃ (b : TextBlock) (deleted : List TextWord),
      (blockOf rot ws).coalesce = .ok (b, deleted) ∧
      ∀ l ∈ b.lines, ∀ (i : Nat) (w0 w w1 : TextWord), l.words[0]? = some w0 →
        l.words[i]? = some w → l.words[i + 1]? = some w1 →
        edgeFollows rot (2 / 10 * w0.fontSize) w w1 := by
  obtain ⟨h1, h2, h3, h4⟩ := blockOf_spec rot ws
  have hne2 : (blockOf rot ws).pool.words ≠ [] := by
    intro h0
    rw [h0] at h2
    exact hne (List.Perm.nil_eq h2).symm
  obtain ⟨b, lines, raws, del, e1, e2, e3, e4, e5, e6, e7, e8, e9, e10⟩ :=
    NewBlock.coalesce_spec (blockOf rot ws) rot h1 hne2 (fun w hw => hrot w (h2.subset hw))
  refine ⟨b, del, e1, ?_⟩
  intro l hl i w0 w w1 hw0 hw hw1
  rw [e2] at hl
  -- the line before the envelope pass, and the line it was coalesced from
  obtain ⟨n, hn⟩ := List.mem_iff_getElem?.mp hl
  obtain ⟨l0, hl0, hk⟩ := getElem?_map_eq _ (lines_keep lines) hn
  simp only [Prod.mk.injEq] at hk
  have hl0m : l0 ∈ raws.map TextLine.coalesce :=
    e8.subset (List.mem_iff_getElem?.mpr ⟨n, hl0⟩)
  obtain ⟨raw, hraw, rfl⟩ := List.mem_map.mp hl0m
  have hsub : ∀ x ∈ raw.words, x ∈ ws := by
    intro x hx
    apply h2.subset
    apply e9.symm.subset
    exact List.mem_append_right _ (List.mem_flatMap.mpr ⟨raw, hraw, hx⟩)
  rw [← hk.1] at hw0 hw hw1
  exact RawLine.coalesce_edges rot hr raw (e10 raw hraw) (fun x hx => hb x (hsub x hx))
    (fun x hx => hrot x (hsub x hx)) i w0 w w1 hw0 hw hw1

/-- Witness for C22 as amended: the three words that the word builder makes
of `overlapEvents`, in one block. -/
theorem words_of_line_follow_within_overlap_witness :
    0 < 4 ∧ (buildWords false 600 800 overlapEvents).words ≠ [] ∧
      (∀ w ∈ (buildWords false 600 800 overlapEvents).words, w.rot = 0) ∧
      (∀ w ∈ (buildWords false 600 800 overlapEvents).words, w.Built) ∧
      ∃ (b : TextBlock) (deleted : List TextWord),
        (blockOf 0 (buildWords false 600 800 overlapEvents).words).coalesce = .ok (b, deleted) ∧
        ∀ l ∈ b.lines, ∀ (i : Nat) (w0 w w1 : TextWord), l.words[0]? = some w0 →
          l.words[i]? = some w → l.words[i + 1]? = some w1 →
          edgeFollows 0 (2 / 10 * w0.fontSize) w w1 :=
  ⟨by decide, by decide!, by decide!, by decide!,
    words_of_line_follow_within_overlap 0 (by decide)
      (buildWords false 600 800 overlapEvents).words (by decide!) (by decide!) (by decide!)⟩

/-- Counterexample to C22 as stated: of the glyphs A at `0..10`, C at
`7.5..20` and B at `8.5..9`, drawn in that order, the page has one line with
the words A, B, C in that order (`xMin` 0, 8.5, 7.5), and
`B.primaryCmp(C) = 1`. -/
theorem line_words_not_in_primaryCmp_order :
    (blocksOfPools 0 (buildWords false 600 800 overlapEvents).pools [] []).map
        (fun r => r.1.flatMap (fun b => b.lines.map (fun l => l.words.map
          (fun w => (w.text, w.box.xMin))))) =
      .ok [[([65], 0), ([66], 17 / 2), ([67], 15 / 2)]] ∧
    (blocksOfPools 0 (buildWords false 600 800 overlapEvents).pools [] []).map
        (fun r => ((blockWords r.1).zip ((blockWords r.1).drop 1)).map
          (fun p => p.1.primaryCmp p.2)) =
      .ok [-1, 1] := by
  constructor
  · decide!
  · decide!

/-- C31 fails for a space of two bytes: after the glyph A and a space, both
of two bytes, the space has added no glyph and has ended the word, which is
in the pool with `charPos = 0` and `charLen = 3` (two for the A, one for the
space, line 1430), while `charPos` of the page is 4. -/
theorem space_adds_one_to_charLen :
    (twoByteEvents.foldl (PageBuilder.addChar false) (PageBuilder.init 600 800)).curWord = none ∧
      (twoByteEvents.foldl (PageBuilder.addChar false) (PageBuilder.init 600 800)).words.map
        (fun w => (w.text, w.charPos, w.charLen)) = [([65], 0, 3)] ∧
      (twoByteEvents.foldl (PageBuilder.addChar false) (PageBuilder.init 600 800)).charPos = 4 := by
  constructor
  · decide!
  constructor
  · decide!
  · decide!

/-- C33, as the code has it: on a line of at least two words the space
threshold of `TextLine::coalesce` is `min(1.3 * minSpace, 0.4 * fontSize)`,
with `minSpace` the least primary gap between adjacent words, when no word
of the line has more than one glyph and every gap between adjacent words is
positive, and `0.03 * fontSize` otherwise (`fontSize` being that of the
first word). -/
theorem space_threshold_of_line (w0 w1 : TextWord) (rest : List TextWord) :
    spaceThreshold w0 w1 rest =
      if (∀ w ∈ w0 :: w1 :: rest, w.len ≤ 1) ∧ (∀ g ∈ gaps (w0 :: w1 :: rest), 0 < g) then
        min (13 / 10 * (gaps (w1 :: rest)).foldl min (w0.primaryDelta w1)) (4 / 10 * w0.fontSize)
      else 3 / 100 * w0.fontSize := by
  have hg : gaps (w0 :: w1 :: rest) = w0.primaryDelta w1 :: gaps (w1 :: rest) := rfl
  unfold spaceThreshold
  simp only
  by_cases h01 : w0.len > 1 ∨ w1.len > 1
  · rw [if_pos h01, if_pos le_rfl, if_neg]
    rintro ⟨h, _⟩
    rcases h01 with h0 | h1
    · have := h w0 (List.mem_cons_self _ _); omega
    · have := h w1 (List.mem_cons_of_mem _ (List.mem_cons_self _ _)); omega
  · rw [if_neg h01]
    have h0 : w0.len ≤ 1 := by omega
    have h1 : w1.len ≤ 1 := by omega
    by_cases hd : 0 < w0.primaryDelta w1
    · obtain ⟨s1, s2⟩ := minSpaceLoop_spec rest w1 _ hd
      by_cases hc : (∀ v ∈ rest, v.len ≤ 1) ∧ (∀ g ∈ gaps (w1 :: rest), 0 < g)
      · obtain ⟨e1, e2⟩ := s1 hc
        have hall : (∀ w ∈ w0 :: w1 :: rest, w.len ≤ 1) ∧
            (∀ g ∈ gaps (w0 :: w1 :: rest), 0 < g) := by
          refine ⟨?_, ?_⟩
          · intro w hw
            rcases List.mem_cons.mp hw with rfl | hw
            · exact h0
            rcases List.mem_cons.mp hw with rfl | hw
            · exact h1
            · exact hc.1 w hw
          · intro g hgm
            rw [hg] at hgm
            rcases List.mem_cons.mp hgm with rfl | hgm
            · exact hd
            · exact hc.2 g hgm
        rw [e1, if_neg (not_le.mpr e2), if_pos hall]
        split
        · next h => rw [min_eq_right (le_of_lt h)]
        · next h => rw [min_eq_left (not_lt.mp h)]
      · rw [if_pos (s2 hc), if_neg]
        rintro ⟨ha, hb⟩
        apply hc
        exact ⟨fun v hv => ha v (List.mem_cons_of_mem _ (List.mem_cons_of_mem _ hv)),
          fun g hgm => hb g (by rw [hg]; exact List.mem_cons_of_mem _ hgm)⟩
    · have hle : w0.primaryDelta w1 ≤ 0 := not_lt.mp hd
      rw [minSpaceLoop_nonpos _ _ hle, if_pos hle, if_neg]
      rintro ⟨_, hb⟩
      exact hd (hb _ (by rw [hg]; exact List.mem_cons_self _ _))

/-- Counterexample to C33 as stated, at font size 10. The one-glyph words A
at `0..6`, B at `8..14` and C at `13..19` have the gaps 2 and -1: the least
positive gap is 2, which gives 2.6, and the threshold is 0.3. The words "ab"
at `0..12`, c at `14..20` and d at `22..28` have the gap 2 between the
one-glyph words c and d, and the threshold is 0.3. -/
theorem space_threshold_not_least_positive_gap :
    spaceThreshold (oneGlyphWord 0 100 65) (oneGlyphWord 8 100 66) [oneGlyphWord 13 100 67] =
        3 / 10 ∧
      specThreshold [oneGlyphWord 0 100 65, oneGlyphWord 8 100 66, oneGlyphWord 13 100 67] 10 =
        13 / 5 ∧
      spaceThreshold (twoGlyphWord 0 100) (oneGlyphWord 14 100 99) [oneGlyphWord 22 100 100] =
        3 / 10 ∧
      specThreshold [twoGlyphWord 0 100, oneGlyphWord 14 100 99, oneGlyphWord 22 100 100] 10 =
        13 / 5 := by
  constructor
  · decide!
  constructor
  · decide!
  constructor
  · decide!
  · decide!

/-- C40: after `TextLine::coalesce` on words as the word builder makes them
(`spaceAfter` not set), a word with `spaceAfter` set has a following word in
the line. Hence on a coalesced page whose lines carry the marks
`TextLine::coalesce` leaves, in every selection state reached by
`startSelection` and `moveSelEndTo`, a word with `spaceAfter` set has a
`next`, and so has the begin or end word of the ordered selection whenever
its index equals its `len`, which is where `getSelectedText` (line 2665) and
`getSelectedRegion` (line 2578) step to `next`. -/
theorem marked_word_has_successor (p0 q : TextPage) (hc : p0.Coalesced)
    (hp : ∀ b ∈ p0.blocks, ∀ l ∈ b.lines, ∃ l0 : TextLine,
      (∀ w ∈ l0.words, w.spaceAfter = false) ∧
        l.words.map (fun w => w.spaceAfter) = l0.coalesce.words.map (fun w => w.spaceAfter))
    (hr : Reachable p0 q) :
    (∀ l0 : TextLine, (∀ w ∈ l0.words, w.spaceAfter = false) →
      ∀ (i : Nat) (w : TextWord), l0.coalesce.words[i]? = some w → w.spaceAfter = true →
        i + 1 < l0.coalesce.words.length) ∧
    (∀ (r : WordRef) (w : TextWord), q.wordAt r = some w → w.spaceAfter = true →
      (q.next r).isSome) ∧
    (∀ (b : WordRef) (bIdx : Int) (e : WordRef) (eIdx : Int) (bw ew : TextWord),
      orderedSelection q = some (b, bIdx, e, eIdx) → q.wordAt b = some bw →
        q.wordAt e = some ew →
        (bIdx = bw.len → (q.next b).isSome) ∧ (eIdx = ew.len → (q.next e).isSome)) := by
  have c1 : ∀ l0 : TextLine, (∀ w ∈ l0.words, w.spaceAfter = false) →
      ∀ (i : Nat) (w : TextWord), l0.coalesce.words[i]? = some w → w.spaceAfter = true →
        i + 1 < l0.coalesce.words.length := by
    intro l0 h0 i w hw hsp
    have := marked_has_successor (l0.coalesce.words.map (fun w => w.spaceAfter))
      (TextLine.coalesce_marked l0 h0) i (by rw [List.getElem?_map, hw]; simp [hsp])
    simpa using this
  obtain ⟨hb, s, e, sw, ew, hs, he, hsw, hew, hsel2⟩ := hr.inv hc
  obtain ⟨s', sw', hs', hsw', hsel1, _⟩ := hr.start_inv hc
  rw [hs] at hs'
  cases hs'
  rw [hsw] at hsw'
  cases hsw'
  have c2 : ∀ (r : WordRef) (w : TextWord), q.wordAt r = some w → w.spaceAfter = true →
      (q.next r).isSome := by
    intro r w hw hsp
    obtain ⟨blk, ln, hblk, hln, hw'⟩ := wordAt_eq_some.mp hw
    rw [hb] at hblk
    obtain ⟨l0, h0, hflags⟩ := hp blk (mem_of_getElem? hblk) ln (mem_of_getElem? hln)
    have hlt := marked_has_successor (ln.words.map (fun w => w.spaceAfter))
      (by rw [hflags]; exact TextLine.coalesce_marked l0 h0) r.word
      (by rw [List.getElem?_map, hw']; simp [hsp])
    rw [List.length_map] at hlt
    have hnext : q.wordAt ⟨r.blk, r.line, r.word + 1⟩ = some (ln.words.get ⟨r.word + 1, hlt⟩) := by
      apply wordAt_eq_some.mpr
      refine ⟨blk, ln, by rw [hb]; exact hblk, hln, ?_⟩
      exact List.getElem?_eq_getElem hlt
    unfold TextPage.next
    rw [hnext]
    rfl
  refine ⟨c1, c2, ?_⟩
  intro b bIdx e1 eIdx bw ew1 hord hbw hew1
  unfold orderedSelection at hord
  simp only [hs, he, hsw, hew] at hord
  split at hord
  · simp only [Option.some.injEq, Prod.mk.injEq] at hord
    obtain ⟨rfl, rfl, rfl, rfl⟩ := hord
    rw [hsw] at hbw
    cases hbw
    rw [hew] at hew1
    cases hew1
    exact ⟨fun h => c2 _ _ hsw (hsel1.2.2 h), fun h => c2 _ _ hew (hsel2.2.2 h)⟩
  · simp only [Option.some.injEq, Prod.mk.injEq] at hord
    obtain ⟨rfl, rfl, rfl, rfl⟩ := hord
    rw [hew] at hbw
    cases hbw
    rw [hsw] at hew1
    cases hew1
    exact ⟨fun h => c2 _ _ hew (hsel2.2.2 h), fun h => c2 _ _ hsw (hsel1.2.2 h)⟩

/-- Witness for C40: the line "Hello world", whose marks are those
`TextLine::coalesce` leaves on the two words of the line, with the selection
on the space after "Hello" (`selIdx1 = selIdx2 = 5 = len`). -/
theorem marked_word_has_successor_witness :
    pageHelloWorld.Coalesced ∧
      (∀ b ∈ pageHelloWorld.blocks, ∀ l ∈ b.lines, ∃ l0 : TextLine,
        (∀ w ∈ l0.words, w.spaceAfter = false) ∧
          l.words.map (fun w => w.spaceAfter) =
            l0.coalesce.words.map (fun w => w.spaceAfter)) ∧
      Reachable pageHelloWorld pageHelloWorldSelected ∧
      orderedSelection pageHelloWorldSelected = some (⟨0, 0, 0⟩, 5, ⟨0, 0, 0⟩, 5) ∧
      (pageHelloWorldSelected.next ⟨0, 0, 0⟩).isSome :=
  have hp : ∀ b ∈ pageHelloWorld.blocks, ∀ l ∈ b.lines, ∃ l0 : TextLine,
      (∀ w ∈ l0.words, w.spaceAfter = false) ∧
        l.words.map (fun w => w.spaceAfter) =
          l0.coalesce.words.map (fun w => w.spaceAfter) := by
    intro b hb l hl
    have hflags : ∀ b ∈ pageHelloWorld.blocks, ∀ l ∈ b.lines,
        l.words.map (fun w => w.spaceAfter) = [true, false] := by decide!
    refine ⟨newTextLine 0 20
      [mkWord "Hello" 100 120 10 20 false, mkWord "world" 125 145 8 20 false], by decide!, ?_⟩
    rw [hflags b hb l hl]
    decide!
  ⟨by decide!, hp, Reachable.start (1 / 5) (1 / 80) _ (by decide!), by decide!,
    ((marked_word_has_successor pageHelloWorld pageHelloWorldSelected (by decide!) hp
      (Reachable.start (1 / 5) (1 / 80) _ (by decide!))).2.2 ⟨0, 0, 0⟩ 5 ⟨0, 0, 0⟩ 5
      ((pageHelloWorldSelected.wordAt ⟨0, 0, 0⟩).get (by decide!))
      ((pageHelloWorldSelected.wordAt ⟨0, 0, 0⟩).get (by decide!))
      (by decide!) (by decide!) (by decide!)).1 (by decide!)⟩

/-- C32: after any sequence of `TextPool::addWord` calls on the pool the
constructor leaves, with words of one rotation, every base line of the pool
is sorted ascending by `primaryCmp` (no word is followed by one that
compares smaller), and every word added is in the base line of its own index
`(int)(base / 4)`, which is between `minBaseIdx` and `maxBaseIdx`. -/
theorem pool_base_lines_stay_sorted (rot : Nat) (ws : List TextWord)
    (hrot : ∀ w ∈ ws, w.rot = rot) :
    (ws.foldl TextPool.addWord TextPool.empty).Sorted ∧
      ∀ w ∈ ws, (ws.foldl TextPool.addWord TextPool.empty).InRange w.baseIdx ∧
        w ∈ (ws.foldl TextPool.addWord TextPool.empty).getPool w.baseIdx := by
  obtain ⟨_, h2, _, h4⟩ := TextPool.foldl_addWord_sorted rot ws TextPool.empty
    TextPool.empty_WF (by intro bucket hb; simp [TextPool.empty] at hb) hrot
  refine ⟨?_, h4⟩
  intro bucket hb i a b ha hb1 hlt
  obtain ⟨r1, r2⟩ := h2 bucket hb
  have hi : i + 1 < bucket.length := by
    by_contra hcon
    rw [List.getElem?_eq_none (by omega)] at hb1
    cases hb1
  have hle := List.pairwise_iff_getElem.mp r2 i (i + 1) (by omega) hi (by omega)
  rw [List.getElem?_eq_getElem (by omega)] at ha hb1
  rw [Option.some.inj ha, Option.some.inj hb1] at hle
  have hkey := (TextWord.primaryCmp_key b a (by
    rw [r1 a (mem_of_getElem? (by rw [← ha]; exact List.getElem?_eq_getElem (by omega))),
      r1 b (mem_of_getElem? (by rw [← hb1]; exact List.getElem?_eq_getElem hi))])).2.mp hlt
  exact absurd hle (not_le.mpr hkey)

/-- Witness for C32: the one-glyph words B at `x = 8`, A at `x = 0` and C at
`x = 16` on the base line 100, added in that order: A is put before B by a
scan from the head of the base line, C after B by a scan from the cursor
(A), and base line 25 holds A, B, C. -/
theorem pool_base_lines_stay_sorted_witness :
    (∀ w ∈ [oneGlyphWord 8 100 66, oneGlyphWord 0 100 65, oneGlyphWord 16 100 67], w.rot = 0) ∧
      (([oneGlyphWord 8 100 66, oneGlyphWord 0 100 65, oneGlyphWord 16 100 67].foldl
        TextPool.addWord TextPool.empty).getPool 25).map (fun w => w.text) =
          [[65], [66], [67]] ∧
      ([oneGlyphWord 8 100 66, oneGlyphWord 0 100 65, oneGlyphWord 16 100 67].foldl
        TextPool.addWord TextPool.empty).Sorted :=
  ⟨by decide!, by decide!,
    (pool_base_lines_stay_sorted 0
      [oneGlyphWord 8 100 66, oneGlyphWord 0 100 65, oneGlyphWord 16 100 67] (by decide!)).1⟩

/-- C37 fails when a glyph of the span lies left of the glyphs before it:
for a span with the glyphs at `x = 10..15` and then `x = 0..5` (`y = 0`,
`dy = 0`), no glyph event of the span calls `addChar`, and the one call made
when the span ends has `x = 0` and `dx = 5`: the box ends at 5, not at 15,
the largest `x + dx` of the glyphs (lines 1284-1285 move `actualText_x` and
leave `actualText_dx` as it was). -/
theorem actualText_box_loses_right_edge (pdfDocEncoding : Nat → Unicode) (past : Nat) :
    (runEvents pdfDocEncoding past
        [.beginMarkedContent (some [65, 66]), .drawChar 10 0 5 0 65 1 [65],
          .drawChar 0 0 5 0 66 1 [66]] {} []).map (fun r => r.2) = .ok [] ∧
      (runEvents pdfDocEncoding past
        [.beginMarkedContent (some [65, 66]), .drawChar 10 0 5 0 65 1 [65],
          .drawChar 0 0 5 0 66 1 [66], .endMarkedContent 5 0] {} []).map
        (fun r => r.2.map (fun call => (call.x, call.y, call.dx, call.dy))) =
          .ok [(0, 0, 5, 0)] := by
  constructor
  · rfl
  · simp [runEvents, beginMarkedContent, drawChar, endMarkedContent, Except.map]

/-- C38 fails for a string with the Unicode marker: for the ActualText
`FE FF 00 41 00 42` ("AB" in UTF-16BE, `n = 2`) the end of the span makes
one call of `addChar`, with `uLen = 4` code points that begin with U+0041,
U+4100, U+0042, where the claim has the two code points U+0041, U+0042: the
loop of lines 1337-1340 steps by one byte, not by two. -/
theorem actualText_marker_units_overlap (pdfDocEncoding : Nat → Unicode) (past : Nat) :
    (runEvents pdfDocEncoding past
        [.beginMarkedContent (some [0xFE, 0xFF, 0, 0x41, 0, 0x42]), .endMarkedContent 0 0]
        {} []).map (fun r => r.2.map (fun call => (call.u.length, call.u.take 3))) =
      .ok [(4, [0x41, 0x4100, 0x42])] ∧
    specUnits [0xFE, 0xFF, 0, 0x41, 0, 0x42] = [0x41, 0x42] := by
  constructor
  · simp [runEvents, beginMarkedContent, endMarkedContent, Except.map, hasUnicodeMarker,
      markerUnits, getChar, List.range_succ]
    decide
  · rfl

/-- C34: whatever `blkarray` holds after `qsort` (`nBlocks` entries) and
whatever the before relation is, cycles included, the depth-first pass of
lines 2182-2186 returns and leaves in `blkarray` each block of the list
exactly once; and lines 2188-2201 then make of them a consistent doubly
linked list: `blocks` is the first block of the array and its `prev` is
null, `lastBlk` is the last and its `next` is null, and each block of the
array has the one after it as `next`, which has it as `prev`. -/
theorem blocks_relinked_as_permutation (primaryRot : Nat) (primaryLR : Bool)
    (blocks : List TextBlock) (blkarray : List Nat) (links : BlockLinks)
    (hlen : blkarray.length = blocks.length) (hnext : links.next.length = blocks.length)
    (hprev : links.prev.length = blocks.length) :
    ∃ order : List Nat, readingOrder primaryRot primaryLR blocks blkarray = .ok order ∧
      order.Perm (List.range blocks.length) ∧
      (relink order links).blocks = order.head? ∧
      (relink order links).lastBlk = order.getLast? ∧
      (∀ first, order.head? = some first → (relink order links).prev[first]? = some none) ∧
      (∀ last, order.getLast? = some last → (relink order links).next[last]? = some none) ∧
      (∀ (i a b : Nat), order[i]? = some a → order[i + 1]? = some b →
        (relink order links).next[a]? = some (some b) ∧
          (relink order links).prev[b]? = some (some a)) := by
  obtain ⟨order, e1, e2, _⟩ := readingOrder_spec primaryRot primaryLR blocks blkarray hlen
  have hnd : order.Nodup := e2.nodup_iff.mpr (List.nodup_range _)
  have hlt : ∀ p ∈ order, p < links.next.length ∧ p < links.prev.length := by
    intro p hp
    have := List.mem_range.mp (e2.subset hp)
    omega
  obtain ⟨r1, r2, r3, r4, r5⟩ := relink_spec order links hnd hlt
  exact ⟨order, e1, e2, r1, r2, r3, r4, r5⟩

/-- Witness for C34: the two blocks of `overlayExtended`, linked as they were
formed, with `blkarray` as `qsort` leaves it (the second block first). -/
theorem blocks_relinked_as_permutation_witness :
    ([1, 0] : List Nat).length = overlayExtended.length ∧
      ([some 1, none] : List (Option Nat)).length = overlayExtended.length ∧
      ([none, some 0] : List (Option Nat)).length = overlayExtended.length ∧
      ∃ order : List Nat, readingOrder 0 true overlayExtended [1, 0] = .ok order ∧
        order.Perm (List.range overlayExtended.length) ∧
        (relink order ⟨some 0, some 1, [some 1, none], [none, some 0]⟩).blocks = order.head? ∧
        (relink order ⟨some 0, some 1, [some 1, none], [none, some 0]⟩).lastBlk =
          order.getLast? ∧
        (∀ first, order.head? = some first →
          (relink order ⟨some 0, some 1, [some 1, none], [none, some 0]⟩).prev[first]? =
            some none) ∧
        (∀ last, order.getLast? = some last →
          (relink order ⟨some 0, some 1, [some 1, none], [none, some 0]⟩).next[last]? =
            some none) ∧
        (∀ (i a b : Nat), order[i]? = some a → order[i + 1]? = some b →
          (relink order ⟨some 0, some 1, [some 1, none], [none, some 0]⟩).next[a]? =
              some (some b) ∧
            (relink order ⟨some 0, some 1, [some 1, none], [none, some 0]⟩).prev[b]? =
              some (some a)) :=
  ⟨by decide, by decide, by decide,
    blocks_relinked_as_permutation 0 true overlayExtended [1, 0]
      ⟨some 0, some 1, [some 1, none], [none, some 0]⟩ (by decide) (by decide) (by decide)⟩
/-- C35: when the before relation that `visitDepthFirst` evaluates (`isBefore`:
the table rule, rule 1, or rule 2 without an intervening block) has no cycle
through different blocks of the list, the depth-first pass returns an order
in which, for all blocks `a` and `b` other than `a` with `b` before `a`, `b`
comes earlier than `a`. -/
theorem before_blocks_come_first (primaryRot : Nat) (primaryLR : Bool)
    (blocks : List TextBlock) (blkarray : List Nat) (hlen : blkarray.length = blocks.length)
    (hacyclic : ∀ x, ¬ Relation.TransGen
      (BeforeOn (isBefore primaryRot primaryLR blocks) blocks.length) x x) :
    ∃ order : List Nat, readingOrder primaryRot primaryLR blocks blkarray = .ok order ∧
      ∀ (a b : Nat), a < blocks.length → b < blocks.length → b ≠ a →
        isBefore primaryRot primaryLR blocks b a = true →
        ∃ (i j : Nat), j < i ∧ order[j]? = some b ∧ order[i]? = some a := by
  obtain ⟨order, e1, e2, e3⟩ := readingOrder_spec primaryRot primaryLR blocks blkarray hlen
  refine ⟨order, e1, ?_⟩
  intro a b ha hb hne hR
  obtain ⟨i, hi⟩ := List.mem_iff_getElem?.mp (e2.symm.subset (List.mem_range.mpr ha))
  rcases e3 i a hi b hb hR with ⟨j, hj, hjb⟩ | h | h
  · exact ⟨i, j, hj, hjb, hi⟩
  · exact absurd h hne
  · exact absurd (h.tail ⟨hR, hne, hb, ha⟩) (hacyclic a)

/-- Witness for C35: the five blocks of the table example, where each block
is before the blocks formed after it and before no other. -/
theorem before_blocks_come_first_witness :
    ([4, 3, 2, 1, 0] : List Nat).length = tableExtended.length ∧
      (∀ x, ¬ Relation.TransGen (BeforeOn (isBefore 0 true tableExtended) tableExtended.length)
        x x) ∧
      isBefore 0 true tableExtended 1 3 = true ∧
      ∃ order : List Nat, readingOrder 0 true tableExtended [4, 3, 2, 1, 0] = .ok order ∧
        ∀ (a b : Nat), a < tableExtended.length → b < tableExtended.length → b ≠ a →
          isBefore 0 true tableExtended b a = true →
          ∃ (i j : Nat), j < i ∧ order[j]? = some b ∧ order[i]? = some a :=
  have hacyclic : ∀ x, ¬ Relation.TransGen
      (BeforeOn (isBefore 0 true tableExtended) tableExtended.length) x x :=
    acyclic_of_rank _ _ id (by decide!)
  ⟨by decide!, hacyclic, by decide!,
    before_blocks_come_first 0 true tableExtended [4, 3, 2, 1, 0] (by decide!) hacyclic⟩
/-- C39: the block assembly of `TextPage::coalesce` (lines 1585-1894) returns
for every list of words handed to `TextPage::addWord`: on the four pools they
fill, each loop ends within a number of rounds bounded by the number of words
in its pool (the growth loop `do ... while (found)`, the duplicate removal
and the line building of `TextBlock::coalesce`, the loop over the blocks of a
rotation), and the four pools are left without a word. -/
theorem block_assembly_empties_pools (pageWidth pageHeight : ℚ) (ws : List TextWord) :
    ∃ (blocks : List TextBlock) (deleted : List TextWord) (pools1 : List TextPool),
      blocksOfPools 0 (ws.foldl PageBuilder.addWord (PageBuilder.init pageWidth pageHeight)).pools
          [] [] = .ok (blocks, deleted, pools1) ∧
        pools1.length = 4 ∧ ∀ p ∈ pools1, p.words = [] := by
  obtain ⟨h1, h2, h3⟩ := PageBuilder.foldl_addWord_pools ws
    (PageBuilder.init pageWidth pageHeight) rfl PageBuilder.init_pools_WF
    PageBuilder.init_pools_rot
  obtain ⟨blocks, deleted, pools1, _, a1, a2, a3, _⟩ :=
    blocksOfPools_spec _ 0 [] [] h2 (fun k p hk w hw => by simpa using h3 k p hk w hw)
  exact ⟨[] ++ blocks, [] ++ deleted, pools1, a1, by rw [a2, h1], fun p hp => (a3 p hp).2⟩

/-- C25: for the words handed to `TextPage::addWord` (rotation 0 to 3,
`len + 1` edges each), the block assembly of `TextPage::coalesce` returns and
leaves the four pools without a word. The pooled words (those with a glyph)
are, each once, the words deleted as duplicates and the words of the lines
`raws` as `TextBlock::coalesce` chains them; the lines of the blocks are
these lines after `TextLine::coalesce`, which merges a word into the word
before it and so keeps the code points of the line in their order. Every
word of a block has a glyph and `len + 1` edges, and the glyphs of the blocks
and of the deleted words add up to the glyphs handed in. -/
theorem assembly_keeps_every_word (pageWidth pageHeight : ℚ) (ws : List TextWord)
    (hrot : ∀ w ∈ ws, w.rot < 4) (hedge : ∀ w ∈ ws, w.edge.length = w.len + 1) :
    ∃ (blocks : List TextBlock) (deleted : List TextWord) (pools1 : List TextPool)
        (raws : List TextLine),
      blocksOfPools 0 (ws.foldl PageBuilder.addWord (PageBuilder.init pageWidth pageHeight)).pools
          [] [] = .ok (blocks, deleted, pools1) ∧
        pools1.length = 4 ∧ (∀ p ∈ pools1, p.words = []) ∧
        (ws.filter (fun w => decide (w.len ≠ 0))).Perm
          (deleted ++ raws.flatMap (fun l => l.words)) ∧
        ((blocks.flatMap (fun b => b.lines)).map (fun l => l.words)).Perm
          (raws.map (fun l => l.coalesce.words)) ∧
        (∀ raw ∈ raws, raw.coalesce.words.flatMap (fun w => w.text) =
          raw.words.flatMap (fun w => w.text)) ∧
        (∀ w ∈ blockWords blocks, 0 < w.len ∧ w.edge.length = w.len + 1) ∧
        ((blockWords blocks).map (fun w => w.len)).sum + (deleted.map (fun w => w.len)).sum =
          (ws.map (fun w => w.len)).sum := by
  obtain ⟨h1, h2, h3⟩ := PageBuilder.foldl_addWord_pools ws
    (PageBuilder.init pageWidth pageHeight) rfl PageBuilder.init_pools_WF
    PageBuilder.init_pools_rot
  have hpool := PageBuilder.foldl_addWord_words ws (PageBuilder.init pageWidth pageHeight) rfl
    PageBuilder.init_pools_WF PageBuilder.init_pools_rot hrot
  have h0 : (PageBuilder.init pageWidth pageHeight).pools.flatMap (fun p => p.words) = [] := by
    simp [PageBuilder.init, TextPool.words, TextPool.empty]
  rw [h0, List.nil_append] at hpool
  obtain ⟨blocks, deleted, pools1, raws, a1, a2, a3, a4, a5⟩ :=
    blocksOfPools_spec _ 0 [] [] h2 (fun k p hk w hw => by simpa using h3 k p hk w hw)
  have hall := hpool.symm.trans a4
  -- the words of the raw lines are pooled words
  have hshaped : ∀ raw ∈ raws, ∀ w ∈ raw.words, w.Shaped := by
    intro raw hraw w hw
    have hmem : w ∈ ws.filter (fun w => decide (w.len ≠ 0)) :=
      hall.symm.subset (List.mem_append_right _ (List.mem_flatMap.mpr ⟨raw, hraw, hw⟩))
    obtain ⟨m1, m2⟩ := List.mem_filter.mp hmem
    have hne : w.len ≠ 0 := by simpa using m2
    exact ⟨by omega, hedge w m1⟩
  have hwords : (blockWords ([] ++ blocks)).Perm
      ((raws.map (fun l => l.coalesce.words)).flatten) := by
    rw [List.nil_append, blockWords_eq]
    exact List.Perm.flatten a5
  refine ⟨[] ++ blocks, [] ++ deleted, pools1, raws, a1, by rw [a2, h1],
    fun p hp => (a3 p hp).2, hall, a5, fun raw hraw => (TextLine.coalesce_glyphs raw (hshaped raw hraw)).2,
    ?_, ?_⟩
  · intro w hw
    obtain ⟨l, hl, hwl⟩ := List.mem_flatten.mp (hwords.subset hw)
    obtain ⟨raw, hraw, hrl⟩ := List.mem_map.mp hl
    rw [← hrl] at hwl
    exact (TextLine.coalesce_glyphs raw (hshaped raw hraw)).1 w hwl
  · have e1 := (hwords.map (fun w => w.len)).sum_eq
    have e2 := coalesced_lines_glyphs raws hshaped
    have e3 := (hall.map (fun w => w.len)).sum_eq
    rw [sum_len_filter, List.map_append, List.sum_append] at e3
    rw [e1, e2, List.nil_append, e3]
    omega

/-- Witness for C25: the one-glyph words A at `0..6` and B at `12..18` on the
base line 100. -/
theorem assembly_keeps_every_word_witness :
    ∃ (blocks : List TextBlock) (deleted : List TextWord) (pools1 : List TextPool)
        (raws : List TextLine),
      blocksOfPools 0 ([oneGlyphWord 0 100 65, oneGlyphWord 12 100 66].foldl PageBuilder.addWord
          (PageBuilder.init 600 800)).pools [] [] = .ok (blocks, deleted, pools1) ∧
        pools1.length = 4 ∧ (∀ p ∈ pools1, p.words = []) ∧
        ([oneGlyphWord 0 100 65, oneGlyphWord 12 100 66].filter
            (fun w => decide (w.len ≠ 0))).Perm
          (deleted ++ raws.flatMap (fun l => l.words)) ∧
        ((blocks.flatMap (fun b => b.lines)).map (fun l => l.words)).Perm
          (raws.map (fun l => l.coalesce.words)) ∧
        (∀ raw ∈ raws, raw.coalesce.words.flatMap (fun w => w.text) =
          raw.words.flatMap (fun w => w.text)) ∧
        (∀ w ∈ blockWords blocks, 0 < w.len ∧ w.edge.length = w.len + 1) ∧
        ((blockWords blocks).map (fun w => w.len)).sum + (deleted.map (fun w => w.len)).sum =
          ([oneGlyphWord 0 100 65, oneGlyphWord 12 100 66].map (fun w => w.len)).sum :=
  assembly_keeps_every_word 600 800 [oneGlyphWord 0 100 65, oneGlyphWord 12 100 66]
    (by decide!) (by decide!)

/-- Counterexample to C28 as stated: the glyphs A at `0..6` and B at `20..26`
on the base line 0 at font size 10 (gap 14, between 0.4 and 1.5 font sizes)
give two blocks of one word each, and A has no `spaceAfter`: the gap is not
less than `colSpace2 = minColSpacing2 * fontSize = 10`, so the block of A does
not take B. -/
theorem wide_gap_makes_two_blocks :
    pageWordMarks [glyph 0 0 6 [65] 10, glyph 20 0 6 [66] 10] =
      .ok [[[([65], false)]], [[([66], false)]]] := by
  decide!

/-- C28, as the code has it: two one-glyph events of the same font and font
size `fs` on one base line at rotation 0 (glyphs on the page, with a positive
advance, neither a space nor a surrogate), the second at a gap `g` with
`0.4 * fs <= g < 1.0 * fs` after the first, give one block of one line with
two words, not merged, the first with `spaceAfter = true`. -/
theorem narrow_gap_makes_two_words_one_line (x y dx1 dx2 g fs : ℚ) (u1 u2 : Unicode)
    (hfs : 0 < fs) (hd1 : 0 < dx1) (hd2 : 0 < dx2) (hx : 0 ≤ x)
    (hw : x + dx1 + g + dx2 ≤ 600) (hy : 0 ≤ y) (hy2 : y ≤ 800)
    (hu1 : u1 ≠ 0x20 ∧ ¬ (0xd800 ≤ u1 ∧ u1 < 0xe000))
    (hu2 : u2 ≠ 0x20 ∧ ¬ (0xd800 ≤ u2 ∧ u2 < 0xe000))
    (hg1 : 4 / 10 * fs ≤ g) (hg2 : g < 1 * fs) :
    pageWordMarks [glyph x y dx1 [u1] fs, glyph (x + dx1 + g) y dx2 [u2] fs] =
      .ok [[[([u1], true), ([u2], false)]]] := by
  obtain ⟨w1, w2, w3, w4, w5, w6, w7, w8⟩ :=
    glyphWord_pair x y dx1 fs u1 g dx2 u2 0 1 hd1 hg1 hg2
  have hpools := buildWords_pair x y dx1 fs u1 (x + dx1 + g) dx2 u2 hfs hx hd1 hy hy2 hd2 hw
    (by linarith) hu1.1 hu1.2 hu2.1 hu2.2
  have hp := TextPool.onlyLine_pair 0 (glyphWord x y dx1 u1 fs 0)
    (glyphWord (x + dx1 + g) y dx2 u2 fs 1) w1 w2 w3 w4
  obtain ⟨pool1, hb⟩ := blocksOfPool_pair 0 _ (glyphWord x y dx1 u1 fs 0)
    (glyphWord (x + dx1 + g) y dx2 u2 fs 1) hp w1 w2 w3 w4 w5 w6 w7 w8 [] []
  unfold pageWordMarks
  rw [hpools]
  simp only [blocksOfPools, hb, blocksOfPool_empty, Except.map, List.nil_append, List.map_cons,
    List.map_nil]
  rw [lines_keep_marks]
  simp only [List.map_cons, List.map_nil, TextLine.coalesce, newTextLine]
  rw [words_keep_marks, coalesceWords_pair x y dx1 fs u1 g dx2 u2 0 1 hfs hg1]

/-- Witness for C28: A at `0..6` and B at `12..18` on the base line 0 at
font size 10, gap 6. -/
theorem narrow_gap_makes_two_words_one_line_witness :
    ((4 : ℚ) / 10 * 10 ≤ 6 ∧ (6 : ℚ) < 1 * 10) ∧
      pageWordMarks [glyph 0 0 6 [65] 10, glyph (0 + 6 + 6) 0 6 [66] 10] =
        .ok [[[([65], true), ([66], false)]]] :=
  ⟨by norm_num, narrow_gap_makes_two_words_one_line 0 0 6 6 6 10 65 66 (by norm_num)
    (by norm_num) (by norm_num) (by norm_num) (by norm_num) (by norm_num) (by norm_num)
    (by decide) (by decide) (by norm_num) (by norm_num)⟩

end PdfTextLib
